import Mathlib

/-!
# The malloc challenge allocator

A shallow embedding of `malloc.c` (single free list) and `malloc_update.c`
(two free lists split by size class) and the properties proved of them.

Memory is a map from byte addresses to 64-bit words.  A header of type
`my_metadata_t` at address `p` keeps `size` in the word at `p`, `next` in the
word at `p + 8` and `prev` in the word at `p + 16` (and, in `malloc_update.c`,
`large` in the word at `p + 24`).  The null pointer is `0`.  `size_t`
arithmetic wraps modulo `2 ^ 64`; pointer arithmetic is done in `Nat`.

Loops over a linked list take a `fuel` argument (the largest number of
iterations), the recursion of `my_malloc` takes a `depth` argument (the largest
number of activations); a run that uses up either stops with `Err.fuel`.  In
the lemmas the fuel is the variable `f`.

The page source `mmap_from_system` and the addresses of the static sentinel
nodes are parameters (`Env`).  The sentinel of a free list is treated like any
other free block, of size 0.
-/

namespace Malloc

/-! ## Machine model -/

/-- Ways in which a run of the embedded code stops without a result. -/
inductive Err where
  /-- A loop or the recursion used up its budget. -/
  | fuel
  /-- An `assert` of the source failed. -/
  | assertion
  /-- The caller broke the contract of `my_malloc` or `my_free`. -/
  | contract
deriving DecidableEq, Repr

/-- One more than the largest value of `size_t`. -/
def SIZE_MOD : Nat := 2 ^ 64

/-- Store of a word: the memory `m` with the word at `a` replaced by `v`. -/
def store (m : Nat → Nat) (a v : Nat) : Nat → Nat :=
  fun x => if x = a then v else m x

/-- The external page source and the address of the static `my_heap.dummy`.
`mmap_from_system k` is the address returned by the `k`-th call (counted from
`0`) of the C function `mmap_from_system`. -/
structure Env where
  dummy : Nat
  mmap_from_system : Nat → Nat

/-- State of the single-list allocator of `malloc.c`: the memory, the global
`my_heap.free_head` and the number of calls of `mmap_from_system` so far. -/
structure Heap where
  mem : Nat → Nat
  free_head : Nat
  mmap_calls : Nat

/-- The value of `sizeof(my_metadata_t)` in `malloc.c`: three 8-byte fields. -/
def sizeof_my_metadata_t : Nat := 24

/-! ## `malloc.c` -/

/-- Model of `my_add_to_free_list` (malloc.c lines 48-56). -/
def my_add_to_free_list (h : Heap) (metadata : Nat) : Except Err Heap :=
  if h.mem (metadata + 8) ≠ 0 ∨ h.mem (metadata + 16) ≠ 0 then
    .error .assertion
  else
    let m1 := store h.mem (metadata + 8) h.free_head
    let m2 := if h.free_head ≠ 0 then store m1 (h.free_head + 16) metadata else m1
    let m3 := store m2 (metadata + 16) 0
    .ok { h with mem := m3, free_head := metadata }

/-- Model of `my_remove_from_free_list` (malloc.c lines 58-68). -/
def my_remove_from_free_list (h : Heap) (metadata : Nat) : Heap :=
  let h1 : Heap :=
    if h.mem (metadata + 16) ≠ 0 then
      { h with mem := store h.mem (h.mem (metadata + 16) + 8) (h.mem (metadata + 8)) }
    else
      { h with free_head := h.mem (metadata + 8) }
  let h2 : Heap :=
    if h1.mem (metadata + 8) ≠ 0 then
      { h1 with mem := store h1.mem (h1.mem (metadata + 8) + 16) (h1.mem (metadata + 16)) }
    else h1
  { h2 with mem := store (store h2.mem (metadata + 16) 0) (metadata + 8) 0 }

/-- The `while (free_head)` loop of `my_coalesce` (malloc.c lines 77-83): is
`next_metadata` one of the nodes reached from `free_head`? -/
def coalesce_scan : Nat → (Nat → Nat) → Nat → Nat → Except Err Bool
  | 0, _, _, _ => .error .fuel
  | fuel + 1, mem, free_head, next_metadata =>
    if free_head = 0 then .ok false
    else if free_head = next_metadata then .ok true
    else coalesce_scan fuel mem (mem (free_head + 8)) next_metadata

/-- Model of `my_coalesce` (malloc.c lines 70-95). -/
def my_coalesce (fuel : Nat) (h : Heap) (metadata : Nat) : Except Err Heap :=
  let next_metadata := metadata + h.mem metadata + sizeof_my_metadata_t
  match coalesce_scan fuel h.mem h.free_head next_metadata with
  | .error e => .error e
  | .ok found =>
    let h1 : Heap :=
      if found then
        let r := my_remove_from_free_list h next_metadata
        let merged :=
          (r.mem metadata + (r.mem next_metadata + sizeof_my_metadata_t) % SIZE_MOD) % SIZE_MOD
        { r with mem := store r.mem metadata merged }
      else h
    let h2 : Heap := { h1 with mem := store (store h1.mem (metadata + 8) 0) (metadata + 16) 0 }
    my_add_to_free_list h2 metadata

/-- Model of `my_initialize` (malloc.c lines 102-107); `dummy` is the address
of `my_heap.dummy`. -/
def my_initialize (dummy : Nat) (h : Heap) : Heap :=
  { h with
    free_head := dummy
    mem := store (store (store h.mem dummy 0) (dummy + 8) 0) (dummy + 16) 0 }

/-- The best-fit `while (metadata)` loop of `my_malloc` (malloc.c lines
119-124, malloc_update.c lines 151-156); the result is the final `best_fit`. -/
def best_fit_scan : Nat → (Nat → Nat) → Nat → Nat → Nat → Except Err Nat
  | 0, _, _, _, _ => .error .fuel
  | fuel + 1, mem, size, metadata, best_fit =>
    if metadata = 0 then .ok best_fit
    else
      let best_fit1 :=
        if mem metadata ≥ size ∧ (best_fit = 0 ∨ mem metadata < mem best_fit) then metadata
        else best_fit
      best_fit_scan fuel mem size (mem (metadata + 8)) best_fit1

/-- The page-acquisition branch of `my_malloc` up to the call of `my_coalesce`
(malloc.c lines 139-146). -/
def my_malloc_grow (env : Env) (fuel : Nat) (h : Heap) : Except Err Heap :=
  let buffer_size := 4096
  let metadata := env.mmap_from_system h.mmap_calls
  let m1 := store h.mem metadata ((buffer_size + SIZE_MOD - sizeof_my_metadata_t) % SIZE_MOD)
  let m2 := store (store m1 (metadata + 8) 0) (metadata + 16) 0
  my_coalesce fuel { h with mem := m2, mmap_calls := h.mmap_calls + 1 } metadata

/-- The part of `my_malloc` after a block was found (malloc.c lines 156-183):
unlink `metadata`, split it when the rest is larger than a header, return the
payload address. -/
def my_malloc_take (fuel : Nat) (h : Heap) (metadata size : Nat) : Except Err (Nat × Heap) :=
  let ptr := metadata + sizeof_my_metadata_t
  let remaining_size := (h.mem metadata + SIZE_MOD - size) % SIZE_MOD
  let h1 := my_remove_from_free_list h metadata
  if remaining_size > sizeof_my_metadata_t then
    let m2 := store h1.mem metadata size
    let new_metadata := ptr + size
    let m3 := store m2 new_metadata
      ((remaining_size + SIZE_MOD - sizeof_my_metadata_t) % SIZE_MOD)
    let m4 := store (store m3 (new_metadata + 8) 0) (new_metadata + 16) 0
    match my_coalesce fuel { h1 with mem := m4 } new_metadata with
    | .error e => .error e
    | .ok h5 => .ok (ptr, h5)
  else
    .ok (ptr, h1)

/-- Model of `my_malloc` (malloc.c lines 113-184). -/
def my_malloc (env : Env) : Nat → Nat → Heap → Nat → Except Err (Nat × Heap)
  | 0, _, _, _ => .error .fuel
  | depth + 1, fuel, h, size =>
    match best_fit_scan fuel h.mem size h.free_head 0 with
    | .error e => .error e
    | .ok metadata =>
      if metadata = 0 then
        match my_malloc_grow env fuel h with
        | .error e => .error e
        | .ok h2 => my_malloc env depth fuel h2 size
      else
        my_malloc_take fuel h metadata size

/-- Model of `my_free` (malloc.c lines 188-200). -/
def my_free (fuel : Nat) (h : Heap) (ptr : Nat) : Except Err Heap :=
  let metadata := ptr - sizeof_my_metadata_t
  my_coalesce fuel
    { h with mem := store (store h.mem (metadata + 8) 0) (metadata + 16) 0 } metadata

/-! ## Shape of a well-formed heap -/

/-- The `next` links lead from `p` through exactly the nodes `L`, in order,
and then to `q`.  With `q = 0` this says that `L` is the list headed by `p`. -/
def Seg (mem : Nat → Nat) : Nat → List Nat → Nat → Prop
  | p, [], q => p = q
  | p, x :: xs, q => p = x ∧ x ≠ 0 ∧ Seg mem (mem (x + 8)) xs q

instance Seg.decide (mem : Nat → Nat) : (p : Nat) → (L : List Nat) → (q : Nat) →
    Decidable (Seg mem p L q)
  | p, [], q => inferInstanceAs (Decidable (p = q))
  | p, x :: xs, q =>
    have := Seg.decide mem (mem (x + 8)) xs q
    inferInstanceAs (Decidable (p = x ∧ x ≠ 0 ∧ Seg mem (mem (x + 8)) xs q))

/-- The `prev` link of the first node of `L` is `q` and the `prev` link of
every later node is the node before it. -/
def PrevSeg (mem : Nat → Nat) : Nat → List Nat → Prop
  | _, [] => True
  | q, x :: xs => mem (x + 16) = q ∧ PrevSeg mem x xs

instance PrevSeg.decide (mem : Nat → Nat) : (q : Nat) → (L : List Nat) →
    Decidable (PrevSeg mem q L)
  | _, [] => inferInstanceAs (Decidable True)
  | q, x :: xs =>
    have := PrevSeg.decide mem x xs
    inferInstanceAs (Decidable (mem (x + 16) = q ∧ PrevSeg mem x xs))

/-- The extents `[a, a + 24 + size a)` and `[b, b + 24 + size b)` of the blocks
with headers at `a` and `b` do not overlap. -/
def Apart (mem : Nat → Nat) (a b : Nat) : Prop :=
  a + 24 + mem a ≤ b ∨ b + 24 + mem b ≤ a

instance Apart.decide (mem : Nat → Nat) (a b : Nat) : Decidable (Apart mem a b) :=
  inferInstanceAs (Decidable (_ ∨ _))

/-- Well-formed heap.  `frees` is the free list in list order, it is doubly
linked; `others` are the headers of the blocks that are not in the free list
(allocated or detached).  The extents of all these blocks are pairwise
disjoint and lie inside the address space. -/
structure WF (h : Heap) (frees others : List Nat) : Prop where
  chain : Seg h.mem h.free_head frees 0
  prev : PrevSeg h.mem 0 frees
  nodup : (frees ++ others).Nodup
  apart : ∀ a ∈ frees ++ others, ∀ b ∈ frees ++ others, a ≠ b → Apart h.mem a b
  bound : ∀ a ∈ frees ++ others, a + 24 + h.mem a ≤ SIZE_MOD

instance WF.decide (h : Heap) (frees others : List Nat) : Decidable (WF h frees others) :=
  decidable_of_iff
    (Seg h.mem h.free_head frees 0 ∧ PrevSeg h.mem 0 frees ∧ (frees ++ others).Nodup ∧
      (∀ a ∈ frees ++ others, ∀ b ∈ frees ++ others, a ≠ b → Apart h.mem a b) ∧
      (∀ a ∈ frees ++ others, a + 24 + h.mem a ≤ SIZE_MOD))
    ⟨fun ⟨a, b, c, d, e⟩ => ⟨a, b, c, d, e⟩, fun ⟨a, b, c, d, e⟩ => ⟨a, b, c, d, e⟩⟩

/-- The list-level meaning of the best-fit loop: run over the nodes `L` with
the running `best_fit`. -/
def bestOf (mem : Nat → Nat) (size : Nat) : List Nat → Nat → Nat
  | [], best_fit => best_fit
  | x :: xs, best_fit =>
    bestOf mem size xs
      (if mem x ≥ size ∧ (best_fit = 0 ∨ mem x < mem best_fit) then x else best_fit)

/-- The memory after `my_remove_from_free_list` unlinked the node `b` whose
links were `pv` (prev) and `nx` (next). -/
def unlink_mem (mem : Nat → Nat) (b pv nx : Nat) : Nat → Nat :=
  fun y =>
    if y = b + 8 then 0
    else if y = b + 16 then 0
    else if nx ≠ 0 ∧ y = nx + 16 then pv
    else if pv ≠ 0 ∧ y = pv + 8 then nx
    else mem y

/-- The headers at `a` and `b` (24 bytes each) do not overlap. -/
def HSep (a b : Nat) : Prop := a + 24 ≤ b ∨ b + 24 ≤ a

/-- The memory after `my_malloc` shrank the block `b` to `size` and wrote the
header of the rest behind it (malloc.c lines 167-178). -/
def split_mem (m : Nat → Nat) (b size : Nat) : Nat → Nat :=
  store (store (store (store m b size) (b + 24 + size) (m b - size - 24))
    (b + 24 + size + 8) 0) (b + 24 + size + 16) 0

/-- The page `[pg, pg + 4096)` is fresh for the heap: it is not null, lies in
the address space and overlaps the extent of no block. -/
def FreshPage (h : Heap) (blocks : List Nat) (pg : Nat) : Prop :=
  pg ≠ 0 ∧ pg + 4096 ≤ SIZE_MOD ∧ ∀ a ∈ blocks, a + 24 + h.mem a ≤ pg ∨ pg + 4096 ≤ a

instance FreshPage.decide (h : Heap) (blocks : List Nat) (pg : Nat) :
    Decidable (FreshPage h blocks pg) :=
  inferInstanceAs (Decidable (_ ∧ _ ∧ _))

/-- The memory after `my_malloc` wrote the header of a new page at `pg`
(malloc.c lines 141-143). -/
def page_mem (m : Nat → Nat) (pg : Nat) : Nat → Nat :=
  store (store (store m pg 4072) (pg + 8) 0) (pg + 16) 0

/-- The address `x` lies in the extent of one of the blocks `L`. -/
def Covers (m : Nat → Nat) (L : List Nat) (x : Nat) : Prop :=
  ∃ a ∈ L, a ≤ x ∧ x < a + 24 + m a

/-! ## Runs of the allocator -/

/-- A request of the caller: `my_malloc(size)`, `my_free(ptr)`, or a store of
the word `val` at `addr` inside the payload of a live allocation. -/
inductive Op where
  | malloc (size : Nat)
  | free (ptr : Nat)
  | write (addr val : Nat)

/-- The heap together with the live allocations, each with the address that
`my_malloc` returned and the size that was requested. -/
structure State where
  heap : Heap
  live : List (Nat × Nat)

/-- One request, with the caller's contract checked: sizes are multiples of 8
in `[8, 4000]`, only live pointers are freed, stores stay inside a live
payload. -/
def step (env : Env) (fuel : Nat) (st : State) : Op → Except Err State
  | .malloc size =>
    if 8 ≤ size ∧ size ≤ 4000 ∧ size % 8 = 0 then
      match my_malloc env fuel fuel st.heap size with
      | .error e => .error e
      | .ok (p, h1) => .ok { heap := h1, live := (p, size) :: st.live }
    else .error .contract
  | .free ptr =>
    match st.live.find? (fun pl => pl.1 = ptr) with
    | none => .error .contract
    | some pl =>
      match my_free fuel st.heap ptr with
      | .error e => .error e
      | .ok h1 => .ok { heap := h1, live := st.live.erase pl }
  | .write addr val =>
    if st.live.any (fun pl => pl.1 ≤ addr ∧ addr + 8 ≤ pl.1 + pl.2) then
      .ok { st with heap := { st.heap with mem := store st.heap.mem addr val } }
    else .error .contract

/-- A sequence of requests. -/
def run (env : Env) (fuel : Nat) : State → List Op → Except Err State
  | st, [] => .ok st
  | st, op :: ops =>
    match step env fuel st op with
    | .error e => .error e
    | .ok st1 => run env fuel st1 ops

/-- The state right after `my_initialize`, called on any earlier heap `h0`. -/
def init_state (env : Env) (h0 : Heap) : State :=
  { heap := ( my_initialize env.dummy h0), live := [] }

/-- The address `x` belongs to the allocator: it lies in the static
`my_heap.dummy` or in one of the first `k` pages of the page source. -/
def Owned (env : Env) (k : Nat) (x : Nat) : Prop :=
  (env.dummy ≤ x ∧ x < env.dummy + 24) ∨
  ∃ i, i < k ∧ env.mmap_from_system i ≤ x ∧ x < env.mmap_from_system i + 4096

/-- The first `n` pages of the page source are fresh: none is null, each lies
in the address space, and none overlaps the static `my_heap.dummy` or an
earlier page. -/
def FreshSrc (env : Env) (n : Nat) : Prop :=
  env.dummy ≠ 0 ∧ env.dummy + 24 ≤ SIZE_MOD ∧
  ∀ i, i < n → env.mmap_from_system i ≠ 0 ∧ env.mmap_from_system i + 4096 ≤ SIZE_MOD ∧
    (env.mmap_from_system i + 4096 ≤ env.dummy ∨ env.dummy + 24 ≤ env.mmap_from_system i) ∧
    ∀ j, j < i → (env.mmap_from_system j + 4096 ≤ env.mmap_from_system i ∨
      env.mmap_from_system i + 4096 ≤ env.mmap_from_system j)

/-- The invariant of a run: the heap is well formed with free list `frees` and
the headers of the live allocations as the other blocks, every live allocation
fits its block, and every block lies in memory that belongs to the allocator. -/
structure Inv (env : Env) (st : State) (frees : List Nat) : Prop where
  wf : WF st.heap frees (st.live.map (fun pl => pl.1 - 24))
  live_ok : ∀ pl ∈ st.live, 24 < pl.1 ∧ pl.2 ≤ st.heap.mem (pl.1 - 24)
  owned : ∀ x, Covers st.heap.mem (frees ++ st.live.map (fun pl => pl.1 - 24)) x →
    Owned env st.heap.mmap_calls x

/-- Every block of `L` has a size that is a multiple of 8. -/
def Mult8 (mem : Nat → Nat) (L : List Nat) : Prop :=
  ∀ a ∈ L, mem a % 8 = 0

/-- The bytes taken up by the blocks `L`: for each block its header and its
payload, `sizeof(my_metadata_t) + size`. -/
def bytes (mem : Nat → Nat) (L : List Nat) : Nat :=
  (L.map (fun a => mem a + 24)).sum

/-- The static `my_heap` holds the word `free_head` right before `dummy`
(malloc.c lines 34-37), so no page of the page source ends at the address of
`my_heap.dummy`: the last word of such a page would be `my_heap.free_head`. -/
def DummyApart (env : Env) (n : Nat) : Prop :=
  ∀ i, i < n → env.mmap_from_system i + 4096 ≠ env.dummy

/-- The accounting invariant of a run that started with `c0` pages acquired:
`dummy` is the last node of the free list and has size 0, no block ends where
`dummy` begins, and the blocks together (free, allocated and `dummy`) take up
4096 bytes for each page acquired since, plus the header of `dummy`. -/
structure Conserved (dummy c0 : Nat) (h : Heap) (frees others : List Nat) : Prop where
  last : ∃ L, frees = L ++ [dummy]
  dummy0 : h.mem dummy = 0
  nosucc : ∀ a ∈ frees ++ others, a + h.mem a + 24 ≠ dummy
  sum : bytes h.mem (frees ++ others) + 4096 * c0 = 4096 * h.mmap_calls + 24

/-- The doubly-linked free-list predicate of the single-list variant: the
nodes reached from `free_head` by `next` are the finite duplicate-free list
`L`, the `prev` of the head is null, and whenever `a.next = b` is not null,
`b.prev = a`. -/
def DLL (h : Heap) (L : List Nat) : Prop :=
  Seg h.mem h.free_head L 0 ∧ L.Nodup ∧
  (h.free_head ≠ 0 → h.mem (h.free_head + 16) = 0) ∧
  ∀ a ∈ L, h.mem (a + 8) ≠ 0 → h.mem (h.mem (a + 8) + 16) = a

/-- The nodes of the list headed by `p`, each with its `size` field, read off
the memory by following at most `fuel` links. -/
def free_blocks (mem : Nat → Nat) : Nat → Nat → List (Nat × Nat)
  | 0, _ => []
  | fuel + 1, p => if p = 0 then [] else (p, mem p) :: free_blocks mem fuel (mem (p + 8))

/-- What a test can see of the result of a run: the free list with the sizes
of its blocks, the live allocations (address, requested size) and the number
of pages acquired; `none` when the run did not succeed. -/
def observe (fuel : Nat) : Except Err State → Option (List (Nat × Nat) × List (Nat × Nat) × Nat)
  | .ok st => some (free_blocks st.heap.mem fuel st.heap.free_head, st.live, st.heap.mmap_calls)
  | .error _ => none

/-- A heap before `my_initialize` in which every word is zero. -/
def zero_heap : Heap := { mem := fun _ => 0, free_head := 0, mmap_calls := 0 }

/-- A concrete environment: `my_heap.dummy` at address 64 and a page source
that hands out the consecutive pages 4096, 8192, ... -/
def env0 : Env := { dummy := 64, mmap_from_system := fun k => 4096 * (k + 1) }

/-- The heap at the end of a run (the all-zero heap when the run failed). -/
def heap_of : Except Err State → Heap
  | .ok st => st.heap
  | .error _ => zero_heap

/-- A second concrete environment: `my_heap.dummy` at address 64 and a page
source that hands out pages in descending address order, 65536, 61440, ...,
so that each page ends exactly where the page before it begins. -/
def env1 : Env := { dummy := 64, mmap_from_system := fun k => 4096 * (16 - k) }

/-- The heap that a call returned (the all-zero heap when the call failed). -/
def ok_heap : Except Err Heap → Heap
  | .ok h => h
  | .error _ => zero_heap

/-- Some block of the heap, live or free, has room for `t` bytes. -/
def Fits (st : State) (frees : List Nat) (t : Nat) : Prop :=
  (∃ pl ∈ st.live, t ≤ st.heap.mem (pl.1 - 24)) ∨ (∃ a ∈ frees, t ≤ st.heap.mem a)

/-- The state at the end of a run (the state after `my_initialize` on the
all-zero heap when the run failed). -/
def state_of : Except Err State → State
  | .ok st => st
  | .error _ => init_state env0 zero_heap

end Malloc

/-! ## `malloc_update.c`: two free lists split by size class

The header has a fourth field, `bool large`, kept in the word at `p + 24`
(`0` is `false`); `sizeof(my_metadata_t)` is 32. -/

namespace MallocUpdate

open Malloc (Err store SIZE_MOD coalesce_scan best_fit_scan Seg free_blocks)

/-- The external page source and the addresses of the static
`my_heap.dummy_large` and `my_heap.dummy_small`. -/
structure Env where
  dummy_large : Nat
  dummy_small : Nat
  mmap_from_system : Nat → Nat

/-- State of the allocator of `malloc_update.c`. -/
structure Heap where
  mem : Nat → Nat
  free_head_large : Nat
  free_head_small : Nat
  mmap_calls : Nat

/-- The value of `sizeof(my_metadata_t)` in `malloc_update.c`: three 8-byte
fields and a `bool`, padded to a multiple of 8. -/
def sizeof_my_metadata_t : Nat := 32

/-- Model of `my_add_to_free_list` (malloc_update.c lines 51-70). -/
def my_add_to_free_list (h : Heap) (metadata : Nat) : Except Err Heap :=
  if h.mem (metadata + 8) ≠ 0 ∨ h.mem (metadata + 16) ≠ 0 then
    .error .assertion
  else if h.mem (metadata + 24) ≠ 0 then
    let m1 := store h.mem (metadata + 8) h.free_head_large
    let m2 := if h.free_head_large ≠ 0 then store m1 (h.free_head_large + 16) metadata else m1
    let m3 := store m2 (metadata + 16) 0
    .ok { h with mem := m3, free_head_large := metadata }
  else
    let m1 := store h.mem (metadata + 8) h.free_head_small
    let m2 := if h.free_head_small ≠ 0 then store m1 (h.free_head_small + 16) metadata else m1
    let m3 := store m2 (metadata + 16) 0
    .ok { h with mem := m3, free_head_small := metadata }

/-- Model of `my_remove_from_free_list` (malloc_update.c lines 72-86). -/
def my_remove_from_free_list (h : Heap) (metadata : Nat) : Heap :=
  let h1 : Heap :=
    if h.mem (metadata + 16) ≠ 0 then
      { h with mem := store h.mem (h.mem (metadata + 16) + 8) (h.mem (metadata + 8)) }
    else if h.mem (metadata + 24) ≠ 0 then
      { h with free_head_large := h.mem (metadata + 8) }
    else
      { h with free_head_small := h.mem (metadata + 8) }
  let h2 : Heap :=
    if h1.mem (metadata + 8) ≠ 0 then
      { h1 with mem := store h1.mem (h1.mem (metadata + 8) + 16) (h1.mem (metadata + 16)) }
    else h1
  { h2 with mem := store (store h2.mem (metadata + 16) 0) (metadata + 8) 0 }

/-- Model of `my_coalesce` (malloc_update.c lines 88-116). -/
def my_coalesce (fuel : Nat) (h : Heap) (metadata : Nat) : Except Err Heap :=
  let next_metadata := metadata + h.mem metadata + sizeof_my_metadata_t
  let free_head := if h.mem (metadata + 24) ≠ 0 then h.free_head_large else h.free_head_small
  match coalesce_scan fuel h.mem free_head next_metadata with
  | .error e => .error e
  | .ok found =>
    let h1 : Heap :=
      if found then
        let r := my_remove_from_free_list h next_metadata
        let merged :=
          (r.mem metadata + (r.mem next_metadata + sizeof_my_metadata_t) % SIZE_MOD) % SIZE_MOD
        { r with mem := store r.mem metadata merged }
      else h
    let h2 : Heap := { h1 with mem := store (store h1.mem (metadata + 8) 0) (metadata + 16) 0 }
    my_add_to_free_list h2 metadata

/-- Model of `my_initialize` (malloc_update.c lines 123-134). -/
def my_initialize (env : Env) (h : Heap) : Heap :=
  let m1 := store (store h.mem env.dummy_large 0) (env.dummy_large + 8) 0
  let m2 := store (store m1 env.dummy_small 0) (env.dummy_small + 8) 0
  let m3 := store (store m2 (env.dummy_large + 16) 0) (env.dummy_small + 16) 0
  let m4 := store (store m3 (env.dummy_large + 24) 1) (env.dummy_small + 24) 0
  { h with
    free_head_large := env.dummy_large
    free_head_small := env.dummy_small
    mem := m4 }

/-- The list that `my_malloc` searches for a request of `size` bytes
(malloc_update.c lines 142-146). -/
def list_for (h : Heap) (size : Nat) : Nat :=
  if size > 1000 then h.free_head_large else h.free_head_small

/-- The page-acquisition branch of `my_malloc` up to the call of `my_coalesce`
(malloc_update.c lines 171-179). -/
def my_malloc_grow (env : Env) (fuel : Nat) (h : Heap) : Except Err Heap :=
  let buffer_size := 4096
  let metadata := env.mmap_from_system h.mmap_calls
  let m1 := store h.mem metadata ((buffer_size + SIZE_MOD - sizeof_my_metadata_t) % SIZE_MOD)
  let m2 := store (store m1 (metadata + 8) 0) (metadata + 16) 0
  let m3 := store m2 (metadata + 24) (if m2 metadata > 1000 then 1 else 0)
  my_coalesce fuel { h with mem := m3, mmap_calls := h.mmap_calls + 1 } metadata

/-- The part of `my_malloc` after a block was found (malloc_update.c lines
189-217). -/
def my_malloc_take (fuel : Nat) (h : Heap) (metadata size : Nat) : Except Err (Nat × Heap) :=
  let ptr := metadata + sizeof_my_metadata_t
  let remaining_size := (h.mem metadata + SIZE_MOD - size) % SIZE_MOD
  let h1 := my_remove_from_free_list h metadata
  if remaining_size > sizeof_my_metadata_t then
    let m2 := store h1.mem metadata size
    let new_metadata := ptr + size
    let m3 := store m2 new_metadata
      ((remaining_size + SIZE_MOD - sizeof_my_metadata_t) % SIZE_MOD)
    let m4 := store (store m3 (new_metadata + 8) 0) (new_metadata + 16) 0
    let m5 := store m4 (new_metadata + 24) (if m4 new_metadata > 1000 then 1 else 0)
    match my_coalesce fuel { h1 with mem := m5 } new_metadata with
    | .error e => .error e
    | .ok h6 => .ok (ptr, h6)
  else
    .ok (ptr, h1)

/-- Model of `my_malloc` (malloc_update.c lines 140-218). -/
def my_malloc (env : Env) : Nat → Nat → Heap → Nat → Except Err (Nat × Heap)
  | 0, _, _, _ => .error .fuel
  | depth + 1, fuel, h, size =>
    match best_fit_scan fuel h.mem size (list_for h size) 0 with
    | .error e => .error e
    | .ok metadata =>
      if metadata = 0 then
        match my_malloc_grow env fuel h with
        | .error e => .error e
        | .ok h2 => my_malloc env depth fuel h2 size
      else
        my_malloc_take fuel h metadata size

/-- Model of `my_free` (malloc_update.c lines 222-234). -/
def my_free (fuel : Nat) (h : Heap) (ptr : Nat) : Except Err Heap :=
  let metadata := ptr - sizeof_my_metadata_t
  my_coalesce fuel
    { h with mem := store (store h.mem (metadata + 8) 0) (metadata + 16) 0 } metadata

/-- A heap before `my_initialize` in which every word is zero. -/
def zero_heap : Heap :=
  { mem := fun _ => 0, free_head_large := 0, free_head_small := 0, mmap_calls := 0 }

/-- A concrete environment: `my_heap` at address 64, so `dummy_large` at 80 and
`dummy_small` at 112, and a page source that hands out the consecutive pages
4096, 8192, ... -/
def env0 : Env :=
  { dummy_large := 80, dummy_small := 112, mmap_from_system := fun k => 4096 * (k + 1) }

/-- Node `b` is reached from `p` by following `next` links over nodes that are
not null. -/
inductive Reach (mem : Nat → Nat) : Nat → Nat → Prop where
  | here (p : Nat) : p ≠ 0 → Reach mem p p
  | next (p b : Nat) : p ≠ 0 → Reach mem (mem (p + 8)) b → Reach mem p b

/-- Heap `h1` comes from `h` by a number of failed searches for `size`, each
followed by the registration of a new page. -/
inductive GrowsTo (env : Env) (fuel size : Nat) : Heap → Heap → Prop where
  | refl (h : Heap) : GrowsTo env fuel size h h
  | step (h h1 h2 : Heap) :
    best_fit_scan fuel h.mem size (list_for h size) 0 = .ok 0 →
    my_malloc_grow env fuel h = .ok h1 → GrowsTo env fuel size h1 h2 →
    GrowsTo env fuel size h h2

/-- The pages `4096 * k, ..., 4096 * 1` that the page source of `env0` handed
out in its first `k` calls, the latest first. -/
def pages_list : Nat → List Nat
  | 0 => []
  | k + 1 => 4096 * (k + 1) :: pages_list k

/-- State of the heap of `env0` after `k` pages were registered and nothing
else happened: the small list is the sentinel alone, the large list holds the
`k` pages and the sentinel. -/
def OnlyPages (h : Heap) (k : Nat) : Prop :=
  h.mmap_calls = k ∧ h.free_head_small = 112 ∧ h.mem 112 = 0 ∧ h.mem 120 = 0 ∧
  Seg h.mem h.free_head_large (pages_list k ++ [80]) 0

/-- The address that `my_malloc` returned, `none` when it did not return. -/
def result_ptr : Except Err (Nat × Heap) → Option Nat
  | .ok (p, _) => some p
  | .error _ => none

/-- The heap that `my_coalesce`, `my_free` or a page registration left, the
all-zero heap when it did not return. -/
def heap_or_zero : Except Err Heap → Heap
  | .ok h => h
  | .error _ => zero_heap

/-- The heap that `my_malloc` left, the all-zero heap when it did not
return. -/
def result_heap : Except Err (Nat × Heap) → Heap
  | .ok (_, h) => h
  | .error _ => zero_heap

/-! ### Shape of a well-formed heap with two lists -/

open Malloc (PrevSeg Op)

/-- The `large` field of the header at `a`, read as a Boolean. -/
def is_large (mem : Nat → Nat) (a : Nat) : Bool := decide (mem (a + 24) ≠ 0)

/-- The head of the free list of the size class `t` (`true` is large). -/
def list_head (h : Heap) (t : Bool) : Nat :=
  if t then h.free_head_large else h.free_head_small

/-- The extents `[a, a + 32 + size a)` and `[b, b + 32 + size b)` of the blocks
with headers at `a` and `b` do not overlap. -/
def Apart (mem : Nat → Nat) (a b : Nat) : Prop :=
  a + 32 + mem a ≤ b ∨ b + 32 + mem b ≤ a

/-- The headers at `a` and `b` (32 bytes each) do not overlap. -/
def HSep (a b : Nat) : Prop := a + 32 ≤ b ∨ b + 32 ≤ a

/-- Well-formed heap, seen from the size class `t`.  `mine` is the free list
of class `t` in list order and `theirs` the free list of the other class; both
are doubly linked, every node of a list carries the tag of that list, and
`others` are the headers of the blocks in neither list (allocated or
detached).  The extents of all these blocks are pairwise disjoint and lie
inside the address space. -/
structure WF (h : Heap) (t : Bool) (mine theirs others : List Nat) : Prop where
  chain : Seg h.mem (list_head h t) mine 0
  chain2 : Seg h.mem (list_head h (!t)) theirs 0
  prev : PrevSeg h.mem 0 mine
  prev2 : PrevSeg h.mem 0 theirs
  tag_mine : ∀ a ∈ mine, is_large h.mem a = t
  tag_theirs : ∀ a ∈ theirs, is_large h.mem a = !t
  nodup : ((mine ++ theirs) ++ others).Nodup
  apart : ∀ a ∈ (mine ++ theirs) ++ others, ∀ b ∈ (mine ++ theirs) ++ others, a ≠ b →
    Apart h.mem a b
  bound : ∀ a ∈ (mine ++ theirs) ++ others, a + 32 + h.mem a ≤ SIZE_MOD

/-- The memory after `my_malloc` shrank the block `b` to `size` and wrote the
header of the rest behind it (malloc_update.c lines 200-212). -/
def split_mem (m : Nat → Nat) (b size : Nat) : Nat → Nat :=
  store (store (store (store (store m b size) (b + 32 + size) (m b - size - 32))
    (b + 32 + size + 8) 0) (b + 32 + size + 16) 0) (b + 32 + size + 24)
    (if m b - size - 32 > 1000 then 1 else 0)

/-- The heap that `my_malloc` hands to `my_coalesce` after it unlinked the
block `b` and split it (malloc_update.c lines 192-212). -/
def split_heap (h : Heap) (b size : Nat) : Heap :=
  ⟨split_mem (my_remove_from_free_list h b).mem b size,
    (my_remove_from_free_list h b).free_head_large,
    (my_remove_from_free_list h b).free_head_small,
    (my_remove_from_free_list h b).mmap_calls⟩

/-- The memory after `my_malloc` wrote the header of a new page at `pg`
(malloc_update.c lines 173-176). -/
def page_mem (m : Nat → Nat) (pg : Nat) : Nat → Nat :=
  store (store (store (store m pg 4064) (pg + 8) 0) (pg + 16) 0) (pg + 24) 1

/-- The page `[pg, pg + 4096)` is fresh for the heap: it is not null, lies in
the address space and overlaps the extent of no block. -/
def FreshPage (h : Heap) (blocks : List Nat) (pg : Nat) : Prop :=
  pg ≠ 0 ∧ pg + 4096 ≤ SIZE_MOD ∧ ∀ a ∈ blocks, a + 32 + h.mem a ≤ pg ∨ pg + 4096 ≤ a

/-- The address `x` lies in the extent of one of the blocks `L`. -/
def Covers (m : Nat → Nat) (L : List Nat) (x : Nat) : Prop :=
  ∃ a ∈ L, a ≤ x ∧ x < a + 32 + m a

/-! ### Runs of the allocator -/

/-- The heap together with the live allocations, each with the address that
`my_malloc` returned and the size that was requested. -/
structure State where
  heap : Heap
  live : List (Nat × Nat)

/-- One request, with the caller's contract checked: sizes are multiples of 8
in `[8, 4000]`, only live pointers are freed, stores stay inside a live
payload. -/
def step (env : Env) (fuel : Nat) (st : State) : Op → Except Err State
  | .malloc size =>
    if 8 ≤ size ∧ size ≤ 4000 ∧ size % 8 = 0 then
      match my_malloc env fuel fuel st.heap size with
      | .error e => .error e
      | .ok (p, h1) => .ok { heap := h1, live := (p, size) :: st.live }
    else .error .contract
  | .free ptr =>
    match st.live.find? (fun pl => pl.1 = ptr) with
    | none => .error .contract
    | some pl =>
      match my_free fuel st.heap ptr with
      | .error e => .error e
      | .ok h1 => .ok { heap := h1, live := st.live.erase pl }
  | .write addr val =>
    if st.live.any (fun pl => pl.1 ≤ addr ∧ addr + 8 ≤ pl.1 + pl.2) then
      .ok { st with heap := { st.heap with mem := store st.heap.mem addr val } }
    else .error .contract

/-- A sequence of requests. -/
def run (env : Env) (fuel : Nat) : State → List Op → Except Err State
  | st, [] => .ok st
  | st, op :: ops =>
    match step env fuel st op with
    | .error e => .error e
    | .ok st1 => run env fuel st1 ops

/-- The state right after `my_initialize`, called on any earlier heap `h0`. -/
def init_state (env : Env) (h0 : Heap) : State :=
  { heap := ( my_initialize env h0), live := [] }

/-- The address `x` belongs to the allocator: it lies in the static
`my_heap.dummy_large` or `my_heap.dummy_small`, or in one of the first `k`
pages of the page source. -/
def Owned (env : Env) (k : Nat) (x : Nat) : Prop :=
  (env.dummy_large ≤ x ∧ x < env.dummy_large + 32) ∨
  (env.dummy_small ≤ x ∧ x < env.dummy_small + 32) ∨
  ∃ i, i < k ∧ env.mmap_from_system i ≤ x ∧ x < env.mmap_from_system i + 4096

/-- The first `n` pages of the page source are fresh: the two static
sentinels are not null and do not overlap, no page is null, each lies in the
address space, and none overlaps a sentinel or an earlier page. -/
def FreshSrc (env : Env) (n : Nat) : Prop :=
  env.dummy_large ≠ 0 ∧ env.dummy_small ≠ 0 ∧
  env.dummy_large + 32 ≤ SIZE_MOD ∧ env.dummy_small + 32 ≤ SIZE_MOD ∧
  (env.dummy_large + 32 ≤ env.dummy_small ∨ env.dummy_small + 32 ≤ env.dummy_large) ∧
  ∀ i, i < n → env.mmap_from_system i ≠ 0 ∧ env.mmap_from_system i + 4096 ≤ SIZE_MOD ∧
    (env.mmap_from_system i + 4096 ≤ env.dummy_large ∨
      env.dummy_large + 32 ≤ env.mmap_from_system i) ∧
    (env.mmap_from_system i + 4096 ≤ env.dummy_small ∨
      env.dummy_small + 32 ≤ env.mmap_from_system i) ∧
    ∀ j, j < i → (env.mmap_from_system j + 4096 ≤ env.mmap_from_system i ∨
      env.mmap_from_system i + 4096 ≤ env.mmap_from_system j)

/-- The invariant of a run: the heap is well formed with the large list
`larges`, the small list `smalls` and the headers of the live allocations as
the other blocks, every live allocation fits its block, and every block lies
in memory that belongs to the allocator. -/
structure Inv (env : Env) (st : State) (larges smalls : List Nat) : Prop where
  wf : WF st.heap true larges smalls (st.live.map (fun pl => pl.1 - 32))
  live_ok : ∀ pl ∈ st.live, 32 < pl.1 ∧ pl.2 ≤ st.heap.mem (pl.1 - 32)
  owned : ∀ x, Covers st.heap.mem ((larges ++ smalls) ++ st.live.map (fun pl => pl.1 - 32)) x →
    Owned env st.heap.mmap_calls x

/-- What a test can see of the result of a run: the large list and the small
list, each node with its size and its `large` field, the live allocations
(address, requested size) and the number of pages acquired; `none` when the
run did not succeed. -/
def observe (fuel : Nat) :
    Except Err State → Option (List (Nat × Nat × Nat) × List (Nat × Nat × Nat) ×
      List (Nat × Nat) × Nat)
  | .ok st => some
      ((free_blocks st.heap.mem fuel st.heap.free_head_large).map
        (fun p => (p.1, p.2, st.heap.mem (p.1 + 24))),
      (free_blocks st.heap.mem fuel st.heap.free_head_small).map
        (fun p => (p.1, p.2, st.heap.mem (p.1 + 24))),
      st.live, st.heap.mmap_calls)
  | .error _ => none

/-- The state at the end of a run (the state after `my_initialize` on the
all-zero heap when the run failed). -/
def state_of : Except Err State → State
  | .ok st => st
  | .error _ => init_state env0 zero_heap

end MallocUpdate

namespace Malloc

/-! ## Basic facts about memory and lists -/


@[simp] theorem store_same (m : Nat → Nat) (a v : Nat) : store m a v a = v := by
  simp [store]

theorem store_other (m : Nat → Nat) (a v x : Nat) (hx : x ≠ a) : store m a v x = m x := by
  simp [store, hx]

theorem Seg_congr {m1 m2 : Nat → Nat} : ∀ (L : List Nat) (p q : Nat),
    (∀ x ∈ L, m1 (x + 8) = m2 (x + 8)) → (Seg m1 p L q ↔ Seg m2 p L q)
  | [], _, _, _ => Iff.rfl
  | x :: xs, p, q, hm => by
    have hx : m1 (x + 8) = m2 (x + 8) := hm x (List.mem_cons_self _ _)
    have ih := Seg_congr xs (m2 (x + 8)) q (fun y hy => hm y (List.mem_cons_of_mem _ hy))
    simp only [Seg, hx, ih]

theorem PrevSeg_congr {m1 m2 : Nat → Nat} : ∀ (L : List Nat) (q : Nat),
    (∀ x ∈ L, m1 (x + 16) = m2 (x + 16)) → (PrevSeg m1 q L ↔ PrevSeg m2 q L)
  | [], _, _ => Iff.rfl
  | x :: xs, q, hm => by
    have hx : m1 (x + 16) = m2 (x + 16) := hm x (List.mem_cons_self _ _)
    have ih := PrevSeg_congr xs x (fun y hy => hm y (List.mem_cons_of_mem _ hy))
    simp only [PrevSeg, hx, ih]

theorem Seg_ne_zero {m : Nat → Nat} : ∀ (L : List Nat) (p q : Nat),
    Seg m p L q → ∀ x ∈ L, x ≠ 0
  | [], _, _, _ => by simp
  | y :: ys, p, q, hs => by
    obtain ⟨_, hy, hrest⟩ := hs
    intro x hx
    rcases List.mem_cons.mp hx with rfl | hx
    · exact hy
    · exact Seg_ne_zero ys _ q hrest x hx

theorem coalesce_scan_eq {m : Nat → Nat} (t : Nat) : ∀ (L : List Nat) (p f : Nat),
    Seg m p L 0 → L.length < f → coalesce_scan f m p t = .ok (decide (t ∈ L))
  | [], p, f, hs, hf => by
    obtain ⟨k, rfl⟩ : ∃ k, f = k + 1 := ⟨f - 1, by simp at hf; omega⟩
    simp only [Seg] at hs
    simp [coalesce_scan, hs]
  | x :: xs, p, f, hs, hf => by
    obtain ⟨k, rfl⟩ : ∃ k, f = k + 1 := ⟨f - 1, by simp at hf; omega⟩
    obtain ⟨rfl, hx, hrest⟩ := hs
    have ih := coalesce_scan_eq t xs (m (p + 8)) k hrest (by simp at hf; omega)
    by_cases hpt : p = t
    · subst hpt
      simp [coalesce_scan, hx]
    · have hpt2 : ¬ t = p := fun e => hpt e.symm
      simp [coalesce_scan, hx, hpt, hpt2, ih]

theorem best_fit_scan_eq {m : Nat → Nat} (size : Nat) : ∀ (L : List Nat) (p best f : Nat),
    Seg m p L 0 → L.length < f →
    best_fit_scan f m size p best = .ok (bestOf m size L best)
  | [], p, best, f, hs, hf => by
    obtain ⟨k, rfl⟩ : ∃ k, f = k + 1 := ⟨f - 1, by simp at hf; omega⟩
    simp only [Seg] at hs
    simp [best_fit_scan, hs, bestOf]
  | x :: xs, p, best, f, hs, hf => by
    obtain ⟨k, rfl⟩ : ∃ k, f = k + 1 := ⟨f - 1, by simp at hf; omega⟩
    obtain ⟨rfl, hx, hrest⟩ := hs
    have ih := fun b => best_fit_scan_eq size xs (m (p + 8)) b k hrest (by simp at hf; omega)
    simp only [best_fit_scan, hx, if_false, bestOf]
    exact ih _

theorem Apart.hsep {m : Nat → Nat} {a b : Nat} (h : Apart m a b) : HSep a b := by
  unfold Apart at h; unfold HSep; omega

theorem Seg_next_cases {m : Nat → Nat} {b : Nat} {l2 : List Nat} : ∀ (l1 : List Nat) (p : Nat),
    Seg m p (l1 ++ b :: l2) 0 →
    b ≠ 0 ∧ Seg m (m (b + 8)) l2 0 ∧ (m (b + 8) = 0 ∨ m (b + 8) ∈ l2)
  | [], p, hs => by
    obtain ⟨_, hb, hrest⟩ := hs
    refine ⟨hb, hrest, ?_⟩
    cases l2 with
    | nil => left; exact hrest
    | cons c l2 => right; rw [hrest.1]; exact List.mem_cons_self _ _
  | x :: xs, p, hs => Seg_next_cases xs _ hs.2.2

theorem PrevSeg_prev_cases {m : Nat → Nat} {b : Nat} {l2 : List Nat} :
    ∀ (l1 : List Nat) (q : Nat), PrevSeg m q (l1 ++ b :: l2) →
    PrevSeg m b l2 ∧ ((l1 = [] ∧ m (b + 16) = q) ∨ (l1 ≠ [] ∧ m (b + 16) ∈ l1))
  | [], q, hs => ⟨hs.2, Or.inl ⟨rfl, hs.1⟩⟩
  | x :: xs, q, hs => by
    have ih := PrevSeg_prev_cases xs x hs.2
    refine ⟨ih.1, Or.inr ⟨by simp, ?_⟩⟩
    rcases ih.2 with ⟨rfl, h2⟩ | ⟨_, h2⟩
    · rw [h2]; exact List.mem_cons_self _ _
    · exact List.mem_cons_of_mem _ h2

theorem relink {m m' : Nat → Nat} {b : Nat} {l2 : List Nat} :
    ∀ (l1 : List Nat) (p q : Nat),
    Seg m p (l1 ++ b :: l2) 0 → PrevSeg m q (l1 ++ b :: l2) →
    (l1 ++ b :: l2).Nodup → q ∉ l1 ++ b :: l2 →
    (∀ y ∈ l1 ++ l2, m' (y + 8) = if y = m (b + 16) then m (b + 8) else m (y + 8)) →
    (∀ y ∈ l1 ++ l2, m' (y + 16) = if y = m (b + 8) then m (b + 16) else m (y + 16)) →
    Seg m' (if l1 = [] then m (b + 8) else p) (l1 ++ l2) 0 ∧ PrevSeg m' q (l1 ++ l2)
  | [], p, q, hs, hp, hnd, hq, hn, hv => by
    obtain ⟨rfl, hb, hrest⟩ := hs
    obtain ⟨hpv, hprest⟩ := hp
    simp only [List.nil_append] at *
    have hnd2 := List.nodup_cons.mp hnd
    constructor
    · simp only [if_true]
      refine (Seg_congr l2 _ _ ?_).mpr hrest
      intro y hy
      rw [hn y hy, hpv, if_neg]
      rintro rfl
      exact hq (List.mem_cons_of_mem _ hy)
    · cases l2 with
      | nil => trivial
      | cons c l2 =>
        obtain ⟨hc, hc0, hrest2⟩ := hrest
        obtain ⟨hcp, hprest2⟩ := hprest
        have hnd3 := List.nodup_cons.mp hnd2.2
        refine ⟨?_, (PrevSeg_congr l2 _ ?_).mpr hprest2⟩
        · rw [hv c (List.mem_cons_self _ _), if_pos hc.symm, hpv]
        · intro y hy
          rw [hv y (List.mem_cons_of_mem _ hy), if_neg]
          rintro rfl
          rw [hc] at hy
          exact hnd3.1 hy
  | x :: l1, p, q, hs, hp, hnd, hq, hn, hv => by
    obtain ⟨rfl, hx0, hrest⟩ := hs
    obtain ⟨hxq, hprest⟩ := hp
    simp only [List.cons_append] at hnd hq hn hv ⊢
    have hnd2 := List.nodup_cons.mp hnd
    have ih := relink l1 (m (p + 8)) p hrest hprest hnd2.2 hnd2.1
      (fun y hy => hn y (List.mem_cons_of_mem _ hy))
      (fun y hy => hv y (List.mem_cons_of_mem _ hy))
    have hnx := (Seg_next_cases l1 _ hrest).2.2
    have hpv := (PrevSeg_prev_cases l1 p hprest).2
    have hxl2 : p ∉ l2 := fun hm => hnd2.1 (by simp [hm])
    have hxl1 : p ∉ l1 := fun hm => hnd2.1 (by simp [hm])
    have e8 : m' (p + 8) = if l1 = [] then m (b + 8) else m (p + 8) := by
      rw [hn p (List.mem_cons_self _ _)]
      rcases hpv with ⟨h1, h2⟩ | ⟨h1, h2⟩
      · simp [h1, h2]
      · rw [if_neg h1, if_neg]
        rintro e
        rw [← e] at h2
        exact hxl1 h2
    have e16 : m' (p + 16) = q := by
      rw [hv p (List.mem_cons_self _ _), if_neg, hxq]
      intro e
      rcases hnx with h0 | hm
      · exact hx0 (e.trans h0)
      · rw [← e] at hm
        exact hxl2 hm
    refine ⟨?_, e16, ih.2⟩
    simp only [reduceCtorEq, if_false]
    exact ⟨rfl, hx0, by rw [e8]; exact ih.1⟩

theorem remove_eq (h : Heap) (b : Nat)
    (hpv : h.mem (b + 16) ≠ 0 → HSep (h.mem (b + 16)) b) :
    my_remove_from_free_list h b =
      { mem := unlink_mem h.mem b (h.mem (b + 16)) (h.mem (b + 8))
        free_head := if h.mem (b + 16) ≠ 0 then h.free_head else h.mem (b + 8)
        mmap_calls := h.mmap_calls } := by
  unfold my_remove_from_free_list
  by_cases h1 : h.mem (b + 16) = 0
  · simp only [h1, ne_eq, not_true_eq_false, if_false]
    by_cases h2 : h.mem (b + 8) = 0
    · simp only [h2, not_true_eq_false, if_false, Heap.mk.injEq, and_true]
      funext y
      simp only [unlink_mem, store, ne_eq, not_true_eq_false, false_and, if_false]
    · simp only [h2, not_false_eq_true, if_true, Heap.mk.injEq, and_true]
      funext y
      simp only [unlink_mem, store, ne_eq, not_true_eq_false, false_and, if_false, h2,
        not_false_eq_true, true_and]
  · have hs := hpv h1
    unfold HSep at hs
    have e1 : store h.mem (h.mem (b + 16) + 8) (h.mem (b + 8)) (b + 8) = h.mem (b + 8) :=
      store_other _ _ _ _ (by omega)
    have e2 : store h.mem (h.mem (b + 16) + 8) (h.mem (b + 8)) (b + 16) = h.mem (b + 16) :=
      store_other _ _ _ _ (by omega)
    simp only [h1, ne_eq, not_false_eq_true, if_true, e1, e2]
    by_cases h2 : h.mem (b + 8) = 0
    · simp only [h2, not_true_eq_false, if_false, Heap.mk.injEq, and_true]
      funext y
      simp only [unlink_mem, store, ne_eq, not_true_eq_false, false_and, if_false, h1,
        not_false_eq_true, true_and, h2]
    · simp only [h2, not_false_eq_true, if_true, Heap.mk.injEq, and_true]
      funext y
      simp only [unlink_mem, store, ne_eq, not_true_eq_false, false_and, if_false, h1, h2,
        not_false_eq_true, true_and]

theorem unlink_mem_other (m : Nat → Nat) (b pv nx y : Nat) (h1 : y ≠ b + 8) (h2 : y ≠ b + 16)
    (h3 : nx = 0 ∨ y ≠ nx + 16) (h4 : pv = 0 ∨ y ≠ pv + 8) :
    unlink_mem m b pv nx y = m y := by
  unfold unlink_mem
  rw [if_neg h1, if_neg h2, if_neg, if_neg]
  · rintro ⟨h5, h6⟩
    rcases h4 with h4 | h4
    · exact h5 h4
    · exact h4 h6
  · rintro ⟨h5, h6⟩
    rcases h3 with h3 | h3
    · exact h5 h3
    · exact h3 h6

theorem WF.hsep_of_mem {h : Heap} {frees others : List Nat} (hwf : WF h frees others) {a b : Nat}
    (ha : a ∈ frees ++ others) (hb : b ∈ frees ++ others) : a = b ∨ HSep a b := by
  by_cases e : a = b
  · exact Or.inl e
  · exact Or.inr (hwf.apart a ha b hb e).hsep

theorem remove_spec {h : Heap} {frees others : List Nat} {b : Nat}
    (hwf : WF h frees others) (hb : b ∈ frees) :
    WF (my_remove_from_free_list h b) (frees.erase b) (b :: others) ∧
    (my_remove_from_free_list h b).mem (b + 8) = 0 ∧
    (my_remove_from_free_list h b).mem (b + 16) = 0 ∧
    (my_remove_from_free_list h b).mmap_calls = h.mmap_calls ∧
    (∀ a ∈ frees ++ others, (my_remove_from_free_list h b).mem a = h.mem a) ∧
    (my_remove_from_free_list h b).mem =
      unlink_mem h.mem b (h.mem (b + 16)) (h.mem (b + 8)) ∧
    (∀ a ∈ others, (my_remove_from_free_list h b).mem (a + 8) = h.mem (a + 8) ∧
      (my_remove_from_free_list h b).mem (a + 16) = h.mem (a + 16)) := by
  obtain ⟨l1, l2, rfl⟩ := List.append_of_mem hb
  have hnd := hwf.nodup
  have hndf : (l1 ++ b :: l2).Nodup := (List.nodup_append.mp hnd).1
  have hbl1 : b ∉ l1 := fun hm => by
    have := (List.nodup_append.mp hndf).2.2
    exact this hm (List.mem_cons_self _ _)
  have hne0 := Seg_ne_zero _ _ _ hwf.chain
  have hnx := Seg_next_cases l1 _ hwf.chain
  have hpv := PrevSeg_prev_cases l1 0 hwf.prev
  have hmemf : ∀ y, y ∈ l1 ++ l2 → y ∈ (l1 ++ b :: l2) ++ others := by
    intro y hy
    simp only [List.mem_append, List.mem_cons] at hy ⊢
    tauto
  have hbm : b ∈ (l1 ++ b :: l2) ++ others := by simp
  have hb0 : b ≠ 0 := hnx.1
  -- the neighbours of `b` are nodes or null
  have hpvm : h.mem (b + 16) = 0 ∨ h.mem (b + 16) ∈ (l1 ++ b :: l2) ++ others := by
    rcases hpv.2 with ⟨_, h2⟩ | ⟨_, h2⟩
    · exact Or.inl h2
    · right; simp [h2]
  have hnxm : h.mem (b + 8) = 0 ∨ h.mem (b + 8) ∈ (l1 ++ b :: l2) ++ others := by
    rcases hnx.2.2 with h2 | h2
    · exact Or.inl h2
    · right; simp [h2]
  have hpvb : h.mem (b + 16) ≠ b := by
    rcases hpv.2 with ⟨_, h2⟩ | ⟨_, h2⟩
    · rw [h2]; exact fun e => hb0 e.symm
    · intro e; rw [e] at h2; exact hbl1 h2
  have hnxb : h.mem (b + 8) ≠ b := by
    rcases hnx.2.2 with h2 | h2
    · rw [h2]; exact fun e => hb0 e.symm
    · intro e; rw [e] at h2
      have := (List.nodup_append.mp hndf).2.1
      exact (List.nodup_cons.mp this).1 h2
  have hreq := remove_eq h b (by
    intro hne
    rcases hpvm with h0 | hm
    · exact absurd h0 hne
    · rcases hwf.hsep_of_mem hm hbm with e | e
      · exact absurd e hpvb
      · exact e)
  -- how the new memory looks at the headers of the blocks
  have key : ∀ y ∈ (l1 ++ b :: l2) ++ others, y ≠ 0 →
      (unlink_mem h.mem b (h.mem (b + 16)) (h.mem (b + 8)) y = h.mem y) ∧
      (y ≠ b → unlink_mem h.mem b (h.mem (b + 16)) (h.mem (b + 8)) (y + 8) =
        if y = h.mem (b + 16) then h.mem (b + 8) else h.mem (y + 8)) ∧
      (y ≠ b → unlink_mem h.mem b (h.mem (b + 16)) (h.mem (b + 8)) (y + 16) =
        if y = h.mem (b + 8) then h.mem (b + 16) else h.mem (y + 16)) := by
    intro y hy hy0
    have s1 := hwf.hsep_of_mem hy hbm
    have s2 : h.mem (b + 16) = 0 ∨ y = h.mem (b + 16) ∨ HSep y (h.mem (b + 16)) :=
      hpvm.imp id (fun hm => hwf.hsep_of_mem hy hm)
    have s3 : h.mem (b + 8) = 0 ∨ y = h.mem (b + 8) ∨ HSep y (h.mem (b + 8)) :=
      hnxm.imp id (fun hm => hwf.hsep_of_mem hy hm)
    unfold HSep at s1 s2 s3
    refine ⟨?_, ?_, ?_⟩
    · apply unlink_mem_other <;> omega
    · intro hyb
      by_cases e : y = h.mem (b + 16)
      · rw [if_pos e]
        unfold unlink_mem
        rw [if_neg (by omega), if_neg (by omega), if_neg (by omega), if_pos ⟨by omega, by omega⟩]
      · rw [if_neg e]
        apply unlink_mem_other <;> omega
    · intro hyb
      by_cases e : y = h.mem (b + 8)
      · rw [if_pos e]
        unfold unlink_mem
        rw [if_neg (by omega), if_neg (by omega), if_pos ⟨by omega, by omega⟩]
      · rw [if_neg e]
        apply unlink_mem_other <;> omega
  have hyb : ∀ y ∈ l1 ++ l2, y ≠ b := by
    intro y hy e
    subst e
    rcases List.mem_append.mp hy with h1 | h2
    · exact hbl1 h1
    · have := (List.nodup_append.mp hndf).2.1
      exact (List.nodup_cons.mp this).1 h2
  have hy0 : ∀ y ∈ l1 ++ l2, y ≠ 0 := fun y hy => hne0 y (by
    simp only [List.mem_append, List.mem_cons] at hy ⊢; tauto)
  have hrl := @relink h.mem (unlink_mem h.mem b (h.mem (b + 16)) (h.mem (b + 8))) b l2
    l1 h.free_head 0 hwf.chain hwf.prev hndf (fun hm => hne0 0 hm rfl)
    (fun y hy => (key y (hmemf y hy) (hy0 y hy)).2.1 (hyb y hy))
    (fun y hy => (key y (hmemf y hy) (hy0 y hy)).2.2 (hyb y hy))
  have herase : (l1 ++ b :: l2).erase b = l1 ++ l2 := by
    rw [List.erase_append_right _ hbl1, List.erase_cons_head]
  have hhead : (if h.mem (b + 16) ≠ 0 then h.free_head else h.mem (b + 8)) =
      (if l1 = [] then h.mem (b + 8) else h.free_head) := by
    rcases hpv.2 with ⟨h1, h2⟩ | ⟨h1, h2⟩
    · simp [h1, h2]
    · have : h.mem (b + 16) ≠ 0 := hne0 _ (by simp [h2])
      simp [h1, this]
  have hsz : ∀ a ∈ (l1 ++ b :: l2) ++ others,
      unlink_mem h.mem b (h.mem (b + 16)) (h.mem (b + 8)) a = h.mem a := by
    intro a ha
    by_cases ha0 : a = 0
    · subst ha0
      apply unlink_mem_other
      · omega
      · omega
      · rcases hnxm with h0 | hm
        · exact Or.inl h0
        · right; omega
      · rcases hpvm with h0 | hm
        · exact Or.inl h0
        · right; omega
    · exact (key a ha ha0).1
  have hperm : ∀ a, a ∈ (l1 ++ l2) ++ b :: others ↔ a ∈ (l1 ++ b :: l2) ++ others := by
    intro a
    simp only [List.mem_append, List.mem_cons, or_assoc, or_left_comm]
  have hoth : ∀ a ∈ others,
      unlink_mem h.mem b (h.mem (b + 16)) (h.mem (b + 8)) (a + 8) = h.mem (a + 8) ∧
      unlink_mem h.mem b (h.mem (b + 16)) (h.mem (b + 8)) (a + 16) = h.mem (a + 16) := by
    intro a ha
    have ham : a ∈ (l1 ++ b :: l2) ++ others := List.mem_append_right _ ha
    have hnf : ∀ c ∈ l1 ++ b :: l2, a ≠ c := by
      rintro c hc rfl
      exact (List.nodup_append.mp hnd).2.2 hc ha
    have s1 : HSep a b := (hwf.hsep_of_mem ham hbm).resolve_left (hnf b (by simp))
    have s2 : h.mem (b + 16) = 0 ∨ HSep a (h.mem (b + 16)) := by
      rcases hpv.2 with ⟨_, h2⟩ | ⟨_, h2⟩
      · exact Or.inl h2
      · have hm : h.mem (b + 16) ∈ l1 ++ b :: l2 := by simp [h2]
        exact Or.inr ((hwf.hsep_of_mem ham (List.mem_append_left _ hm)).resolve_left (hnf _ hm))
    have s3 : h.mem (b + 8) = 0 ∨ HSep a (h.mem (b + 8)) := by
      rcases hnx.2.2 with h2 | h2
      · exact Or.inl h2
      · have hm : h.mem (b + 8) ∈ l1 ++ b :: l2 := by simp [h2]
        exact Or.inr ((hwf.hsep_of_mem ham (List.mem_append_left _ hm)).resolve_left (hnf _ hm))
    unfold HSep at s1 s2 s3
    constructor <;> (apply unlink_mem_other <;> omega)
  rw [herase]
  generalize hh : my_remove_from_free_list h b = h' at hreq ⊢
  subst hreq
  refine ⟨⟨?_, hrl.2, ?_, ?_, ?_⟩, ?_, ?_, rfl, hsz, rfl, hoth⟩
  · show Seg _ (if h.mem (b + 16) ≠ 0 then h.free_head else h.mem (b + 8)) _ _
    rw [hhead]; exact hrl.1
  · have : ((l1 ++ l2) ++ b :: others).Perm ((l1 ++ b :: l2) ++ others) := by
      simp only [List.append_assoc, List.cons_append]
      exact List.Perm.append_left l1 List.perm_middle
    exact this.nodup_iff.mpr hnd
  · intro a ha c hc hac
    have ha' := (hperm a).mp ha
    have hc' := (hperm c).mp hc
    have := hwf.apart a ha' c hc' hac
    unfold Apart at this ⊢
    show _ + _ + unlink_mem _ _ _ _ a ≤ _ ∨ _ + _ + unlink_mem _ _ _ _ c ≤ _
    rw [hsz a ha', hsz c hc']
    exact this
  · intro a ha
    have ha' := (hperm a).mp ha
    show _ + _ + unlink_mem _ _ _ _ a ≤ _
    rw [hsz a ha']
    exact hwf.bound a ha'
  · show unlink_mem _ _ _ _ (b + 8) = 0
    simp [unlink_mem]
  · show unlink_mem _ _ _ _ (b + 16) = 0
    simp [unlink_mem]

theorem WF.mem_ne_zero {h : Heap} {frees others : List Nat} (hwf : WF h frees others) :
    ∀ x ∈ frees, x ≠ 0 := Seg_ne_zero _ _ _ hwf.chain

theorem WF.reshape {h : Heap} {frees others : List Nat} (hwf : WF h frees others)
    (h' : Heap) (others' : List Nat) (hhead : h'.free_head = h.free_head)
    (hlinks : ∀ a ∈ frees, h'.mem a = h.mem a ∧ h'.mem (a + 8) = h.mem (a + 8) ∧
      h'.mem (a + 16) = h.mem (a + 16))
    (hnd : others'.Nodup) (hdisj : ∀ a ∈ others', a ∉ frees)
    (hapart : ∀ a ∈ others', ∀ c ∈ frees ++ others', a ≠ c → Apart h'.mem a c)
    (hbound : ∀ a ∈ others', a + 24 + h'.mem a ≤ SIZE_MOD) : WF h' frees others' := by
  have hndf : frees.Nodup := (List.nodup_append.mp hwf.nodup).1
  refine ⟨?_, ?_, ?_, ?_, ?_⟩
  · rw [hhead]
    exact (Seg_congr frees _ _ (fun x hx => (hlinks x hx).2.1)).mpr hwf.chain
  · exact (PrevSeg_congr frees _ (fun x hx => (hlinks x hx).2.2)).mpr hwf.prev
  · refine List.nodup_append.mpr ⟨hndf, hnd, ?_⟩
    intro a ha hb
    exact hdisj a hb ha
  · intro a ha c hc hac
    rcases List.mem_append.mp ha with ha1 | ha1
    · rcases List.mem_append.mp hc with hc1 | hc1
      · have := hwf.apart a (List.mem_append_left _ ha1) c (List.mem_append_left _ hc1) hac
        unfold Apart at this ⊢
        rw [(hlinks a ha1).1, (hlinks c hc1).1]
        exact this
      · have := hapart c hc1 a ha (Ne.symm hac)
        unfold Apart at this ⊢
        omega
    · exact hapart a ha1 c hc hac
  · intro a ha
    rcases List.mem_append.mp ha with ha1 | ha1
    · rw [(hlinks a ha1).1]
      exact hwf.bound a (List.mem_append_left _ ha1)
    · exact hbound a ha1

theorem add_spec {h : Heap} {frees others : List Nat} {b : Nat}
    (hwf : WF h frees (b :: others)) (hb0 : b ≠ 0)
    (hn : h.mem (b + 8) = 0) (hp : h.mem (b + 16) = 0) :
    ∃ h', my_add_to_free_list h b = .ok h' ∧ WF h' (b :: frees) others ∧
      h'.free_head = b ∧ h'.mmap_calls = h.mmap_calls ∧
      (∀ a ∈ frees ++ b :: others, h'.mem a = h.mem a) ∧
      (∀ y, y ≠ b + 8 → y ≠ b + 16 → (h.free_head = 0 ∨ y ≠ h.free_head + 16) →
        h'.mem y = h.mem y) ∧
      (∀ a ∈ others, h'.mem (a + 8) = h.mem (a + 8) ∧ h'.mem (a + 16) = h.mem (a + 16)) := by
  have hbm : b ∈ frees ++ b :: others := by simp
  have hndall := hwf.nodup
  have hbf : b ∉ frees := by
    intro hm
    have := (List.nodup_append.mp hndall).2.2
    exact this hm (List.mem_cons_self _ _)
  have hne0 := hwf.mem_ne_zero
  -- the old head is null or a free node
  have hhd : (h.free_head = 0 ∧ frees = []) ∨
      (h.free_head ≠ 0 ∧ ∃ fs, frees = h.free_head :: fs) := by
    have hc := hwf.chain
    cases hf : frees with
    | nil => rw [hf] at hc; exact Or.inl ⟨hc, rfl⟩
    | cons c fs =>
      rw [hf] at hc
      obtain ⟨e, hc0, _⟩ := hc
      exact Or.inr ⟨by rw [e]; exact hc0, fs, by rw [e]⟩
  have hhb : h.free_head = 0 ∨ HSep h.free_head b := by
    rcases hhd with ⟨h0, _⟩ | ⟨_, fs, hfs⟩
    · exact Or.inl h0
    · right
      have hm : h.free_head ∈ frees ++ b :: others := by rw [hfs]; simp
      rcases hwf.hsep_of_mem hm hbm with e | e
      · exact absurd (e ▸ (by rw [hfs]; simp : h.free_head ∈ frees)) hbf
      · exact e
  let m3 : Nat → Nat := store
    (if h.free_head ≠ 0 then store (store h.mem (b + 8) h.free_head) (h.free_head + 16) b
      else store h.mem (b + 8) h.free_head) (b + 16) 0
  have hm3 : ∀ y, m3 y = if y = b + 16 then 0 else if h.free_head ≠ 0 ∧ y = h.free_head + 16
      then b else if y = b + 8 then h.free_head else h.mem y := by
    intro y
    show store _ _ _ _ = _
    by_cases h0 : h.free_head = 0
    · simp [store, h0]
    · simp [store, h0]
  have hframe : ∀ y, y ≠ b + 8 → y ≠ b + 16 → (h.free_head = 0 ∨ y ≠ h.free_head + 16) →
      m3 y = h.mem y := by
    intro y h1 h2 h3
    rw [hm3, if_neg h2, if_neg (fun hh => h3.elim hh.1 (fun h4 => h4 hh.2)), if_neg h1]
  have hres : my_add_to_free_list h b = .ok { h with mem := m3, free_head := b } := by
    unfold my_add_to_free_list
    simp only [hn, hp, ne_eq, not_true_eq_false, or_self, if_false]
  have key : ∀ y ∈ frees ++ b :: others, m3 y = h.mem y ∧
      (y ≠ b → m3 (y + 8) = h.mem (y + 8)) ∧
      (y ≠ b → y ≠ h.free_head → m3 (y + 16) = h.mem (y + 16)) := by
    intro y hy
    have s1 := hwf.hsep_of_mem hy hbm
    have s2 : h.free_head = 0 ∨ y = h.free_head ∨ HSep y h.free_head := by
      rcases hhd with ⟨h0, _⟩ | ⟨_, fs, hfs⟩
      · exact Or.inl h0
      · right
        exact hwf.hsep_of_mem hy (by rw [hfs]; simp)
    unfold HSep at s1 s2 hhb
    refine ⟨?_, ?_, ?_⟩
    · apply hframe <;> omega
    · intro hyb
      apply hframe <;> omega
    · intro hyb hyh
      apply hframe <;> omega
  have hb8 : m3 (b + 8) = h.free_head := by
    unfold HSep at hhb
    rw [hm3, if_neg (by omega), if_neg (fun hh => by omega), if_pos rfl]
  have hb16 : m3 (b + 16) = 0 := by rw [hm3, if_pos rfl]
  have hoth : ∀ a ∈ others, m3 (a + 8) = h.mem (a + 8) ∧ m3 (a + 16) = h.mem (a + 16) := by
    intro a ha
    have ham : a ∈ frees ++ b :: others := by simp [ha]
    have hnf : ∀ c ∈ frees, a ≠ c := by
      rintro c hc rfl
      exact (List.nodup_append.mp hndall).2.2 hc (List.mem_cons_of_mem _ ha)
    have hab : a ≠ b := by
      rintro rfl
      exact (List.nodup_cons.mp (List.nodup_append.mp hndall).2.1).1 ha
    have s1 : HSep a b := (hwf.hsep_of_mem ham hbm).resolve_left hab
    have s2 : h.free_head = 0 ∨ HSep a h.free_head := by
      rcases hhd with ⟨h0, _⟩ | ⟨_, fs, hfs⟩
      · exact Or.inl h0
      · have hm : h.free_head ∈ frees := by rw [hfs]; simp
        exact Or.inr ((hwf.hsep_of_mem ham (List.mem_append_left _ hm)).resolve_left (hnf _ hm))
    unfold HSep at s1 s2
    constructor <;> (apply hframe <;> omega)
  refine ⟨_, hres, ⟨?_, ?_, ?_, ?_, ?_⟩, rfl, rfl, fun a ha => (key a ha).1, hframe, hoth⟩
  · refine ⟨rfl, hb0, ?_⟩
    show Seg m3 (m3 (b + 8)) frees 0
    rw [hb8]
    refine (Seg_congr frees _ _ ?_).mpr hwf.chain
    intro x hx
    exact (key x (List.mem_append_left _ hx)).2.1 (fun e => hbf (e ▸ hx))
  · refine ⟨hb16, ?_⟩
    show PrevSeg m3 b frees
    rcases hhd with ⟨_, hf⟩ | ⟨hh0, fs, hfs⟩
    · rw [hf]; trivial
    · have hpr := hwf.prev
      have hndf : frees.Nodup := (List.nodup_append.mp hndall).1
      rw [hfs] at hpr hndf ⊢
      refine ⟨?_, (PrevSeg_congr fs _ ?_).mpr hpr.2⟩
      · unfold HSep at hhb
        rw [hm3, if_neg (by omega), if_pos ⟨hh0, rfl⟩]
      · intro x hx
        have hxf : x ∈ frees := by rw [hfs]; exact List.mem_cons_of_mem _ hx
        refine (key x (List.mem_append_left _ hxf)).2.2 (fun e => hbf (e ▸ hxf)) ?_
        rintro rfl
        exact (List.nodup_cons.mp hndf).1 hx
  · have hperm : ((b :: frees) ++ others).Perm (frees ++ b :: others) := by
      simp only [List.cons_append]
      exact List.perm_middle.symm
    exact hperm.nodup_iff.mpr hndall
  · intro a ha c hc hac
    have ha' : a ∈ frees ++ b :: others := by
      simp only [List.mem_append, List.mem_cons] at ha ⊢; tauto
    have hc' : c ∈ frees ++ b :: others := by
      simp only [List.mem_append, List.mem_cons] at hc ⊢; tauto
    have := hwf.apart a ha' c hc' hac
    unfold Apart at this ⊢
    show _ + _ + m3 a ≤ _ ∨ _ + _ + m3 c ≤ _
    rw [(key a ha').1, (key c hc').1]
    exact this
  · intro a ha
    have ha' : a ∈ frees ++ b :: others := by
      simp only [List.mem_append, List.mem_cons] at ha ⊢; tauto
    show _ + _ + m3 a ≤ _
    rw [(key a ha').1]
    exact hwf.bound a ha'

theorem WF.store_link {h : Heap} {frees others : List Nat} (hwf : WF h frees others)
    {b : Nat} (hb : b ∈ others) (y v : Nat) (hy : y = b + 8 ∨ y = b + 16) :
    WF { h with mem := store h.mem y v } frees others ∧
    (∀ a ∈ frees ++ others, store h.mem y v a = h.mem a) ∧
    (∀ a ∈ frees ++ others, a ≠ b → store h.mem y v (a + 8) = h.mem (a + 8) ∧
      store h.mem y v (a + 16) = h.mem (a + 16)) := by
  have hbm : b ∈ frees ++ others := List.mem_append_right _ hb
  have hsz : ∀ a ∈ frees ++ others, store h.mem y v a = h.mem a := by
    intro a ha
    have s1 := hwf.hsep_of_mem ha hbm
    unfold HSep at s1
    exact store_other _ _ _ _ (by omega)
  have hlk : ∀ a ∈ frees ++ others, a ≠ b → store h.mem y v (a + 8) = h.mem (a + 8) ∧
      store h.mem y v (a + 16) = h.mem (a + 16) := by
    intro a ha hab
    have s1 := hwf.hsep_of_mem ha hbm
    unfold HSep at s1
    exact ⟨store_other _ _ _ _ (by omega), store_other _ _ _ _ (by omega)⟩
  have hbf : b ∉ frees := fun hm => (List.nodup_append.mp hwf.nodup).2.2 hm hb
  refine ⟨hwf.reshape _ others rfl ?_ (List.nodup_append.mp hwf.nodup).2.1 ?_ ?_ ?_, hsz, hlk⟩
  · intro a ha
    have := hlk a (List.mem_append_left _ ha) (fun e => hbf (e ▸ ha))
    exact ⟨hsz a (List.mem_append_left _ ha), this.1, this.2⟩
  · intro a ha hm
    exact (List.nodup_append.mp hwf.nodup).2.2 hm ha
  · intro a ha c hc hac
    have := hwf.apart a (List.mem_append_right _ ha) c hc hac
    unfold Apart at this ⊢
    show _ + _ + store h.mem y v a ≤ _ ∨ _ + _ + store h.mem y v c ≤ _
    rw [hsz a (List.mem_append_right _ ha), hsz c hc]
    exact this
  · intro a ha
    show _ + _ + store h.mem y v a ≤ _
    rw [hsz a (List.mem_append_right _ ha)]
    exact hwf.bound a (List.mem_append_right _ ha)

/-- Clearing both links of a block that is not in the free list. -/
theorem WF.clear_links {h : Heap} {frees others : List Nat} (hwf : WF h frees others)
    {b : Nat} (hb : b ∈ others) :
    WF { h with mem := store (store h.mem (b + 8) 0) (b + 16) 0 } frees others ∧
    (∀ a ∈ frees ++ others, store (store h.mem (b + 8) 0) (b + 16) 0 a = h.mem a) ∧
    (∀ a ∈ frees ++ others, a ≠ b →
      store (store h.mem (b + 8) 0) (b + 16) 0 (a + 8) = h.mem (a + 8) ∧
      store (store h.mem (b + 8) 0) (b + 16) 0 (a + 16) = h.mem (a + 16)) ∧
    store (store h.mem (b + 8) 0) (b + 16) 0 (b + 8) = 0 ∧
    store (store h.mem (b + 8) 0) (b + 16) 0 (b + 16) = 0 := by
  have h1 := hwf.store_link hb (b + 8) 0 (Or.inl rfl)
  have h2 := h1.1.store_link hb (b + 16) 0 (Or.inr rfl)
  refine ⟨h2.1, ?_, ?_, ?_, ?_⟩
  · intro a ha
    exact (h2.2.1 a ha).trans (h1.2.1 a ha)
  · intro a ha hab
    exact ⟨(h2.2.2 a ha hab).1.trans (h1.2.2 a ha hab).1,
      (h2.2.2 a ha hab).2.trans (h1.2.2 a ha hab).2⟩
  · simp [store]
  · simp [store]

/-- A detached block `b` takes over the extent of its detached address
successor `n`. -/
theorem WF.absorb {r : Heap} {F others : List Nat} {b n : Nat}
    (hr : WF r F (n :: b :: others)) (hn : n = b + r.mem b + 24) :
    WF { r with mem := store r.mem b (r.mem b + r.mem n + 24) } F (b :: others) ∧
    (∀ a ∈ F ++ others, store r.mem b (r.mem b + r.mem n + 24) a = r.mem a ∧
      store r.mem b (r.mem b + r.mem n + 24) (a + 8) = r.mem (a + 8) ∧
      store r.mem b (r.mem b + r.mem n + 24) (a + 16) = r.mem (a + 16)) := by
  have hrnd := hr.nodup
  have hbo : b ∈ n :: b :: others := by simp
  have hnd2 := (List.nodup_append.mp hrnd).2.1
  have hnbo : n ∉ b :: others := (List.nodup_cons.mp hnd2).1
  have hbF : b ∉ F := fun hm => (List.nodup_append.mp hrnd).2.2 hm hbo
  have hbO : b ∉ others := (List.nodup_cons.mp (List.nodup_cons.mp hnd2).2).1
  have hsame : ∀ a ∈ F ++ n :: b :: others, a ≠ b →
      store r.mem b (r.mem b + r.mem n + 24) a = r.mem a ∧
      store r.mem b (r.mem b + r.mem n + 24) (a + 8) = r.mem (a + 8) ∧
      store r.mem b (r.mem b + r.mem n + 24) (a + 16) = r.mem (a + 16) := by
    intro a ha hab
    have s1 := (hr.hsep_of_mem ha (List.mem_append_right _ hbo)).resolve_left hab
    unfold HSep at s1
    exact ⟨store_other _ _ _ _ hab, store_other _ _ _ _ (by omega),
      store_other _ _ _ _ (by omega)⟩
  have hne : ∀ a ∈ F ++ b :: others, a ≠ n := by
    rintro a ha rfl
    rcases List.mem_append.mp ha with h1 | h1
    · exact (List.nodup_append.mp hrnd).2.2 h1 (List.mem_cons_self _ _)
    · exact hnbo h1
  have hsub : ∀ a ∈ F ++ b :: others, a ∈ F ++ n :: b :: others := by
    intro a ha
    simp only [List.mem_append, List.mem_cons] at ha ⊢
    tauto
  have hrnm : n ∈ F ++ n :: b :: others := by simp
  have hval : ∀ a ∈ F ++ b :: others, store r.mem b (r.mem b + r.mem n + 24) a =
      if a = b then r.mem b + r.mem n + 24 else r.mem a := by
    intro a ha
    by_cases e : a = b
    · rw [if_pos e, e]; simp
    · rw [if_neg e]; exact (hsame a (hsub a ha) e).1
  have hbn := hr.bound n hrnm
  refine ⟨hr.reshape _ (b :: others) rfl ?_ (List.nodup_cons.mp hnd2).2 ?_ ?_ ?_, ?_⟩
  · intro a ha
    exact hsame a (List.mem_append_left _ ha) (fun e => hbF (e ▸ ha))
  · intro a ha hm
    exact (List.nodup_append.mp hrnd).2.2 hm (List.mem_cons_of_mem _ ha)
  · intro a ha c hc hac
    have ha' : a ∈ F ++ b :: others := List.mem_append_right _ ha
    have a1 := hr.apart a (hsub a ha') c (hsub c hc) hac
    have a2 := hr.apart a (hsub a ha') _ hrnm (hne a ha')
    have a3 := hr.apart c (hsub c hc) _ hrnm (hne c hc)
    unfold Apart at a1 a2 a3 ⊢
    show _ + _ + store _ _ _ a ≤ _ ∨ _ + _ + store _ _ _ c ≤ _
    rw [hval a ha', hval c hc]
    by_cases e1 : a = b
    · subst e1
      rw [if_pos rfl, if_neg (Ne.symm hac)]
      omega
    · by_cases e2 : c = b
      · subst e2
        rw [if_pos rfl, if_neg e1]
        omega
      · rw [if_neg e1, if_neg e2]
        exact a1
  · intro a ha
    show _ + _ + store _ _ _ a ≤ _
    rw [hval a (List.mem_append_right _ ha)]
    by_cases e : a = b
    · rw [if_pos e]; omega
    · rw [if_neg e]
      exact hr.bound a (hsub a (List.mem_append_right _ ha))
  · intro a ha
    have ham : a ∈ F ++ n :: b :: others := by
      simp only [List.mem_append, List.mem_cons] at ha ⊢
      tauto
    refine hsame a ham ?_
    rintro rfl
    rcases List.mem_append.mp ha with h1 | h1
    · exact hbF h1
    · exact hbO h1

theorem coalesce_spec {h : Heap} {frees others : List Nat} {b f : Nat}
    (hwf : WF h frees (b :: others)) (hb0 : b ≠ 0) (hf : frees.length < f) :
    ∃ h', my_coalesce f h b = .ok h' ∧ h'.mmap_calls = h.mmap_calls ∧ h'.free_head = b ∧
      (∀ a ∈ others, h'.mem a = h.mem a ∧ h'.mem (a + 8) = h.mem (a + 8) ∧
        h'.mem (a + 16) = h.mem (a + 16)) ∧
      (b + h.mem b + 24 ∈ frees →
        WF h' (b :: frees.erase (b + h.mem b + 24)) others ∧
        h'.mem b = h.mem b + h.mem (b + h.mem b + 24) + 24 ∧
        ∀ a ∈ frees.erase (b + h.mem b + 24), h'.mem a = h.mem a) ∧
      (b + h.mem b + 24 ∉ frees →
        WF h' (b :: frees) others ∧ h'.mem b = h.mem b ∧ ∀ a ∈ frees, h'.mem a = h.mem a) := by
  have hscan := coalesce_scan_eq (b + h.mem b + 24) frees h.free_head f hwf.chain hf
  have hnd := hwf.nodup
  have hbm : b ∈ frees ++ b :: others := by simp
  have hbO : b ∉ others := (List.nodup_cons.mp (List.nodup_append.mp hnd).2.1).1
  by_cases hn : b + h.mem b + 24 ∈ frees
  · -- merge with the address successor
    obtain ⟨hrwf, _, _, hrcalls, hrsz, _, hroth⟩ := remove_spec hwf hn
    set r := my_remove_from_free_list h (b + h.mem b + 24) with hrdef
    have hnm : b + h.mem b + 24 ∈ frees ++ b :: others := List.mem_append_left _ hn
    have hbn := hwf.bound _ hnm
    have hrb : r.mem b = h.mem b := hrsz b hbm
    have hrn : r.mem (b + h.mem b + 24) = h.mem (b + h.mem b + 24) := hrsz _ hnm
    have hmerged : (r.mem b + (r.mem (b + h.mem b + 24) + 24) % SIZE_MOD) % SIZE_MOD =
        r.mem b + r.mem (b + h.mem b + 24) + 24 := by
      rw [hrb, hrn]
      unfold SIZE_MOD at hbn ⊢
      omega
    obtain ⟨hwf1, hfr1⟩ := hrwf.absorb (by rw [hrb])
    obtain ⟨hwf2, hsz2, hlk2, hz8, hz16⟩ := hwf1.clear_links (List.mem_cons_self b others)
    obtain ⟨h', hadd, hwf3, hhead3, hcalls3, hsz3, _, hoth3⟩ := add_spec hwf2 hb0 hz8 hz16
    dsimp only at hsz2 hlk2 hsz3 hoth3 hcalls3
    have hsubE : ∀ a ∈ frees.erase (b + h.mem b + 24), a ∈ frees := fun a ha =>
      List.mem_of_mem_erase ha
    refine ⟨h', ?_, ?_, hhead3, ?_, ?_, ?_⟩
    · unfold my_coalesce
      simp only [sizeof_my_metadata_t]
      rw [hscan]
      simp only [hn, decide_True, if_true]
      rw [← hrdef, hmerged]
      exact hadd
    · rw [hcalls3]; exact hrcalls
    · intro a ha
      have hab : a ≠ b := fun e => hbO (e ▸ ha)
      have h1 := hoth3 a ha
      have h2 := hlk2 a (by simp [ha]) hab
      have h3 := hfr1 a (by simp [ha])
      have h4 := hroth a (List.mem_cons_of_mem _ ha)
      refine ⟨?_, ?_, ?_⟩
      · rw [hsz3 a (by simp [ha]), hsz2 a (by simp [ha]), h3.1]
        exact hrsz a (by simp [ha])
      · rw [h1.1, h2.1, h3.2.1]; exact h4.1
      · rw [h1.2, h2.2, h3.2.2]; exact h4.2
    · intro _
      refine ⟨hwf3, ?_, ?_⟩
      · rw [hsz3 b (by simp), hsz2 b (by simp), store_same, hrb, hrn]
      · intro a ha
        rw [hsz3 a (by simp [ha]), hsz2 a (by simp [ha]), (hfr1 a (by simp [ha])).1]
        exact hrsz a (List.mem_append_left _ (hsubE a ha))
    · intro hc; exact absurd hn hc
  · -- no free block starts right after `b`
    obtain ⟨hwf2, hsz2, hlk2, hz8, hz16⟩ := hwf.clear_links (List.mem_cons_self b others)
    obtain ⟨h', hadd, hwf3, hhead3, hcalls3, hsz3, _, hoth3⟩ := add_spec hwf2 hb0 hz8 hz16
    dsimp only at hsz2 hlk2 hsz3 hoth3 hcalls3
    refine ⟨h', ?_, hcalls3, hhead3, ?_, ?_, ?_⟩
    · unfold my_coalesce
      simp only [sizeof_my_metadata_t]
      rw [hscan]
      simp only [hn, decide_False, Bool.false_eq_true, if_false]
      exact hadd
    · intro a ha
      have hab : a ≠ b := fun e => hbO (e ▸ ha)
      have h1 := hoth3 a ha
      have h2 := hlk2 a (by simp [ha]) hab
      refine ⟨?_, ?_, ?_⟩
      · rw [hsz3 a (by simp [ha]), hsz2 a (by simp [ha])]
      · rw [h1.1, h2.1]
      · rw [h1.2, h2.2]
    · intro hc; exact absurd hc hn
    · intro _
      refine ⟨hwf3, ?_, ?_⟩
      · rw [hsz3 b (by simp), hsz2 b (by simp)]
      · intro a ha
        rw [hsz3 a (by simp [ha]), hsz2 a (by simp [ha])]

/-- What the best-fit loop computes, for a running `best` and the remaining
nodes `L`: either nothing in `L` beats `best`, or the result is the first node
of `L` among those of the least fitting size, and it beats `best`. -/
theorem bestOf_spec (m : Nat → Nat) (size : Nat) : ∀ (L : List Nat) (best : Nat),
    (∀ x ∈ L, x ≠ 0) →
    (bestOf m size L best = best ∧
      ∀ x ∈ L, size ≤ m x → best ≠ 0 ∧ m best ≤ m x) ∨
    (∃ l1 l2, L = l1 ++ bestOf m size L best :: l2 ∧ size ≤ m (bestOf m size L best) ∧
      (best = 0 ∨ m (bestOf m size L best) < m best) ∧
      (∀ x ∈ l1, size ≤ m x → m (bestOf m size L best) < m x) ∧
      (∀ x ∈ l2, size ≤ m x → m (bestOf m size L best) ≤ m x))
  | [], best, _ => Or.inl ⟨rfl, by simp⟩
  | x :: xs, best, hne => by
    have hx0 : x ≠ 0 := hne x (List.mem_cons_self _ _)
    have hne' : ∀ y ∈ xs, y ≠ 0 := fun y hy => hne y (List.mem_cons_of_mem _ hy)
    by_cases hc : m x ≥ size ∧ (best = 0 ∨ m x < m best)
    · have hstep : bestOf m size (x :: xs) best = bestOf m size xs x := by
        simp only [bestOf, hc, and_self, if_true]
      rw [hstep]
      rcases bestOf_spec m size xs x hne' with ⟨h1, h2⟩ | ⟨l1, l2, h1, h2, h3, h4, h5⟩
      · right
        refine ⟨[], xs, by rw [h1]; rfl, by rw [h1]; exact hc.1, by rw [h1]; exact hc.2,
          by simp, ?_⟩
        intro y hy hfit
        rw [h1]
        exact (h2 y hy hfit).2
      · right
        have hlt : m (bestOf m size xs x) < m x := h3.resolve_left hx0
        refine ⟨x :: l1, l2, by rw [List.cons_append, ← h1], h2, ?_, ?_, h5⟩
        · rcases hc.2 with h0 | h0
          · exact Or.inl h0
          · exact Or.inr (lt_trans hlt h0)
        · intro y hy hfit
          rcases List.mem_cons.mp hy with rfl | hy
          · exact hlt
          · exact h4 y hy hfit
    · have hstep : bestOf m size (x :: xs) best = bestOf m size xs best := by
        simp only [bestOf, hc, if_false]
      rw [hstep]
      have hxfit : size ≤ m x → best ≠ 0 ∧ m best ≤ m x := by
        intro hfit
        constructor
        · intro h0; exact hc ⟨hfit, Or.inl h0⟩
        · by_contra hlt
          exact hc ⟨hfit, Or.inr (not_le.mp hlt)⟩
      rcases bestOf_spec m size xs best hne' with ⟨h1, h2⟩ | ⟨l1, l2, h1, h2, h3, h4, h5⟩
      · left
        refine ⟨h1, ?_⟩
        intro y hy hfit
        rcases List.mem_cons.mp hy with rfl | hy
        · exact hxfit hfit
        · exact h2 y hy hfit
      · right
        refine ⟨x :: l1, l2, by rw [List.cons_append, ← h1], h2, h3, ?_, h5⟩
        intro y hy hfit
        rcases List.mem_cons.mp hy with rfl | hy
        · have := hxfit hfit
          exact lt_of_lt_of_le (h3.resolve_left this.1) this.2
        · exact h4 y hy hfit

/-- The best-fit loop finds nothing exactly when no node fits. -/
theorem bestOf_eq_zero {m : Nat → Nat} {size : Nat} {L : List Nat} (hne : ∀ x ∈ L, x ≠ 0)
    (h0 : bestOf m size L 0 = 0) : ∀ x ∈ L, m x < size := by
  intro x hx
  rcases bestOf_spec m size L 0 hne with ⟨_, h2⟩ | ⟨l1, l2, h1, _⟩
  · by_contra hfit
    exact (h2 x hx (not_lt.mp hfit)).1 rfl
  · exfalso
    have hm : ∀ r, L = l1 ++ r :: l2 → r ∈ L := by
      intro r hr; rw [hr]; simp
    exact hne _ (hm _ h1) h0

/-- A result of the best-fit loop other than null is the first free node of
the least fitting size. -/
theorem bestOf_ne_zero {m : Nat → Nat} {size : Nat} {L : List Nat} (hne : ∀ x ∈ L, x ≠ 0)
    (h0 : bestOf m size L 0 ≠ 0) :
    bestOf m size L 0 ∈ L ∧ size ≤ m (bestOf m size L 0) ∧
    (∀ x ∈ L, size ≤ m x → m (bestOf m size L 0) ≤ m x) ∧
    ∃ l1 l2, L = l1 ++ bestOf m size L 0 :: l2 ∧
      ∀ x ∈ l1, size ≤ m x → m (bestOf m size L 0) < m x := by
  rcases bestOf_spec m size L 0 hne with ⟨h1, _⟩ | ⟨l1, l2, h1, h2, _, h4, h5⟩
  · exact absurd h1 h0
  · have hm : ∀ r, L = l1 ++ r :: l2 → r ∈ L := by
      intro r hr; rw [hr]; simp
    refine ⟨hm _ h1, h2, ?_, l1, l2, h1, h4⟩
    intro x hx hfit
    have hx' : x ∈ l1 ++ bestOf m size L 0 :: l2 := h1 ▸ hx
    rcases List.mem_append.mp hx' with hx | hx
    · exact le_of_lt (h4 x hx hfit)
    · rcases List.mem_cons.mp hx with rfl | hx
      · exact le_refl _
      · exact h5 x hx hfit

theorem split_mem_other (m : Nat → Nat) (b size y : Nat) (h1 : y ≠ b)
    (h2 : y ≠ b + 24 + size) (h3 : y ≠ b + 24 + size + 8) (h4 : y ≠ b + 24 + size + 16) :
    split_mem m b size y = m y := by
  unfold split_mem
  rw [store_other _ _ _ _ h4, store_other _ _ _ _ h3, store_other _ _ _ _ h2,
    store_other _ _ _ _ h1]

theorem WF.split {h : Heap} {F others : List Nat} {b size : Nat}
    (hwf : WF h F (b :: others)) (hrem : 24 < h.mem b - size) :
    WF { h with mem := split_mem h.mem b size } F ((b + 24 + size) :: b :: others) ∧
    split_mem h.mem b size b = size ∧
    split_mem h.mem b size (b + 24 + size) = h.mem b - size - 24 ∧
    split_mem h.mem b size (b + 8) = h.mem (b + 8) ∧
    split_mem h.mem b size (b + 16) = h.mem (b + 16) ∧
    (∀ a ∈ F ++ others, split_mem h.mem b size a = h.mem a ∧
      split_mem h.mem b size (a + 8) = h.mem (a + 8) ∧
      split_mem h.mem b size (a + 16) = h.mem (a + 16)) := by
  have hnd := hwf.nodup
  have hbm : b ∈ F ++ b :: others := by simp
  have hbF : b ∉ F := fun hm => (List.nodup_append.mp hnd).2.2 hm (List.mem_cons_self _ _)
  have hnd2 := (List.nodup_append.mp hnd).2.1
  have hbO : b ∉ others := (List.nodup_cons.mp hnd2).1
  have hbb := hwf.bound b hbm
  have hvb : split_mem h.mem b size b = size := by
    unfold split_mem
    rw [store_other _ _ _ _ (by omega), store_other _ _ _ _ (by omega),
      store_other _ _ _ _ (by omega), store_same]
  have hvn : split_mem h.mem b size (b + 24 + size) = h.mem b - size - 24 := by
    unfold split_mem
    rw [store_other _ _ _ _ (by omega), store_other _ _ _ _ (by omega), store_same]
  have hfar : ∀ a ∈ F ++ b :: others, a ≠ b →
      (a + 24 + h.mem a ≤ b ∨ b + 24 + h.mem b ≤ a) ∧
      split_mem h.mem b size a = h.mem a ∧
      split_mem h.mem b size (a + 8) = h.mem (a + 8) ∧
      split_mem h.mem b size (a + 16) = h.mem (a + 16) := by
    intro a ha hab
    have s1 := hwf.apart a ha b hbm hab
    unfold Apart at s1
    refine ⟨s1, ?_, ?_, ?_⟩ <;> (apply split_mem_other <;> omega)
  have hsub : ∀ a ∈ F ++ others, a ∈ F ++ b :: others ∧ a ≠ b := by
    intro a ha
    constructor
    · simp only [List.mem_append, List.mem_cons] at ha ⊢
      tauto
    · rintro rfl
      rcases List.mem_append.mp ha with h1 | h1
      · exact hbF h1
      · exact hbO h1
  refine ⟨hwf.reshape _ _ rfl ?_ ?_ ?_ ?_ ?_, hvb, hvn, ?_, ?_, ?_⟩
  · intro a ha
    exact (hfar a (List.mem_append_left _ ha) (fun e => hbF (e ▸ ha))).2
  · refine List.nodup_cons.mpr ⟨?_, hnd2⟩
    intro hm
    rcases List.mem_cons.mp hm with e | hm
    · omega
    · have := (hfar (b + 24 + size) (by simp [hm]) (by omega)).1
      omega
  · intro a ha hm
    rcases List.mem_cons.mp ha with rfl | ha
    · have := (hfar (b + 24 + size) (List.mem_append_left _ hm) (by omega)).1
      omega
    · exact (List.nodup_append.mp hnd).2.2 hm ha
  · -- the two parts lie inside the old extent of `b`
    have hsize : ∀ a ∈ F ++ (b + 24 + size) :: b :: others,
        (a = b + 24 + size ∧ split_mem h.mem b size a = h.mem b - size - 24) ∨
        (a = b ∧ split_mem h.mem b size a = size) ∨
        (a ≠ b ∧ a ≠ b + 24 + size ∧ split_mem h.mem b size a = h.mem a ∧
          (a + 24 + h.mem a ≤ b ∨ b + 24 + h.mem b ≤ a)) := by
      intro a ha
      by_cases e1 : a = b + 24 + size
      · exact Or.inl ⟨e1, e1 ▸ hvn⟩
      · by_cases e2 : a = b
        · exact Or.inr (Or.inl ⟨e2, e2 ▸ hvb⟩)
        · have ham : a ∈ F ++ b :: others := by
            simp only [List.mem_append, List.mem_cons] at ha ⊢
            tauto
          have := hfar a ham e2
          exact Or.inr (Or.inr ⟨e2, e1, this.2.1, this.1⟩)
    intro a ha c hc hac
    have ha' := hsize a (List.mem_append_right _ ha)
    have hc' := hsize c hc
    have hac' : a ∈ F ++ b :: others → c ∈ F ++ b :: others →
        a + 24 + h.mem a ≤ c ∨ c + 24 + h.mem c ≤ a := fun h1 h2 => hwf.apart a h1 c h2 hac
    unfold Apart
    show _ + _ + split_mem _ _ _ a ≤ _ ∨ _ + _ + split_mem _ _ _ c ≤ _
    rcases ha' with ⟨e1, e2⟩ | ⟨e1, e2⟩ | ⟨e1, e1', e2, e3⟩ <;>
      rcases hc' with ⟨f1, f2⟩ | ⟨f1, f2⟩ | ⟨f1, f1', f2, f3⟩ <;> rw [e2, f2]
    · omega
    · omega
    · omega
    · omega
    · omega
    · omega
    · omega
    · omega
    · have h1 : a ∈ F ++ b :: others := by
        have := List.mem_append_right F ha
        simp only [List.mem_append, List.mem_cons] at this ⊢
        rcases this with h | h | h | h
        · exact Or.inl h
        · exact absurd h e1'
        · exact absurd h e1
        · exact Or.inr (Or.inr h)
      have h2 : c ∈ F ++ b :: others := by
        simp only [List.mem_append, List.mem_cons] at hc ⊢
        rcases hc with h | h | h | h
        · exact Or.inl h
        · exact absurd h f1'
        · exact absurd h f1
        · exact Or.inr (Or.inr h)
      exact hac' h1 h2
  · intro a ha
    show _ + _ + split_mem _ _ _ a ≤ _
    rcases List.mem_cons.mp ha with rfl | ha
    · rw [hvn]; omega
    · rcases List.mem_cons.mp ha with rfl | ha
      · rw [hvb]; omega
      · have hs := hsub a (List.mem_append_right _ ha)
        rw [(hfar a hs.1 hs.2).2.1]
        exact hwf.bound a hs.1
  · apply split_mem_other <;> omega
  · apply split_mem_other <;> omega
  · intro a ha
    have hs := hsub a ha
    exact (hfar a hs.1 hs.2).2

theorem take_spec {h : Heap} {frees others : List Nat} {b size f : Nat}
    (hwf : WF h frees others) (hb : b ∈ frees) (hsz : size ≤ h.mem b)
    (hf : frees.length ≤ f) :
    ∃ h', my_malloc_take f h b size = .ok (b + 24, h') ∧
      h'.mmap_calls = h.mmap_calls ∧ h'.mem (b + 8) = 0 ∧ h'.mem (b + 16) = 0 ∧
      (∀ a ∈ others, h'.mem a = h.mem a ∧ h'.mem (a + 8) = h.mem (a + 8) ∧
        h'.mem (a + 16) = h.mem (a + 16)) ∧
      (h.mem b - size ≤ 24 →
        h' = my_remove_from_free_list h b ∧ WF h' (frees.erase b) (b :: others) ∧
        h'.mem b = h.mem b ∧ ∀ a ∈ frees.erase b, h'.mem a = h.mem a) ∧
      (24 < h.mem b - size →
        h'.mem b = size ∧ h'.free_head = b + 24 + size ∧
        (b + 24 + h.mem b ∈ frees →
          WF h' ((b + 24 + size) :: (frees.erase b).erase (b + 24 + h.mem b)) (b :: others) ∧
          h'.mem (b + 24 + size) = h.mem b - size - 24 + h.mem (b + 24 + h.mem b) + 24 ∧
          ∀ a ∈ (frees.erase b).erase (b + 24 + h.mem b), h'.mem a = h.mem a) ∧
        (b + 24 + h.mem b ∉ frees →
          WF h' ((b + 24 + size) :: frees.erase b) (b :: others) ∧
          h'.mem (b + 24 + size) = h.mem b - size - 24 ∧
          ∀ a ∈ frees.erase b, h'.mem a = h.mem a)) := by
  have hbm : b ∈ frees ++ others := List.mem_append_left _ hb
  have hbb := hwf.bound b hbm
  have hb0 : b ≠ 0 := hwf.mem_ne_zero b hb
  obtain ⟨hrwf, hr8, hr16, hrcalls, hrsz, _, hroth⟩ := remove_spec hwf hb
  set r := my_remove_from_free_list h b with hrdef
  have hrb : r.mem b = h.mem b := hrsz b hbm
  have hrem : (h.mem b + SIZE_MOD - size) % SIZE_MOD = h.mem b - size := by
    unfold SIZE_MOD at hbb ⊢
    omega
  have hsubE : ∀ a ∈ frees.erase b, a ∈ frees := fun a ha => List.mem_of_mem_erase ha
  have hlen : (frees.erase b).length < f := by
    rw [List.length_erase_of_mem hb]
    have : 0 < frees.length := List.length_pos_of_mem hb
    omega
  by_cases hsplit : 24 < h.mem b - size
  · -- split
    have hrem2 : (h.mem b - size + SIZE_MOD - 24) % SIZE_MOD = r.mem b - size - 24 := by
      rw [hrb]
      unfold SIZE_MOD at hbb ⊢
      omega
    obtain ⟨hswf, hsb, hsn, hs8, hs16, hsoth⟩ := @WF.split r _ _ b size hrwf
      (by rw [hrb]; exact hsplit)
    obtain ⟨h', hco, hcalls, hhead, hcoth, hcm, hcn⟩ :=
      coalesce_spec (f := f) hswf (by omega) hlen
    dsimp only at hcalls hcoth hcm hcn
    have hsucc : b + 24 + size + split_mem r.mem b size (b + 24 + size) + 24 =
        b + 24 + h.mem b := by
      rw [hsn, hrb]; omega
    rw [hsucc] at hcm hcn
    have hnb : b + 24 + h.mem b ≠ b := by omega
    have hmemE : b + 24 + h.mem b ∈ frees.erase b ↔ b + 24 + h.mem b ∈ frees :=
      List.mem_erase_of_ne hnb
    have hcb := hcoth b (List.mem_cons_self _ _)
    refine ⟨h', ?_, ?_, ?_, ?_, ?_, ?_, ?_⟩
    · unfold my_malloc_take
      simp only [sizeof_my_metadata_t, hrem, hsplit, gt_iff_lt, if_true, ← hrdef, hrem2]
      have : (store (store (store (store r.mem b size) (b + 24 + size) (r.mem b - size - 24))
          (b + 24 + size + 8) 0) (b + 24 + size + 16) 0) = split_mem r.mem b size := rfl
      rw [this, hco]
    · rw [hcalls]; exact hrcalls
    · rw [hcb.2.1, hs8]; exact hr8
    · rw [hcb.2.2, hs16]; exact hr16
    · intro a ha
      have h1 := hcoth a (List.mem_cons_of_mem _ ha)
      have h2 := hsoth a (List.mem_append_right _ ha)
      have h3 := hroth a ha
      exact ⟨by rw [h1.1, h2.1]; exact hrsz a (List.mem_append_right _ ha),
        by rw [h1.2.1, h2.2.1]; exact h3.1, by rw [h1.2.2, h2.2.2]; exact h3.2⟩
    · intro hc; omega
    · intro _
      refine ⟨by rw [hcb.1, hsb], hhead, ?_, ?_⟩
      · intro hn
        obtain ⟨w1, w2, w3⟩ := hcm (hmemE.mpr hn)
        refine ⟨w1, ?_, ?_⟩
        · rw [w2, hsn, hrb, (hsoth _ (List.mem_append_left _ (hmemE.mpr hn))).1]
          rw [hrsz _ (List.mem_append_left _ hn)]
        · intro a ha
          have ha1 : a ∈ frees.erase b := List.mem_of_mem_erase ha
          rw [w3 a ha, (hsoth a (List.mem_append_left _ ha1)).1]
          exact hrsz a (List.mem_append_left _ (hsubE a ha1))
      · intro hn
        obtain ⟨w1, w2, w3⟩ := hcn (fun hc => hn (hmemE.mp hc))
        refine ⟨w1, by rw [w2, hsn, hrb], ?_⟩
        intro a ha
        rw [w3 a ha, (hsoth a (List.mem_append_left _ ha)).1]
        exact hrsz a (List.mem_append_left _ (hsubE a ha))
  · -- the rest is too small for a header: the whole block is handed out
    refine ⟨r, ?_, hrcalls, hr8, hr16, ?_, ?_, ?_⟩
    · unfold my_malloc_take
      simp only [sizeof_my_metadata_t, hrem, hsplit, gt_iff_lt, if_false, ← hrdef]
    · intro a ha
      exact ⟨hrsz a (List.mem_append_right _ ha), hroth a ha⟩
    · intro _
      exact ⟨rfl, hrwf, hrb, fun a ha => hrsz a (List.mem_append_left _ (hsubE a ha))⟩
    · intro hc; exact absurd hc hsplit

theorem page_mem_other (m : Nat → Nat) (pg y : Nat) (h1 : y ≠ pg) (h2 : y ≠ pg + 8)
    (h3 : y ≠ pg + 16) : page_mem m pg y = m y := by
  unfold page_mem
  rw [store_other _ _ _ _ h3, store_other _ _ _ _ h2, store_other _ _ _ _ h1]

theorem WF.page {h : Heap} {frees others : List Nat} {pg : Nat} (hwf : WF h frees others)
    (hfresh : FreshPage h (frees ++ others) pg) :
    WF { h with mem := page_mem h.mem pg, mmap_calls := h.mmap_calls + 1 } frees
      (pg :: others) ∧
    page_mem h.mem pg pg = 4072 ∧
    (∀ a ∈ frees ++ others, page_mem h.mem pg a = h.mem a ∧
      page_mem h.mem pg (a + 8) = h.mem (a + 8) ∧
      page_mem h.mem pg (a + 16) = h.mem (a + 16)) := by
  obtain ⟨hpg0, hpgb, hpga⟩ := hfresh
  have hnd := hwf.nodup
  have hvp : page_mem h.mem pg pg = 4072 := by
    unfold page_mem
    rw [store_other _ _ _ _ (by omega), store_other _ _ _ _ (by omega), store_same]
  have hfar : ∀ a ∈ frees ++ others, a ≠ pg ∧ page_mem h.mem pg a = h.mem a ∧
      page_mem h.mem pg (a + 8) = h.mem (a + 8) ∧
      page_mem h.mem pg (a + 16) = h.mem (a + 16) := by
    intro a ha
    have := hpga a ha
    refine ⟨by omega, ?_, ?_, ?_⟩ <;> (apply page_mem_other <;> omega)
  refine ⟨hwf.reshape _ _ rfl ?_ ?_ ?_ ?_ ?_, hvp, fun a ha => (hfar a ha).2⟩
  · intro a ha
    exact (hfar a (List.mem_append_left _ ha)).2
  · refine List.nodup_cons.mpr ⟨?_, (List.nodup_append.mp hnd).2.1⟩
    intro hm
    exact (hfar pg (List.mem_append_right _ hm)).1 rfl
  · intro a ha hm
    rcases List.mem_cons.mp ha with rfl | ha
    · exact (hfar a (List.mem_append_left _ hm)).1 rfl
    · exact (List.nodup_append.mp hnd).2.2 hm ha
  · intro a ha c hc hac
    have hcase : ∀ y ∈ frees ++ pg :: others,
        (y = pg ∧ page_mem h.mem pg y = 4072) ∨
        (y ∈ frees ++ others ∧ page_mem h.mem pg y = h.mem y ∧
          (y + 24 + h.mem y ≤ pg ∨ pg + 4096 ≤ y)) := by
      intro y hy
      by_cases e : y = pg
      · exact Or.inl ⟨e, e ▸ hvp⟩
      · have hym : y ∈ frees ++ others := by
          simp only [List.mem_append, List.mem_cons] at hy ⊢
          tauto
        exact Or.inr ⟨hym, (hfar y hym).2.1, hpga y hym⟩
    unfold Apart
    show _ + _ + page_mem _ _ a ≤ _ ∨ _ + _ + page_mem _ _ c ≤ _
    rcases hcase a (List.mem_append_right _ ha) with ⟨e1, e2⟩ | ⟨e1, e2, e3⟩ <;>
      rcases hcase c hc with ⟨f1, f2⟩ | ⟨f1, f2, f3⟩ <;> rw [e2, f2]
    · omega
    · omega
    · omega
    · exact hwf.apart a e1 c f1 hac
  · intro a ha
    show _ + _ + page_mem _ _ a ≤ _
    rcases List.mem_cons.mp ha with rfl | ha
    · rw [hvp]; omega
    · rw [(hfar a (List.mem_append_right _ ha)).2.1]
      exact hwf.bound a (List.mem_append_right _ ha)

theorem grow_spec {env : Env} {h : Heap} {frees others : List Nat} {f : Nat}
    (hwf : WF h frees others)
    (hfresh : FreshPage h (frees ++ others) (env.mmap_from_system h.mmap_calls))
    (hf : frees.length < f) :
    ∃ h', my_malloc_grow env f h = .ok h' ∧ h'.mmap_calls = h.mmap_calls + 1 ∧
      h'.free_head = env.mmap_from_system h.mmap_calls ∧
      (∀ a ∈ others, h'.mem a = h.mem a ∧ h'.mem (a + 8) = h.mem (a + 8) ∧
        h'.mem (a + 16) = h.mem (a + 16)) ∧
      (env.mmap_from_system h.mmap_calls + 4096 ∈ frees →
        WF h' (env.mmap_from_system h.mmap_calls ::
          frees.erase (env.mmap_from_system h.mmap_calls + 4096)) others ∧
        h'.mem (env.mmap_from_system h.mmap_calls) =
          4072 + h.mem (env.mmap_from_system h.mmap_calls + 4096) + 24 ∧
        ∀ a ∈ frees.erase (env.mmap_from_system h.mmap_calls + 4096), h'.mem a = h.mem a) ∧
      (env.mmap_from_system h.mmap_calls + 4096 ∉ frees →
        WF h' (env.mmap_from_system h.mmap_calls :: frees) others ∧
        h'.mem (env.mmap_from_system h.mmap_calls) = 4072 ∧
        ∀ a ∈ frees, h'.mem a = h.mem a) := by
  obtain ⟨hpwf, hvp, hpoth⟩ := hwf.page hfresh
  obtain ⟨h', hco, hcalls, hhead, hcoth, hcm, hcn⟩ :=
    coalesce_spec (f := f) hpwf hfresh.1 hf
  dsimp only at hcalls hcoth hcm hcn
  have hsucc : env.mmap_from_system h.mmap_calls +
      page_mem h.mem (env.mmap_from_system h.mmap_calls) (env.mmap_from_system h.mmap_calls) +
      24 = env.mmap_from_system h.mmap_calls + 4096 := by
    rw [hvp]
  rw [hsucc] at hcm hcn
  have hsubE : ∀ a ∈ frees.erase (env.mmap_from_system h.mmap_calls + 4096), a ∈ frees :=
    fun a ha => List.mem_of_mem_erase ha
  refine ⟨h', ?_, hcalls, hhead, ?_, ?_, ?_⟩
  · unfold my_malloc_grow
    have e : (4096 + SIZE_MOD - sizeof_my_metadata_t) % SIZE_MOD = 4072 := by
      unfold SIZE_MOD sizeof_my_metadata_t; norm_num
    simp only [e]
    exact hco
  · intro a ha
    have h1 := hcoth a ha
    have h2 := hpoth a (List.mem_append_right _ ha)
    exact ⟨by rw [h1.1, h2.1], by rw [h1.2.1, h2.2.1], by rw [h1.2.2, h2.2.2]⟩
  · intro hn
    obtain ⟨w1, w2, w3⟩ := hcm hn
    refine ⟨w1, by rw [w2, hvp, (hpoth _ (List.mem_append_left _ hn)).1], ?_⟩
    intro a ha
    rw [w3 a ha, (hpoth a (List.mem_append_left _ (hsubE a ha))).1]
  · intro hn
    obtain ⟨w1, w2, w3⟩ := hcn hn
    refine ⟨w1, by rw [w2, hvp], ?_⟩
    intro a ha
    rw [w3 a ha, (hpoth a (List.mem_append_left _ ha)).1]

theorem WF.perm_others {h : Heap} {frees others others' : List Nat} (hwf : WF h frees others)
    (hp : others.Perm others') : WF h frees others' := by
  have hmem : ∀ a, a ∈ frees ++ others' ↔ a ∈ frees ++ others := by
    intro a
    simp only [List.mem_append, hp.mem_iff]
  refine ⟨hwf.chain, hwf.prev, ?_, ?_, ?_⟩
  · exact (List.Perm.append_left frees hp).nodup_iff.mp hwf.nodup
  · intro a ha c hc hac
    exact hwf.apart a ((hmem a).mp ha) c ((hmem c).mp hc) hac
  · intro a ha
    exact hwf.bound a ((hmem a).mp ha)

/-- Summary of `my_coalesce` on a detached block. -/
theorem coalesce_sum {h : Heap} {frees others : List Nat} {b f : Nat}
    (hwf : WF h frees (b :: others)) (hb0 : b ≠ 0) (hf : frees.length < f) :
    ∃ h' frees', my_coalesce f h b = .ok h' ∧ WF h' (b :: frees') others ∧
      h'.mmap_calls = h.mmap_calls ∧ h'.free_head = b ∧
      (∀ a ∈ others, h'.mem a = h.mem a ∧ h'.mem (a + 8) = h.mem (a + 8) ∧
        h'.mem (a + 16) = h.mem (a + 16)) ∧
      (∀ x, Covers h'.mem (b :: frees') x → Covers h.mem (b :: frees) x) ∧
      frees'.length ≤ frees.length ∧ h.mem b ≤ h'.mem b ∧
      (∀ a ∈ frees, ∃ c ∈ b :: frees', h.mem a ≤ h'.mem c) := by
  obtain ⟨h', hco, hcalls, hhead, hoth, hm, hn⟩ := coalesce_spec hwf hb0 hf
  by_cases hmem : b + h.mem b + 24 ∈ frees
  · obtain ⟨w1, w2, w3⟩ := hm hmem
    refine ⟨h', _, hco, w1, hcalls, hhead, hoth, ?_, ?_, ?_, ?_⟩
    · rintro x ⟨a, ha, hx1, hx2⟩
      rcases List.mem_cons.mp ha with rfl | ha
      · rw [w2] at hx2
        by_cases hlt : x < a + h.mem a + 24
        · exact ⟨a, List.mem_cons_self _ _, hx1, by omega⟩
        · exact ⟨_, List.mem_cons_of_mem _ hmem, by omega, by omega⟩
      · rw [w3 a ha] at hx2
        exact ⟨a, List.mem_cons_of_mem _ (List.mem_of_mem_erase ha), hx1, hx2⟩
    · rw [List.length_erase_of_mem hmem]; omega
    · rw [w2]; omega
    · intro a ha
      by_cases e : a = b + h.mem b + 24
      · exact ⟨b, List.mem_cons_self _ _, by rw [w2, e]; omega⟩
      · have : a ∈ frees.erase (b + h.mem b + 24) := (List.mem_erase_of_ne e).mpr ha
        exact ⟨a, List.mem_cons_of_mem _ this, by rw [w3 a this]⟩
  · obtain ⟨w1, w2, w3⟩ := hn hmem
    refine ⟨h', _, hco, w1, hcalls, hhead, hoth, ?_, le_refl _, by rw [w2], ?_⟩
    · rintro x ⟨a, ha, hx1, hx2⟩
      rcases List.mem_cons.mp ha with rfl | ha
      · rw [w2] at hx2
        exact ⟨a, List.mem_cons_self _ _, hx1, hx2⟩
      · rw [w3 a ha] at hx2
        exact ⟨a, List.mem_cons_of_mem _ ha, hx1, hx2⟩
    · intro a ha
      exact ⟨a, List.mem_cons_of_mem _ ha, by rw [w3 a ha]⟩

/-- Summary of `my_free` on the payload address of an allocated block. -/
theorem free_sum {h : Heap} {frees others : List Nat} {b f : Nat}
    (hwf : WF h frees others) (hb : b ∈ others) (hb0 : b ≠ 0) (hf : frees.length < f) :
    ∃ h' frees', my_free f h (b + 24) = .ok h' ∧ WF h' (b :: frees') (others.erase b) ∧
      h'.mmap_calls = h.mmap_calls ∧ h'.free_head = b ∧
      (∀ a ∈ others.erase b, h'.mem a = h.mem a ∧ h'.mem (a + 8) = h.mem (a + 8) ∧
        h'.mem (a + 16) = h.mem (a + 16)) ∧
      (∀ x, Covers h'.mem (b :: frees') x → Covers h.mem (b :: frees) x) ∧
      frees'.length ≤ frees.length ∧ h.mem b ≤ h'.mem b ∧
      (∀ a ∈ frees, ∃ c ∈ b :: frees', h.mem a ≤ h'.mem c) := by
  have hperm : others.Perm (b :: others.erase b) := List.perm_cons_erase hb
  have hwf1 := hwf.perm_others hperm
  obtain ⟨hwf2, hsz2, hlk2, _, _⟩ := hwf1.clear_links (List.mem_cons_self b _)
  obtain ⟨h', frees', hco, hwf3, hcalls, hhead, hoth, hcov, hlen, hsz, hfit⟩ :=
    coalesce_sum (f := f) hwf2 hb0 hf
  dsimp only at hcalls hoth hcov hsz hfit
  have hbO : b ∉ others.erase b := by
    have := (List.nodup_append.mp hwf1.nodup).2.1
    exact (List.nodup_cons.mp this).1
  have hszb : store (store h.mem (b + 8) 0) (b + 16) 0 b = h.mem b := hsz2 b (by simp)
  refine ⟨h', frees', ?_, hwf3, hcalls, hhead, ?_, ?_, hlen, ?_, ?_⟩
  · unfold my_free
    simp only [sizeof_my_metadata_t, Nat.add_sub_cancel]
    exact hco
  · intro a ha
    have hab : a ≠ b := fun e => hbO (e ▸ ha)
    have h1 := hoth a ha
    have h2 := hlk2 a (by simp [ha]) hab
    exact ⟨by rw [h1.1, hsz2 a (by simp [ha])], by rw [h1.2.1, h2.1], by rw [h1.2.2, h2.2]⟩
  · intro x hx
    obtain ⟨a, ha, hx1, hx2⟩ := hcov x hx
    refine ⟨a, ha, hx1, ?_⟩
    rw [hsz2 a (by
      simp only [List.mem_append, List.mem_cons] at ha ⊢
      tauto)] at hx2
    exact hx2
  · rw [← hszb]; exact hsz
  · intro a ha
    obtain ⟨c, hc, hle⟩ := hfit a ha
    exact ⟨c, hc, by rw [← hsz2 a (by simp [ha])]; exact hle⟩

/-- Summary of the part of `my_malloc` that takes the chosen block. -/
theorem take_sum {h : Heap} {frees others : List Nat} {b size f : Nat}
    (hwf : WF h frees others) (hb : b ∈ frees) (hsz : size ≤ h.mem b)
    (hf : frees.length ≤ f) :
    ∃ h' frees', my_malloc_take f h b size = .ok (b + 24, h') ∧
      WF h' frees' (b :: others) ∧ h'.mmap_calls = h.mmap_calls ∧
      size ≤ h'.mem b ∧ h'.mem b ≤ h.mem b ∧ h'.mem (b + 8) = 0 ∧ h'.mem (b + 16) = 0 ∧
      (∀ a ∈ others, h'.mem a = h.mem a ∧ h'.mem (a + 8) = h.mem (a + 8) ∧
        h'.mem (a + 16) = h.mem (a + 16)) ∧
      (∀ x, Covers h'.mem (b :: frees') x → Covers h.mem frees x) ∧
      frees'.length ≤ frees.length := by
  obtain ⟨h', hres, hcalls, h8, h16, hoth, hns, hs⟩ := take_spec hwf hb hsz hf
  have hlenE : (frees.erase b).length + 1 = frees.length := by
    rw [List.length_erase_of_mem hb]
    have : 0 < frees.length := List.length_pos_of_mem hb
    omega
  by_cases hsplit : 24 < h.mem b - size
  · obtain ⟨hb', _, hm, hn⟩ := hs hsplit
    have hnb : b + 24 + h.mem b ≠ b := by omega
    by_cases hmem : b + 24 + h.mem b ∈ frees
    · obtain ⟨w1, w2, w3⟩ := hm hmem
      have hmemE : b + 24 + h.mem b ∈ frees.erase b := (List.mem_erase_of_ne hnb).mpr hmem
      refine ⟨h', _, hres, w1, hcalls, by rw [hb'], by rw [hb']; exact hsz, h8, h16, hoth,
        ?_, ?_⟩
      · rintro x ⟨a, ha, hx1, hx2⟩
        rcases List.mem_cons.mp ha with rfl | ha
        · rw [hb'] at hx2
          exact ⟨a, hb, hx1, by omega⟩
        · rcases List.mem_cons.mp ha with rfl | ha
          · rw [w2] at hx2
            by_cases hlt : x < b + 24 + h.mem b
            · exact ⟨b, hb, by omega, hlt⟩
            · exact ⟨_, hmem, by omega, by omega⟩
          · rw [w3 a ha] at hx2
            exact ⟨a, List.mem_of_mem_erase (List.mem_of_mem_erase ha), hx1, hx2⟩
      · rw [List.length_cons, List.length_erase_of_mem hmemE]
        omega
    · obtain ⟨w1, w2, w3⟩ := hn hmem
      refine ⟨h', _, hres, w1, hcalls, by rw [hb'], by rw [hb']; exact hsz, h8, h16, hoth,
        ?_, ?_⟩
      · rintro x ⟨a, ha, hx1, hx2⟩
        rcases List.mem_cons.mp ha with rfl | ha
        · rw [hb'] at hx2
          exact ⟨a, hb, hx1, by omega⟩
        · rcases List.mem_cons.mp ha with rfl | ha
          · rw [w2] at hx2
            exact ⟨b, hb, by omega, by omega⟩
          · rw [w3 a ha] at hx2
            exact ⟨a, List.mem_of_mem_erase ha, hx1, hx2⟩
      · rw [List.length_cons]; omega
  · obtain ⟨_, w1, w2, w3⟩ := hns (by omega)
    refine ⟨h', _, hres, w1, hcalls, by rw [w2]; exact hsz, by rw [w2], h8, h16, hoth, ?_, ?_⟩
    · rintro x ⟨a, ha, hx1, hx2⟩
      rcases List.mem_cons.mp ha with rfl | ha
      · rw [w2] at hx2
        exact ⟨a, hb, hx1, hx2⟩
      · rw [w3 a ha] at hx2
        exact ⟨a, List.mem_of_mem_erase ha, hx1, hx2⟩
    · omega

/-- Summary of the page-acquisition branch of `my_malloc`. -/
theorem grow_sum {env : Env} {h : Heap} {frees others : List Nat} {f : Nat}
    (hwf : WF h frees others)
    (hfresh : FreshPage h (frees ++ others) (env.mmap_from_system h.mmap_calls))
    (hf : frees.length < f) :
    ∃ h' frees', my_malloc_grow env f h = .ok h' ∧
      WF h' (env.mmap_from_system h.mmap_calls :: frees') others ∧
      h'.mmap_calls = h.mmap_calls + 1 ∧
      (∀ a ∈ others, h'.mem a = h.mem a ∧ h'.mem (a + 8) = h.mem (a + 8) ∧
        h'.mem (a + 16) = h.mem (a + 16)) ∧
      (∀ x, Covers h'.mem (env.mmap_from_system h.mmap_calls :: frees') x →
        Covers h.mem frees x ∨ (env.mmap_from_system h.mmap_calls ≤ x ∧
          x < env.mmap_from_system h.mmap_calls + 4096)) ∧
      frees'.length ≤ frees.length ∧ 4072 ≤ h'.mem (env.mmap_from_system h.mmap_calls) ∧
      (∀ a ∈ frees', a ∈ frees ∧ h'.mem a = h.mem a) := by
  obtain ⟨h', hres, hcalls, _, hoth, hm, hn⟩ := grow_spec hwf hfresh hf
  by_cases hmem : env.mmap_from_system h.mmap_calls + 4096 ∈ frees
  · obtain ⟨w1, w2, w3⟩ := hm hmem
    refine ⟨h', _, hres, w1, hcalls, hoth, ?_, ?_, by rw [w2]; omega, ?_⟩
    · rintro x ⟨a, ha, hx1, hx2⟩
      rcases List.mem_cons.mp ha with rfl | ha
      · rw [w2] at hx2
        by_cases hlt : x < env.mmap_from_system h.mmap_calls + 4096
        · exact Or.inr ⟨hx1, hlt⟩
        · exact Or.inl ⟨_, hmem, by omega, by omega⟩
      · rw [w3 a ha] at hx2
        exact Or.inl ⟨a, List.mem_of_mem_erase ha, hx1, hx2⟩
    · rw [List.length_erase_of_mem hmem]; omega
    · intro a ha
      exact ⟨List.mem_of_mem_erase ha, w3 a ha⟩
  · obtain ⟨w1, w2, w3⟩ := hn hmem
    refine ⟨h', _, hres, w1, hcalls, hoth, ?_, le_refl _, by rw [w2], ?_⟩
    · rintro x ⟨a, ha, hx1, hx2⟩
      rcases List.mem_cons.mp ha with rfl | ha
      · rw [w2] at hx2
        exact Or.inr ⟨hx1, by omega⟩
      · rw [w3 a ha] at hx2
        exact Or.inl ⟨a, ha, hx1, hx2⟩
    · intro a ha
      exact ⟨ha, w3 a ha⟩

/-- How `my_malloc` unfolds on a well-formed heap: either the best-fit search
succeeds at once, or it fails, one page is registered and the search in the
new heap succeeds. -/
theorem malloc_eq {env : Env} {h : Heap} {frees others : List Nat} {size f : Nat}
    (hwf : WF h frees others)
    (hfresh : FreshPage h (frees ++ others) (env.mmap_from_system h.mmap_calls))
    (hsize : size ≤ 4072) (hf : frees.length + 1 < f) (d : Nat) :
    (bestOf h.mem size frees 0 ≠ 0 ∧
      best_fit_scan f h.mem size h.free_head 0 = .ok (bestOf h.mem size frees 0) ∧
      my_malloc env (d + 1) f h size =
        my_malloc_take f h (bestOf h.mem size frees 0) size) ∨
    (bestOf h.mem size frees 0 = 0 ∧
      best_fit_scan f h.mem size h.free_head 0 = .ok 0 ∧
      ∃ h0 frees0, my_malloc_grow env f h = .ok h0 ∧
        WF h0 (env.mmap_from_system h.mmap_calls :: frees0) others ∧
        h0.mmap_calls = h.mmap_calls + 1 ∧
        (∀ a ∈ others, h0.mem a = h.mem a ∧ h0.mem (a + 8) = h.mem (a + 8) ∧
          h0.mem (a + 16) = h.mem (a + 16)) ∧
        (∀ x, Covers h0.mem (env.mmap_from_system h.mmap_calls :: frees0) x →
          Covers h.mem frees x ∨ (env.mmap_from_system h.mmap_calls ≤ x ∧
            x < env.mmap_from_system h.mmap_calls + 4096)) ∧
        frees0.length ≤ frees.length ∧
        bestOf h0.mem size (env.mmap_from_system h.mmap_calls :: frees0) 0 ≠ 0 ∧
        best_fit_scan f h0.mem size h0.free_head 0 =
          .ok (bestOf h0.mem size (env.mmap_from_system h.mmap_calls :: frees0) 0) ∧
        my_malloc env (d + 2) f h size =
          my_malloc_take f h0
            (bestOf h0.mem size (env.mmap_from_system h.mmap_calls :: frees0) 0) size) := by
  have hscan := best_fit_scan_eq size frees h.free_head 0 f hwf.chain (by omega)
  by_cases hb : bestOf h.mem size frees 0 = 0
  · right
    obtain ⟨h0, frees0, hgrow, hwf0, hcalls0, hoth0, hcov0, hlen, hpg, _⟩ :=
      grow_sum (f := f) hwf hfresh (by omega)
    have hscan0 := best_fit_scan_eq size _ h0.free_head 0 f hwf0.chain
      (by rw [List.length_cons]; omega)
    have hb0 : bestOf h0.mem size (env.mmap_from_system h.mmap_calls :: frees0) 0 ≠ 0 := by
      intro e
      have := bestOf_eq_zero hwf0.mem_ne_zero e _ (List.mem_cons_self _ _)
      omega
    refine ⟨hb, by rw [hscan, hb], h0, frees0, hgrow, hwf0, hcalls0, hoth0, hcov0, hlen,
      hb0, hscan0, ?_⟩
    rw [my_malloc, hscan, hb]
    simp only [if_true, hgrow]
    rw [my_malloc, hscan0]
    simp only [hb0, if_false]
  · left
    refine ⟨hb, hscan, ?_⟩
    rw [my_malloc, hscan]
    simp only [hb, if_false]

/-- Summary of `my_malloc` on a well-formed heap with a fresh next page: with
recursion depth two it returns the payload of a block `b` that is now
allocated. -/
theorem malloc_sum {env : Env} {h : Heap} {frees others : List Nat} {size f : Nat}
    (hwf : WF h frees others)
    (hfresh : FreshPage h (frees ++ others) (env.mmap_from_system h.mmap_calls))
    (hsize : size ≤ 4072) (hf : frees.length + 1 < f) (d : Nat) :
    ∃ b h' frees', my_malloc env (d + 2) f h size = .ok (b + 24, h') ∧
      WF h' frees' (b :: others) ∧ b ≠ 0 ∧ size ≤ h'.mem b ∧
      h'.mem (b + 8) = 0 ∧ h'.mem (b + 16) = 0 ∧
      (∀ a ∈ others, h'.mem a = h.mem a ∧ h'.mem (a + 8) = h.mem (a + 8) ∧
        h'.mem (a + 16) = h.mem (a + 16)) ∧
      (h'.mmap_calls = h.mmap_calls ∨ h'.mmap_calls = h.mmap_calls + 1) ∧
      (∀ x, Covers h'.mem (b :: frees') x → Covers h.mem frees x ∨
        (h'.mmap_calls = h.mmap_calls + 1 ∧ env.mmap_from_system h.mmap_calls ≤ x ∧
          x < env.mmap_from_system h.mmap_calls + 4096)) ∧
      frees'.length ≤ frees.length + 1 ∧
      ((∃ a ∈ frees, size ≤ h.mem a) → h'.mmap_calls = h.mmap_calls) := by
  rcases malloc_eq hwf hfresh hsize hf (d + 1) with ⟨hb, _, heq⟩ | ⟨hb, _, _⟩
  · obtain ⟨hbm, hbs, _, _⟩ := bestOf_ne_zero hwf.mem_ne_zero hb
    obtain ⟨h', frees', hres, hwf', hcalls, hs1, _, h8, h16, hoth, hcov, hlen⟩ :=
      take_sum (f := f) hwf hbm hbs (by omega)
    refine ⟨_, h', frees', by rw [heq, hres], hwf', hb, hs1, h8, h16, hoth, Or.inl hcalls,
      fun x hx => Or.inl (hcov x hx), by omega, fun _ => hcalls⟩
  · have heq := (malloc_eq hwf hfresh hsize hf d).resolve_left (fun hh => hh.1 hb)
    obtain ⟨_, _, h1, frees1, _, hwf1, hcalls1, hoth1, hcov1, hlen1, hb1, _, hm1⟩ := heq
    obtain ⟨hbm, hbs, _, _⟩ := bestOf_ne_zero hwf1.mem_ne_zero hb1
    obtain ⟨h', frees', hres, hwf', hcalls, hs1, _, h8, h16, hoth, hcov, hlen⟩ :=
      take_sum (f := f) hwf1 hbm hbs (by rw [List.length_cons]; omega)
    refine ⟨_, h', frees', by rw [hm1, hres], hwf', hb1, hs1, h8, h16, ?_,
      Or.inr (by rw [hcalls, hcalls1]), ?_, ?_, ?_⟩
    · intro a ha
      have w1 := hoth a ha
      have w2 := hoth1 a ha
      exact ⟨by rw [w1.1, w2.1], by rw [w1.2.1, w2.2.1], by rw [w1.2.2, w2.2.2]⟩
    · intro x hx
      rcases hcov1 x (hcov x hx) with hc | hc
      · exact Or.inl hc
      · exact Or.inr ⟨by rw [hcalls, hcalls1], hc⟩
    · rw [List.length_cons] at hlen; omega
    · rintro ⟨a, ha, hfit⟩
      have := bestOf_eq_zero hwf.mem_ne_zero hb a ha
      omega

theorem WF.frame {h : Heap} {frees others : List Nat} (hwf : WF h frees others) (h' : Heap)
    (hhead : h'.free_head = h.free_head)
    (hm : ∀ a ∈ frees ++ others, h'.mem a = h.mem a ∧ h'.mem (a + 8) = h.mem (a + 8) ∧
      h'.mem (a + 16) = h.mem (a + 16)) : WF h' frees others := by
  refine hwf.reshape h' others hhead (fun a ha => hm a (List.mem_append_left _ ha))
    (List.nodup_append.mp hwf.nodup).2.1 ?_ ?_ ?_
  · intro a ha hf
    exact (List.nodup_append.mp hwf.nodup).2.2 hf ha
  · intro a ha c hc hac
    have := hwf.apart a (List.mem_append_right _ ha) c hc hac
    unfold Apart at this ⊢
    rw [(hm a (List.mem_append_right _ ha)).1, (hm c hc).1]
    exact this
  · intro a ha
    rw [(hm a (List.mem_append_right _ ha)).1]
    exact hwf.bound a (List.mem_append_right _ ha)

theorem Covers_congr {m m' : Nat → Nat} {L : List Nat} (hm : ∀ a ∈ L, m' a = m a) (x : Nat) :
    Covers m' L x ↔ Covers m L x := by
  constructor
  · rintro ⟨a, ha, h1, h2⟩
    exact ⟨a, ha, h1, by rw [← hm a ha]; exact h2⟩
  · rintro ⟨a, ha, h1, h2⟩
    exact ⟨a, ha, h1, by rw [hm a ha]; exact h2⟩

theorem Owned.mono {env : Env} {k k' x : Nat} (hk : k ≤ k') (h : Owned env k x) :
    Owned env k' x := by
  rcases h with h | ⟨i, hi, h⟩
  · exact Or.inl h
  · exact Or.inr ⟨i, by omega, h⟩

/-- The next page of a fresh page source is fresh for the heap. -/
theorem Inv.fresh {env : Env} {st : State} {frees : List Nat} {n : Nat}
    (hsrc : FreshSrc env n) (hk : st.heap.mmap_calls < n) (hinv : Inv env st frees) :
    FreshPage st.heap (frees ++ st.live.map (fun pl => pl.1 - 24))
      (env.mmap_from_system st.heap.mmap_calls) := by
  obtain ⟨_, _, hpages⟩ := hsrc
  obtain ⟨hp0, hpb, hpd, hpp⟩ := hpages st.heap.mmap_calls hk
  refine ⟨hp0, hpb, ?_⟩
  intro a ha
  by_contra hcon
  have hcov : ∀ x, a ≤ x → x < a + 24 + st.heap.mem a → Owned env st.heap.mmap_calls x :=
    fun x h1 h2 => hinv.owned x ⟨a, ha, h1, h2⟩
  by_cases hle : a ≤ env.mmap_from_system st.heap.mmap_calls
  · rcases hcov (env.mmap_from_system st.heap.mmap_calls) hle (by omega) with h | ⟨i, hi, h⟩
    · omega
    · have := hpp i hi
      omega
  · rcases hcov a (le_refl _) (by omega) with h | ⟨i, hi, h⟩
    · omega
    · have := hpp i hi
      omega

theorem inv_init {env : Env} {n : Nat} (hsrc : FreshSrc env n) (h0 : Heap) :
    Inv env (init_state env h0) [env.dummy] := by
  obtain ⟨hd0, hdb, _⟩ := hsrc
  have e0 : ( my_initialize env.dummy h0).mem env.dummy = 0 := by
    unfold my_initialize
    show store _ _ _ _ = 0
    rw [store_other _ _ _ _ (by omega), store_other _ _ _ _ (by omega), store_same]
  have e8 : ( my_initialize env.dummy h0).mem (env.dummy + 8) = 0 := by
    unfold my_initialize
    show store _ _ _ _ = 0
    rw [store_other _ _ _ _ (by omega), store_same]
  have e16 : ( my_initialize env.dummy h0).mem (env.dummy + 16) = 0 := by
    unfold my_initialize
    show store _ _ _ _ = 0
    rw [store_same]
  refine ⟨⟨?_, ?_, ?_, ?_, ?_⟩, ?_, ?_⟩
  · exact ⟨rfl, hd0, e8⟩
  · exact ⟨e16, trivial⟩
  · simp [init_state]
  · intro a ha c hc hac
    simp only [init_state, List.map_nil, List.append_nil, List.mem_singleton] at ha hc
    exact absurd (ha.trans hc.symm) hac
  · intro a ha
    simp only [init_state, List.map_nil, List.append_nil, List.mem_singleton] at ha
    subst ha
    show _ + _ + ( my_initialize env.dummy h0).mem env.dummy ≤ _
    rw [e0]; omega
  · intro pl hpl
    simp [init_state] at hpl
  · rintro x ⟨a, ha, h1, h2⟩
    simp only [init_state, List.map_nil, List.append_nil, List.mem_singleton] at ha
    subst ha
    change x < _ + _ + ( my_initialize env.dummy h0).mem env.dummy at h2
    rw [e0] at h2
    exact Or.inl ⟨h1, by omega⟩

theorem inv_malloc {env : Env} {st : State} {frees : List Nat} {size f : Nat}
    {n : Nat} (hsrc : FreshSrc env n) (hk : st.heap.mmap_calls < n) (hinv : Inv env st frees)
    (hsz : 8 ≤ size ∧ size ≤ 4000 ∧ size % 8 = 0) (hf : frees.length + 1 < f) :
    ∃ st' frees', step env f st (.malloc size) = .ok st' ∧ Inv env st' frees' ∧
      frees'.length ≤ frees.length + 1 ∧ st'.heap.mmap_calls ≤ st.heap.mmap_calls + 1 := by
  obtain ⟨b, h', frees', hres, hwf', hb0, hs1, _, _, hoth, hcalls, hcov, hlen, _⟩ :=
    malloc_sum (f := f) hinv.wf (hinv.fresh hsrc hk) (by omega : size ≤ 4072) hf
      (f - 2)
  have e : f - 2 + 2 = f := by omega
  rw [e] at hres
  refine ⟨{ heap := h', live := (b + 24, size) :: st.live }, frees', ?_, ⟨?_, ?_, ?_⟩, hlen,
    by show h'.mmap_calls ≤ _; omega⟩
  · simp only [step, hsz, and_self, if_true, hres]
  · simpa using hwf'
  · intro pl hpl
    rcases List.mem_cons.mp hpl with rfl | hpl
    · exact ⟨by show 24 < b + 24; omega, by simpa using hs1⟩
    · have := hinv.live_ok pl hpl
      refine ⟨this.1, ?_⟩
      show _ ≤ h'.mem _
      rw [(hoth _ (List.mem_map.mpr ⟨pl, hpl, rfl⟩)).1]
      exact this.2
  · rintro x ⟨a, ha, h1, h2⟩
    have hk : st.heap.mmap_calls ≤ h'.mmap_calls := by omega
    simp only [List.map_cons, Nat.add_sub_cancel, List.mem_append, List.mem_cons] at ha
    have hnew : Covers h'.mem (b :: frees') x → Owned env h'.mmap_calls x := by
      intro hc
      rcases hcov x hc with ⟨c, hc, w1, w2⟩ | ⟨w0, w1, w2⟩
      · exact (hinv.owned x ⟨c, List.mem_append_left _ hc, w1, w2⟩).mono hk
      · exact Or.inr ⟨st.heap.mmap_calls, by omega, w1, w2⟩
    rcases ha with ha | ha | ha
    · exact hnew ⟨a, List.mem_cons_of_mem _ ha, h1, h2⟩
    · exact hnew ⟨a, ha ▸ List.mem_cons_self _ _, h1, h2⟩
    · have h2' : x < a + 24 + h'.mem a := h2
      rw [(hoth a ha).1] at h2'
      exact (hinv.owned x ⟨a, List.mem_append_right _ ha, h1, h2'⟩).mono hk

theorem perm_cons_erase_live {pl : Nat × Nat} : ∀ {l : List (Nat × Nat)}, pl ∈ l →
    l.Perm (pl :: l.erase pl)
  | [], h => by simp at h
  | x :: xs, h => by
    by_cases e : x = pl
    · subst e
      rw [List.erase_cons_head]
    · have hm : pl ∈ xs := by
        rcases List.mem_cons.mp h with h1 | h1
        · exact absurd h1.symm e
        · exact h1
      rw [List.erase_cons_tail (by simpa using e)]
      exact ((perm_cons_erase_live hm).cons x).trans (List.Perm.swap pl x _)

theorem inv_free {env : Env} {st : State} {frees : List Nat} {pl : Nat × Nat} {f : Nat}
    (hinv : Inv env st frees) (hpl : pl ∈ st.live) (hf : frees.length < f) :
    ∃ h' frees', my_free f st.heap pl.1 = .ok h' ∧
      Inv env { heap := h', live := st.live.erase pl } frees' ∧
      frees'.length ≤ frees.length + 1 ∧ h'.mmap_calls = st.heap.mmap_calls ∧
      (∀ t, Fits st frees t → Fits { heap := h', live := st.live.erase pl } frees' t) := by
  have hlo := hinv.live_ok pl hpl
  have hbm : pl.1 - 24 ∈ st.live.map (fun pl => pl.1 - 24) := List.mem_map.mpr ⟨pl, hpl, rfl⟩
  obtain ⟨h', frees', hres, hwf', hcalls, _, hoth, hcov, hlen, hgrow, hfit⟩ :=
    free_sum (f := f) hinv.wf hbm (by omega) hf
  have e : pl.1 - 24 + 24 = pl.1 := by omega
  rw [e] at hres
  have hperm : ((st.live.erase pl).map (fun pl => pl.1 - 24)).Perm
      ((st.live.map (fun pl => pl.1 - 24)).erase (pl.1 - 24)) := by
    have p1 : (st.live.map (fun pl => pl.1 - 24)).Perm
        ((pl.1 - 24) :: (st.live.erase pl).map (fun pl => pl.1 - 24)) := by
      have := (perm_cons_erase_live hpl).map (fun pl : Nat × Nat => pl.1 - 24)
      rwa [List.map_cons] at this
    have p2 := List.perm_cons_erase hbm
    exact (List.Perm.cons_inv (p1.symm.trans p2))
  refine ⟨h', (pl.1 - 24) :: frees', hres, ⟨hwf'.perm_others hperm.symm, ?_, ?_⟩, by
    simp only [List.length_cons]; omega, hcalls, ?_⟩
  · intro ql hql
    have hql' : ql ∈ st.live := List.mem_of_mem_erase hql
    have := hinv.live_ok ql hql'
    refine ⟨this.1, ?_⟩
    show _ ≤ h'.mem _
    have hm : ql.1 - 24 ∈ (st.live.map (fun pl => pl.1 - 24)).erase (pl.1 - 24) :=
      hperm.mem_iff.mp (List.mem_map.mpr ⟨ql, hql, rfl⟩)
    rw [(hoth _ hm).1]
    exact this.2
  · rintro x ⟨a, ha, h1, h2⟩
    show Owned env h'.mmap_calls x
    rw [hcalls]
    rcases List.mem_append.mp ha with ha | ha
    · obtain ⟨c, hc, w1, w2⟩ := hcov x ⟨a, ha, h1, h2⟩
      refine hinv.owned x ⟨c, ?_, w1, w2⟩
      rcases List.mem_cons.mp hc with rfl | hc
      · exact List.mem_append_right _ hbm
      · exact List.mem_append_left _ hc
    · have hm : a ∈ (st.live.map (fun pl => pl.1 - 24)).erase (pl.1 - 24) :=
        hperm.mem_iff.mp ha
      have h2' : x < a + 24 + h'.mem a := h2
      rw [(hoth a hm).1] at h2'
      exact hinv.owned x ⟨a, List.mem_append_right _ (List.mem_of_mem_erase hm), h1, h2'⟩

  · intro t ht
    rcases ht with ⟨ql, hql, hle⟩ | ⟨a, ha, hle⟩
    · by_cases e1 : ql.1 - 24 = pl.1 - 24
      · right
        refine ⟨pl.1 - 24, List.mem_cons_self _ _, ?_⟩
        rw [e1] at hle
        exact le_trans hle hgrow
      · left
        have hne : ql ≠ pl := fun e2 => e1 (by rw [e2])
        have hql' : ql ∈ st.live.erase pl := (List.mem_erase_of_ne hne).mpr hql
        refine ⟨ql, hql', ?_⟩
        have hm : ql.1 - 24 ∈ (st.live.map (fun pl => pl.1 - 24)).erase (pl.1 - 24) :=
          (List.mem_erase_of_ne e1).mpr (List.mem_map.mpr ⟨ql, hql, rfl⟩)
        show t ≤ h'.mem (ql.1 - 24)
        rw [(hoth _ hm).1]
        exact hle
    · right
      obtain ⟨c, hc, hle2⟩ := hfit a ha
      exact ⟨c, hc, le_trans hle hle2⟩

theorem inv_write {env : Env} {st : State} {frees : List Nat} {addr val : Nat}
    (hinv : Inv env st frees)
    (hin : ∃ pl ∈ st.live, pl.1 ≤ addr ∧ addr + 8 ≤ pl.1 + pl.2) :
    Inv env { st with heap := { st.heap with mem := store st.heap.mem addr val } } frees := by
  obtain ⟨pl, hpl, hlo, hhi⟩ := hin
  have hl := hinv.live_ok pl hpl
  have hbm : pl.1 - 24 ∈ frees ++ st.live.map (fun pl => pl.1 - 24) :=
    List.mem_append_right _ (List.mem_map.mpr ⟨pl, hpl, rfl⟩)
  have hsame : ∀ a ∈ frees ++ st.live.map (fun pl => pl.1 - 24),
      store st.heap.mem addr val a = st.heap.mem a ∧
      store st.heap.mem addr val (a + 8) = st.heap.mem (a + 8) ∧
      store st.heap.mem addr val (a + 16) = st.heap.mem (a + 16) := by
    intro a ha
    by_cases e : a = pl.1 - 24
    · refine ⟨?_, ?_, ?_⟩ <;> (apply store_other; omega)
    · have := hinv.wf.apart a ha _ hbm e
      unfold Apart at this
      refine ⟨?_, ?_, ?_⟩ <;> (apply store_other; omega)
  refine ⟨hinv.wf.frame _ rfl hsame, ?_, ?_⟩
  · intro ql hql
    have := hinv.live_ok ql hql
    refine ⟨this.1, ?_⟩
    show _ ≤ store st.heap.mem addr val _
    rw [(hsame _ (List.mem_append_right _ (List.mem_map.mpr ⟨ql, hql, rfl⟩))).1]
    exact this.2
  · intro x hx
    exact hinv.owned x ((Covers_congr (fun a ha => (hsame a ha).1) x).mp hx)

/-- One request on a state that satisfies the invariant: the contract is
broken, or the request succeeds and the invariant holds again. -/
theorem inv_step {env : Env} {st : State} {frees : List Nat} {f : Nat}
    {n : Nat} (hsrc : FreshSrc env n) (hk : st.heap.mmap_calls < n) (hinv : Inv env st frees)
    (hf : frees.length + 1 < f) (op : Op) :
    step env f st op = .error .contract ∨
    ∃ st' frees', step env f st op = .ok st' ∧ Inv env st' frees' ∧
      frees'.length ≤ frees.length + 1 ∧ st'.heap.mmap_calls ≤ st.heap.mmap_calls + 1 := by
  cases op with
  | malloc size =>
    by_cases hsz : 8 ≤ size ∧ size ≤ 4000 ∧ size % 8 = 0
    · exact Or.inr (inv_malloc hsrc hk hinv hsz hf)
    · left
      simp only [step, hsz, if_false]
  | free ptr =>
    cases hfind : st.live.find? (fun pl => pl.1 = ptr) with
    | none => left; simp only [step, hfind]
    | some pl =>
      right
      have hpl : pl ∈ st.live := List.mem_of_find?_eq_some hfind
      have hp : pl.1 = ptr := by simpa using List.find?_some hfind
      obtain ⟨h', frees', hres, hinv', hlen, hc, _⟩ :=
        inv_free (f := f) hinv hpl (by omega)
      rw [hp] at hres
      exact ⟨_, frees', by simp only [step, hfind, hres], hinv', hlen, by
        show h'.mmap_calls ≤ _; omega⟩
  | write addr val =>
    by_cases hany : st.live.any (fun pl => pl.1 ≤ addr ∧ addr + 8 ≤ pl.1 + pl.2) = true
    · right
      have hin : ∃ pl ∈ st.live, pl.1 ≤ addr ∧ addr + 8 ≤ pl.1 + pl.2 := by
        simpa using hany
      exact ⟨{ st with heap := { st.heap with mem := store st.heap.mem addr val } }, frees,
        by simp only [step, hany, if_true], inv_write hinv hin, by omega, by
          show st.heap.mmap_calls ≤ _; omega⟩
    · left
      simp only [step, hany, if_false]
      rfl

/-- A run from a state that satisfies the invariant, with enough fuel `f`: the
caller breaks the contract, or the run succeeds and the invariant holds at the
end. -/
theorem inv_run {env : Env} {f n : Nat} (hsrc : FreshSrc env n) : ∀ (ops : List Op)
    (st : State) (frees : List Nat), Inv env st frees →
    frees.length + ops.length + 1 < f → st.heap.mmap_calls + ops.length ≤ n →
    run env f st ops = .error .contract ∨
    ∃ st' frees', run env f st ops = .ok st' ∧ Inv env st' frees' ∧
      frees'.length ≤ frees.length + ops.length ∧
      st'.heap.mmap_calls ≤ st.heap.mmap_calls + ops.length
  | [], st, frees, hinv, _, _ => Or.inr ⟨st, frees, rfl, hinv, le_refl _, le_refl _⟩
  | op :: ops, st, frees, hinv, hf, hn => by
    simp only [List.length_cons] at hf hn
    rcases inv_step (f := f) hsrc (by omega) hinv (by omega) op with
      hs | ⟨st1, frees1, hs, hinv1, hlen, hc1⟩
    · left
      simp only [run, hs]
    · rcases inv_run (f := f) hsrc ops st1 frees1 hinv1 (by omega) (by omega) with
        hr | ⟨st', frees', hr, hinv', hl', hc'⟩
      · left
        simp only [run, hs, hr]
      · right
        exact ⟨st', frees', by simp only [run, hs, hr], hinv', by
          simp only [List.length_cons]; omega, by simp only [List.length_cons]; omega⟩

/-- Effect of `my_free` on the payload address of the allocated block `b`. -/
theorem free_spec {h : Heap} {frees others : List Nat} {b f : Nat}
    (hwf : WF h frees others) (hb : b ∈ others) (hb0 : b ≠ 0) (hf : frees.length < f) :
    ∃ h', my_free f h (b + 24) = .ok h' ∧ h'.mmap_calls = h.mmap_calls ∧
      h'.free_head = b ∧
      (∀ a ∈ others.erase b, h'.mem a = h.mem a ∧ h'.mem (a + 8) = h.mem (a + 8) ∧
        h'.mem (a + 16) = h.mem (a + 16)) ∧
      (b + h.mem b + 24 ∈ frees →
        WF h' (b :: frees.erase (b + h.mem b + 24)) (others.erase b) ∧
        h'.mem b = h.mem b + h.mem (b + h.mem b + 24) + 24 ∧
        ∀ a ∈ frees.erase (b + h.mem b + 24), h'.mem a = h.mem a) ∧
      (b + h.mem b + 24 ∉ frees →
        WF h' (b :: frees) (others.erase b) ∧ h'.mem b = h.mem b ∧
        ∀ a ∈ frees, h'.mem a = h.mem a) := by
  have hperm : others.Perm (b :: others.erase b) := List.perm_cons_erase hb
  have hwf1 := hwf.perm_others hperm
  obtain ⟨hwf2, hsz2, hlk2, _, _⟩ := hwf1.clear_links (List.mem_cons_self b _)
  obtain ⟨h', hco, hcalls, hhead, hoth, hm, hn⟩ := coalesce_spec (f := f) hwf2 hb0 hf
  dsimp only at hcalls hoth hm hn
  have hbO : b ∉ others.erase b :=
    (List.nodup_cons.mp (List.nodup_append.mp hwf1.nodup).2.1).1
  have hszb : store (store h.mem (b + 8) 0) (b + 16) 0 b = h.mem b := hsz2 b (by simp)
  rw [hszb] at hm hn
  refine ⟨h', ?_, hcalls, hhead, ?_, ?_, ?_⟩
  · unfold my_free
    simp only [sizeof_my_metadata_t, Nat.add_sub_cancel]
    exact hco
  · intro a ha
    have hab : a ≠ b := fun e => hbO (e ▸ ha)
    have h1 := hoth a ha
    have h2 := hlk2 a (by simp [ha]) hab
    exact ⟨by rw [h1.1, hsz2 a (by simp [ha])], by rw [h1.2.1, h2.1], by rw [h1.2.2, h2.2]⟩
  · intro hmem
    obtain ⟨w1, w2, w3⟩ := hm hmem
    refine ⟨w1, by rw [w2, hsz2 _ (List.mem_append_left _ hmem)], ?_⟩
    intro a ha
    rw [w3 a ha, hsz2 a (List.mem_append_left _ (List.mem_of_mem_erase ha))]
  · intro hmem
    obtain ⟨w1, w2, w3⟩ := hn hmem
    refine ⟨w1, w2, ?_⟩
    intro a ha
    rw [w3 a ha, hsz2 a (List.mem_append_left _ ha)]

theorem dll_of_segs {m : Nat → Nat} : ∀ (L : List Nat) (p q : Nat),
    Seg m p L 0 → PrevSeg m q L →
    (p ≠ 0 → m (p + 16) = q) ∧ ∀ a ∈ L, m (a + 8) ≠ 0 → m (m (a + 8) + 16) = a
  | [], p, q, hs, _ => ⟨fun hp => absurd hs hp, by simp⟩
  | x :: xs, p, q, hs, hp => by
    obtain ⟨rfl, hx0, hrest⟩ := hs
    obtain ⟨hpq, hprest⟩ := hp
    have ih := dll_of_segs xs (m (p + 8)) p hrest hprest
    refine ⟨fun _ => hpq, ?_⟩
    intro a ha hne
    rcases List.mem_cons.mp ha with rfl | ha
    · exact ih.1 hne
    · exact ih.2 a ha hne

/-- The free list of a well-formed heap is doubly linked. -/
theorem WF.dll {h : Heap} {frees others : List Nat} (hwf : WF h frees others) :
    DLL h frees := by
  have := dll_of_segs frees h.free_head 0 hwf.chain hwf.prev
  exact ⟨hwf.chain, (List.nodup_append.mp hwf.nodup).1, this.1, this.2⟩

theorem freshSrc_env0 (n : Nat) (hn : n ≤ 1000000) : FreshSrc env0 n := by
  refine ⟨by decide, by decide, ?_⟩
  intro i hi
  simp only [env0, SIZE_MOD]
  refine ⟨by omega, by omega, by omega, ?_⟩
  intro j hj
  omega

theorem ok_state_of (f : Nat) (r : Except Err State) (h : observe f r ≠ none) :
    r = .ok (state_of r) := by
  cases r with
  | error e => exact absurd rfl h
  | ok st => rfl

theorem step_malloc_ok {env : Env} {f size : Nat} {st st1 : State}
    (h : step env f st (.malloc size) = .ok st1) :
    (8 ≤ size ∧ size ≤ 4000 ∧ size % 8 = 0) ∧ ∃ p, st1.live = (p, size) :: st.live := by
  unfold step at h
  by_cases hsz : 8 ≤ size ∧ size ≤ 4000 ∧ size % 8 = 0
  · refine ⟨hsz, ?_⟩
    simp only [hsz, and_self, if_true] at h
    cases hm : my_malloc env f f st.heap size with
    | error e => rw [hm] at h; cases h
    | ok r =>
      rw [hm] at h
      injection h with h
      exact ⟨r.1, by rw [← h]⟩
  · simp only [hsz, if_false] at h
    cases h

theorem run_cons_ok {env : Env} {f : Nat} {st st2 : State} {op : Op} {ops : List Op}
    (h : run env f st (op :: ops) = .ok st2) :
    ∃ st1, step env f st op = .ok st1 ∧ run env f st1 ops = .ok st2 := by
  rw [run] at h
  cases hs : step env f st op with
  | error e => rw [hs] at h; cases h
  | ok st1 => rw [hs] at h; exact ⟨st1, rfl, h⟩

/-- After a run of `my_malloc` calls every requested size belongs to a live
allocation. -/
theorem run_malloc_live {env : Env} {f : Nat} : ∀ (sizes : List Nat) (st st1 : State),
    run env f st (sizes.map Op.malloc) = .ok st1 →
    (∀ pl ∈ st.live, pl ∈ st1.live) ∧
    ∀ s ∈ sizes, (8 ≤ s ∧ s ≤ 4000 ∧ s % 8 = 0) ∧ ∃ pl ∈ st1.live, pl.2 = s
  | [], st, st1, h => by
    rw [List.map_nil, run] at h
    injection h with h
    subst h
    exact ⟨fun _ hpl => hpl, by simp⟩
  | s :: sizes, st, st1, h => by
    rw [List.map_cons] at h
    obtain ⟨st', hs, hr⟩ := run_cons_ok h
    obtain ⟨hvalid, p, hp⟩ := step_malloc_ok hs
    obtain ⟨ih1, ih2⟩ := run_malloc_live sizes st' st1 hr
    refine ⟨fun pl hpl => ih1 pl (by rw [hp]; exact List.mem_cons_of_mem _ hpl), ?_⟩
    intro t ht
    rcases List.mem_cons.mp ht with rfl | ht
    · exact ⟨hvalid, (p, t), ih1 _ (by rw [hp]; exact List.mem_cons_self _ _), rfl⟩
    · exact ih2 t ht

/-- A run of `my_free` calls keeps the invariant, acquires no page, and a
block that had room for `t` bytes leaves a block with room for `t` bytes. -/
theorem free_phase {env : Env} {f t : Nat} : ∀ (ptrs : List Nat) (st st2 : State)
    (frees : List Nat), Inv env st frees → Fits st frees t →
    frees.length + ptrs.length < f →
    run env f st (ptrs.map Op.free) = .ok st2 →
    ∃ frees2, Inv env st2 frees2 ∧ Fits st2 frees2 t ∧
      frees2.length ≤ frees.length + ptrs.length ∧
      st2.heap.mmap_calls = st.heap.mmap_calls
  | [], st, st2, frees, hinv, hfit, _, h => by
    rw [List.map_nil, run] at h
    injection h with h
    subst h
    exact ⟨frees, hinv, hfit, by simp, rfl⟩
  | ptr :: ptrs, st, st2, frees, hinv, hfit, hf, h => by
    rw [List.map_cons] at h
    simp only [List.length_cons] at hf
    obtain ⟨st1, hs, hr⟩ := run_cons_ok h
    cases hfind : st.live.find? (fun pl => pl.1 = ptr) with
    | none =>
      simp only [step, hfind] at hs
      cases hs
    | some pl =>
      have hpl : pl ∈ st.live := List.mem_of_find?_eq_some hfind
      have hp : pl.1 = ptr := by simpa using List.find?_some hfind
      obtain ⟨h', frees1, hres, hinv1, hlen1, hc1, hfit1⟩ :=
        inv_free (f := f) hinv hpl (by omega)
      rw [hp] at hres
      simp only [step, hfind, hres] at hs
      injection hs with hs
      subst hs
      obtain ⟨frees2, hinv2, hfit2, hlen2, hc2⟩ :=
        free_phase ptrs _ st2 frees1 hinv1 (hfit1 t hfit) (by omega) hr
      exact ⟨frees2, hinv2, hfit2, by simp only [List.length_cons]; omega, by rw [hc2]; exact hc1⟩

/-- Allocating from the free block `b` and freeing the result at once: `b` is
the head of the free list again, at least as large as before; after a split
the freed block absorbs the split remainder. -/
theorem take_free {h : Heap} {frees others : List Nat} {b size f : Nat}
    (hwf : WF h frees others) (hb : b ∈ frees) (hsz : size ≤ h.mem b)
    (hf : frees.length < f) :
    ∃ h1 h2, my_malloc_take f h b size = .ok (b + 24, h1) ∧
      my_free f h1 (b + 24) = .ok h2 ∧ h2.free_head = b ∧ h.mem b ≤ h2.mem b ∧
      h1.mmap_calls = h.mmap_calls ∧ h2.mmap_calls = h.mmap_calls ∧
      (24 < h.mem b - size →
        h1.mem b = size ∧ h1.free_head = b + 24 + size ∧
        h.mem b - size - 24 ≤ h1.mem (b + 24 + size) ∧
        h2.mem b = size + 24 + h1.mem (b + 24 + size)) := by
  have hb0 : b ≠ 0 := hwf.mem_ne_zero b hb
  have hbb := hwf.bound b (List.mem_append_left _ hb)
  have hlenE : (frees.erase b).length + 1 = frees.length := by
    rw [List.length_erase_of_mem hb]
    have : 0 < frees.length := List.length_pos_of_mem hb
    omega
  obtain ⟨h1, hres, hc1, _, _, _, hno, hsp⟩ := take_spec (f := f) hwf hb hsz (by omega)
  by_cases hsplit : 24 < h.mem b - size
  · obtain ⟨h1b, h1head, hin, hout⟩ := hsp hsplit
    have key : ∀ frees1, WF h1 ((b + 24 + size) :: frees1) (b :: others) →
        frees1.length + 1 ≤ frees.length →
        ∃ h2, my_free f h1 (b + 24) = .ok h2 ∧ h2.free_head = b ∧
          h2.mmap_calls = h1.mmap_calls ∧
          h2.mem b = size + 24 + h1.mem (b + 24 + size) := by
      intro frees1 hwf1 hl1
      obtain ⟨h2, hfr, hc2, hhead2, _, hyes, _⟩ :=
        free_spec (f := f) hwf1 (List.mem_cons_self _ _) hb0
          (by simp only [List.length_cons]; omega)
      have hn : b + h1.mem b + 24 = b + 24 + size := by rw [h1b]; omega
      rw [hn] at hyes
      obtain ⟨_, hm, _⟩ := hyes (List.mem_cons_self _ _)
      exact ⟨h2, hfr, hhead2, hc2, by rw [hm, h1b]; omega⟩
    by_cases hmem : b + 24 + h.mem b ∈ frees
    · obtain ⟨hwf1, hsz1, _⟩ := hin hmem
      obtain ⟨h2, hfr, hhead2, hc2, hm2⟩ := key _ hwf1 (by
        have := List.length_erase_le (b + 24 + h.mem b) (frees.erase b)
        omega)
      exact ⟨h1, h2, hres, hfr, hhead2, by rw [hm2, hsz1]; omega, hc1, by rw [hc2, hc1],
        fun _ => ⟨h1b, h1head, by rw [hsz1]; omega, hm2⟩⟩
    · obtain ⟨hwf1, hsz1, _⟩ := hout hmem
      obtain ⟨h2, hfr, hhead2, hc2, hm2⟩ := key _ hwf1 (by omega)
      exact ⟨h1, h2, hres, hfr, hhead2, by rw [hm2, hsz1]; omega, hc1, by rw [hc2, hc1],
        fun _ => ⟨h1b, h1head, by rw [hsz1], hm2⟩⟩
  · obtain ⟨_, hwf1, h1b, _⟩ := hno (by omega)
    obtain ⟨h2, hfr, hc2, hhead2, _, hyes, hnot⟩ :=
      free_spec (f := f) hwf1 (List.mem_cons_self _ _) hb0 (by omega)
    refine ⟨h1, h2, hres, hfr, hhead2, ?_, hc1, by rw [hc2, hc1], fun hs => absurd hs hsplit⟩
    by_cases hmem : b + h1.mem b + 24 ∈ frees.erase b
    · rw [(hyes hmem).2.1, h1b]; omega
    · rw [(hnot hmem).2.1, h1b]

/-! ## Further run invariants: sizes are multiples of 8, bytes are conserved -/

theorem bytes_cons (m : Nat → Nat) (a : Nat) (L : List Nat) :
    bytes m (a :: L) = m a + 24 + bytes m L := by
  simp only [bytes, List.map_cons, List.sum_cons]

theorem bytes_append (m : Nat → Nat) (L1 L2 : List Nat) :
    bytes m (L1 ++ L2) = bytes m L1 + bytes m L2 := by
  simp only [bytes, List.map_append, List.sum_append]

theorem bytes_congr {m m' : Nat → Nat} {L : List Nat} (hm : ∀ a ∈ L, m' a = m a) :
    bytes m' L = bytes m L := by
  unfold bytes
  rw [List.map_congr_left (fun a ha => by rw [hm a ha])]

theorem bytes_erase (m : Nat → Nat) {L : List Nat} {b : Nat} (hb : b ∈ L) :
    bytes m L = m b + 24 + bytes m (L.erase b) := by
  unfold bytes
  exact (List.sum_map_erase (fun a => m a + 24) hb).symm

theorem bytes_perm (m : Nat → Nat) {L1 L2 : List Nat} (hp : L1.Perm L2) :
    bytes m L1 = bytes m L2 := by
  unfold bytes
  exact (hp.map _).sum_eq

/-- Deleting a node other than the last one keeps the last node. -/
theorem last_erase {F : List Nat} {d x : Nat} (hl : ∃ L, F = L ++ [d]) (hx : x ≠ d) :
    ∃ L, F.erase x = L ++ [d] := by
  obtain ⟨L, rfl⟩ := hl
  by_cases hm : x ∈ L
  · exact ⟨L.erase x, List.erase_append_left _ hm⟩
  · refine ⟨L, List.erase_of_not_mem ?_⟩
    simp only [List.mem_append, List.mem_singleton, not_or]
    exact ⟨hm, hx⟩

/-- The list headed by `p` is determined by the memory. -/
theorem Seg_unique {m : Nat → Nat} : ∀ (L L' : List Nat) (p : Nat),
    Seg m p L 0 → Seg m p L' 0 → L = L'
  | [], [], _, _, _ => rfl
  | [], x :: xs, p, h1, h2 => by
    obtain ⟨rfl, hx, _⟩ := h2
    exact absurd h1 hx
  | x :: xs, [], p, h1, h2 => by
    obtain ⟨rfl, hx, _⟩ := h1
    exact absurd h2 hx
  | x :: xs, y :: ys, p, h1, h2 => by
    obtain ⟨rfl, _, hr1⟩ := h1
    obtain ⟨rfl, _, hr2⟩ := h2
    rw [Seg_unique xs ys _ hr1 hr2]

theorem Conserved.dummy_mem {d c0 : Nat} {h : Heap} {frees others : List Nat}
    (hc : Conserved d c0 h frees others) : d ∈ frees := by
  obtain ⟨L, rfl⟩ := hc.last
  simp

/-- Effect of `my_coalesce` on the two run invariants. -/
theorem coalesce_ext {h : Heap} {frees others : List Nat} {b f : Nat} (d c0 : Nat)
    (hwf : WF h frees (b :: others)) (hb0 : b ≠ 0) (hf : frees.length < f) :
    ∃ h' frees', my_coalesce f h b = .ok h' ∧ WF h' (b :: frees') others ∧
      frees'.length ≤ frees.length ∧ h.mem b ≤ h'.mem b ∧
      (Mult8 h.mem (frees ++ b :: others) → Mult8 h'.mem ((b :: frees') ++ others)) ∧
      (Conserved d c0 h frees (b :: others) → Conserved d c0 h' (b :: frees') others) := by
  obtain ⟨h', hco, hcalls, _, hoth, hyes, hno⟩ := coalesce_spec (f := f) hwf hb0 hf
  by_cases hn : b + h.mem b + 24 ∈ frees
  · obtain ⟨hwf', hsz, hrest⟩ := hyes hn
    refine ⟨h', _, hco, hwf', List.length_erase_le _ _, by rw [hsz]; omega, ?_, ?_⟩
    · intro h8 a ha
      rcases List.mem_append.mp ha with ha | ha
      · rcases List.mem_cons.mp ha with rfl | ha
        · have h1 := h8 a (by simp)
          have h2 := h8 _ (List.mem_append_left _ hn)
          rw [hsz]
          omega
        · rw [hrest a ha]
          exact h8 a (List.mem_append_left _ (List.mem_of_mem_erase ha))
      · rw [(hoth a ha).1]
        exact h8 a (by simp [ha])
    · intro hc
      have hnd : b + h.mem b + 24 ≠ d := hc.nosucc b (by simp)
      have hdm : d ∈ frees.erase (b + h.mem b + 24) :=
        (List.mem_erase_of_ne (Ne.symm hnd)).mpr hc.dummy_mem
      refine ⟨?_, by rw [hrest d hdm]; exact hc.dummy0, ?_, ?_⟩
      · obtain ⟨L, hL⟩ := last_erase hc.last hnd
        exact ⟨b :: L, by rw [hL]; rfl⟩
      · intro a ha
        rcases List.mem_append.mp ha with ha | ha
        · rcases List.mem_cons.mp ha with rfl | ha
          · have := hc.nosucc _ (List.mem_append_left _ hn)
            rw [hsz]
            omega
          · rw [hrest a ha]
            exact hc.nosucc a (List.mem_append_left _ (List.mem_of_mem_erase ha))
        · rw [(hoth a ha).1]
          exact hc.nosucc a (by simp [ha])
      · have hs := hc.sum
        rw [bytes_append, bytes_cons, bytes_erase h.mem hn] at hs
        rw [bytes_append, bytes_cons, hsz, bytes_congr hrest,
          bytes_congr (fun a ha => (hoth a ha).1), hcalls]
        omega
  · obtain ⟨hwf', hsz, hrest⟩ := hno hn
    refine ⟨h', _, hco, hwf', le_refl _, by rw [hsz], ?_, ?_⟩
    · intro h8 a ha
      rcases List.mem_append.mp ha with ha | ha
      · rcases List.mem_cons.mp ha with rfl | ha
        · rw [hsz]
          exact h8 a (by simp)
        · rw [hrest a ha]
          exact h8 a (List.mem_append_left _ ha)
      · rw [(hoth a ha).1]
        exact h8 a (by simp [ha])
    · intro hc
      refine ⟨?_, by rw [hrest d hc.dummy_mem]; exact hc.dummy0, ?_, ?_⟩
      · obtain ⟨L, hL⟩ := hc.last
        exact ⟨b :: L, by rw [hL]; rfl⟩
      · intro a ha
        rcases List.mem_append.mp ha with ha | ha
        · rcases List.mem_cons.mp ha with rfl | ha
          · rw [hsz]
            exact hc.nosucc a (by simp)
          · rw [hrest a ha]
            exact hc.nosucc a (List.mem_append_left _ ha)
        · rw [(hoth a ha).1]
          exact hc.nosucc a (by simp [ha])
      · have hs := hc.sum
        rw [bytes_append, bytes_cons] at hs
        rw [bytes_append, bytes_cons, hsz, bytes_congr hrest,
          bytes_congr (fun a ha => (hoth a ha).1), hcalls]
        omega

/-- Effect of `my_free` on the two run invariants. -/
theorem free_ext {h : Heap} {frees others : List Nat} {b f : Nat} (d c0 : Nat)
    (hwf : WF h frees (b :: others)) (hb0 : b ≠ 0) (hf : frees.length < f) :
    ∃ h' frees', my_free f h (b + 24) = .ok h' ∧ WF h' (b :: frees') others ∧
      frees'.length ≤ frees.length ∧
      (Mult8 h.mem (frees ++ b :: others) → Mult8 h'.mem ((b :: frees') ++ others)) ∧
      (Conserved d c0 h frees (b :: others) → Conserved d c0 h' (b :: frees') others) := by
  obtain ⟨hwf2, hsz2, _, _, _⟩ := hwf.clear_links (List.mem_cons_self b _)
  obtain ⟨h', frees', hco, hwf', hlen, _, h8, hc⟩ := coalesce_ext d c0 hwf2 hb0 hf
  refine ⟨h', frees', ?_, hwf', hlen, ?_, ?_⟩
  · unfold my_free
    simp only [sizeof_my_metadata_t, Nat.add_sub_cancel]
    exact hco
  · intro hm
    refine h8 (fun a ha => ?_)
    show store (store h.mem (b + 8) 0) (b + 16) 0 a % 8 = 0
    rw [hsz2 a ha]
    exact hm a ha
  · intro hcv
    refine hc ⟨hcv.last, ?_, ?_, ?_⟩
    · show store (store h.mem (b + 8) 0) (b + 16) 0 d = 0
      rw [hsz2 d (List.mem_append_left _ hcv.dummy_mem)]
      exact hcv.dummy0
    · intro a ha
      show a + store (store h.mem (b + 8) 0) (b + 16) 0 a + 24 ≠ d
      rw [hsz2 a ha]
      exact hcv.nosucc a ha
    · show bytes (store (store h.mem (b + 8) 0) (b + 16) 0) _ + _ = 4096 * h.mmap_calls + 24
      rw [bytes_congr hsz2]
      exact hcv.sum

/-- Effect of the page-acquisition branch of `my_malloc` on the two run
invariants. -/
theorem grow_ext {env : Env} {h : Heap} {frees others : List Nat} {f : Nat} (d c0 : Nat)
    (hwf : WF h frees others)
    (hfresh : FreshPage h (frees ++ others) (env.mmap_from_system h.mmap_calls))
    (hf : frees.length < f) :
    ∃ h' frees', my_malloc_grow env f h = .ok h' ∧
      WF h' (env.mmap_from_system h.mmap_calls :: frees') others ∧
      frees'.length ≤ frees.length ∧ 4072 ≤ h'.mem (env.mmap_from_system h.mmap_calls) ∧
      (Mult8 h.mem (frees ++ others) →
        Mult8 h'.mem ((env.mmap_from_system h.mmap_calls :: frees') ++ others)) ∧
      (Conserved d c0 h frees others → env.mmap_from_system h.mmap_calls + 4096 ≠ d →
        Conserved d c0 h' (env.mmap_from_system h.mmap_calls :: frees') others) := by
  obtain ⟨hpwf, hvp, hpoth⟩ := hwf.page hfresh
  obtain ⟨h', frees', hco, hwf', hlen, hge, h8, hc⟩ := coalesce_ext d c0 hpwf hfresh.1 hf
  have hge' : 4072 ≤ h'.mem (env.mmap_from_system h.mmap_calls) := by
    have : page_mem h.mem (env.mmap_from_system h.mmap_calls)
        (env.mmap_from_system h.mmap_calls) ≤ h'.mem (env.mmap_from_system h.mmap_calls) := hge
    rw [hvp] at this
    exact this
  have hsz : ∀ a ∈ frees ++ others,
      page_mem h.mem (env.mmap_from_system h.mmap_calls) a = h.mem a :=
    fun a ha => (hpoth a ha).1
  refine ⟨h', frees', ?_, hwf', hlen, hge', ?_, ?_⟩
  · unfold my_malloc_grow
    have e : (4096 + SIZE_MOD - sizeof_my_metadata_t) % SIZE_MOD = 4072 := by
      unfold SIZE_MOD sizeof_my_metadata_t; norm_num
    simp only [e]
    exact hco
  · intro hm
    apply h8
    intro a ha
    show page_mem h.mem _ a % 8 = 0
    rcases List.mem_append.mp ha with ha | ha
    · rw [hsz a (List.mem_append_left _ ha)]
      exact hm a (List.mem_append_left _ ha)
    · rcases List.mem_cons.mp ha with rfl | ha
      · rw [hvp]
      · rw [hsz a (List.mem_append_right _ ha)]
        exact hm a (List.mem_append_right _ ha)
  · intro hcv hpd
    refine hc ⟨hcv.last, ?_, ?_, ?_⟩
    · show page_mem h.mem _ d = 0
      rw [hsz d (List.mem_append_left _ hcv.dummy_mem)]
      exact hcv.dummy0
    · intro a ha
      show a + page_mem h.mem _ a + 24 ≠ d
      rcases List.mem_append.mp ha with ha | ha
      · rw [hsz a (List.mem_append_left _ ha)]
        exact hcv.nosucc a (List.mem_append_left _ ha)
      · rcases List.mem_cons.mp ha with rfl | ha
        · rw [hvp]
          omega
        · rw [hsz a (List.mem_append_right _ ha)]
          exact hcv.nosucc a (List.mem_append_right _ ha)
    · show bytes (page_mem h.mem _) _ + _ = 4096 * (h.mmap_calls + 1) + 24
      have hs := hcv.sum
      rw [bytes_append] at hs
      rw [bytes_append, bytes_cons, hvp,
        bytes_congr (fun a ha => hsz a (List.mem_append_left _ ha)),
        bytes_congr (fun a ha => hsz a (List.mem_append_right _ ha))]
      omega

/-- Effect of the allocation from the free block `b` on the two run
invariants. -/
theorem take_ext {h : Heap} {frees others : List Nat} {b size f : Nat} (d c0 : Nat)
    (hwf : WF h frees others) (hb : b ∈ frees) (hsz : size ≤ h.mem b)
    (hf : frees.length ≤ f) (hs0 : 0 < size) (hs8 : size % 8 = 0) :
    ∃ h' frees', my_malloc_take f h b size = .ok (b + 24, h') ∧
      WF h' frees' (b :: others) ∧ frees'.length ≤ frees.length ∧
      (Mult8 h.mem (frees ++ others) → Mult8 h'.mem (frees' ++ b :: others)) ∧
      (Conserved d c0 h frees others → Conserved d c0 h' frees' (b :: others)) := by
  have hbm : b ∈ frees ++ others := List.mem_append_left _ hb
  have hbb := hwf.bound b hbm
  have hb0 : b ≠ 0 := hwf.mem_ne_zero b hb
  obtain ⟨hrwf, _, _, hrcalls, hrsz, _, _⟩ := remove_spec hwf hb
  set r := my_remove_from_free_list h b with hrdef
  have hrb : r.mem b = h.mem b := hrsz b hbm
  have hrem : (h.mem b + SIZE_MOD - size) % SIZE_MOD = h.mem b - size := by
    unfold SIZE_MOD at hbb ⊢
    omega
  have hlen : (frees.erase b).length < f := by
    rw [List.length_erase_of_mem hb]
    have : 0 < frees.length := List.length_pos_of_mem hb
    omega
  have hperm : (frees.erase b ++ b :: others).Perm (frees ++ others) :=
    List.perm_middle.trans ((List.perm_cons_erase hb).symm.append_right others)
  have hmemiff : ∀ a, a ∈ frees.erase b ++ b :: others ↔ a ∈ frees ++ others :=
    fun a => hperm.mem_iff
  -- the invariants after the unlinking
  have hr8 : Mult8 h.mem (frees ++ others) → Mult8 r.mem (frees.erase b ++ b :: others) := by
    intro hm a ha
    have ha' := (hmemiff a).mp ha
    rw [hrsz a ha']
    exact hm a ha'
  have hrc : Conserved d c0 h frees others →
      Conserved d c0 r (frees.erase b) (b :: others) := by
    intro hcv
    have hbd : b ≠ d := by
      rintro rfl
      have := hcv.dummy0
      omega
    refine ⟨last_erase hcv.last hbd, ?_, ?_, ?_⟩
    · rw [hrsz d (List.mem_append_left _ hcv.dummy_mem)]
      exact hcv.dummy0
    · intro a ha
      have ha' := (hmemiff a).mp ha
      rw [hrsz a ha']
      exact hcv.nosucc a ha'
    · rw [bytes_perm r.mem hperm, bytes_congr hrsz, hrcalls]
      exact hcv.sum
  by_cases hsplit : 24 < h.mem b - size
  · have hrem2 : (h.mem b - size + SIZE_MOD - 24) % SIZE_MOD = r.mem b - size - 24 := by
      rw [hrb]
      unfold SIZE_MOD at hbb ⊢
      omega
    obtain ⟨hswf, hsb, hsn, _, _, hsoth⟩ := @WF.split r _ _ b size hrwf
      (by rw [hrb]; exact hsplit)
    obtain ⟨h', frees', hco, hwf', hlen', _, h8, hc⟩ :=
      coalesce_ext (f := f) d c0 hswf (by omega) hlen
    have hsz' : ∀ a ∈ frees.erase b ++ others, split_mem r.mem b size a = r.mem a :=
      fun a ha => (hsoth a ha).1
    have hRn : b + 24 + size ∉ frees.erase b := by
      intro hm
      have := (List.nodup_append.mp hswf.nodup).2.2 hm (List.mem_cons_self _ _)
      exact this
    refine ⟨h', (b + 24 + size) :: frees', ?_, hwf', ?_, ?_, ?_⟩
    · unfold my_malloc_take
      simp only [sizeof_my_metadata_t, hrem, hsplit, gt_iff_lt, if_true, ← hrdef, hrem2]
      have : (store (store (store (store r.mem b size) (b + 24 + size) (r.mem b - size - 24))
          (b + 24 + size + 8) 0) (b + 24 + size + 16) 0) = split_mem r.mem b size := rfl
      rw [this, hco]
    · simp only [List.length_cons]
      have : (frees.erase b).length + 1 = frees.length := by
        rw [List.length_erase_of_mem hb]
        have : 0 < frees.length := List.length_pos_of_mem hb
        omega
      omega
    · intro hm
      apply h8
      have hm' := hr8 hm
      intro a ha
      show split_mem r.mem b size a % 8 = 0
      rcases List.mem_append.mp ha with ha | ha
      · rw [hsz' a (List.mem_append_left _ ha)]
        exact hm' a (List.mem_append_left _ ha)
      · rcases List.mem_cons.mp ha with rfl | ha
        · rw [hsn, hrb]
          have := hm b hbm
          omega
        · rcases List.mem_cons.mp ha with rfl | ha
          · rw [hsb]
            exact hs8
          · rw [hsz' a (List.mem_append_right _ ha)]
            exact hm' a (by simp [ha])
    · intro hcv
      have hcr := hrc hcv
      have hdm : d ∈ frees.erase b := hcr.dummy_mem
      have hRd : b + 24 + size ≠ d := fun e => hRn (e ▸ hdm)
      refine hc ⟨hcr.last, ?_, ?_, ?_⟩
      · show split_mem r.mem b size d = 0
        rw [hsz' d (List.mem_append_left _ hdm)]
        exact hcr.dummy0
      · intro a ha
        show a + split_mem r.mem b size a + 24 ≠ d
        rcases List.mem_append.mp ha with ha | ha
        · rw [hsz' a (List.mem_append_left _ ha)]
          exact hcr.nosucc a (List.mem_append_left _ ha)
        · rcases List.mem_cons.mp ha with rfl | ha
          · rw [hsn, hrb]
            have := hcv.nosucc b hbm
            omega
          · rcases List.mem_cons.mp ha with rfl | ha
            · rw [hsb]
              omega
            · rw [hsz' a (List.mem_append_right _ ha)]
              exact hcr.nosucc a (by simp [ha])
      · show bytes (split_mem r.mem b size) _ + _ = 4096 * r.mmap_calls + 24
        have hs := hcr.sum
        rw [bytes_append, bytes_cons] at hs
        rw [bytes_append, bytes_cons, bytes_cons, hsn, hsb, hrb,
          bytes_congr (fun a ha => hsz' a (List.mem_append_left _ ha)),
          bytes_congr (fun a ha => hsz' a (List.mem_append_right _ ha))]
        rw [hrb] at hs
        omega
  · refine ⟨r, frees.erase b, ?_, hrwf, List.length_erase_le _ _, hr8, hrc⟩
    unfold my_malloc_take
    simp only [sizeof_my_metadata_t, hrem, hsplit, gt_iff_lt, if_false, ← hrdef]

/-- Effect of `my_malloc` on the two run invariants. -/
theorem malloc_ext {env : Env} {h : Heap} {frees others : List Nat} {size f : Nat}
    (d c0 : Nat) (hwf : WF h frees others)
    (hfresh : FreshPage h (frees ++ others) (env.mmap_from_system h.mmap_calls))
    (hsize : size ≤ 4072) (hs0 : 0 < size) (hs8 : size % 8 = 0)
    (hf : frees.length + 1 < f) (k : Nat) :
    ∃ b h' frees', my_malloc env (k + 2) f h size = .ok (b + 24, h') ∧
      WF h' frees' (b :: others) ∧
      (Mult8 h.mem (frees ++ others) → Mult8 h'.mem (frees' ++ b :: others)) ∧
      (Conserved d c0 h frees others → env.mmap_from_system h.mmap_calls + 4096 ≠ d →
        Conserved d c0 h' frees' (b :: others)) := by
  have hscan := best_fit_scan_eq size frees h.free_head 0 f hwf.chain (by omega)
  by_cases hb : bestOf h.mem size frees 0 = 0
  · obtain ⟨h0, frees0, hgrow, hwf0, hlen0, hge, h8, hc⟩ :=
      grow_ext (f := f) d c0 hwf hfresh (by omega)
    have hscan0 := best_fit_scan_eq size _ h0.free_head 0 f hwf0.chain
      (by rw [List.length_cons]; omega)
    have hb0 : bestOf h0.mem size (env.mmap_from_system h.mmap_calls :: frees0) 0 ≠ 0 := by
      intro e
      have := bestOf_eq_zero hwf0.mem_ne_zero e _ (List.mem_cons_self _ _)
      omega
    obtain ⟨hbm, hbs, _, _⟩ := bestOf_ne_zero hwf0.mem_ne_zero hb0
    obtain ⟨h', frees', htake, hwf', _, h8', hc'⟩ :=
      take_ext (f := f) d c0 hwf0 hbm hbs (by rw [List.length_cons]; omega) hs0 hs8
    refine ⟨_, h', frees', ?_, hwf', fun hm => h8' (h8 hm), fun hcv hpd => hc' (hc hcv hpd)⟩
    rw [my_malloc, hscan, hb]
    simp only [if_true, hgrow]
    rw [my_malloc, hscan0]
    simp only [hb0, if_false]
    exact htake
  · obtain ⟨hbm, hbs, _, _⟩ := bestOf_ne_zero hwf.mem_ne_zero hb
    obtain ⟨h', frees', htake, hwf', _, h8', hc'⟩ :=
      take_ext (f := f) d c0 hwf hbm hbs (by omega) hs0 hs8
    refine ⟨_, h', frees', ?_, hwf', h8', fun hcv _ => hc' hcv⟩
    rw [my_malloc, hscan]
    simp only [hb, if_false]
    exact htake

theorem mult8_perm {m : Nat → Nat} {L1 L2 : List Nat} (h8 : Mult8 m L1) (hp : L1.Perm L2) :
    Mult8 m L2 :=
  fun a ha => h8 a (hp.mem_iff.mpr ha)

theorem conserved_perm {d c0 : Nat} {h : Heap} {frees others others' : List Nat}
    (hc : Conserved d c0 h frees others) (hp : others.Perm others') :
    Conserved d c0 h frees others' := by
  have hpp : (frees ++ others).Perm (frees ++ others') := hp.append_left frees
  refine ⟨hc.last, hc.dummy0, fun a ha => hc.nosucc a (hpp.mem_iff.mpr ha), ?_⟩
  rw [← bytes_perm h.mem hpp]
  exact hc.sum

/-- One successful request keeps the two further run invariants: block sizes
are multiples of 8, and the bytes of the pages are accounted for. -/
theorem ext_step {env : Env} {st st' : State} {frees : List Nat} {f n : Nat} (c0 : Nat)
    (hsrc : FreshSrc env n) (hk : st.heap.mmap_calls < n) (hinv : Inv env st frees)
    (hf : frees.length + 1 < f) (op : Op) (hs : step env f st op = .ok st') :
    ∃ frees', Inv env st' frees' ∧ frees'.length ≤ frees.length + 1 ∧
      st'.heap.mmap_calls ≤ st.heap.mmap_calls + 1 ∧
      (Mult8 st.heap.mem (frees ++ st.live.map (fun pl => pl.1 - 24)) →
        Mult8 st'.heap.mem (frees' ++ st'.live.map (fun pl => pl.1 - 24))) ∧
      (DummyApart env n →
        Conserved env.dummy c0 st.heap frees (st.live.map (fun pl => pl.1 - 24)) →
        Conserved env.dummy c0 st'.heap frees' (st'.live.map (fun pl => pl.1 - 24))) := by
  rcases inv_step (f := f) hsrc hk hinv hf op with he | ⟨st1, frees1, hs1, hinv1, hlen1, hc1⟩
  · rw [he] at hs
    cases hs
  rw [hs1] at hs
  injection hs with hs
  subst hs
  refine ⟨frees1, hinv1, hlen1, hc1, ?_⟩
  cases op with
  | malloc size =>
    by_cases hsz : 8 ≤ size ∧ size ≤ 4000 ∧ size % 8 = 0
    · obtain ⟨k, rfl⟩ : ∃ k, f = k + 2 := ⟨f - 2, by omega⟩
      obtain ⟨b, h', frees', hm, hwf', h8, hc⟩ :=
        malloc_ext (f := k + 2) env.dummy c0 hinv.wf (hinv.fresh hsrc hk)
          (by omega) (by omega) hsz.2.2 hf k
      simp only [step, hsz, and_self, if_true, hm] at hs1
      injection hs1 with hs1
      subst hs1
      have e : frees1 = frees' := Seg_unique _ _ _ hinv1.wf.chain hwf'.chain
      subst e
      simp only [List.map_cons, Nat.add_sub_cancel]
      exact ⟨h8, fun hd hcv => hc hcv (hd _ hk)⟩
    · simp only [step, hsz, if_false] at hs1
      cases hs1
  | free ptr =>
    cases hfind : st.live.find? (fun pl => pl.1 = ptr) with
    | none =>
      simp only [step, hfind] at hs1
      cases hs1
    | some pl =>
      have hpl : pl ∈ st.live := List.mem_of_find?_eq_some hfind
      have hp : pl.1 = ptr := by simpa using List.find?_some hfind
      have hl := hinv.live_ok pl hpl
      have hperm : (st.live.map (fun pl => pl.1 - 24)).Perm
          ((pl.1 - 24) :: (st.live.erase pl).map (fun pl => pl.1 - 24)) := by
        have := (perm_cons_erase_live hpl).map (fun pl : Nat × Nat => pl.1 - 24)
        rwa [List.map_cons] at this
      have hwf0 := hinv.wf.perm_others hperm
      obtain ⟨h', frees', hfr, hwf', _, h8, hc⟩ :=
        free_ext (f := f) env.dummy c0 hwf0 (by omega) (by omega)
      have e24 : pl.1 - 24 + 24 = ptr := by omega
      rw [e24] at hfr
      simp only [step, hfind, hfr] at hs1
      injection hs1 with hs1
      subst hs1
      have e : frees1 = (pl.1 - 24) :: frees' := Seg_unique _ _ _ hinv1.wf.chain hwf'.chain
      subst e
      exact ⟨fun hm => h8 (mult8_perm hm (hperm.append_left frees)),
        fun _ hcv => hc (conserved_perm hcv hperm)⟩
  | write addr val =>
    by_cases hany : st.live.any (fun pl => pl.1 ≤ addr ∧ addr + 8 ≤ pl.1 + pl.2) = true
    · simp only [step, hany, if_true] at hs1
      injection hs1 with hs1
      subst hs1
      have e : frees1 = frees := by
        have hin : ∃ pl ∈ st.live, pl.1 ≤ addr ∧ addr + 8 ≤ pl.1 + pl.2 := by
          simpa using hany
        exact Seg_unique _ _ _ hinv1.wf.chain (@inv_write env st frees addr val hinv hin).wf.chain
      subst e
      obtain ⟨pl, hpl, hlo, hhi⟩ : ∃ pl ∈ st.live, pl.1 ≤ addr ∧ addr + 8 ≤ pl.1 + pl.2 := by
        simpa using hany
      have hl := hinv.live_ok pl hpl
      have hbm : pl.1 - 24 ∈ frees1 ++ st.live.map (fun pl => pl.1 - 24) :=
        List.mem_append_right _ (List.mem_map.mpr ⟨pl, hpl, rfl⟩)
      have hsame : ∀ a ∈ frees1 ++ st.live.map (fun pl => pl.1 - 24),
          store st.heap.mem addr val a = st.heap.mem a := by
        intro a ha
        by_cases e : a = pl.1 - 24
        · apply store_other; omega
        · have := hinv.wf.apart a ha _ hbm e
          unfold Apart at this
          apply store_other; omega
      refine ⟨?_, ?_⟩
      · intro hm a ha
        show store st.heap.mem addr val a % 8 = 0
        rw [hsame a ha]
        exact hm a ha
      · intro _ hcv
        refine ⟨hcv.last, ?_, ?_, ?_⟩
        · show store st.heap.mem addr val env.dummy = 0
          rw [hsame _ (List.mem_append_left _ hcv.dummy_mem)]
          exact hcv.dummy0
        · intro a ha
          show a + store st.heap.mem addr val a + 24 ≠ env.dummy
          rw [hsame a ha]
          exact hcv.nosucc a ha
        · show bytes (store st.heap.mem addr val) _ + _ = 4096 * st.heap.mmap_calls + 24
          rw [bytes_congr hsame]
          exact hcv.sum
    · simp only [step, hany, if_false] at hs1
      cases hs1

/-- A successful run keeps the run invariants. -/
theorem ext_run {env : Env} {f n : Nat} (c0 : Nat) (hsrc : FreshSrc env n) :
    ∀ (ops : List Op) (st st' : State) (frees : List Nat), Inv env st frees →
    frees.length + ops.length + 1 < f → st.heap.mmap_calls + ops.length ≤ n →
    run env f st ops = .ok st' →
    ∃ frees', Inv env st' frees' ∧ frees'.length ≤ frees.length + ops.length ∧
      st'.heap.mmap_calls ≤ st.heap.mmap_calls + ops.length ∧
      (Mult8 st.heap.mem (frees ++ st.live.map (fun pl => pl.1 - 24)) →
        Mult8 st'.heap.mem (frees' ++ st'.live.map (fun pl => pl.1 - 24))) ∧
      (DummyApart env n →
        Conserved env.dummy c0 st.heap frees (st.live.map (fun pl => pl.1 - 24)) →
        Conserved env.dummy c0 st'.heap frees' (st'.live.map (fun pl => pl.1 - 24)))
  | [], st, st', frees, hinv, _, _, hr => by
    rw [run] at hr
    injection hr with hr
    subst hr
    exact ⟨frees, hinv, le_refl _, le_refl _, fun hm => hm, fun _ hc => hc⟩
  | op :: ops, st, st', frees, hinv, hf, hn, hr => by
    simp only [List.length_cons] at hf hn
    obtain ⟨st1, hs, hr1⟩ := run_cons_ok hr
    obtain ⟨frees1, hinv1, hlen1, hc1, h8, hcv⟩ :=
      ext_step (f := f) c0 hsrc (by omega) hinv (by omega) op hs
    obtain ⟨frees', hinv', hlen', hc', h8', hcv'⟩ :=
      ext_run c0 hsrc ops st1 st' frees1 hinv1 (by omega) (by omega) hr1
    exact ⟨frees', hinv', by simp only [List.length_cons]; omega,
      by simp only [List.length_cons]; omega, fun hm => h8' (h8 hm),
      fun hd hc => hcv' hd (hcv hd hc)⟩

/-- The run invariants hold right after `my_initialize`. -/
theorem ext_init (env : Env) (h0 : Heap) :
    Mult8 (init_state env h0).heap.mem
      ([env.dummy] ++ (init_state env h0).live.map (fun pl => pl.1 - 24)) ∧
    Conserved env.dummy h0.mmap_calls (init_state env h0).heap [env.dummy]
      ((init_state env h0).live.map (fun pl => pl.1 - 24)) := by
  have hd : (init_state env h0).heap.mem env.dummy = 0 := by
    show store (store (store h0.mem env.dummy 0) (env.dummy + 8) 0) (env.dummy + 16) 0
      env.dummy = 0
    rw [store_other _ _ _ _ (by omega), store_other _ _ _ _ (by omega), store_same]
  refine ⟨?_, ⟨[], rfl⟩, hd, ?_, ?_⟩
  · intro a ha
    simp only [init_state, List.map_nil, List.append_nil, List.mem_singleton] at ha
    subst ha
    rw [hd]
  · intro a ha
    simp only [init_state, List.map_nil, List.append_nil, List.mem_singleton] at ha
    subst ha
    rw [hd]
    omega
  · show bytes _ ([env.dummy] ++ []) + _ = 4096 * h0.mmap_calls + 24
    rw [List.append_nil, bytes_cons, hd]
    simp only [bytes, List.map_nil, List.sum_nil]
    omega

/-- The links at the end of a list whose last node is `d`: `d.prev` is the
node before `d`, whose `next` is `d`; when `d` is the only node it is the
head. -/
theorem last_links {m : Nat → Nat} {d : Nat} : ∀ (L : List Nat) (p q : Nat),
    Seg m p (L ++ [d]) 0 → PrevSeg m q (L ++ [d]) →
    (L = [] → p = d ∧ m (d + 16) = q) ∧
    (∀ L' a, L = L' ++ [a] → m (d + 16) = a ∧ m (a + 8) = d)
  | [], p, q, hs, hp => by
    obtain ⟨rfl, _, _⟩ := hs
    obtain ⟨hq, _⟩ := hp
    refine ⟨fun _ => ⟨rfl, hq⟩, ?_⟩
    intro L' a e
    simp at e
  | x :: xs, p, q, hs, hp => by
    obtain ⟨rfl, _, hrest⟩ := hs
    obtain ⟨_, hprest⟩ := hp
    have ih := last_links xs (m (p + 8)) p hrest hprest
    refine ⟨fun e => by simp at e, ?_⟩
    intro L' a e
    cases L' with
    | nil =>
      simp only [List.nil_append, List.cons.injEq] at e
      obtain ⟨rfl, rfl⟩ := e
      obtain ⟨h1, h2⟩ := ih.1 rfl
      exact ⟨h2, h1⟩
    | cons y ys =>
      simp only [List.cons_append, List.cons.injEq] at e
      exact ih.2 ys a e.2

/-- A successful run from `my_initialize` ends in a state that satisfies all
run invariants. -/
theorem run_init_ext {env : Env} {h0 : Heap} {ops : List Op} {st : State} {f : Nat}
    (hsrc : FreshSrc env (h0.mmap_calls + ops.length)) (hf : ops.length + 2 < f)
    (hrun : run env f (init_state env h0) ops = .ok st) :
    ∃ frees, Inv env st frees ∧
      Mult8 st.heap.mem (frees ++ st.live.map (fun pl => pl.1 - 24)) ∧
      (DummyApart env (h0.mmap_calls + ops.length) →
        Conserved env.dummy h0.mmap_calls st.heap frees
          (st.live.map (fun pl => pl.1 - 24))) := by
  have hinit : Inv env (init_state env h0) [env.dummy] := inv_init hsrc h0
  obtain ⟨h8, hc⟩ := ext_init env h0
  obtain ⟨frees, hinv, _, _, h8', hc'⟩ :=
    ext_run (f := f) h0.mmap_calls hsrc ops (init_state env h0) st [env.dummy] hinit
      (by simp only [List.length_cons, List.length_nil]; omega) (le_refl _) hrun
  exact ⟨frees, hinv, h8' h8, fun hd => hc' hd hc⟩

end Malloc

/-! ## Facts about `malloc_update.c` -/

namespace MallocUpdate

open Malloc (Err store SIZE_MOD coalesce_scan best_fit_scan Seg store_same store_other Seg_congr
  Seg_ne_zero)

/-- A block returned by the best-fit loop is the running `best_fit` or a node
of the searched list that fits. -/
theorem scan_reach {m : Nat → Nat} {size : Nat} : ∀ (f cur best r : Nat),
    best_fit_scan f m size cur best = .ok r →
    r = best ∨ (Reach m cur r ∧ size ≤ m r)
  | 0, _, _, _, h => by simp [best_fit_scan] at h
  | f + 1, cur, best, r, h => by
    rw [best_fit_scan] at h
    by_cases hc : cur = 0
    · simp only [hc, if_true] at h
      injection h with h
      exact Or.inl h.symm
    · simp only [hc, if_false] at h
      rcases scan_reach f _ _ r h with e | ⟨hr, hs⟩
      · by_cases hcond : m cur ≥ size ∧ (best = 0 ∨ m cur < m best)
        · rw [if_pos hcond] at e
          right
          rw [e]
          exact ⟨Reach.here cur hc, hcond.1⟩
        · rw [if_neg hcond] at e
          exact Or.inl e
      · exact Or.inr ⟨Reach.next cur r hc hr, hs⟩

theorem take_ptr {f : Nat} {h h1 : Heap} {b size p : Nat}
    (hres : my_malloc_take f h b size = .ok (p, h1)) : p = b + sizeof_my_metadata_t := by
  unfold my_malloc_take at hres
  dsimp only at hres
  split at hres
  · split at hres
    · cases hres
    · injection hres with e
      injection e with e1 _
      exact e1.symm
  · injection hres with e
    injection e with e1 _
    exact e1.symm

/-- Where the block that `my_malloc` returns comes from. -/
theorem malloc_source (env : Env) (f size : Nat) : ∀ (depth : Nat) (h h1 : Heap) (p : Nat),
    my_malloc env depth f h size = .ok (p, h1) →
    ∃ h0 b, GrowsTo env f size h h0 ∧
      best_fit_scan f h0.mem size (list_for h0 size) 0 = .ok b ∧ b ≠ 0 ∧
      my_malloc_take f h0 b size = .ok (p, h1) ∧ p = b + sizeof_my_metadata_t ∧
      Reach h0.mem (list_for h0 size) b ∧ size ≤ h0.mem b
  | 0, _, _, _, hres => by simp [my_malloc] at hres
  | depth + 1, h, h1, p, hres => by
    rw [my_malloc] at hres
    cases hscan : best_fit_scan f h.mem size (list_for h size) 0 with
    | error e => rw [hscan] at hres; cases hres
    | ok b =>
      rw [hscan] at hres
      dsimp only at hres
      by_cases hb : b = 0
      · rw [if_pos hb] at hres
        cases hgrow : my_malloc_grow env f h with
        | error e => rw [hgrow] at hres; cases hres
        | ok h2 =>
          rw [hgrow] at hres
          obtain ⟨h0, b0, hg, w⟩ := malloc_source env f size depth h2 h1 p hres
          exact ⟨h0, b0, GrowsTo.step h h2 h0 (hb ▸ hscan) hgrow hg, w⟩
      · rw [if_neg hb] at hres
        have := (scan_reach f _ 0 b hscan).resolve_left hb
        exact ⟨h, b, GrowsTo.refl h, hscan, hb, hres, take_ptr hres, this.1, this.2⟩

/-- `my_remove_from_free_list` writes only the two links of the block, the
`next` link of its `prev` and the `prev` link of its `next`. -/
theorem remove_mem_other (h : Heap) (b y : Nat) (h1 : y ≠ b + 8) (h2 : y ≠ b + 16)
    (h3 : y ≠ h.mem (b + 16) + 8) (h4 : y ≠ h.mem (b + 8) + 16) :
    (my_remove_from_free_list h b).mem y = h.mem y := by
  have hnext : ∀ v : Nat, store h.mem (h.mem (b + 16) + 8) (h.mem (b + 8)) (b + 8) =
      h.mem (b + 8) := by
    intro _
    unfold store
    split_ifs with e
    · rfl
    · rfl
  unfold my_remove_from_free_list
  dsimp only
  rw [store_other _ _ _ _ h1, store_other _ _ _ _ h2]
  by_cases hp : h.mem (b + 16) = 0
  · simp only [hp, ne_eq, not_true_eq_false, if_false]
    by_cases hl : h.mem (b + 24) = 0
    · simp only [hl, not_true_eq_false, if_false]
      by_cases hn : h.mem (b + 8) = 0
      · simp only [hn, not_true_eq_false, if_false]
      · simp only [hn, not_false_eq_true, if_true]
        exact store_other _ _ _ _ h4
    · simp only [hl, not_false_eq_true, if_true]
      by_cases hn : h.mem (b + 8) = 0
      · simp only [hn, not_true_eq_false, if_false]
      · simp only [hn, not_false_eq_true, if_true]
        exact store_other _ _ _ _ h4
  · simp only [hp, ne_eq, not_false_eq_true, if_true, hnext 0]
    by_cases hn : h.mem (b + 8) = 0
    · simp only [hn, not_true_eq_false, if_false]
      exact store_other _ _ _ _ h3
    · simp only [hn, not_false_eq_true, if_true]
      rw [store_other _ _ _ _ h4]
      exact store_other _ _ _ _ h3


/-- The page that `my_malloc` registers becomes the head of the large list,
whatever the request was: its header is tagged large (4096 - 32 > 1000).  The
links of the block right behind the page, which `my_coalesce` may absorb, are
taken not to point into the page. -/
theorem grow_large (env : Env) (f : Nat) (h h1 : Heap)
    (hres : my_malloc_grow env f h = .ok h1)
    (hnext : h.mem (env.mmap_from_system h.mmap_calls + 4096 + 8) <
        env.mmap_from_system h.mmap_calls ∨
      env.mmap_from_system h.mmap_calls + 4096 ≤
        h.mem (env.mmap_from_system h.mmap_calls + 4096 + 8))
    (hprev : h.mem (env.mmap_from_system h.mmap_calls + 4096 + 16) <
        env.mmap_from_system h.mmap_calls ∨
      env.mmap_from_system h.mmap_calls + 4096 ≤
        h.mem (env.mmap_from_system h.mmap_calls + 4096 + 16)) :
    h1.free_head_large = env.mmap_from_system h.mmap_calls ∧
    h1.mmap_calls = h.mmap_calls + 1 := by
  generalize hpg : env.mmap_from_system h.mmap_calls = pg at *
  unfold my_malloc_grow at hres
  have e : (4096 + SIZE_MOD - sizeof_my_metadata_t) % SIZE_MOD = 4064 := by
    unfold SIZE_MOD sizeof_my_metadata_t; norm_num
  simp only [e, hpg] at hres
  have hsz : store (store (store h.mem pg 4064) (pg + 8) 0) (pg + 16) 0 pg = 4064 := by
    rw [store_other _ _ _ _ (by omega), store_other _ _ _ _ (by omega), store_same]
  rw [hsz] at hres
  simp only [show (4064 : Nat) > 1000 from by norm_num, if_true] at hres
  -- the heap with the header of the page
  generalize hA :
    ({ mem := store (store (store (store h.mem pg 4064) (pg + 8) 0) (pg + 16) 0) (pg + 24) 1,
       free_head_large := h.free_head_large, free_head_small := h.free_head_small,
       mmap_calls := h.mmap_calls + 1 } : Heap) = A at hres
  have hA24 : A.mem (pg + 24) = 1 := by rw [← hA]; exact store_same _ _ _
  have hA0 : A.mem pg = 4064 := by
    rw [← hA]
    show store _ _ _ pg = _
    rw [store_other _ _ _ _ (by omega)]
    exact hsz
  have hAn8 : A.mem (pg + 4096 + 8) = h.mem (pg + 4096 + 8) := by
    rw [← hA]
    show store _ _ _ _ = _
    rw [store_other _ _ _ _ (by omega), store_other _ _ _ _ (by omega),
      store_other _ _ _ _ (by omega), store_other _ _ _ _ (by omega)]
  have hAn16 : A.mem (pg + 4096 + 16) = h.mem (pg + 4096 + 16) := by
    rw [← hA]
    show store _ _ _ _ = _
    rw [store_other _ _ _ _ (by omega), store_other _ _ _ _ (by omega),
      store_other _ _ _ _ (by omega), store_other _ _ _ _ (by omega)]
  have hAc : A.mmap_calls = h.mmap_calls + 1 := by rw [← hA]
  unfold my_coalesce at hres
  simp only [hA0, hA24, sizeof_my_metadata_t] at hres
  cases hscan : coalesce_scan f A.mem
      (if (1 : Nat) ≠ 0 then A.free_head_large else A.free_head_small) (pg + 4064 + 32) with
  | error e => rw [hscan] at hres; cases hres
  | ok found =>
    rw [hscan] at hres
    dsimp only at hres
    -- the heap before the insertion: the tag of the page is still set
    have key : ∀ B : Heap, B.mem (pg + 24) = 1 → B.mmap_calls = h.mmap_calls + 1 →
        my_add_to_free_list
          { B with mem := store (store B.mem (pg + 8) 0) (pg + 16) 0 } pg = .ok h1 →
        h1.free_head_large = pg ∧ h1.mmap_calls = h.mmap_calls + 1 := by
      intro B hB hBc hadd
      unfold my_add_to_free_list at hadd
      have z8 : store (store B.mem (pg + 8) 0) (pg + 16) 0 (pg + 8) = 0 := by
        rw [store_other _ _ _ _ (by omega), store_same]
      have z16 : store (store B.mem (pg + 8) 0) (pg + 16) 0 (pg + 16) = 0 := store_same _ _ _
      have z24 : store (store B.mem (pg + 8) 0) (pg + 16) 0 (pg + 24) = 1 := by
        rw [store_other _ _ _ _ (by omega), store_other _ _ _ _ (by omega), hB]
      simp only [z8, z16, z24, ne_eq, not_true_eq_false, or_self, if_false, one_ne_zero,
        not_false_eq_true, if_true] at hadd
      injection hadd with hadd
      rw [← hadd]
      exact ⟨rfl, hBc⟩
    cases found with
    | false =>
      simp only [Bool.false_eq_true, if_false] at hres
      exact key A hA24 hAc hres
    | true =>
      simp only [if_true] at hres
      refine key ⟨store (my_remove_from_free_list A (pg + 4064 + 32)).mem pg _, _, _, _⟩
        ?_ ?_ hres
      · show store _ _ _ (pg + 24) = 1
        rw [store_other _ _ _ _ (by omega)]
        have e2 : pg + 4064 + 32 = pg + 4096 := by omega
        rw [e2, remove_mem_other A (pg + 4096) (pg + 24) (by omega) (by omega)
          (by rw [hAn16]; omega) (by rw [hAn8]; omega)]
        exact hA24
      · show (my_remove_from_free_list A (pg + 4064 + 32)).mmap_calls = _
        rw [← hAc]
        unfold my_remove_from_free_list
        dsimp only
        split_ifs <;> rfl

theorem mem_pages_list : ∀ (k x : Nat), x ∈ pages_list k → ∃ i, i < k ∧ x = 4096 * (i + 1)
  | 0, x, h => by simp [pages_list] at h
  | k + 1, x, h => by
    rcases List.mem_cons.mp h with rfl | h
    · exact ⟨k, by omega, rfl⟩
    · obtain ⟨i, hi, e⟩ := mem_pages_list k x h
      exact ⟨i, by omega, e⟩

/-- A search of `my_coalesce` for an address that is no node of the list does
not find it. -/
theorem scan_absent {m : Nat → Nat} {t : Nat} : ∀ (L : List Nat) (p f : Nat),
    Seg m p L 0 → t ∉ L →
    coalesce_scan f m p t = .ok false ∨ coalesce_scan f m p t = .error .fuel
  | _, _, 0, _, _ => Or.inr rfl
  | [], p, f + 1, hs, _ => by
    left
    simp only [Seg] at hs
    simp [coalesce_scan, hs]
  | x :: xs, p, f + 1, hs, ht => by
    obtain ⟨rfl, hx, hrest⟩ := hs
    have hpt : p ≠ t := fun e => ht (e ▸ List.mem_cons_self _ _)
    have ih := scan_absent xs (m (p + 8)) f hrest (fun hm => ht (List.mem_cons_of_mem _ hm))
    simp only [coalesce_scan, hx, hpt, if_false]
    exact ih

/-- A search of the small list that holds the sentinel alone finds nothing. -/
theorem small_scan_none {m : Nat → Nat} (f size : Nat) (hsz : 1 ≤ size) (h0 : m 112 = 0)
    (h8 : m 120 = 0) :
    best_fit_scan f m size 112 0 = .ok 0 ∨ best_fit_scan f m size 112 0 = .error .fuel := by
  cases f with
  | zero => exact Or.inr rfl
  | succ f =>
    cases f with
    | zero =>
      right
      simp [best_fit_scan]
    | succ f =>
      left
      have hs0 : size ≠ 0 := by omega
      simp [best_fit_scan, h8, h0, hs0]

theorem scan_error {m : Nat → Nat} {t : Nat} {e : Err} : ∀ (f p : Nat),
    coalesce_scan f m p t = .error e → e = .fuel
  | 0, _, h => by
    simp only [coalesce_scan] at h
    injection h with h
    exact h.symm
  | f + 1, p, h => by
    rw [coalesce_scan] at h
    split_ifs at h
    exact scan_error f _ h

/-- `my_coalesce` fails only when its loop runs out of fuel: the assertion of
`my_add_to_free_list` holds, the links were just cleared. -/
theorem coalesce_error {f : Nat} {h : Heap} {b : Nat} {e : Err}
    (hres : my_coalesce f h b = .error e) : e = .fuel := by
  unfold my_coalesce at hres
  dsimp only at hres
  split at hres
  · injection hres with hres
    rw [← hres]
    exact scan_error _ _ (by assumption)
  · unfold my_add_to_free_list at hres
    dsimp only at hres
    have z8 : ∀ m : Nat → Nat, store (store m (b + 8) 0) (b + 16) 0 (b + 8) = 0 := by
      intro m
      rw [store_other _ _ _ _ (by omega), store_same]
    have z16 : ∀ m : Nat → Nat, store (store m (b + 8) 0) (b + 16) 0 (b + 16) = 0 :=
      fun m => store_same _ _ _
    simp only [z8, z16, ne_eq, not_true_eq_false, or_self, if_false] at hres
    split_ifs at hres

/-- Registering a page in a heap that holds only pages gives such a heap
again, with one more page in the large list and the small list as it was. -/
theorem grow_only_pages (f k : Nat) (h h1 : Heap) (hk : OnlyPages h k)
    (hres : my_malloc_grow env0 f h = .ok h1) : OnlyPages h1 (k + 1) := by
  obtain ⟨hc, hsmall, h112, h120, hseg⟩ := hk
  have hnodes : ∀ x ∈ pages_list k ++ [80], x = 80 ∨ ∃ i, i < k ∧ x = 4096 * (i + 1) := by
    intro x hx
    rcases List.mem_append.mp hx with hx | hx
    · exact Or.inr (mem_pages_list k x hx)
    · exact Or.inl (by simpa using hx)
  have hne0 := Seg_ne_zero _ _ _ hseg
  -- the head of the large list is a node
  have hhead : h.free_head_large ∈ pages_list k ++ [80] := by
    cases hL : pages_list k ++ [80] with
    | nil => simp at hL
    | cons x xs =>
      rw [hL] at hseg
      rw [hseg.1]
      exact List.mem_cons_self _ _
  have hh0 : h.free_head_large ≠ 0 := hne0 _ hhead
  have hhd := hnodes _ hhead
  unfold my_malloc_grow at hres
  have e : (4096 + SIZE_MOD - sizeof_my_metadata_t) % SIZE_MOD = 4064 := by
    unfold SIZE_MOD sizeof_my_metadata_t; norm_num
  have epg : env0.mmap_from_system h.mmap_calls = 4096 * (k + 1) := by rw [hc]; rfl
  simp only [e, epg] at hres
  generalize hpg : 4096 * (k + 1) = pg at hres
  have hsz : store (store (store h.mem pg 4064) (pg + 8) 0) (pg + 16) 0 pg = 4064 := by
    rw [store_other _ _ _ _ (by omega), store_other _ _ _ _ (by omega), store_same]
  rw [hsz] at hres
  simp only [show (4064 : Nat) > 1000 from by norm_num, if_true] at hres
  generalize hA :
    ({ mem := store (store (store (store h.mem pg 4064) (pg + 8) 0) (pg + 16) 0) (pg + 24) 1,
       free_head_large := h.free_head_large, free_head_small := h.free_head_small,
       mmap_calls := h.mmap_calls + 1 } : Heap) = A at hres
  have hAm : ∀ y, y ≠ pg → y ≠ pg + 8 → y ≠ pg + 16 → y ≠ pg + 24 → A.mem y = h.mem y := by
    intro y h1 h2 h3 h4
    rw [← hA]
    show store _ _ _ y = _
    rw [store_other _ _ _ _ h4, store_other _ _ _ _ h3, store_other _ _ _ _ h2,
      store_other _ _ _ _ h1]
  have hA24 : A.mem (pg + 24) = 1 := by rw [← hA]; exact store_same _ _ _
  have hA0 : A.mem pg = 4064 := by
    rw [← hA]
    show store _ _ _ pg = _
    rw [store_other _ _ _ _ (by omega)]
    exact hsz
  have hAl : A.free_head_large = h.free_head_large := by rw [← hA]
  have hAs : A.free_head_small = h.free_head_small := by rw [← hA]
  have hAc : A.mmap_calls = h.mmap_calls + 1 := by rw [← hA]
  have hsegA : Seg A.mem A.free_head_large (pages_list k ++ [80]) 0 := by
    rw [hAl]
    refine (Seg_congr _ _ _ ?_).mpr hseg
    intro x hx
    rcases hnodes x hx with rfl | ⟨i, hi, rfl⟩ <;> (apply hAm <;> omega)
  have habs : pg + 4064 + 32 ∉ pages_list k ++ [80] := by
    intro hm
    rcases hnodes _ hm with e1 | ⟨i, hi, e1⟩ <;> omega
  unfold my_coalesce at hres
  simp only [hA0, hA24, sizeof_my_metadata_t, ne_eq, one_ne_zero, not_false_eq_true,
    if_true] at hres
  rcases scan_absent _ _ f hsegA habs with hscan | hscan
  · rw [hscan] at hres
    simp only [Bool.false_eq_true, if_false] at hres
    unfold my_add_to_free_list at hres
    have z8 : store (store A.mem (pg + 8) 0) (pg + 16) 0 (pg + 8) = 0 := by
      rw [store_other _ _ _ _ (by omega), store_same]
    have z16 : store (store A.mem (pg + 8) 0) (pg + 16) 0 (pg + 16) = 0 := store_same _ _ _
    have z24 : store (store A.mem (pg + 8) 0) (pg + 16) 0 (pg + 24) = 1 := by
      rw [store_other _ _ _ _ (by omega), store_other _ _ _ _ (by omega), hA24]
    simp only [z8, z16, z24, ne_eq, not_true_eq_false, or_self, if_false, one_ne_zero,
      not_false_eq_true, if_true, hAl, hh0] at hres
    injection hres with hres
    -- the memory after the insertion
    have hm1 : ∀ y, y ≠ pg → y ≠ pg + 8 → y ≠ pg + 16 → y ≠ pg + 24 →
        y ≠ h.free_head_large + 16 → h1.mem y = h.mem y := by
      intro y h1' h2 h3 h4 h5
      rw [← hres]
      show store _ _ _ y = _
      rw [store_other _ _ _ _ h3, store_other _ _ _ _ h5, store_other _ _ _ _ h2,
        store_other _ _ _ _ h3, store_other _ _ _ _ h2]
      exact hAm y h1' h2 h3 h4
    have hn1 : h1.mem (pg + 8) = h.free_head_large := by
      rw [← hres]
      show store _ _ _ _ = _
      rw [store_other _ _ _ _ (by omega), store_other _ _ _ _ (by
        rcases hhd with e1 | ⟨i, hi, e1⟩ <;> omega), store_same]
    refine ⟨by rw [← hres]; show A.mmap_calls = _; rw [hAc, hc], ?_, ?_, ?_, ?_⟩
    · rw [← hres]; show A.free_head_small = _; rw [hAs, hsmall]
    · rw [hm1 112 (by omega) (by omega) (by omega) (by omega) (by
        rcases hhd with e1 | ⟨i, hi, e1⟩ <;> omega)]
      exact h112
    · rw [hm1 120 (by omega) (by omega) (by omega) (by omega) (by
        rcases hhd with e1 | ⟨i, hi, e1⟩ <;> omega)]
      exact h120
    · have hl : h1.free_head_large = pg := by rw [← hres]
      rw [hl]
      show Seg h1.mem pg (4096 * (k + 1) :: (pages_list k ++ [80])) 0
      rw [hpg]
      refine ⟨rfl, by omega, ?_⟩
      rw [hn1]
      refine (Seg_congr _ _ _ ?_).mpr hseg
      intro x hx
      rcases hnodes x hx with e1 | ⟨i, hi, e1⟩ <;>
        rcases hhd with e2 | ⟨j, hj, e2⟩ <;> (apply hm1 <;> omega)
  · rw [hscan] at hres
    cases hres

/-- In a heap that holds only pages `my_malloc` of a small size never
returns: every retry searches the small list again. -/
theorem malloc_only_pages (f size : Nat) (hsz : 1 ≤ size) (hle : size ≤ 1000) :
    ∀ (depth k : Nat) (h : Heap), OnlyPages h k →
    my_malloc env0 depth f h size = .error .fuel
  | 0, _, _, _ => rfl
  | depth + 1, k, h, hk => by
    rw [my_malloc]
    have hl : list_for h size = 112 := by
      unfold list_for
      rw [if_neg (by omega)]
      exact hk.2.1
    rw [hl]
    rcases small_scan_none f size hsz hk.2.2.1 hk.2.2.2.1 with hs | hs
    · rw [hs]
      simp only [if_true]
      cases hg : my_malloc_grow env0 f h with
      | error e =>
        -- the only failure of the page registration is a loop that ran out of fuel
        have : e = .fuel := coalesce_error hg
        rw [this]
      | ok h2 =>
        exact malloc_only_pages f size hsz hle depth (k + 1) h2 (grow_only_pages f k h h2 hk hg)
    · rw [hs]

/-! ### The two-list invariant -/

open Malloc (Err store SIZE_MOD coalesce_scan best_fit_scan Seg PrevSeg Op bestOf unlink_mem
  store_same store_other Seg_congr PrevSeg_congr Seg_ne_zero Seg_next_cases PrevSeg_prev_cases
  unlink_mem_other bestOf_ne_zero bestOf_eq_zero Seg_unique)

/-- When the loop of `my_coalesce` returns, it tells whether `t` is a node of
the list. -/
theorem coalesce_scan_ok {m : Nat → Nat} (t : Nat) : ∀ (L : List Nat) (p f : Nat) (found : Bool),
    Seg m p L 0 → coalesce_scan f m p t = .ok found → found = decide (t ∈ L)
  | _, _, 0, _, _, h => by simp [coalesce_scan] at h
  | [], p, f + 1, found, hs, h => by
    simp only [Seg] at hs
    simp only [coalesce_scan, hs, if_true] at h
    injection h with h
    simp [← h]
  | x :: xs, p, f + 1, found, hs, h => by
    obtain ⟨rfl, hx, hrest⟩ := hs
    by_cases hpt : p = t
    · subst hpt
      simp only [coalesce_scan, hx, if_false, if_true] at h
      injection h with h
      simp [← h]
    · simp only [coalesce_scan, hx, if_false, hpt] at h
      have ih := coalesce_scan_ok t xs _ f found hrest h
      rw [ih]
      have hpt2 : ¬ t = p := fun e => hpt e.symm
      simp [hpt2]

/-- When the best-fit loop returns, it returns the list-level best fit. -/
theorem best_fit_scan_ok {m : Nat → Nat} (size : Nat) :
    ∀ (L : List Nat) (p best f r : Nat),
    Seg m p L 0 → best_fit_scan f m size p best = .ok r → r = bestOf m size L best
  | _, _, _, 0, _, _, h => by simp [best_fit_scan] at h
  | [], p, best, f + 1, r, hs, h => by
    simp only [Seg] at hs
    simp only [best_fit_scan, hs, if_true] at h
    injection h with h
    simp [bestOf, ← h]
  | x :: xs, p, best, f + 1, r, hs, h => by
    obtain ⟨rfl, hx, hrest⟩ := hs
    simp only [best_fit_scan, hx, if_false] at h
    simp only [bestOf]
    exact best_fit_scan_ok size xs _ _ f r hrest h

theorem Apart.hsep2 {m : Nat → Nat} {a b : Nat} (h : Apart m a b) : HSep a b := by
  unfold Apart at h; unfold HSep; omega

theorem WF.swap {h : Heap} {t : Bool} {A B O : List Nat} (hwf : WF h t A B O) :
    WF h (!t) B A O := by
  have hmem : ∀ a, a ∈ (B ++ A) ++ O ↔ a ∈ (A ++ B) ++ O := by
    intro a
    simp only [List.mem_append]
    tauto
  refine ⟨hwf.chain2, ?_, hwf.prev2, hwf.prev, hwf.tag_theirs, ?_, ?_, ?_, ?_⟩
  · rw [Bool.not_not]; exact hwf.chain
  · rw [Bool.not_not]; exact hwf.tag_mine
  · exact (List.Perm.append_right O List.perm_append_comm).nodup_iff.mp hwf.nodup
  · intro a ha b hb hab
    exact hwf.apart a ((hmem a).mp ha) b ((hmem b).mp hb) hab
  · intro a ha
    exact hwf.bound a ((hmem a).mp ha)

theorem WF.hsep_mem {h : Heap} {t : Bool} {A B O : List Nat} (hwf : WF h t A B O) {a b : Nat}
    (ha : a ∈ (A ++ B) ++ O) (hb : b ∈ (A ++ B) ++ O) : a = b ∨ HSep a b := by
  by_cases e : a = b
  · exact Or.inl e
  · exact Or.inr (hwf.apart a ha b hb e).hsep2

theorem WF.ne_zero {h : Heap} {t : Bool} {A B O : List Nat} (hwf : WF h t A B O) :
    ∀ x ∈ A ++ B, x ≠ 0 := by
  intro x hx
  rcases List.mem_append.mp hx with h1 | h1
  · exact Seg_ne_zero _ _ _ hwf.chain x h1
  · exact Seg_ne_zero _ _ _ hwf.chain2 x h1

/-- The list of class `t`, with all other blocks detached, is a well-formed
heap of the single-list kind. -/
theorem WF.single {h : Heap} {t : Bool} {A B O : List Nat} (hwf : WF h t A B O) :
    Malloc.WF ⟨h.mem, list_head h t, h.mmap_calls⟩ A (B ++ O) := by
  refine ⟨hwf.chain, hwf.prev, ?_, ?_, ?_⟩
  · rw [← List.append_assoc]; exact hwf.nodup
  · intro a ha b hb hab
    rw [← List.append_assoc] at ha hb
    have := hwf.apart a ha b hb hab
    unfold Apart at this
    unfold Malloc.Apart
    show a + 24 + h.mem a ≤ b ∨ b + 24 + h.mem b ≤ a
    omega
  · intro a ha
    rw [← List.append_assoc] at ha
    have := hwf.bound a ha
    show a + 24 + h.mem a ≤ SIZE_MOD
    omega

/-- How `my_remove_from_free_list` acts on the list of the class of `b`: as the
function of `malloc.c` acts on its one list. -/
theorem remove_bridge (h : Heap) (b : Nat) (t : Bool) (ht : is_large h.mem b = t) :
    my_remove_from_free_list h b =
      { mem := (Malloc.my_remove_from_free_list ⟨h.mem, list_head h t, h.mmap_calls⟩ b).mem
        free_head_large :=
          if t then (Malloc.my_remove_from_free_list
            ⟨h.mem, list_head h t, h.mmap_calls⟩ b).free_head
          else h.free_head_large
        free_head_small :=
          if t then h.free_head_small
          else (Malloc.my_remove_from_free_list
            ⟨h.mem, list_head h t, h.mmap_calls⟩ b).free_head
        mmap_calls := h.mmap_calls } := by
  unfold is_large at ht
  unfold my_remove_from_free_list Malloc.my_remove_from_free_list list_head
  cases t
  · have h24 : h.mem (b + 24) = 0 := by simpa using ht
    by_cases h1 : h.mem (b + 16) = 0
    · by_cases h2 : h.mem (b + 8) = 0 <;> simp [h1, h2, h24]
    · by_cases h3 : store h.mem (h.mem (b + 16) + 8) (h.mem (b + 8)) (b + 8) = 0 <;>
        simp [h1, h3, h24]
  · have h24 : h.mem (b + 24) ≠ 0 := by simpa using ht
    by_cases h1 : h.mem (b + 16) = 0
    · by_cases h2 : h.mem (b + 8) = 0 <;> simp [h1, h2, h24]
    · by_cases h3 : store h.mem (h.mem (b + 16) + 8) (h.mem (b + 8)) (b + 8) = 0 <;>
        simp [h1, h3, h24]

theorem list_head_mk (m : Nat → Nat) (x y c : Nat) (t : Bool) :
    list_head ⟨m, if t then x else y, if t then y else x, c⟩ t = x ∧
    list_head ⟨m, if t then x else y, if t then y else x, c⟩ (!t) = y := by
  cases t <;> simp [list_head]

/-- Effect of `my_remove_from_free_list` on a node `b` of the list of class
`t`. -/
theorem remove_spec2 {h : Heap} {t : Bool} {A B O : List Nat} {b : Nat}
    (hwf : WF h t A B O) (hb : b ∈ A) :
    WF (my_remove_from_free_list h b) t (A.erase b) B (b :: O) ∧
    (my_remove_from_free_list h b).mem (b + 8) = 0 ∧
    (my_remove_from_free_list h b).mem (b + 16) = 0 ∧
    (my_remove_from_free_list h b).mmap_calls = h.mmap_calls ∧
    (∀ a ∈ (A ++ B) ++ O, (my_remove_from_free_list h b).mem a = h.mem a ∧
      (my_remove_from_free_list h b).mem (a + 24) = h.mem (a + 24)) ∧
    (∀ a ∈ O, (my_remove_from_free_list h b).mem (a + 8) = h.mem (a + 8) ∧
      (my_remove_from_free_list h b).mem (a + 16) = h.mem (a + 16)) := by
  have ht := hwf.tag_mine b hb
  obtain ⟨gwf, g8, g16, _, gsz, gmem, goth⟩ := Malloc.remove_spec hwf.single hb
  rw [remove_bridge h b t ht]
  generalize Malloc.my_remove_from_free_list ⟨h.mem, list_head h t, h.mmap_calls⟩ b = g
    at gwf g8 g16 gsz gmem goth ⊢
  dsimp only at gsz gmem goth
  have hbm : b ∈ (A ++ B) ++ O := by simp [hb]
  obtain ⟨l1, l2, hA⟩ := List.append_of_mem hb
  have hnx : h.mem (b + 8) = 0 ∨ h.mem (b + 8) ∈ (A ++ B) ++ O := by
    have := (Seg_next_cases l1 _ (hA ▸ hwf.chain)).2.2
    rcases this with h0 | hm
    · exact Or.inl h0
    · right; rw [hA]; simp [hm]
  have hpv : h.mem (b + 16) = 0 ∨ h.mem (b + 16) ∈ (A ++ B) ++ O := by
    have := (PrevSeg_prev_cases l1 0 (hA ▸ hwf.prev)).2
    rcases this with ⟨_, h0⟩ | ⟨_, hm⟩
    · exact Or.inl h0
    · right; rw [hA]; simp [hm]
  have hsz : ∀ a ∈ (A ++ B) ++ O, g.mem a = h.mem a := by
    intro a ha
    exact gsz a (by rw [← List.append_assoc]; exact ha)
  have htag : ∀ a ∈ (A ++ B) ++ O, g.mem (a + 24) = h.mem (a + 24) := by
    intro a ha
    rw [gmem]
    have s1 := hwf.hsep_mem ha hbm
    have s2 : h.mem (b + 8) = 0 ∨ a = h.mem (b + 8) ∨ HSep a (h.mem (b + 8)) :=
      hnx.imp id (fun hm => hwf.hsep_mem ha hm)
    have s3 : h.mem (b + 16) = 0 ∨ a = h.mem (b + 16) ∨ HSep a (h.mem (b + 16)) :=
      hpv.imp id (fun hm => hwf.hsep_mem ha hm)
    unfold HSep at s1 s2 s3
    apply unlink_mem_other <;> omega
  have hperm : ((A.erase b ++ B) ++ b :: O).Perm ((A ++ B) ++ O) := by
    have p1 : (A ++ B).Perm (b :: (A.erase b ++ B)) :=
      (List.perm_cons_erase hb).append_right B
    exact List.perm_middle.trans (p1.symm.append_right O)
  have hmem : ∀ a, a ∈ (A.erase b ++ B) ++ b :: O → a ∈ (A ++ B) ++ O :=
    fun a ha => hperm.mem_iff.mp ha
  have hlarge : ∀ a ∈ (A ++ B) ++ O, is_large g.mem a = is_large h.mem a := by
    intro a ha
    unfold is_large
    rw [htag a ha]
  obtain ⟨e1, e2⟩ := list_head_mk g.mem g.free_head (list_head h (!t)) h.mmap_calls t
  have e5 : (if t then g.free_head else h.free_head_large) =
      if t then g.free_head else list_head h (!t) := by
    cases t <;> simp [list_head]
  have e6 : (if t then h.free_head_small else g.free_head) =
      if t then list_head h (!t) else g.free_head := by
    cases t <;> simp [list_head]
  rw [e5, e6]
  refine ⟨⟨?_, ?_, gwf.prev, ?_, ?_, ?_, ?_, ?_, ?_⟩, g8, g16, rfl,
    fun a ha => ⟨hsz a ha, htag a ha⟩, fun a ha => goth a (List.mem_append_right _ ha)⟩
  · rw [e1]; exact gwf.chain
  · rw [e2]
    refine (Seg_congr B _ _ ?_).mpr hwf.chain2
    intro x hx
    exact (goth x (List.mem_append_left _ hx)).1
  · refine (PrevSeg_congr B _ ?_).mpr hwf.prev2
    intro x hx
    exact (goth x (List.mem_append_left _ hx)).2
  · intro a ha
    have ha' : a ∈ A := List.mem_of_mem_erase ha
    show is_large g.mem a = t
    rw [hlarge a (by simp [ha'])]
    exact hwf.tag_mine a ha'
  · intro a ha
    show is_large g.mem a = !t
    rw [hlarge a (by simp [ha])]
    exact hwf.tag_theirs a ha
  · exact hperm.nodup_iff.mpr hwf.nodup
  · intro a ha c hc hac
    have := hwf.apart a (hmem a ha) c (hmem c hc) hac
    unfold Apart at this ⊢
    show a + 32 + g.mem a ≤ c ∨ c + 32 + g.mem c ≤ a
    rw [hsz a (hmem a ha), hsz c (hmem c hc)]
    exact this
  · intro a ha
    show a + 32 + g.mem a ≤ SIZE_MOD
    rw [hsz a (hmem a ha)]
    exact hwf.bound a (hmem a ha)

/-- How `my_add_to_free_list` acts on the list of the class of `b`: as the
function of `malloc.c` acts on its one list. -/
theorem add_bridge (h : Heap) (b : Nat) (t : Bool) (ht : is_large h.mem b = t) :
    my_add_to_free_list h b =
      match Malloc.my_add_to_free_list ⟨h.mem, list_head h t, h.mmap_calls⟩ b with
      | .error e => .error e
      | .ok g => .ok
        { mem := g.mem
          free_head_large := if t then g.free_head else h.free_head_large
          free_head_small := if t then h.free_head_small else g.free_head
          mmap_calls := h.mmap_calls } := by
  unfold is_large at ht
  unfold my_add_to_free_list Malloc.my_add_to_free_list list_head
  cases t
  · have h24 : h.mem (b + 24) = 0 := by simpa using ht
    by_cases h1 : h.mem (b + 8) ≠ 0 ∨ h.mem (b + 16) ≠ 0
    · simp only [h1, if_true]
    · simp [h1, h24]
  · have h24 : h.mem (b + 24) ≠ 0 := by simpa using ht
    by_cases h1 : h.mem (b + 8) ≠ 0 ∨ h.mem (b + 16) ≠ 0
    · simp only [h1, if_true]
    · simp [h1, h24]

/-- Effect of `my_add_to_free_list` on a detached block `b` of class `t` with
null links. -/
theorem add_spec2 {h : Heap} {t : Bool} {A B O : List Nat} {b : Nat}
    (hwf : WF h t A B (b :: O)) (hb0 : b ≠ 0)
    (hn : h.mem (b + 8) = 0) (hp : h.mem (b + 16) = 0) (ht : is_large h.mem b = t) :
    ∃ h', my_add_to_free_list h b = .ok h' ∧ WF h' t (b :: A) B O ∧
      h'.mmap_calls = h.mmap_calls ∧
      (∀ a ∈ (A ++ B) ++ b :: O, h'.mem a = h.mem a ∧ h'.mem (a + 24) = h.mem (a + 24)) ∧
      (∀ a ∈ O, h'.mem (a + 8) = h.mem (a + 8) ∧ h'.mem (a + 16) = h.mem (a + 16)) := by
  have hs0 := hwf.single
  have hs1 : Malloc.WF ⟨h.mem, list_head h t, h.mmap_calls⟩ A (b :: (B ++ O)) :=
    hs0.perm_others List.perm_middle
  obtain ⟨g, gadd, gwf, ghead, _, gsz, gframe, goth⟩ := Malloc.add_spec hs1 hb0 hn hp
  dsimp only at gsz gframe goth
  have hbm : b ∈ (A ++ B) ++ b :: O := by simp
  have hhd : list_head h t = 0 ∨ list_head h t ∈ (A ++ B) ++ b :: O := by
    have hc := hwf.chain
    cases hA : A with
    | nil => rw [hA] at hc; exact Or.inl hc
    | cons c fs =>
      rw [hA] at hc
      obtain ⟨e, _, _⟩ := hc
      right
      rw [e]
      simp
  have hsz : ∀ a ∈ (A ++ B) ++ b :: O, g.mem a = h.mem a := by
    intro a ha
    refine gsz a ?_
    simp only [List.mem_append, List.mem_cons] at ha ⊢
    tauto
  have htag : ∀ a ∈ (A ++ B) ++ b :: O, g.mem (a + 24) = h.mem (a + 24) := by
    intro a ha
    have s1 := hwf.hsep_mem ha hbm
    have s2 : list_head h t = 0 ∨ a = list_head h t ∨ HSep a (list_head h t) :=
      hhd.imp id (fun hm => hwf.hsep_mem ha hm)
    unfold HSep at s1 s2
    apply gframe <;> omega
  have hlarge : ∀ a ∈ (A ++ B) ++ b :: O, is_large g.mem a = is_large h.mem a := by
    intro a ha
    unfold is_large
    rw [htag a ha]
  have hperm : (((b :: A) ++ B) ++ O).Perm ((A ++ B) ++ b :: O) := by
    simp only [List.cons_append]
    exact List.perm_middle.symm
  have hmem : ∀ a, a ∈ ((b :: A) ++ B) ++ O → a ∈ (A ++ B) ++ b :: O :=
    fun a ha => hperm.mem_iff.mp ha
  obtain ⟨e1, e2⟩ := list_head_mk g.mem g.free_head (list_head h (!t)) h.mmap_calls t
  have e5 : (if t then g.free_head else h.free_head_large) =
      if t then g.free_head else list_head h (!t) := by
    cases t <;> simp [list_head]
  have e6 : (if t then h.free_head_small else g.free_head) =
      if t then list_head h (!t) else g.free_head := by
    cases t <;> simp [list_head]
  refine ⟨⟨g.mem, if t then g.free_head else h.free_head_large,
    if t then h.free_head_small else g.free_head, h.mmap_calls⟩,
    by rw [add_bridge h b t ht, gadd], ?_, rfl,
    fun a ha => ⟨hsz a ha, htag a ha⟩,
    fun a ha => goth a (List.mem_append_right _ ha)⟩
  rw [e5, e6]
  refine ⟨?_, ?_, gwf.prev, ?_, ?_, ?_, ?_, ?_, ?_⟩
  · rw [e1]; exact gwf.chain
  · rw [e2]
    refine (Seg_congr B _ _ ?_).mpr hwf.chain2
    intro x hx
    exact (goth x (List.mem_append_left _ hx)).1
  · refine (PrevSeg_congr B _ ?_).mpr hwf.prev2
    intro x hx
    exact (goth x (List.mem_append_left _ hx)).2
  · intro a ha
    show is_large g.mem a = t
    rw [hlarge a (hmem a (by simp only [List.mem_append]; tauto))]
    rcases List.mem_cons.mp ha with rfl | ha
    · exact ht
    · exact hwf.tag_mine a ha
  · intro a ha
    show is_large g.mem a = !t
    rw [hlarge a (by simp [ha])]
    exact hwf.tag_theirs a ha
  · exact hperm.nodup_iff.mpr hwf.nodup
  · intro a ha c hc hac
    have := hwf.apart a (hmem a ha) c (hmem c hc) hac
    unfold Apart at this ⊢
    show a + 32 + g.mem a ≤ c ∨ c + 32 + g.mem c ≤ a
    rw [hsz a (hmem a ha), hsz c (hmem c hc)]
    exact this
  · intro a ha
    show a + 32 + g.mem a ≤ SIZE_MOD
    rw [hsz a (hmem a ha)]
    exact hwf.bound a (hmem a ha)

/-! ### Stores into detached blocks -/

/-- A change of the memory that keeps the four header words of every node of
the two lists keeps the lists; the detached blocks may change as long as the
extents stay disjoint. -/
theorem WF.reshape2 {h : Heap} {t : Bool} {A B O : List Nat} (hwf : WF h t A B O)
    (h' : Heap) (O' : List Nat) (hL : h'.free_head_large = h.free_head_large)
    (hS : h'.free_head_small = h.free_head_small)
    (hlinks : ∀ a ∈ A ++ B, h'.mem a = h.mem a ∧ h'.mem (a + 8) = h.mem (a + 8) ∧
      h'.mem (a + 16) = h.mem (a + 16) ∧ h'.mem (a + 24) = h.mem (a + 24))
    (hnd : O'.Nodup) (hdisj : ∀ a ∈ O', a ∉ A ++ B)
    (hapart : ∀ a ∈ O', ∀ c ∈ (A ++ B) ++ O', a ≠ c → Apart h'.mem a c)
    (hbound : ∀ a ∈ O', a + 32 + h'.mem a ≤ SIZE_MOD) : WF h' t A B O' := by
  have hndf : (A ++ B).Nodup := (List.nodup_append.mp hwf.nodup).1
  have hhead : ∀ s, list_head h' s = list_head h s := by
    intro s
    unfold list_head
    rw [hL, hS]
  have htag : ∀ a ∈ A ++ B, is_large h'.mem a = is_large h.mem a := by
    intro a ha
    unfold is_large
    rw [(hlinks a ha).2.2.2]
  refine ⟨?_, ?_, ?_, ?_, ?_, ?_, ?_, ?_, ?_⟩
  · rw [hhead]
    exact (Seg_congr A _ _
      (fun x hx => (hlinks x (List.mem_append_left _ hx)).2.1)).mpr hwf.chain
  · rw [hhead]
    exact (Seg_congr B _ _
      (fun x hx => (hlinks x (List.mem_append_right _ hx)).2.1)).mpr hwf.chain2
  · exact (PrevSeg_congr A _
      (fun x hx => (hlinks x (List.mem_append_left _ hx)).2.2.1)).mpr hwf.prev
  · exact (PrevSeg_congr B _
      (fun x hx => (hlinks x (List.mem_append_right _ hx)).2.2.1)).mpr hwf.prev2
  · intro a ha
    rw [htag a (List.mem_append_left _ ha)]
    exact hwf.tag_mine a ha
  · intro a ha
    rw [htag a (List.mem_append_right _ ha)]
    exact hwf.tag_theirs a ha
  · refine List.nodup_append.mpr ⟨hndf, hnd, ?_⟩
    intro a ha hb
    exact hdisj a hb ha
  · intro a ha c hc hac
    rcases List.mem_append.mp ha with ha1 | ha1
    · rcases List.mem_append.mp hc with hc1 | hc1
      · have := hwf.apart a (List.mem_append_left _ ha1) c (List.mem_append_left _ hc1) hac
        unfold Apart at this ⊢
        rw [(hlinks a ha1).1, (hlinks c hc1).1]
        exact this
      · have := hapart c hc1 a ha (Ne.symm hac)
        unfold Apart at this ⊢
        omega
    · exact hapart a ha1 c hc hac
  · intro a ha
    rcases List.mem_append.mp ha with ha1 | ha1
    · rw [(hlinks a ha1).1]
      exact hwf.bound a (List.mem_append_left _ ha1)
    · exact hbound a ha1

/-- Stores into the link words of a detached block `b` keep the heap well
formed. -/
theorem WF.relink_detached {h : Heap} {t : Bool} {A B O : List Nat} (hwf : WF h t A B O)
    {b : Nat} (hb : b ∈ O) (h' : Heap) (hL : h'.free_head_large = h.free_head_large)
    (hS : h'.free_head_small = h.free_head_small)
    (hm : ∀ y, y ≠ b + 8 → y ≠ b + 16 → h'.mem y = h.mem y) :
    WF h' t A B O ∧
    (∀ a ∈ (A ++ B) ++ O, h'.mem a = h.mem a ∧ h'.mem (a + 24) = h.mem (a + 24)) ∧
    (∀ a ∈ (A ++ B) ++ O, a ≠ b → h'.mem (a + 8) = h.mem (a + 8) ∧
      h'.mem (a + 16) = h.mem (a + 16)) := by
  have hbm : b ∈ (A ++ B) ++ O := List.mem_append_right _ hb
  have hsz : ∀ a ∈ (A ++ B) ++ O, h'.mem a = h.mem a ∧ h'.mem (a + 24) = h.mem (a + 24) := by
    intro a ha
    have s1 := hwf.hsep_mem ha hbm
    unfold HSep at s1
    exact ⟨hm _ (by omega) (by omega), hm _ (by omega) (by omega)⟩
  have hlk : ∀ a ∈ (A ++ B) ++ O, a ≠ b → h'.mem (a + 8) = h.mem (a + 8) ∧
      h'.mem (a + 16) = h.mem (a + 16) := by
    intro a ha hab
    have s1 := (hwf.hsep_mem ha hbm).resolve_left hab
    unfold HSep at s1
    exact ⟨hm _ (by omega) (by omega), hm _ (by omega) (by omega)⟩
  have hbf : b ∉ A ++ B := fun hm => (List.nodup_append.mp hwf.nodup).2.2 hm hb
  refine ⟨hwf.reshape2 h' O hL hS ?_ (List.nodup_append.mp hwf.nodup).2.1 ?_ ?_ ?_, hsz, hlk⟩
  · intro a ha
    have h1 := hsz a (List.mem_append_left _ ha)
    have h2 := hlk a (List.mem_append_left _ ha) (fun e => hbf (e ▸ ha))
    exact ⟨h1.1, h2.1, h2.2, h1.2⟩
  · intro a ha hm
    exact (List.nodup_append.mp hwf.nodup).2.2 hm ha
  · intro a ha c hc hac
    have := hwf.apart a (List.mem_append_right _ ha) c hc hac
    unfold Apart at this ⊢
    rw [(hsz a (List.mem_append_right _ ha)).1, (hsz c hc).1]
    exact this
  · intro a ha
    rw [(hsz a (List.mem_append_right _ ha)).1]
    exact hwf.bound a (List.mem_append_right _ ha)

/-- A detached block `b` takes over the extent of its detached address
successor `n`. -/
theorem WF.absorb2 {r : Heap} {t : Bool} {A B O : List Nat} {b n : Nat}
    (hr : WF r t A B (n :: b :: O)) (hn : n = b + r.mem b + 32) :
    WF { r with mem := store r.mem b (r.mem b + r.mem n + 32) } t A B (b :: O) ∧
    (∀ y, y ≠ b → store r.mem b (r.mem b + r.mem n + 32) y = r.mem y) ∧
    (∀ x, Covers (store r.mem b (r.mem b + r.mem n + 32)) ((A ++ B) ++ b :: O) x →
      Covers r.mem ((A ++ B) ++ n :: b :: O) x) := by
  have hrnd := hr.nodup
  have hbo : b ∈ n :: b :: O := by simp
  have hnd2 := (List.nodup_append.mp hrnd).2.1
  have hnbo : n ∉ b :: O := (List.nodup_cons.mp hnd2).1
  have hbF : b ∉ A ++ B := fun hm => (List.nodup_append.mp hrnd).2.2 hm hbo
  have hframe : ∀ y, y ≠ b → store r.mem b (r.mem b + r.mem n + 32) y = r.mem y :=
    fun y hy => store_other _ _ _ _ hy
  have hsame : ∀ a ∈ (A ++ B) ++ n :: b :: O, a ≠ b →
      store r.mem b (r.mem b + r.mem n + 32) a = r.mem a ∧
      store r.mem b (r.mem b + r.mem n + 32) (a + 8) = r.mem (a + 8) ∧
      store r.mem b (r.mem b + r.mem n + 32) (a + 16) = r.mem (a + 16) ∧
      store r.mem b (r.mem b + r.mem n + 32) (a + 24) = r.mem (a + 24) := by
    intro a ha hab
    have s1 := (hr.hsep_mem ha (List.mem_append_right _ hbo)).resolve_left hab
    unfold HSep at s1
    exact ⟨hframe _ hab, hframe _ (by omega), hframe _ (by omega), hframe _ (by omega)⟩
  have hne : ∀ a ∈ (A ++ B) ++ b :: O, a ≠ n := by
    rintro a ha rfl
    rcases List.mem_append.mp ha with h1 | h1
    · exact (List.nodup_append.mp hrnd).2.2 h1 (List.mem_cons_self _ _)
    · exact hnbo h1
  have hsub : ∀ a ∈ (A ++ B) ++ b :: O, a ∈ (A ++ B) ++ n :: b :: O := by
    intro a ha
    simp only [List.mem_append, List.mem_cons] at ha ⊢
    tauto
  have hrnm : n ∈ (A ++ B) ++ n :: b :: O := by simp
  have hval : ∀ a ∈ (A ++ B) ++ b :: O, store r.mem b (r.mem b + r.mem n + 32) a =
      if a = b then r.mem b + r.mem n + 32 else r.mem a := by
    intro a ha
    by_cases e : a = b
    · rw [if_pos e, e]; simp
    · rw [if_neg e]; exact (hsame a (hsub a ha) e).1
  have hbn := hr.bound n hrnm
  refine ⟨hr.reshape2 _ (b :: O) rfl rfl ?_ (List.nodup_cons.mp hnd2).2 ?_ ?_ ?_, hframe, ?_⟩
  · intro a ha
    exact hsame a (List.mem_append_left _ ha) (fun e => hbF (e ▸ ha))
  · intro a ha hm
    exact (List.nodup_append.mp hrnd).2.2 hm (List.mem_cons_of_mem _ ha)
  · intro a ha c hc hac
    have ha' : a ∈ (A ++ B) ++ b :: O := List.mem_append_right _ ha
    have a1 := hr.apart a (hsub a ha') c (hsub c hc) hac
    have a2 := hr.apart a (hsub a ha') _ hrnm (hne a ha')
    have a3 := hr.apart c (hsub c hc) _ hrnm (hne c hc)
    unfold Apart at a1 a2 a3 ⊢
    show _ + _ + store _ _ _ a ≤ _ ∨ _ + _ + store _ _ _ c ≤ _
    rw [hval a ha', hval c hc]
    by_cases e1 : a = b
    · subst e1
      rw [if_pos rfl, if_neg (Ne.symm hac)]
      omega
    · by_cases e2 : c = b
      · subst e2
        rw [if_pos rfl, if_neg e1]
        omega
      · rw [if_neg e1, if_neg e2]
        exact a1
  · intro a ha
    show _ + _ + store _ _ _ a ≤ _
    rw [hval a (List.mem_append_right _ ha)]
    by_cases e : a = b
    · rw [if_pos e]; omega
    · rw [if_neg e]
      exact hr.bound a (hsub a (List.mem_append_right _ ha))
  · rintro x ⟨a, ha, h1, h2⟩
    rw [hval a ha] at h2
    by_cases e : a = b
    · subst e
      rw [if_pos rfl] at h2
      by_cases hx : x < a + 32 + r.mem a
      · exact ⟨a, hsub a ha, h1, hx⟩
      · exact ⟨n, hrnm, by omega, by omega⟩
    · rw [if_neg e] at h2
      exact ⟨a, hsub a ha, h1, h2⟩

theorem split_mem_other2 (m : Nat → Nat) (b size y : Nat) (h1 : y ≠ b)
    (h2 : y ≠ b + 32 + size) (h3 : y ≠ b + 32 + size + 8) (h4 : y ≠ b + 32 + size + 16)
    (h5 : y ≠ b + 32 + size + 24) : split_mem m b size y = m y := by
  unfold split_mem
  rw [store_other _ _ _ _ h5, store_other _ _ _ _ h4, store_other _ _ _ _ h3,
    store_other _ _ _ _ h2, store_other _ _ _ _ h1]

/-- Splitting the detached block `b`: the rest behind the first `size` bytes
becomes a detached block of its own, tagged by its size. -/
theorem WF.split2 {h : Heap} {t : Bool} {A B O : List Nat} {b size : Nat}
    (hwf : WF h t A B (b :: O)) (hrem : 32 < h.mem b - size) :
    WF { h with mem := split_mem h.mem b size } t A B ((b + 32 + size) :: b :: O) ∧
    split_mem h.mem b size b = size ∧
    split_mem h.mem b size (b + 32 + size) = h.mem b - size - 32 ∧
    split_mem h.mem b size (b + 32 + size + 8) = 0 ∧
    split_mem h.mem b size (b + 32 + size + 16) = 0 ∧
    is_large (split_mem h.mem b size) (b + 32 + size) = decide (h.mem b - size - 32 > 1000) ∧
    (∀ a ∈ (A ++ B) ++ O, split_mem h.mem b size a = h.mem a ∧
      split_mem h.mem b size (a + 8) = h.mem (a + 8) ∧
      split_mem h.mem b size (a + 16) = h.mem (a + 16) ∧
      split_mem h.mem b size (a + 24) = h.mem (a + 24)) ∧
    (∀ x, Covers (split_mem h.mem b size) ((A ++ B) ++ (b + 32 + size) :: b :: O) x →
      Covers h.mem ((A ++ B) ++ b :: O) x) := by
  have hnd := hwf.nodup
  have hbm : b ∈ (A ++ B) ++ b :: O := by simp
  have hbF : b ∉ A ++ B := fun hm =>
    (List.nodup_append.mp hnd).2.2 hm (List.mem_cons_self _ _)
  have hnd2 := (List.nodup_append.mp hnd).2.1
  have hbO : b ∉ O := (List.nodup_cons.mp hnd2).1
  have hbb := hwf.bound b hbm
  have hvb : split_mem h.mem b size b = size := by
    unfold split_mem
    rw [store_other _ _ _ _ (by omega), store_other _ _ _ _ (by omega),
      store_other _ _ _ _ (by omega), store_other _ _ _ _ (by omega), store_same]
  have hvn : split_mem h.mem b size (b + 32 + size) = h.mem b - size - 32 := by
    unfold split_mem
    rw [store_other _ _ _ _ (by omega), store_other _ _ _ _ (by omega),
      store_other _ _ _ _ (by omega), store_same]
  have hv8 : split_mem h.mem b size (b + 32 + size + 8) = 0 := by
    unfold split_mem
    rw [store_other _ _ _ _ (by omega), store_other _ _ _ _ (by omega), store_same]
  have hv16 : split_mem h.mem b size (b + 32 + size + 16) = 0 := by
    unfold split_mem
    rw [store_other _ _ _ _ (by omega), store_same]
  have hv24 : is_large (split_mem h.mem b size) (b + 32 + size) =
      decide (h.mem b - size - 32 > 1000) := by
    unfold is_large split_mem
    rw [store_same]
    by_cases hc : h.mem b - size - 32 > 1000 <;> simp [hc]
  have hfar : ∀ a ∈ (A ++ B) ++ b :: O, a ≠ b →
      (a + 32 + h.mem a ≤ b ∨ b + 32 + h.mem b ≤ a) ∧
      split_mem h.mem b size a = h.mem a ∧
      split_mem h.mem b size (a + 8) = h.mem (a + 8) ∧
      split_mem h.mem b size (a + 16) = h.mem (a + 16) ∧
      split_mem h.mem b size (a + 24) = h.mem (a + 24) := by
    intro a ha hab
    have s1 := hwf.apart a ha b hbm hab
    unfold Apart at s1
    refine ⟨s1, ?_, ?_, ?_, ?_⟩ <;> (apply split_mem_other2 <;> omega)
  have hsub : ∀ a ∈ (A ++ B) ++ O, a ∈ (A ++ B) ++ b :: O ∧ a ≠ b := by
    intro a ha
    constructor
    · simp only [List.mem_append, List.mem_cons] at ha ⊢
      tauto
    · rintro rfl
      rcases List.mem_append.mp ha with h1 | h1
      · exact hbF h1
      · exact hbO h1
  have hsize : ∀ a ∈ (A ++ B) ++ (b + 32 + size) :: b :: O,
      (a = b + 32 + size ∧ split_mem h.mem b size a = h.mem b - size - 32) ∨
      (a = b ∧ split_mem h.mem b size a = size) ∨
      (a ≠ b ∧ a ≠ b + 32 + size ∧ a ∈ (A ++ B) ++ b :: O ∧
        split_mem h.mem b size a = h.mem a ∧
        (a + 32 + h.mem a ≤ b ∨ b + 32 + h.mem b ≤ a)) := by
    intro a ha
    by_cases e1 : a = b + 32 + size
    · exact Or.inl ⟨e1, e1 ▸ hvn⟩
    · by_cases e2 : a = b
      · exact Or.inr (Or.inl ⟨e2, e2 ▸ hvb⟩)
      · have ham : a ∈ (A ++ B) ++ b :: O := by
          simp only [List.mem_append, List.mem_cons] at ha ⊢
          tauto
        have := hfar a ham e2
        exact Or.inr (Or.inr ⟨e2, e1, ham, this.2.1, this.1⟩)
  refine ⟨hwf.reshape2 _ _ rfl rfl ?_ ?_ ?_ ?_ ?_, hvb, hvn, hv8, hv16, hv24, ?_, ?_⟩
  · intro a ha
    exact (hfar a (List.mem_append_left _ ha) (fun e => hbF (e ▸ ha))).2
  · refine List.nodup_cons.mpr ⟨?_, hnd2⟩
    intro hm
    rcases List.mem_cons.mp hm with e | hm
    · omega
    · have := (hfar (b + 32 + size) (by simp [hm]) (by omega)).1
      omega
  · intro a ha hm
    rcases List.mem_cons.mp ha with rfl | ha
    · have := (hfar (b + 32 + size) (List.mem_append_left _ hm) (by omega)).1
      omega
    · exact (List.nodup_append.mp hnd).2.2 hm ha
  · intro a ha c hc hac
    have ha' := hsize a (List.mem_append_right _ ha)
    have hc' := hsize c hc
    unfold Apart
    show _ + _ + split_mem _ _ _ a ≤ _ ∨ _ + _ + split_mem _ _ _ c ≤ _
    rcases ha' with ⟨e1, e2⟩ | ⟨e1, e2⟩ | ⟨e1, e1', ham, e2, e3⟩ <;>
      rcases hc' with ⟨f1, f2⟩ | ⟨f1, f2⟩ | ⟨f1, f1', hcm, f2, f3⟩ <;> rw [e2, f2]
    · omega
    · omega
    · omega
    · omega
    · omega
    · omega
    · omega
    · omega
    · exact hwf.apart a ham c hcm hac
  · intro a ha
    show _ + _ + split_mem _ _ _ a ≤ _
    rcases List.mem_cons.mp ha with rfl | ha
    · rw [hvn]; omega
    · rcases List.mem_cons.mp ha with rfl | ha
      · rw [hvb]; omega
      · have hs := hsub a (List.mem_append_right _ ha)
        rw [(hfar a hs.1 hs.2).2.1]
        exact hwf.bound a hs.1
  · intro a ha
    have hs := hsub a ha
    exact (hfar a hs.1 hs.2).2
  · rintro x ⟨a, ha, h1, h2⟩
    rcases hsize a ha with ⟨e1, e2⟩ | ⟨e1, e2⟩ | ⟨_, _, ham, e2, _⟩
    · rw [e2] at h2
      exact ⟨b, hbm, by omega, by omega⟩
    · rw [e2] at h2
      exact ⟨b, hbm, by omega, by omega⟩
    · rw [e2] at h2
      exact ⟨a, ham, h1, h2⟩

theorem page_mem_other2 (m : Nat → Nat) (pg y : Nat) (h1 : y ≠ pg) (h2 : y ≠ pg + 8)
    (h3 : y ≠ pg + 16) (h4 : y ≠ pg + 24) : page_mem m pg y = m y := by
  unfold page_mem
  rw [store_other _ _ _ _ h4, store_other _ _ _ _ h3, store_other _ _ _ _ h2,
    store_other _ _ _ _ h1]

/-- Writing the header of a fresh page: the page block is a new detached
block, tagged large. -/
theorem WF.page2 {h : Heap} {t : Bool} {A B O : List Nat} {pg : Nat} (hwf : WF h t A B O)
    (hfresh : FreshPage h ((A ++ B) ++ O) pg) :
    WF { h with mem := page_mem h.mem pg, mmap_calls := h.mmap_calls + 1 } t A B (pg :: O) ∧
    page_mem h.mem pg pg = 4064 ∧ page_mem h.mem pg (pg + 8) = 0 ∧
    page_mem h.mem pg (pg + 16) = 0 ∧ is_large (page_mem h.mem pg) pg = true ∧
    (∀ a ∈ (A ++ B) ++ O, page_mem h.mem pg a = h.mem a ∧
      page_mem h.mem pg (a + 8) = h.mem (a + 8) ∧
      page_mem h.mem pg (a + 16) = h.mem (a + 16) ∧
      page_mem h.mem pg (a + 24) = h.mem (a + 24)) ∧
    (∀ x, Covers (page_mem h.mem pg) ((A ++ B) ++ pg :: O) x →
      Covers h.mem ((A ++ B) ++ O) x ∨ (pg ≤ x ∧ x < pg + 4096)) := by
  obtain ⟨hpg0, hpgb, hpga⟩ := hfresh
  have hnd := hwf.nodup
  have hvp : page_mem h.mem pg pg = 4064 := by
    unfold page_mem
    rw [store_other _ _ _ _ (by omega), store_other _ _ _ _ (by omega),
      store_other _ _ _ _ (by omega), store_same]
  have hv8 : page_mem h.mem pg (pg + 8) = 0 := by
    unfold page_mem
    rw [store_other _ _ _ _ (by omega), store_other _ _ _ _ (by omega), store_same]
  have hv16 : page_mem h.mem pg (pg + 16) = 0 := by
    unfold page_mem
    rw [store_other _ _ _ _ (by omega), store_same]
  have hv24 : is_large (page_mem h.mem pg) pg = true := by
    unfold is_large page_mem
    rw [store_same]
    decide
  have hfar : ∀ a ∈ (A ++ B) ++ O, a ≠ pg ∧ page_mem h.mem pg a = h.mem a ∧
      page_mem h.mem pg (a + 8) = h.mem (a + 8) ∧
      page_mem h.mem pg (a + 16) = h.mem (a + 16) ∧
      page_mem h.mem pg (a + 24) = h.mem (a + 24) := by
    intro a ha
    have := hpga a ha
    refine ⟨by omega, ?_, ?_, ?_, ?_⟩ <;> (apply page_mem_other2 <;> omega)
  have hcase : ∀ y ∈ (A ++ B) ++ pg :: O,
      (y = pg ∧ page_mem h.mem pg y = 4064) ∨
      (y ∈ (A ++ B) ++ O ∧ page_mem h.mem pg y = h.mem y ∧
        (y + 32 + h.mem y ≤ pg ∨ pg + 4096 ≤ y)) := by
    intro y hy
    by_cases e : y = pg
    · exact Or.inl ⟨e, e ▸ hvp⟩
    · have hym : y ∈ (A ++ B) ++ O := by
        simp only [List.mem_append, List.mem_cons] at hy ⊢
        tauto
      exact Or.inr ⟨hym, (hfar y hym).2.1, hpga y hym⟩
  refine ⟨hwf.reshape2 _ _ rfl rfl ?_ ?_ ?_ ?_ ?_, hvp, hv8, hv16, hv24,
    fun a ha => (hfar a ha).2, ?_⟩
  · intro a ha
    exact (hfar a (List.mem_append_left _ ha)).2
  · refine List.nodup_cons.mpr ⟨?_, (List.nodup_append.mp hnd).2.1⟩
    intro hm
    exact (hfar pg (List.mem_append_right _ hm)).1 rfl
  · intro a ha hm
    rcases List.mem_cons.mp ha with rfl | ha
    · exact (hfar a (List.mem_append_left _ hm)).1 rfl
    · exact (List.nodup_append.mp hnd).2.2 hm ha
  · intro a ha c hc hac
    unfold Apart
    show _ + _ + page_mem _ _ a ≤ _ ∨ _ + _ + page_mem _ _ c ≤ _
    rcases hcase a (List.mem_append_right _ ha) with ⟨e1, e2⟩ | ⟨e1, e2, e3⟩ <;>
      rcases hcase c hc with ⟨f1, f2⟩ | ⟨f1, f2, f3⟩ <;> rw [e2, f2]
    · omega
    · omega
    · omega
    · exact hwf.apart a e1 c f1 hac
  · intro a ha
    show _ + _ + page_mem _ _ a ≤ _
    rcases List.mem_cons.mp ha with rfl | ha
    · rw [hvp]; omega
    · rw [(hfar a (List.mem_append_right _ ha)).2.1]
      exact hwf.bound a (List.mem_append_right _ ha)
  · rintro x ⟨a, ha, h1, h2⟩
    rcases hcase a ha with ⟨e1, e2⟩ | ⟨e1, e2, _⟩
    · rw [e2] at h2
      right
      omega
    · rw [e2] at h2
      exact Or.inl ⟨a, e1, h1, h2⟩

/-! ### The allocator functions keep the two-list invariant -/

open Malloc (Mult8)

theorem Covers_congr2 {m m' : Nat → Nat} {L : List Nat} (hm : ∀ a ∈ L, m' a = m a) (x : Nat) :
    Covers m' L x ↔ Covers m L x := by
  constructor
  · rintro ⟨a, ha, h1, h2⟩
    exact ⟨a, ha, h1, by rw [← hm a ha]; exact h2⟩
  · rintro ⟨a, ha, h1, h2⟩
    exact ⟨a, ha, h1, by rw [hm a ha]; exact h2⟩

theorem Covers_sub {m : Nat → Nat} {L L' : List Nat} (hs : ∀ a ∈ L, a ∈ L') {x : Nat}
    (h : Covers m L x) : Covers m L' x := by
  obtain ⟨a, ha, h1, h2⟩ := h
  exact ⟨a, hs a ha, h1, h2⟩

/-- When `my_coalesce` returns on a detached block `b` of class `t`, `b` is the
head of the list of class `t`, the other list and the other detached blocks are
as before, and the blocks cover no new address. -/
theorem coalesce_sum2 {h h' : Heap} {t : Bool} {A B O : List Nat} {b f : Nat}
    (hwf : WF h t A B (b :: O)) (ht : is_large h.mem b = t) (hb0 : b ≠ 0)
    (hco : my_coalesce f h b = .ok h') :
    ∃ A', WF h' t (b :: A') B O ∧ h'.mmap_calls = h.mmap_calls ∧
      (∀ a ∈ O, h'.mem a = h.mem a) ∧ h.mem b ≤ h'.mem b ∧
      (∀ x, Covers h'.mem (((b :: A') ++ B) ++ O) x → Covers h.mem ((A ++ B) ++ b :: O) x) ∧
      (Mult8 h.mem ((A ++ B) ++ b :: O) → Mult8 h'.mem (((b :: A') ++ B) ++ O)) := by
  have hhead : (if h.mem (b + 24) ≠ 0 then h.free_head_large else h.free_head_small) =
      list_head h t := by
    unfold is_large at ht
    unfold list_head
    cases t
    · have : h.mem (b + 24) = 0 := by simpa using ht
      simp [this]
    · have : h.mem (b + 24) ≠ 0 := by simpa using ht
      simp [this]
  unfold my_coalesce at hco
  simp only [sizeof_my_metadata_t] at hco
  rw [hhead] at hco
  have hbm : b ∈ (A ++ B) ++ b :: O := by simp
  have hbO : b ∉ O := (List.nodup_cons.mp (List.nodup_append.mp hwf.nodup).2.1).1
  cases hscan : coalesce_scan f h.mem (list_head h t) (b + h.mem b + 32) with
  | error e => rw [hscan] at hco; cases hco
  | ok found =>
    rw [hscan] at hco
    have hfound := coalesce_scan_ok _ A _ f found hwf.chain hscan
    subst hfound
    dsimp only at hco
    by_cases hn : b + h.mem b + 32 ∈ A
    · simp only [hn, decide_True, if_true] at hco
      obtain ⟨hrwf, _, _, hrcalls, hrsz, _⟩ := remove_spec2 hwf hn
      set r := my_remove_from_free_list h (b + h.mem b + 32) with hrdef
      have hnm : b + h.mem b + 32 ∈ (A ++ B) ++ b :: O := by simp [hn]
      have hbn := hwf.bound _ hnm
      have hrb : r.mem b = h.mem b := (hrsz b hbm).1
      have hrn : r.mem (b + h.mem b + 32) = h.mem (b + h.mem b + 32) := (hrsz _ hnm).1
      have hmerged : (r.mem b + (r.mem (b + h.mem b + 32) + 32) % SIZE_MOD) % SIZE_MOD =
          r.mem b + r.mem (b + h.mem b + 32) + 32 := by
        rw [hrb, hrn]
        unfold SIZE_MOD at hbn ⊢
        omega
      rw [hmerged] at hco
      obtain ⟨hwf1, hfr1, hcov1⟩ := hrwf.absorb2 (by rw [hrb])
      obtain ⟨hwf2, hsz2, _⟩ := hwf1.relink_detached (List.mem_cons_self b O)
        { r with mem := store (store (store r.mem b (r.mem b + r.mem (b + h.mem b + 32) + 32))
            (b + 8) 0) (b + 16) 0 } rfl rfl
        (fun y h1 h2 => by
          show store (store _ _ _) _ _ y = _
          rw [store_other _ _ _ _ h2, store_other _ _ _ _ h1])
      have ht2 : is_large (store (store (store r.mem b
          (r.mem b + r.mem (b + h.mem b + 32) + 32)) (b + 8) 0) (b + 16) 0) b = t := by
        unfold is_large
        rw [store_other _ _ _ _ (by omega), store_other _ _ _ _ (by omega),
          store_other _ _ _ _ (by omega), (hrsz b hbm).2]
        exact ht
      obtain ⟨h'', hadd, hwf3, hcalls3, hsz3, _⟩ :=
        add_spec2 hwf2 hb0 (by
          show store (store _ _ _) _ _ _ = 0
          rw [store_other _ _ _ _ (by omega), store_same]) (by
          show store (store _ _ _) _ _ _ = 0
          rw [store_same]) ht2
      rw [hadd] at hco
      injection hco with hco
      subst hco
      dsimp only at hsz2 hsz3 hcalls3
      have hsubE : ∀ a ∈ A.erase (b + h.mem b + 32), a ∈ A := fun a ha =>
        List.mem_of_mem_erase ha
      have hvb : h''.mem b = h.mem b + h.mem (b + h.mem b + 32) + 32 := by
        rw [(hsz3 b (by simp)).1, (hsz2 b (by simp)).1, store_same, hrb, hrn]
      refine ⟨A.erase (b + h.mem b + 32), hwf3, by rw [hcalls3]; exact hrcalls, ?_, ?_, ?_, ?_⟩
      · intro a ha
        have hab : a ≠ b := fun e => hbO (e ▸ ha)
        rw [(hsz3 a (by simp [ha])).1, (hsz2 a (by simp [ha])).1, hfr1 a hab]
        exact (hrsz a (by simp [ha])).1
      · rw [hvb]; omega
      rotate_left
      · intro h8 a ha
        by_cases hab : a = b
        · subst hab
          have h1 := h8 a hbm
          have h2 := h8 _ hnm
          rw [hvb]
          omega
        · have ha1 : a ∈ (A.erase (b + h.mem b + 32) ++ B) ++ b :: O := by
            simp only [List.mem_append, List.mem_cons] at ha ⊢; tauto
          have ha2 : a ∈ (A ++ B) ++ b :: O := by
            simp only [List.mem_append, List.mem_cons] at ha ⊢
            rcases ha with ((ha | ha) | ha) | ha
            · exact absurd ha hab
            · exact Or.inl (Or.inl (hsubE a ha))
            · exact Or.inl (Or.inr ha)
            · exact Or.inr (Or.inr ha)
          rw [(hsz3 a ha1).1, (hsz2 a ha1).1, hfr1 a hab, (hrsz a ha2).1]
          exact h8 a ha2
      · intro x hx
        have hx1 : Covers h''.mem ((A.erase (b + h.mem b + 32) ++ B) ++ b :: O) x :=
          Covers_sub (fun a ha => by
            simp only [List.mem_append, List.mem_cons] at ha ⊢; tauto) hx
        have hx2 := (Covers_congr2 (fun a ha => (hsz3 a ha).1) x).mp hx1
        have hx3 := (Covers_congr2 (fun a ha => (hsz2 a ha).1) x).mp hx2
        have hx4 := hcov1 x hx3
        have hx5 : Covers r.mem ((A ++ B) ++ b :: O) x :=
          Covers_sub (fun a ha => by
            simp only [List.mem_append, List.mem_cons] at ha ⊢
            rcases ha with (ha | ha) | ha | ha | ha
            · exact Or.inl (Or.inl (hsubE a ha))
            · exact Or.inl (Or.inr ha)
            · exact Or.inl (Or.inl (ha ▸ hn))
            · exact Or.inr (Or.inl ha)
            · exact Or.inr (Or.inr ha)) hx4
        exact (Covers_congr2 (fun a ha => (hrsz a (by
          simp only [List.mem_append, List.mem_cons] at ha ⊢; tauto)).1) x).mp hx5
    · simp only [hn, decide_False, Bool.false_eq_true, if_false] at hco
      obtain ⟨hwf2, hsz2, _⟩ := hwf.relink_detached (List.mem_cons_self b O)
        { h with mem := store (store h.mem (b + 8) 0) (b + 16) 0 } rfl rfl
        (fun y h1 h2 => by
          show store (store _ _ _) _ _ y = _
          rw [store_other _ _ _ _ h2, store_other _ _ _ _ h1])
      have ht2 : is_large (store (store h.mem (b + 8) 0) (b + 16) 0) b = t := by
        unfold is_large
        rw [store_other _ _ _ _ (by omega), store_other _ _ _ _ (by omega)]
        exact ht
      obtain ⟨h'', hadd, hwf3, hcalls3, hsz3, _⟩ :=
        add_spec2 hwf2 hb0 (by
          show store (store _ _ _) _ _ _ = 0
          rw [store_other _ _ _ _ (by omega), store_same]) (by
          show store (store _ _ _) _ _ _ = 0
          rw [store_same]) ht2
      rw [hadd] at hco
      injection hco with hco
      subst hco
      dsimp only at hsz2 hsz3 hcalls3
      refine ⟨A, hwf3, hcalls3, ?_, ?_, ?_, ?_⟩
      · intro a ha
        rw [(hsz3 a (by simp [ha])).1, (hsz2 a (by simp [ha])).1]
      · rw [(hsz3 b (by simp)).1, (hsz2 b (by simp)).1]
      rotate_left
      · intro h8 a ha
        have ha1 : a ∈ (A ++ B) ++ b :: O := by
          simp only [List.mem_append, List.mem_cons] at ha ⊢; tauto
        rw [(hsz3 a ha1).1, (hsz2 a ha1).1]
        exact h8 a ha1
      · intro x hx
        have hx1 : Covers h''.mem ((A ++ B) ++ b :: O) x :=
          Covers_sub (fun a ha => by
            simp only [List.mem_append, List.mem_cons] at ha ⊢; tauto) hx
        have hx2 := (Covers_congr2 (fun a ha => (hsz3 a ha).1) x).mp hx1
        exact (Covers_congr2 (fun a ha => (hsz2 a ha).1) x).mp hx2

/-- A well-formed heap can be seen from either size class. -/
theorem WF.orient {h : Heap} {t : Bool} {A B O : List Nat} (hwf : WF h t A B O) (s : Bool) :
    ∃ A' B', WF h s A' B' O ∧ ∀ a, a ∈ A' ++ B' ↔ a ∈ A ++ B := by
  by_cases e : s = t
  · subst e
    exact ⟨A, B, hwf, fun a => Iff.rfl⟩
  · have e' : s = !t := by
      cases s <;> cases t <;> simp at e ⊢
    subst e'
    refine ⟨B, A, hwf.swap, fun a => ?_⟩
    simp only [List.mem_append]
    tauto

theorem WF.perm_others2 {h : Heap} {t : Bool} {A B O O' : List Nat} (hwf : WF h t A B O)
    (hp : O.Perm O') : WF h t A B O' := by
  have hpp : ((A ++ B) ++ O).Perm ((A ++ B) ++ O') := hp.append_left _
  refine ⟨hwf.chain, hwf.chain2, hwf.prev, hwf.prev2, hwf.tag_mine, hwf.tag_theirs,
    hpp.nodup_iff.mp hwf.nodup, ?_, ?_⟩
  · intro a ha c hc hac
    exact hwf.apart a (hpp.mem_iff.mpr ha) c (hpp.mem_iff.mpr hc) hac
  · intro a ha
    exact hwf.bound a (hpp.mem_iff.mpr ha)

/-- When `my_coalesce` returns on a detached block, the heap is well formed
again with `b` in one of the lists. -/
theorem coalesce_any {h h' : Heap} {A B O : List Nat} {b f : Nat}
    (hwf : WF h true A B (b :: O)) (hb0 : b ≠ 0) (hco : my_coalesce f h b = .ok h') :
    ∃ A' B', WF h' true A' B' O ∧ h'.mmap_calls = h.mmap_calls ∧
      (∀ a ∈ O, h'.mem a = h.mem a) ∧ h.mem b ≤ h'.mem b ∧
      (∀ x, Covers h'.mem ((A' ++ B') ++ O) x → Covers h.mem ((A ++ B) ++ b :: O) x) ∧
      (Mult8 h.mem ((A ++ B) ++ b :: O) → Mult8 h'.mem ((A' ++ B') ++ O)) := by
  obtain ⟨A1, B1, hwf1, hmem1⟩ := hwf.orient (is_large h.mem b)
  obtain ⟨A2, hwf2, hcalls, hfr, hge, hcov, h8⟩ := coalesce_sum2 hwf1 rfl hb0 hco
  obtain ⟨A3, B3, hwf3, hmem3⟩ := hwf2.orient true
  have hin : ∀ a ∈ (A3 ++ B3) ++ O, a ∈ ((b :: A2) ++ B1) ++ O := by
    intro a ha
    rcases List.mem_append.mp ha with h1 | h1
    · exact List.mem_append_left _ ((hmem3 a).mp h1)
    · exact List.mem_append_right _ h1
  have hout : ∀ a ∈ (A ++ B) ++ b :: O, a ∈ (A1 ++ B1) ++ b :: O := by
    intro a ha
    rcases List.mem_append.mp ha with h1 | h1
    · exact List.mem_append_left _ ((hmem1 a).mpr h1)
    · exact List.mem_append_right _ h1
  refine ⟨A3, B3, hwf3, hcalls, hfr, hge, ?_, ?_⟩
  · intro x hx
    have hx2 := hcov x (Covers_sub hin hx)
    exact Covers_sub (fun a ha => by
      rcases List.mem_append.mp ha with h1 | h1
      · exact List.mem_append_left _ ((hmem1 a).mp h1)
      · exact List.mem_append_right _ h1) hx2
  · intro hm a ha
    exact h8 (fun c hc => hm c (by
      rcases List.mem_append.mp hc with h1 | h1
      · exact List.mem_append_left _ ((hmem1 c).mp h1)
      · exact List.mem_append_right _ h1)) a (hin a ha)

/-- When `my_free` returns on the payload of a detached block `b`, the heap is
well formed again with `b` in one of the lists. -/
theorem free_any {h h' : Heap} {A B O : List Nat} {b f : Nat}
    (hwf : WF h true A B (b :: O)) (hb0 : b ≠ 0) (hfr : my_free f h (b + 32) = .ok h') :
    ∃ A' B', WF h' true A' B' O ∧ h'.mmap_calls = h.mmap_calls ∧
      (∀ a ∈ O, h'.mem a = h.mem a) ∧
      (∀ x, Covers h'.mem ((A' ++ B') ++ O) x → Covers h.mem ((A ++ B) ++ b :: O) x) ∧
      (Mult8 h.mem ((A ++ B) ++ b :: O) → Mult8 h'.mem ((A' ++ B') ++ O)) := by
  unfold my_free at hfr
  simp only [sizeof_my_metadata_t, Nat.add_sub_cancel] at hfr
  obtain ⟨hwf2, hsz2, _⟩ := hwf.relink_detached (List.mem_cons_self b O)
    { h with mem := store (store h.mem (b + 8) 0) (b + 16) 0 } rfl rfl
    (fun y h1 h2 => by
      show store (store _ _ _) _ _ y = _
      rw [store_other _ _ _ _ h2, store_other _ _ _ _ h1])
  obtain ⟨A', B', hwf3, hcalls, hfr3, _, hcov, h8⟩ := coalesce_any hwf2 hb0 hfr
  dsimp only at hsz2 hcalls hfr3 hcov h8
  refine ⟨A', B', hwf3, hcalls, ?_, ?_, ?_⟩
  · intro a ha
    rw [hfr3 a ha, (hsz2 a (by simp [ha])).1]
  · intro x hx
    exact (Covers_congr2 (fun a ha => (hsz2 a ha).1) x).mp (hcov x hx)
  · intro hm
    refine h8 (fun a ha => ?_)
    rw [(hsz2 a ha).1]
    exact hm a ha

/-- When the page-acquisition branch of `my_malloc` returns, the heap is well
formed again and the blocks cover, beyond what they covered, at most the new
page. -/
theorem grow_any {env : Env} {h h' : Heap} {A B O : List Nat} {f : Nat}
    (hwf : WF h true A B O)
    (hfresh : FreshPage h ((A ++ B) ++ O) (env.mmap_from_system h.mmap_calls))
    (hg : my_malloc_grow env f h = .ok h') :
    ∃ A' B', WF h' true A' B' O ∧ h'.mmap_calls = h.mmap_calls + 1 ∧
      (∀ a ∈ O, h'.mem a = h.mem a) ∧
      (∀ x, Covers h'.mem ((A' ++ B') ++ O) x → Covers h.mem ((A ++ B) ++ O) x ∨
        (env.mmap_from_system h.mmap_calls ≤ x ∧
          x < env.mmap_from_system h.mmap_calls + 4096)) ∧
      (Mult8 h.mem ((A ++ B) ++ O) → Mult8 h'.mem ((A' ++ B') ++ O)) := by
  obtain ⟨hpwf, hvp, _, _, _, hpoth, hpcov⟩ := hwf.page2 hfresh
  unfold my_malloc_grow at hg
  have e : (4096 + SIZE_MOD - sizeof_my_metadata_t) % SIZE_MOD = 4064 := by
    unfold SIZE_MOD sizeof_my_metadata_t; norm_num
  simp only [e] at hg
  have e2 : store (store (store h.mem (env.mmap_from_system h.mmap_calls) 4064)
      (env.mmap_from_system h.mmap_calls + 8) 0) (env.mmap_from_system h.mmap_calls + 16) 0
      (env.mmap_from_system h.mmap_calls) = 4064 := by
    rw [store_other _ _ _ _ (by omega), store_other _ _ _ _ (by omega), store_same]
  rw [e2] at hg
  have e3 : store (store (store (store h.mem (env.mmap_from_system h.mmap_calls) 4064)
      (env.mmap_from_system h.mmap_calls + 8) 0) (env.mmap_from_system h.mmap_calls + 16) 0)
      (env.mmap_from_system h.mmap_calls + 24) (if 4064 > 1000 then 1 else 0) =
      page_mem h.mem (env.mmap_from_system h.mmap_calls) := rfl
  rw [e3] at hg
  obtain ⟨A', B', hwf3, hcalls, hfr3, _, hcov, h8⟩ := coalesce_any hpwf hfresh.1 hg
  dsimp only at hcalls hfr3 hcov h8
  refine ⟨A', B', hwf3, hcalls, ?_, ?_, ?_⟩
  · intro a ha
    rw [hfr3 a ha, (hpoth a (List.mem_append_right _ ha)).1]
  · intro x hx
    exact hpcov x (hcov x hx)
  · intro hm
    refine h8 (fun a ha => ?_)
    rcases List.mem_append.mp ha with h1 | h1
    · rw [(hpoth a (List.mem_append_left _ h1)).1]
      exact hm a (List.mem_append_left _ h1)
    · rcases List.mem_cons.mp h1 with rfl | h1
      · rw [hvp]
      · rw [(hpoth a (List.mem_append_right _ h1)).1]
        exact hm a (List.mem_append_right _ h1)

/-- When the part of `my_malloc` after the search returns for a node `b` of
one of the lists, it returns the payload of `b`, which is now detached and has
room for the request, and the heap is well formed again. -/
theorem take_any {h h' : Heap} {A B O : List Nat} {b size f p : Nat}
    (hwf : WF h true A B O) (hb : b ∈ A ++ B) (hsz : size ≤ h.mem b)
    (htake : my_malloc_take f h b size = .ok (p, h')) :
    p = b + 32 ∧ ∃ A' B', WF h' true A' B' (b :: O) ∧ h'.mmap_calls = h.mmap_calls ∧
      (∀ a ∈ O, h'.mem a = h.mem a) ∧ size ≤ h'.mem b ∧
      (∀ x, Covers h'.mem ((A' ++ B') ++ b :: O) x → Covers h.mem ((A ++ B) ++ O) x) ∧
      (size % 8 = 0 → Mult8 h.mem ((A ++ B) ++ O) → Mult8 h'.mem ((A' ++ B') ++ b :: O)) := by
  have hp := take_ptr htake
  simp only [sizeof_my_metadata_t] at hp
  refine ⟨hp, ?_⟩
  -- see the heap from the class of `b`
  obtain ⟨t, A1, B1, hwf1, hb1, hmem1⟩ : ∃ t A1 B1, WF h t A1 B1 O ∧ b ∈ A1 ∧
      ∀ a, a ∈ A1 ++ B1 ↔ a ∈ A ++ B := by
    rcases List.mem_append.mp hb with h1 | h1
    · exact ⟨true, A, B, hwf, h1, fun a => Iff.rfl⟩
    · refine ⟨false, B, A, hwf.swap, h1, fun a => ?_⟩
      simp only [List.mem_append]
      tauto
  have hbm : b ∈ (A1 ++ B1) ++ O := by simp [hb1]
  have hbb := hwf1.bound b hbm
  obtain ⟨hrwf, _, _, hrcalls, hrsz, _⟩ := remove_spec2 hwf1 hb1
  have hrem : (h.mem b + SIZE_MOD - size) % SIZE_MOD = h.mem b - size := by
    unfold SIZE_MOD at hbb ⊢
    omega
  have hcov0 : ∀ x, Covers (my_remove_from_free_list h b).mem
      ((A1.erase b ++ B1) ++ b :: O) x → Covers h.mem ((A ++ B) ++ O) x := by
    intro x hx
    have hx1 : Covers (my_remove_from_free_list h b).mem ((A1 ++ B1) ++ O) x :=
      Covers_sub (fun a ha => by
        simp only [List.mem_append, List.mem_cons] at ha ⊢
        rcases ha with (ha | ha) | ha | ha
        · exact Or.inl (Or.inl (List.mem_of_mem_erase ha))
        · exact Or.inl (Or.inr ha)
        · exact Or.inl (Or.inl (ha ▸ hb1))
        · exact Or.inr ha) hx
    have hx2 := (Covers_congr2 (fun a ha => (hrsz a ha).1) x).mp hx1
    exact Covers_sub (fun a ha => by
      rcases List.mem_append.mp ha with h1 | h1
      · exact List.mem_append_left _ ((hmem1 a).mp h1)
      · exact List.mem_append_right _ h1) hx2
  have hin0 : ∀ a ∈ (A1.erase b ++ B1) ++ b :: O, a ∈ (A ++ B) ++ O := by
    intro a ha
    simp only [List.mem_append, List.mem_cons] at ha
    rcases ha with (ha | ha) | ha | ha
    · exact List.mem_append_left _
        ((hmem1 a).mp (List.mem_append_left _ (List.mem_of_mem_erase ha)))
    · exact List.mem_append_left _ ((hmem1 a).mp (List.mem_append_right _ ha))
    · exact List.mem_append_left _ (ha ▸ hb)
    · exact List.mem_append_right _ ha
  have hr8 : Mult8 h.mem ((A ++ B) ++ O) →
      Mult8 (my_remove_from_free_list h b).mem ((A1.erase b ++ B1) ++ b :: O) := by
    intro hm a ha
    have ha1 : a ∈ (A1 ++ B1) ++ O := by
      simp only [List.mem_append, List.mem_cons] at ha ⊢
      rcases ha with (ha | ha) | ha | ha
      · exact Or.inl (Or.inl (List.mem_of_mem_erase ha))
      · exact Or.inl (Or.inr ha)
      · exact Or.inl (Or.inl (ha ▸ hb1))
      · exact Or.inr ha
    rw [(hrsz a ha1).1]
    exact hm a (hin0 a ha)
  unfold my_malloc_take at htake
  simp only [sizeof_my_metadata_t, hrem, gt_iff_lt] at htake
  set r := my_remove_from_free_list h b with hrdef
  have hrb : r.mem b = h.mem b := (hrsz b hbm).1
  by_cases hsplit : 32 < h.mem b - size
  · simp only [hsplit, if_true] at htake
    have hrem2 : (h.mem b - size + SIZE_MOD - 32) % SIZE_MOD = r.mem b - size - 32 := by
      rw [hrb]
      unfold SIZE_MOD at hbb ⊢
      omega
    rw [hrem2] at htake
    have e4 : store (store (store (store r.mem b size) (b + 32 + size) (r.mem b - size - 32))
        (b + 32 + size + 8) 0) (b + 32 + size + 16) 0 (b + 32 + size) =
        r.mem b - size - 32 := by
      rw [store_other _ _ _ _ (by omega), store_other _ _ _ _ (by omega), store_same]
    rw [e4] at htake
    have e5 : store (store (store (store (store r.mem b size) (b + 32 + size)
        (r.mem b - size - 32)) (b + 32 + size + 8) 0) (b + 32 + size + 16) 0)
        (b + 32 + size + 24) (if r.mem b - size - 32 > 1000 then 1 else 0) =
        split_mem r.mem b size := rfl
    rw [e5] at htake
    obtain ⟨hswf, hsb, hsn, _, _, _, hsoth, hscov⟩ :=
      @WF.split2 r t _ _ _ b size hrwf (by rw [hrb]; exact hsplit)
    obtain ⟨A2, B2, hwf2, hmem2⟩ := hswf.orient true
    cases hc : my_coalesce f { r with mem := split_mem r.mem b size } (b + 32 + size) with
    | error e1 => rw [hc] at htake; cases htake
    | ok h5 =>
      rw [hc] at htake
      injection htake with htake
      injection htake with _ htake
      subst htake
      obtain ⟨A', B', hwf3, hcalls, hfr3, _, hcov, h8⟩ := coalesce_any hwf2 (by omega) hc
      dsimp only at hcalls hfr3 hcov h8
      refine ⟨A', B', hwf3, by rw [hcalls]; exact hrcalls, ?_, ?_, ?_, ?_⟩
      rotate_left 3
      · intro hs8 hm
        refine h8 (fun a ha => ?_)
        have hm' := hr8 hm
        rcases List.mem_append.mp ha with h1 | h1
        · have h2 := (hmem2 a).mp h1
          rw [(hsoth a (List.mem_append_left _ h2)).1]
          exact hm' a (List.mem_append_left _ h2)
        · rcases List.mem_cons.mp h1 with rfl | h1
          · rw [hsn, hrb]
            have := hm b (List.mem_append_left _ hb)
            omega
          · rcases List.mem_cons.mp h1 with rfl | h1
            · rw [hsb]
              exact hs8
            · rw [(hsoth a (List.mem_append_right _ h1)).1]
              exact hm' a (by simp [h1])
      · intro a ha
        rw [hfr3 a (List.mem_cons_of_mem _ ha), (hsoth a (List.mem_append_right _ ha)).1]
        exact (hrsz a (List.mem_append_right _ ha)).1
      · rw [hfr3 b (List.mem_cons_self _ _), hsb]
      · intro x hx
        have hx1 := hcov x hx
        have hx2 : Covers (split_mem r.mem b size)
            ((A1.erase b ++ B1) ++ (b + 32 + size) :: b :: O) x :=
          Covers_sub (fun a ha => by
            rcases List.mem_append.mp ha with h1 | h1
            · exact List.mem_append_left _ ((hmem2 a).mp h1)
            · exact List.mem_append_right _ h1) hx1
        exact hcov0 x (hscov x hx2)
  · simp only [hsplit, if_false] at htake
    injection htake with htake
    injection htake with _ htake
    subst htake
    obtain ⟨A2, B2, hwf2, hmem2⟩ := hrwf.orient true
    refine ⟨A2, B2, hwf2, hrcalls, ?_, by rw [hrb]; exact hsz, ?_, ?_⟩
    rotate_left 2
    · intro _ hm a ha
      refine hr8 hm a ?_
      rcases List.mem_append.mp ha with h1 | h1
      · exact List.mem_append_left _ ((hmem2 a).mp h1)
      · exact List.mem_append_right _ h1
    · intro a ha
      exact (hrsz a (List.mem_append_right _ ha)).1
    · intro x hx
      exact hcov0 x (Covers_sub (fun a ha => by
        rcases List.mem_append.mp ha with h1 | h1
        · exact List.mem_append_left _ ((hmem2 a).mp h1)
        · exact List.mem_append_right _ h1) hx)

/-! ### Runs keep the two-list invariant -/

open Malloc (perm_cons_erase_live)

theorem Owned.mono2 {env : Env} {k k' x : Nat} (hk : k ≤ k') (h : Owned env k x) :
    Owned env k' x := by
  rcases h with h | h | ⟨i, hi, h⟩
  · exact Or.inl h
  · exact Or.inr (Or.inl h)
  · exact Or.inr (Or.inr ⟨i, by omega, h⟩)

/-- The next page of a fresh page source is fresh for a heap whose blocks lie
in the sentinels and the pages acquired so far. -/
theorem fresh_of_owned {env : Env} {h : Heap} {L : List Nat} {n : Nat}
    (hsrc : FreshSrc env n) (hk : h.mmap_calls < n)
    (hown : ∀ x, Covers h.mem L x → Owned env h.mmap_calls x) :
    FreshPage h L (env.mmap_from_system h.mmap_calls) := by
  obtain ⟨_, _, _, _, _, hpages⟩ := hsrc
  obtain ⟨hp0, hpb, hpl, hps, hpp⟩ := hpages h.mmap_calls hk
  refine ⟨hp0, hpb, ?_⟩
  intro a ha
  by_contra hcon
  have hcov : ∀ x, a ≤ x → x < a + 32 + h.mem a → Owned env h.mmap_calls x :=
    fun x h1 h2 => hown x ⟨a, ha, h1, h2⟩
  by_cases hle : a ≤ env.mmap_from_system h.mmap_calls
  · rcases hcov (env.mmap_from_system h.mmap_calls) hle (by omega) with h1 | h1 | ⟨i, hi, h1⟩
    · omega
    · omega
    · have := hpp i hi
      omega
  · rcases hcov a (le_refl _) (by omega) with h1 | h1 | ⟨i, hi, h1⟩
    · omega
    · omega
    · have := hpp i hi
      omega

theorem list_for_eq (h : Heap) (size : Nat) :
    list_for h size = list_head h (decide (size > 1000)) := by
  unfold list_for list_head
  by_cases hc : size > 1000 <;> simp [hc]

/-- When `my_malloc` returns, it returns the payload of a block `b` that is now
detached and has room for the request; the heap is well formed again and its
blocks lie in the sentinels and the pages acquired so far. -/
theorem malloc_inv {env : Env} {n f size : Nat} (hsrc : FreshSrc env n) :
    ∀ (depth : Nat) (h h' : Heap) (A B O : List Nat) (p : Nat),
    WF h true A B O → (∀ x, Covers h.mem ((A ++ B) ++ O) x → Owned env h.mmap_calls x) →
    h.mmap_calls + depth ≤ n + 1 → my_malloc env depth f h size = .ok (p, h') →
    ∃ b A' B', p = b + 32 ∧ WF h' true A' B' (b :: O) ∧
      (∀ x, Covers h'.mem ((A' ++ B') ++ b :: O) x → Owned env h'.mmap_calls x) ∧
      (∀ a ∈ O, h'.mem a = h.mem a) ∧ size ≤ h'.mem b ∧
      h'.mmap_calls + 1 ≤ h.mmap_calls + depth ∧ b ≠ 0 ∧
      (size % 8 = 0 → Mult8 h.mem ((A ++ B) ++ O) → Mult8 h'.mem ((A' ++ B') ++ b :: O))
  | 0, _, _, _, _, _, _, _, _, _, hres => by simp [my_malloc] at hres
  | depth + 1, h, h', A, B, O, p, hwf, hown, hn, hres => by
    rw [my_malloc, list_for_eq] at hres
    obtain ⟨A1, B1, hwf1, hmem1⟩ := hwf.orient (decide (size > 1000))
    cases hscan : best_fit_scan f h.mem size (list_head h (decide (size > 1000))) 0 with
    | error e => rw [hscan] at hres; cases hres
    | ok m =>
      rw [hscan] at hres
      dsimp only at hres
      have hm := best_fit_scan_ok size A1 _ 0 f m hwf1.chain hscan
      by_cases hm0 : m = 0
      · simp only [hm0, if_true] at hres
        cases hg : my_malloc_grow env f h with
        | error e => rw [hg] at hres; cases hres
        | ok h2 =>
          rw [hg] at hres
          dsimp only at hres
          cases depth with
          | zero => simp [my_malloc] at hres
          | succ d =>
            have hk : h.mmap_calls < n := by omega
            obtain ⟨A2, B2, hwf2, hcalls2, hfr2, hcov2, h82⟩ :=
              grow_any hwf (fresh_of_owned hsrc hk hown) hg
            have hown2 : ∀ x, Covers h2.mem ((A2 ++ B2) ++ O) x →
                Owned env h2.mmap_calls x := by
              intro x hx
              rw [hcalls2]
              rcases hcov2 x hx with hc | hc
              · exact (hown x hc).mono2 (by omega)
              · exact Or.inr (Or.inr ⟨h.mmap_calls, by omega, hc⟩)
            obtain ⟨b, A', B', hp, hwf', hown', hfr', hsz', hc', hb0, h8'⟩ :=
              malloc_inv hsrc (d + 1) h2 h' A2 B2 O p hwf2 hown2 (by omega) hres
            exact ⟨b, A', B', hp, hwf', hown', fun a ha => by rw [hfr' a ha, hfr2 a ha],
              hsz', by omega, hb0, fun hs8 hm => h8' hs8 (h82 hm)⟩
      · simp only [hm0, if_false] at hres
        have hne : bestOf h.mem size A1 0 ≠ 0 := hm ▸ hm0
        obtain ⟨hbm, hbs, _, _⟩ :=
          bestOf_ne_zero (Seg_ne_zero _ _ _ hwf1.chain) hne
        rw [← hm] at hbm hbs
        have hmAB : m ∈ A ++ B := (hmem1 m).mp (List.mem_append_left _ hbm)
        obtain ⟨hp, A', B', hwf', hcalls', hfr', hsz', hcov', h8'⟩ :=
          take_any hwf hmAB hbs hres
        refine ⟨m, A', B', hp, hwf', ?_, hfr', hsz', by omega, hm0, h8'⟩
        intro x hx
        rw [hcalls']
        exact hown x (hcov' x hx)

/-- A change of the memory that keeps the four header words of every block
keeps the heap well formed. -/
theorem WF.frame2 {h : Heap} {t : Bool} {A B O : List Nat} (hwf : WF h t A B O) (h' : Heap)
    (hL : h'.free_head_large = h.free_head_large)
    (hS : h'.free_head_small = h.free_head_small)
    (hm : ∀ a ∈ (A ++ B) ++ O, h'.mem a = h.mem a ∧ h'.mem (a + 8) = h.mem (a + 8) ∧
      h'.mem (a + 16) = h.mem (a + 16) ∧ h'.mem (a + 24) = h.mem (a + 24)) :
    WF h' t A B O := by
  refine hwf.reshape2 h' O hL hS (fun a ha => hm a (List.mem_append_left _ ha))
    (List.nodup_append.mp hwf.nodup).2.1 ?_ ?_ ?_
  · intro a ha hmem
    exact (List.nodup_append.mp hwf.nodup).2.2 hmem ha
  · intro a ha c hc hac
    have := hwf.apart a (List.mem_append_right _ ha) c hc hac
    unfold Apart at this ⊢
    rw [(hm a (List.mem_append_right _ ha)).1, (hm c hc).1]
    exact this
  · intro a ha
    rw [(hm a (List.mem_append_right _ ha)).1]
    exact hwf.bound a (List.mem_append_right _ ha)

/-- The invariant holds right after `my_initialize`. -/
theorem inv_init2 {env : Env} {n : Nat} (hsrc : FreshSrc env n) (h0 : Heap) :
    Inv env (init_state env h0) [env.dummy_large] [env.dummy_small] := by
  obtain ⟨hl0, hs0, hlb, hsb, hsep, _⟩ := hsrc
  have el0 : (init_state env h0).heap.mem env.dummy_large = 0 := by
    simp only [init_state, my_initialize, store]
    split_ifs <;> first | rfl | omega
  have el8 : (init_state env h0).heap.mem (env.dummy_large + 8) = 0 := by
    simp only [init_state, my_initialize, store]
    split_ifs <;> first | rfl | omega
  have el16 : (init_state env h0).heap.mem (env.dummy_large + 16) = 0 := by
    simp only [init_state, my_initialize, store]
    split_ifs <;> first | rfl | omega
  have el24 : (init_state env h0).heap.mem (env.dummy_large + 24) = 1 := by
    simp only [init_state, my_initialize, store]
    split_ifs <;> first | rfl | omega
  have es0 : (init_state env h0).heap.mem env.dummy_small = 0 := by
    simp only [init_state, my_initialize, store]
    split_ifs <;> first | rfl | omega
  have es8 : (init_state env h0).heap.mem (env.dummy_small + 8) = 0 := by
    simp only [init_state, my_initialize, store]
    split_ifs <;> first | rfl | omega
  have es16 : (init_state env h0).heap.mem (env.dummy_small + 16) = 0 := by
    simp only [init_state, my_initialize, store]
    split_ifs <;> first | rfl | omega
  have es24 : (init_state env h0).heap.mem (env.dummy_small + 24) = 0 := by
    simp only [init_state, my_initialize, store]
    split_ifs <;> rfl
  have hne : env.dummy_large ≠ env.dummy_small := by omega
  have hsize : ∀ a ∈ ([env.dummy_large] ++ [env.dummy_small]) ++
      (init_state env h0).live.map (fun pl => pl.1 - 32),
      (a = env.dummy_large ∨ a = env.dummy_small) ∧ (init_state env h0).heap.mem a = 0 := by
    intro a ha
    simp only [init_state, List.map_nil, List.append_nil, List.mem_append,
      List.mem_singleton] at ha
    rcases ha with rfl | rfl
    · exact ⟨Or.inl rfl, el0⟩
    · exact ⟨Or.inr rfl, es0⟩
  refine ⟨⟨?_, ?_, ?_, ?_, ?_, ?_, ?_, ?_, ?_⟩, ?_, ?_⟩
  · exact ⟨rfl, hl0, el8⟩
  · exact ⟨rfl, hs0, es8⟩
  · exact ⟨el16, trivial⟩
  · exact ⟨es16, trivial⟩
  · intro a ha
    rw [List.mem_singleton] at ha
    subst ha
    unfold is_large
    rw [el24]
    decide
  · intro a ha
    rw [List.mem_singleton] at ha
    subst ha
    unfold is_large
    rw [es24]
    decide
  · simp [init_state, hne]
  · intro a ha c hc hac
    obtain ⟨h1, h2⟩ := hsize a ha
    obtain ⟨h3, h4⟩ := hsize c hc
    unfold Apart
    rw [h2, h4]
    omega
  · intro a ha
    obtain ⟨h1, h2⟩ := hsize a ha
    rw [h2]
    omega
  · intro pl hpl
    simp [init_state] at hpl
  · rintro x ⟨a, ha, h1, h2⟩
    obtain ⟨h3, h4⟩ := hsize a ha
    rw [h4] at h2
    rcases h3 with rfl | rfl
    · exact Or.inl ⟨h1, by omega⟩
    · exact Or.inr (Or.inl ⟨h1, by omega⟩)

/-- One successful request keeps the invariant. -/
theorem inv_step2 {env : Env} {st st' : State} {A B : List Nat} {f n : Nat}
    (hsrc : FreshSrc env n) (hinv : Inv env st A B) (hn : st.heap.mmap_calls + f ≤ n + 1)
    (op : Op) (hs : step env f st op = .ok st') :
    ∃ A' B', Inv env st' A' B' ∧ st'.heap.mmap_calls ≤ st.heap.mmap_calls + f ∧
      (Mult8 st.heap.mem ((A ++ B) ++ st.live.map (fun pl => pl.1 - 32)) →
        Mult8 st'.heap.mem ((A' ++ B') ++ st'.live.map (fun pl => pl.1 - 32))) := by
  cases op with
  | malloc size =>
    by_cases hsz : 8 ≤ size ∧ size ≤ 4000 ∧ size % 8 = 0
    · simp only [step, hsz, and_self, if_true] at hs
      cases hm : my_malloc env f f st.heap size with
      | error e => rw [hm] at hs; cases hs
      | ok r =>
        obtain ⟨p, h1⟩ := r
        rw [hm] at hs
        injection hs with hs
        subst hs
        obtain ⟨b, A', B', hp, hwf', hown', hfr', hsz', hc', hb0, h8'⟩ :=
          malloc_inv hsrc f st.heap h1 A B _ p hinv.wf hinv.owned hn hm
        subst hp
        refine ⟨A', B', ⟨?_, ?_, ?_⟩, by show h1.mmap_calls ≤ _; omega, by
          intro h8
          simpa using h8' hsz.2.2 h8⟩
        · simpa using hwf'
        · intro pl hpl
          rcases List.mem_cons.mp hpl with rfl | hpl
          · exact ⟨by show 32 < b + 32; omega, by simpa using hsz'⟩
          · have := hinv.live_ok pl hpl
            refine ⟨this.1, ?_⟩
            show _ ≤ h1.mem _
            rw [hfr' _ (List.mem_map.mpr ⟨pl, hpl, rfl⟩)]
            exact this.2
        · intro x hx
          simp only [List.map_cons, Nat.add_sub_cancel] at hx
          exact hown' x hx
    · simp only [step, hsz, if_false] at hs
      cases hs
  | free ptr =>
    cases hfind : st.live.find? (fun pl => pl.1 = ptr) with
    | none =>
      simp only [step, hfind] at hs
      cases hs
    | some pl =>
      have hpl : pl ∈ st.live := List.mem_of_find?_eq_some hfind
      have hp : pl.1 = ptr := by simpa using List.find?_some hfind
      have hl := hinv.live_ok pl hpl
      simp only [step, hfind] at hs
      cases hfr : my_free f st.heap ptr with
      | error e => rw [hfr] at hs; cases hs
      | ok h1 =>
        rw [hfr] at hs
        injection hs with hs
        subst hs
        have hperm : (st.live.map (fun pl => pl.1 - 32)).Perm
            ((pl.1 - 32) :: (st.live.erase pl).map (fun pl => pl.1 - 32)) := by
          have := (perm_cons_erase_live hpl).map (fun pl : Nat × Nat => pl.1 - 32)
          rwa [List.map_cons] at this
        have hwf0 := hinv.wf.perm_others2 hperm
        have e32 : pl.1 - 32 + 32 = ptr := by omega
        rw [← e32] at hfr
        obtain ⟨A', B', hwf', hcalls, hfr', hcov, h8'⟩ := free_any hwf0 (by omega) hfr
        refine ⟨A', B', ⟨hwf', ?_, ?_⟩, by show h1.mmap_calls ≤ _; omega,
          fun h8 => h8' (fun a ha => h8 a (by
            rcases List.mem_append.mp ha with h2 | h2
            · exact List.mem_append_left _ h2
            · exact List.mem_append_right _ (hperm.mem_iff.mpr h2)))⟩
        · intro ql hql
          have hql' : ql ∈ st.live := List.mem_of_mem_erase hql
          have := hinv.live_ok ql hql'
          refine ⟨this.1, ?_⟩
          show _ ≤ h1.mem _
          rw [hfr' _ (List.mem_map.mpr ⟨ql, hql, rfl⟩)]
          exact this.2
        · intro x hx
          show Owned env h1.mmap_calls x
          rw [hcalls]
          refine hinv.owned x (Covers_sub ?_ (hcov x hx))
          intro a ha
          rcases List.mem_append.mp ha with h1 | h1
          · exact List.mem_append_left _ h1
          · exact List.mem_append_right _ (hperm.mem_iff.mpr h1)
  | write addr val =>
    by_cases hany : st.live.any (fun pl => pl.1 ≤ addr ∧ addr + 8 ≤ pl.1 + pl.2) = true
    · simp only [step, hany, if_true] at hs
      injection hs with hs
      subst hs
      obtain ⟨pl, hpl, hlo, hhi⟩ : ∃ pl ∈ st.live, pl.1 ≤ addr ∧ addr + 8 ≤ pl.1 + pl.2 := by
        simpa using hany
      have hl := hinv.live_ok pl hpl
      have hbm : pl.1 - 32 ∈ (A ++ B) ++ st.live.map (fun pl => pl.1 - 32) :=
        List.mem_append_right _ (List.mem_map.mpr ⟨pl, hpl, rfl⟩)
      have hsame : ∀ a ∈ (A ++ B) ++ st.live.map (fun pl => pl.1 - 32),
          store st.heap.mem addr val a = st.heap.mem a ∧
          store st.heap.mem addr val (a + 8) = st.heap.mem (a + 8) ∧
          store st.heap.mem addr val (a + 16) = st.heap.mem (a + 16) ∧
          store st.heap.mem addr val (a + 24) = st.heap.mem (a + 24) := by
        intro a ha
        by_cases e : a = pl.1 - 32
        · refine ⟨?_, ?_, ?_, ?_⟩ <;> (apply store_other; omega)
        · have := hinv.wf.apart a ha _ hbm e
          unfold Apart at this
          refine ⟨?_, ?_, ?_, ?_⟩ <;> (apply store_other; omega)
      refine ⟨A, B, ⟨hinv.wf.frame2 _ rfl rfl hsame, ?_, ?_⟩, by
        show st.heap.mmap_calls ≤ _; omega, by
        intro h8 a ha
        show store st.heap.mem addr val a % 8 = 0
        rw [(hsame a ha).1]
        exact h8 a ha⟩
      · intro ql hql
        have := hinv.live_ok ql hql
        refine ⟨this.1, ?_⟩
        show _ ≤ store st.heap.mem addr val _
        rw [(hsame _ (List.mem_append_right _ (List.mem_map.mpr ⟨ql, hql, rfl⟩))).1]
        exact this.2
      · intro x hx
        exact hinv.owned x ((Covers_congr2 (fun a ha => (hsame a ha).1) x).mp hx)
    · simp only [step, hany, if_false] at hs
      cases hs

/-- A successful run keeps the invariant. -/
theorem inv_run2 {env : Env} {f n : Nat} (hsrc : FreshSrc env n) :
    ∀ (ops : List Op) (st st' : State) (A B : List Nat), Inv env st A B →
    st.heap.mmap_calls + ops.length * f ≤ n → run env f st ops = .ok st' →
    ∃ A' B', Inv env st' A' B' ∧
      (Mult8 st.heap.mem ((A ++ B) ++ st.live.map (fun pl => pl.1 - 32)) →
        Mult8 st'.heap.mem ((A' ++ B') ++ st'.live.map (fun pl => pl.1 - 32)))
  | [], st, st', A, B, hinv, _, hr => by
    rw [run] at hr
    injection hr with hr
    subst hr
    exact ⟨A, B, hinv, fun h8 => h8⟩
  | op :: ops, st, st', A, B, hinv, hn, hr => by
    simp only [List.length_cons, Nat.add_mul, Nat.one_mul] at hn
    rw [run] at hr
    cases hs : step env f st op with
    | error e => rw [hs] at hr; cases hr
    | ok st1 =>
      rw [hs] at hr
      dsimp only at hr
      obtain ⟨A1, B1, hinv1, hc1, h8⟩ := inv_step2 hsrc hinv (by omega) op hs
      obtain ⟨A', B', hinv', h8'⟩ := inv_run2 hsrc ops st1 st' A1 B1 hinv1 (by omega) hr
      exact ⟨A', B', hinv', fun hm => h8' (h8 hm)⟩

theorem freshSrc2_env0 (n : Nat) (hn : n ≤ 1000000) : FreshSrc env0 n := by
  refine ⟨by decide, by decide, by decide, by decide, by decide, ?_⟩
  intro i hi
  simp only [env0]
  unfold SIZE_MOD
  refine ⟨by omega, by omega, by omega, by omega, ?_⟩
  intro j hj
  omega

theorem ok_state_of2 (f : Nat) (r : Except Err State) (h : observe f r ≠ none) :
    r = .ok (state_of r) := by
  cases r with
  | error e => exact absurd rfl h
  | ok st => rfl

/-! ### Block sizes in the two-list heap -/

/-- After a successful run from `my_initialize` the invariant holds and every
block has a size that is a multiple of 8. -/
theorem run_init_mult8 {env : Env} {h0 : Heap} {ops : List Op} {st : State} {f : Nat}
    (hsrc : FreshSrc env (h0.mmap_calls + ops.length * f))
    (hrun : run env f (init_state env h0) ops = .ok st) :
    ∃ A B, Inv env st A B ∧ Mult8 st.heap.mem ((A ++ B) ++ st.live.map (fun pl => pl.1 - 32)) := by
  have hinit : Inv env (init_state env h0) [env.dummy_large] [env.dummy_small] :=
    inv_init2 hsrc h0
  obtain ⟨hl0, hs0, hlb, hsb, hsep, _⟩ := hsrc
  have el0 : (init_state env h0).heap.mem env.dummy_large = 0 := by
    simp only [init_state, my_initialize, store]
    split_ifs <;> first | rfl | omega
  have es0 : (init_state env h0).heap.mem env.dummy_small = 0 := by
    simp only [init_state, my_initialize, store]
    split_ifs <;> first | rfl | omega
  have h8 : Mult8 (init_state env h0).heap.mem (([env.dummy_large] ++ [env.dummy_small]) ++
      (init_state env h0).live.map (fun pl => pl.1 - 32)) := by
    intro a ha
    simp only [init_state, List.map_nil, List.append_nil, List.mem_append,
      List.mem_singleton] at ha
    rcases ha with rfl | rfl
    · rw [el0]
    · rw [es0]
  obtain ⟨A, B, hinv, h8'⟩ :=
    inv_run2 (n := h0.mmap_calls + ops.length * f)
      ⟨hl0, hs0, hlb, hsb, hsep, by assumption⟩ ops (init_state env h0) st _ _ hinit
      (le_refl _) hrun
  exact ⟨A, B, hinv, h8' h8⟩

end MallocUpdate

/-! ## The claims about `malloc.c` -/

namespace Malloc

open Op

/-- C1 (non-overlap, `malloc.c`): run any sequence of requests from the state
after `my_initialize`, with a page source whose pages are fresh and with
enough fuel.  Either the caller breaks the contract (a size that is not a
multiple of 8 in `[8, 4000]`, a free of a pointer that is not live, a store
outside a live payload), or the run succeeds, no address is live twice, and
any two entries `(p, s)` and `(q, t)` of the list of live allocations have
disjoint byte ranges `[p, p + s)` and `[q, q + t)`. -/
theorem C1_non_overlap (env : Env) (h0 : Heap) (ops : List Op) (fuel : Nat)
    (hsrc : FreshSrc env (h0.mmap_calls + ops.length)) (hfuel : ops.length + 2 < fuel) :
    run env fuel (init_state env h0) ops = .error .contract ∨
    ∃ st, run env fuel (init_state env h0) ops = .ok st ∧
      (st.live.map (fun pl => pl.1)).Nodup ∧
      st.live.Pairwise (fun pl ql => pl.1 + pl.2 ≤ ql.1 ∨ ql.1 + ql.2 ≤ pl.1) := by
  rcases inv_run (f := fuel) hsrc ops (init_state env h0) [env.dummy] (inv_init hsrc h0)
    (by simp only [List.length_singleton]; omega) (le_refl _) with hr | ⟨st, frees, hr, hinv, _, _⟩
  · exact Or.inl hr
  · refine Or.inr ⟨st, hr, ?_⟩
    have hnd : (st.live.map (fun pl => pl.1 - 24)).Nodup :=
      (List.nodup_append.mp hinv.wf.nodup).2.1
    have hpw : st.live.Pairwise (fun pl ql => pl.1 - 24 ≠ ql.1 - 24) :=
      List.pairwise_map.mp hnd
    constructor
    · refine List.pairwise_map.mpr (hpw.imp ?_)
      intro pl ql hne e
      exact hne (by rw [e])
    · refine List.Pairwise.imp_of_mem ?_ hpw
      intro pl ql hpl hql hne
      have hp := hinv.live_ok pl hpl
      have hq := hinv.live_ok ql hql
      have hpm : pl.1 - 24 ∈ frees ++ st.live.map (fun pl => pl.1 - 24) :=
        List.mem_append_right _ (List.mem_map.mpr ⟨pl, hpl, rfl⟩)
      have hqm : ql.1 - 24 ∈ frees ++ st.live.map (fun pl => pl.1 - 24) :=
        List.mem_append_right _ (List.mem_map.mpr ⟨ql, hql, rfl⟩)
      have := hinv.wf.apart _ hpm _ hqm hne
      unfold Apart at this
      omega

/-- Witness for C1: a run with three allocations, a store and a free. -/
theorem C1_non_overlap_witness :
    FreshSrc env0 (zero_heap.mmap_calls + 6) ∧
    observe 9 (run env0 9 (init_state env0 zero_heap)
      [malloc 8, malloc 4000, write 4120 7, malloc 16, free 4120, malloc 24]) =
      some ([(8240, 4024), (4096, 8), (64, 0)],
        [(8216, 24), (8176, 16), (4152, 4000)], 2) ∧
    (run env0 9 (init_state env0 zero_heap)
      [malloc 8, malloc 4000, write 4120 7, malloc 16, free 4120, malloc 24] =
        .error .contract ∨
      ∃ st, run env0 9 (init_state env0 zero_heap)
        [malloc 8, malloc 4000, write 4120 7, malloc 16, free 4120, malloc 24] = .ok st ∧
        (st.live.map (fun pl => pl.1)).Nodup ∧
        st.live.Pairwise (fun pl ql => pl.1 + pl.2 ≤ ql.1 ∨ ql.1 + ql.2 ≤ pl.1)) :=
  ⟨freshSrc_env0 _ (by decide), by decide,
    C1_non_overlap env0 zero_heap _ 9 (freshSrc_env0 _ (by decide)) (by decide)⟩

/-- C2 (postcondition of `my_malloc`, `malloc.c`): on a well-formed heap with
a fresh next page and a size that is a multiple of 8 in `[8, 4000]`,
`my_malloc` returns.  The best-fit search chose a block `b` (in the heap `h0`,
which is the given heap or the heap after one page was registered); the
returned address is `b + sizeof(my_metadata_t)`; the recorded size of `b` is at
least the request, before and after the call; after the call `b.next` and
`b.prev` are null and `b` is not in the list headed by `free_head`. -/
theorem C2_malloc_post (env : Env) (h : Heap) (frees others : List Nat) (size fuel d : Nat)
    (hwf : WF h frees others)
    (hfresh : FreshPage h (frees ++ others) (env.mmap_from_system h.mmap_calls))
    (hsz : 8 ≤ size ∧ size ≤ 4000 ∧ size % 8 = 0) (hf : frees.length + 1 < fuel) :
    ∃ h0 b h1 frees1,
      (h0 = h ∨ (best_fit_scan fuel h.mem size h.free_head 0 = .ok 0 ∧
        my_malloc_grow env fuel h = .ok h0)) ∧
      best_fit_scan fuel h0.mem size h0.free_head 0 = .ok b ∧ b ≠ 0 ∧ size ≤ h0.mem b ∧
      my_malloc env (d + 2) fuel h size = .ok (b + sizeof_my_metadata_t, h1) ∧
      size ≤ h1.mem b ∧ h1.mem (b + 8) = 0 ∧ h1.mem (b + 16) = 0 ∧
      Seg h1.mem h1.free_head frees1 0 ∧ b ∉ frees1 := by
  have hsize : size ≤ 4072 := by omega
  rcases malloc_eq hwf hfresh hsize hf (d + 1) with ⟨hb, hscan, heq⟩ | ⟨hb, _, _⟩
  · obtain ⟨hbm, hbs, _, _⟩ := bestOf_ne_zero hwf.mem_ne_zero hb
    obtain ⟨h1, frees1, hres, hwf1, _, hs1, _, h8, h16, _, _, _⟩ :=
      take_sum (f := fuel) hwf hbm hbs (by omega)
    refine ⟨h, _, h1, frees1, Or.inl rfl, hscan, hb, hbs, by rw [heq, hres]; rfl, hs1, h8, h16,
      hwf1.chain, ?_⟩
    intro hm
    exact (List.nodup_append.mp hwf1.nodup).2.2 hm (List.mem_cons_self _ _)
  · have heq := (malloc_eq hwf hfresh hsize hf d).resolve_left (fun hh => hh.1 hb)
    obtain ⟨_, hscan, h0, frees0, hgrow, hwf0, _, _, _, _, hb0, hscan0, hm0⟩ := heq
    obtain ⟨hbm, hbs, _, _⟩ := bestOf_ne_zero hwf0.mem_ne_zero hb0
    obtain ⟨h1, frees1, hres, hwf1, _, hs1, _, h8, h16, _, _, _⟩ :=
      take_sum (f := fuel) hwf0 hbm hbs (by rw [List.length_cons]; omega)
    refine ⟨h0, _, h1, frees1, Or.inr ⟨hscan, hgrow⟩, hscan0, hb0, hbs,
      by rw [hm0, hres]; rfl, hs1, h8, h16, hwf1.chain, ?_⟩
    intro hm
    exact (List.nodup_append.mp hwf1.nodup).2.2 hm (List.mem_cons_self _ _)

/-- Witness for C2: the heap after `malloc 8`, `malloc 16`, `free` of the first
block; a request for 2000 bytes. -/
theorem C2_malloc_post_witness :
    WF (heap_of (run env0 9 (init_state env0 zero_heap) [malloc 8, malloc 16, free 4120]))
      [4096, 4168, 64] [4128] ∧
    (∃ h0 b h1 frees1,
      (h0 = heap_of (run env0 9 (init_state env0 zero_heap) [malloc 8, malloc 16, free 4120]) ∨
        (best_fit_scan 9
          (heap_of (run env0 9 (init_state env0 zero_heap)
            [malloc 8, malloc 16, free 4120])).mem 2000
          (heap_of (run env0 9 (init_state env0 zero_heap)
            [malloc 8, malloc 16, free 4120])).free_head 0 = .ok 0 ∧
        my_malloc_grow env0 9
          (heap_of (run env0 9 (init_state env0 zero_heap)
            [malloc 8, malloc 16, free 4120])) = .ok h0)) ∧
      best_fit_scan 9 h0.mem 2000 h0.free_head 0 = .ok b ∧ b ≠ 0 ∧ 2000 ≤ h0.mem b ∧
      my_malloc env0 (0 + 2) 9
        (heap_of (run env0 9 (init_state env0 zero_heap) [malloc 8, malloc 16, free 4120]))
        2000 = .ok (b + sizeof_my_metadata_t, h1) ∧
      2000 ≤ h1.mem b ∧ h1.mem (b + 8) = 0 ∧ h1.mem (b + 16) = 0 ∧
      Seg h1.mem h1.free_head frees1 0 ∧ b ∉ frees1) :=
  ⟨by decide, C2_malloc_post env0 _ [4096, 4168, 64] [4128] 2000 9 0 (by decide) (by decide)
    (by decide) (by decide)⟩

/-- C7 (retry after page acquisition, `malloc.c`): on a well-formed heap with
a fresh next page and a size that is a multiple of 8 in `[8, 4000]`,
`my_malloc` returns with recursion depth at most one (a budget of two
activations is enough, and any larger budget gives the same result), and it
calls `mmap_from_system` at most once.  When the first search finds nothing,
the page is registered with a block of at least `4096 - sizeof(my_metadata_t)`
bytes, the search of the retry finds a block that fits, and the retry returns
without a further activation. -/
theorem C7_retry_succeeds (env : Env) (h : Heap) (frees others : List Nat) (size fuel : Nat)
    (hwf : WF h frees others)
    (hfresh : FreshPage h (frees ++ others) (env.mmap_from_system h.mmap_calls))
    (hsz : 8 ≤ size ∧ size ≤ 4000 ∧ size % 8 = 0) (hf : frees.length + 1 < fuel) :
    ∃ p h1, (∀ d, my_malloc env (d + 2) fuel h size = .ok (p, h1)) ∧
      (h1.mmap_calls = h.mmap_calls ∨ h1.mmap_calls = h.mmap_calls + 1) ∧
      (best_fit_scan fuel h.mem size h.free_head 0 ≠ .ok 0 →
        my_malloc env 1 fuel h size = .ok (p, h1) ∧ h1.mmap_calls = h.mmap_calls) ∧
      (best_fit_scan fuel h.mem size h.free_head 0 = .ok 0 →
        ∃ h0 b, my_malloc_grow env fuel h = .ok h0 ∧
          4096 - sizeof_my_metadata_t ≤ h0.mem (env.mmap_from_system h.mmap_calls) ∧
          best_fit_scan fuel h0.mem size h0.free_head 0 = .ok b ∧ b ≠ 0 ∧
          size ≤ h0.mem b ∧ my_malloc env 1 fuel h0 size = .ok (p, h1) ∧
          h1.mmap_calls = h.mmap_calls + 1) := by
  have hsize : size ≤ 4072 := by omega
  rcases malloc_eq hwf hfresh hsize hf 0 with ⟨hb, hscan, _⟩ | ⟨hb, hscan, _⟩
  · obtain ⟨hbm, hbs, _, _⟩ := bestOf_ne_zero hwf.mem_ne_zero hb
    obtain ⟨h1, frees1, hres, _, hcalls, _⟩ := take_sum (f := fuel) hwf hbm hbs (by omega)
    have hall : ∀ d, my_malloc env (d + 1) fuel h size =
        .ok (bestOf h.mem size frees 0 + 24, h1) := by
      intro d
      rcases malloc_eq hwf hfresh hsize hf d with ⟨_, _, heq⟩ | ⟨hb', _, _⟩
      · rw [heq, hres]
      · exact absurd hb' hb
    refine ⟨_, h1, fun d => hall (d + 1), Or.inl hcalls, fun _ => ⟨hall 0, hcalls⟩, ?_⟩
    intro h0
    rw [hscan] at h0
    injection h0 with h0
    exact absurd h0 hb
  · obtain ⟨h0, frees0, hgrow, hwf0, _, _, _, _, hpg, _⟩ :=
      grow_sum (f := fuel) hwf hfresh (by omega)
    have hstep : ∀ d, ∃ frees0, WF h0 (env.mmap_from_system h.mmap_calls :: frees0) others ∧
        h0.mmap_calls = h.mmap_calls + 1 ∧ frees0.length ≤ frees.length ∧
        bestOf h0.mem size (env.mmap_from_system h.mmap_calls :: frees0) 0 ≠ 0 ∧
        best_fit_scan fuel h0.mem size h0.free_head 0 =
          .ok (bestOf h0.mem size (env.mmap_from_system h.mmap_calls :: frees0) 0) ∧
        my_malloc env (d + 2) fuel h size = my_malloc_take fuel h0
          (bestOf h0.mem size (env.mmap_from_system h.mmap_calls :: frees0) 0) size := by
      intro d
      have heq := (malloc_eq hwf hfresh hsize hf d).resolve_left (fun hh => hh.1 hb)
      obtain ⟨_, _, h0', frees0', hgrow', hwf0', hc, _, _, hlen, hb0, hscan0, hm0⟩ := heq
      have e : h0' = h0 := by
        have := hgrow'.symm.trans hgrow
        injection this
      subst e
      exact ⟨frees0', hwf0', hc, hlen, hb0, hscan0, hm0⟩
    obtain ⟨fr, hwf1, hc1, hlen1, hb1, hscan1, hm1⟩ := hstep 0
    obtain ⟨hbm, hbs, _, _⟩ := bestOf_ne_zero hwf1.mem_ne_zero hb1
    obtain ⟨h1, frees1, hres, _, hcalls, _⟩ :=
      take_sum (f := fuel) hwf1 hbm hbs (by rw [List.length_cons]; omega)
    have hscanb : ∀ b', best_fit_scan fuel h0.mem size h0.free_head 0 = .ok b' →
        b' = bestOf h0.mem size (env.mmap_from_system h.mmap_calls :: fr) 0 := by
      intro b' hb'
      rw [hscan1] at hb'
      injection hb' with hb'
      exact hb'.symm
    have hall : ∀ d, my_malloc env (d + 2) fuel h size =
        .ok (bestOf h0.mem size (env.mmap_from_system h.mmap_calls :: fr) 0 + 24, h1) := by
      intro d
      obtain ⟨fr', _, _, _, _, hscan', hm'⟩ := hstep d
      rw [hm', hscanb _ hscan', hres]
    refine ⟨_, h1, hall, Or.inr (by rw [hcalls, hc1]), ?_, ?_⟩
    · intro hne
      exact absurd hscan hne
    · intro _
      refine ⟨h0, _, hgrow, by simpa [sizeof_my_metadata_t] using hpg, hscan1, hb1, hbs, ?_,
        by rw [hcalls, hc1]⟩
      rw [my_malloc, hscan1]
      simp only [hb1, if_false]
      exact hres

/-- Witness for C7: the heap right after `my_initialize`, where the first
search fails and a page is acquired. -/
theorem C7_retry_succeeds_witness :
    WF (init_state env0 zero_heap).heap [64] [] ∧
    best_fit_scan 5 (init_state env0 zero_heap).heap.mem 4000
      (init_state env0 zero_heap).heap.free_head 0 = .ok 0 ∧
    (∃ p h1, (∀ d, my_malloc env0 (d + 2) 5 (init_state env0 zero_heap).heap 4000
        = .ok (p, h1)) ∧
      (h1.mmap_calls = (init_state env0 zero_heap).heap.mmap_calls ∨
        h1.mmap_calls = (init_state env0 zero_heap).heap.mmap_calls + 1) ∧
      (best_fit_scan 5 (init_state env0 zero_heap).heap.mem 4000
          (init_state env0 zero_heap).heap.free_head 0 ≠ .ok 0 →
        my_malloc env0 1 5 (init_state env0 zero_heap).heap 4000 = .ok (p, h1) ∧
        h1.mmap_calls = (init_state env0 zero_heap).heap.mmap_calls) ∧
      (best_fit_scan 5 (init_state env0 zero_heap).heap.mem 4000
          (init_state env0 zero_heap).heap.free_head 0 = .ok 0 →
        ∃ h0 b, my_malloc_grow env0 5 (init_state env0 zero_heap).heap = .ok h0 ∧
          4096 - sizeof_my_metadata_t ≤
            h0.mem (env0.mmap_from_system (init_state env0 zero_heap).heap.mmap_calls) ∧
          best_fit_scan 5 h0.mem 4000 h0.free_head 0 = .ok b ∧ b ≠ 0 ∧
          4000 ≤ h0.mem b ∧ my_malloc env0 1 5 h0 4000 = .ok (p, h1) ∧
          h1.mmap_calls = (init_state env0 zero_heap).heap.mmap_calls + 1)) :=
  ⟨by decide, rfl, C7_retry_succeeds env0 _ [64] [] 4000 5 (by decide) (by decide) (by decide)
    (by decide)⟩

/-- C3 (best-fit correctness, both variants): when the searched list `L`
(headed by `head`) holds a block of at least `size` bytes, the best-fit loop
returns a block `b` of `L` with `b.size ≥ size`; no block of `L` that fits is
strictly smaller; and `b` is the first block of that least size in list order.
`my_malloc` of `malloc.c` and of `malloc_update.c` go on with exactly this
block. -/
theorem C3_best_fit (m : Nat → Nat) (head size fuel : Nat) (L : List Nat)
    (hchain : Seg m head L 0) (hfuel : L.length < fuel) (hex : ∃ x ∈ L, size ≤ m x) :
    ∃ b, best_fit_scan fuel m size head 0 = .ok b ∧ b ∈ L ∧ size ≤ m b ∧
      (∀ x ∈ L, size ≤ m x → m b ≤ m x) ∧
      (∃ l1 l2, L = l1 ++ b :: l2 ∧ ∀ x ∈ l1, size ≤ m x → m b < m x) ∧
      (∀ (env : Env) (d : Nat) (h : Heap), h.mem = m → h.free_head = head →
        my_malloc env (d + 1) fuel h size = my_malloc_take fuel h b size) ∧
      (∀ (env : MallocUpdate.Env) (d : Nat) (h : MallocUpdate.Heap), h.mem = m →
        MallocUpdate.list_for h size = head →
        MallocUpdate.my_malloc env (d + 1) fuel h size =
          MallocUpdate.my_malloc_take fuel h b size) := by
  have hne := Seg_ne_zero _ _ _ hchain
  have hscan := best_fit_scan_eq size L head 0 fuel hchain hfuel
  have hb0 : bestOf m size L 0 ≠ 0 := by
    intro e
    obtain ⟨x, hx, hfit⟩ := hex
    have := bestOf_eq_zero hne e x hx
    omega
  obtain ⟨h1, h2, h3, h4⟩ := bestOf_ne_zero hne hb0
  refine ⟨_, hscan, h1, h2, h3, h4, ?_, ?_⟩
  · intro env d h hm hh
    subst hm hh
    rw [my_malloc, hscan]
    simp only [hb0, if_false]
  · intro env d h hm hh
    subst hm hh
    rw [MallocUpdate.my_malloc, hscan]
    simp only [hb0, if_false]

/-- Witness for C3: free blocks of sizes 16, 64, 32 and 64 (and the sentinel of
size 0), in this list order; a request for 20 bytes selects the 32-byte
block. -/
theorem C3_best_fit_witness :
    Seg (fun a => if a = 1000 then 16 else if a = 1008 then 2000
        else if a = 2000 then 64 else if a = 2008 then 3000
        else if a = 3000 then 32 else if a = 3008 then 4000
        else if a = 4000 then 64 else if a = 4008 then 64 else 0)
      1000 [1000, 2000, 3000, 4000, 64] 0 ∧
    best_fit_scan 6 (fun a => if a = 1000 then 16 else if a = 1008 then 2000
        else if a = 2000 then 64 else if a = 2008 then 3000
        else if a = 3000 then 32 else if a = 3008 then 4000
        else if a = 4000 then 64 else if a = 4008 then 64 else 0) 20 1000 0 = .ok 3000 ∧
    ∃ b, best_fit_scan 6 (fun a => if a = 1000 then 16 else if a = 1008 then 2000
        else if a = 2000 then 64 else if a = 2008 then 3000
        else if a = 3000 then 32 else if a = 3008 then 4000
        else if a = 4000 then 64 else if a = 4008 then 64 else 0) 20 1000 0 = .ok b ∧
      b ∈ [1000, 2000, 3000, 4000, 64] :=
  ⟨by decide, rfl, by
    obtain ⟨b, h1, h2, _⟩ := C3_best_fit (fun a => if a = 1000 then 16 else if a = 1008 then 2000
        else if a = 2000 then 64 else if a = 2008 then 3000
        else if a = 3000 then 32 else if a = 3008 then 4000
        else if a = 4000 then 64 else if a = 4008 then 64 else 0) 1000 20 6
      [1000, 2000, 3000, 4000, 64] (by decide) (by decide) ⟨2000, by decide, by decide⟩
    exact ⟨b, h1, h2⟩⟩

/-- C4 (split threshold, `malloc.c`): when the best-fit search of `my_malloc`
selects the free block `b` and `b.size - size ≤ sizeof(my_metadata_t)`, the
block is not split.  `my_malloc` returns `b + sizeof(my_metadata_t)` and the
heap is the old heap with `b` unlinked: `b` keeps its size, the free list is
the old list without `b`, no page is acquired, and no word of memory changes
except the two links of `b`, the `next` link of the node before `b` and the
`prev` link of the node after `b` (so no header is written and no block is
inserted). -/
theorem C4_split_threshold (env : Env) (h : Heap) (frees others : List Nat)
    (size fuel d b : Nat) (hwf : WF h frees others) (hf : frees.length < fuel)
    (hsel : best_fit_scan fuel h.mem size h.free_head 0 = .ok b) (hb0 : b ≠ 0)
    (hrem : h.mem b - size ≤ sizeof_my_metadata_t) :
    my_malloc env (d + 1) fuel h size =
      .ok (b + sizeof_my_metadata_t, my_remove_from_free_list h b) ∧
    (my_remove_from_free_list h b).mem b = h.mem b ∧
    Seg (my_remove_from_free_list h b).mem (my_remove_from_free_list h b).free_head
      (frees.erase b) 0 ∧
    (my_remove_from_free_list h b).mmap_calls = h.mmap_calls ∧
    (∀ y, y ≠ b + 8 → y ≠ b + 16 →
      (h.mem (b + 8) = 0 ∨ y ≠ h.mem (b + 8) + 16) →
      (h.mem (b + 16) = 0 ∨ y ≠ h.mem (b + 16) + 8) →
      (my_remove_from_free_list h b).mem y = h.mem y) := by
  have hscan := best_fit_scan_eq size frees h.free_head 0 fuel hwf.chain hf
  have hb : b = bestOf h.mem size frees 0 := by
    rw [hscan] at hsel
    injection hsel with e
    exact e.symm
  have hbne : bestOf h.mem size frees 0 ≠ 0 := hb ▸ hb0
  obtain ⟨hbm, hbs, _, _⟩ := bestOf_ne_zero hwf.mem_ne_zero hbne
  rw [← hb] at hbm hbs
  obtain ⟨h1, hres, _, _, _, _, hns, _⟩ := take_spec (f := fuel) hwf hbm hbs (by omega)
  obtain ⟨e1, hwf1, hsz1, _⟩ := hns (by simpa [sizeof_my_metadata_t] using hrem)
  obtain ⟨_, _, _, hcalls, _, hmem, _⟩ := remove_spec hwf hbm
  subst e1
  refine ⟨?_, hsz1, hwf1.chain, hcalls, ?_⟩
  · rw [my_malloc, hsel]
    simp only [hb0, if_false]
    exact hres
  · intro y h1 h2 h3 h4
    rw [hmem]
    exact unlink_mem_other _ _ _ _ _ h1 h2 h3 h4

/-- Witness for C4: the free list holds a block of 48 bytes at 8120 (the rest
of a page after `malloc 8` and `malloc 3968`); a request for 24 bytes leaves a
rest of exactly `sizeof(my_metadata_t)` bytes. -/
theorem C4_split_threshold_witness :
    WF (heap_of (run env0 9 (init_state env0 zero_heap) [malloc 8, malloc 3968]))
      [8120, 64] [4128, 4096] ∧
    (heap_of (run env0 9 (init_state env0 zero_heap) [malloc 8, malloc 3968])).mem 8120
      = 24 + 24 ∧
    my_malloc env0 (0 + 1) 9
      (heap_of (run env0 9 (init_state env0 zero_heap) [malloc 8, malloc 3968])) 24 =
      .ok (8120 + sizeof_my_metadata_t, my_remove_from_free_list
        (heap_of (run env0 9 (init_state env0 zero_heap) [malloc 8, malloc 3968])) 8120) :=
  ⟨by decide, by decide,
    (C4_split_threshold env0 _ [8120, 64] [4128, 4096] 24 9 0 8120 (by decide) (by decide)
      (by rfl) (by decide) (by decide)).1⟩

/-- Counterexample to C5 as stated: after `malloc 8` twice the blocks at 4096
and 4128 are live and adjacent (4128 = 4096 + 24 + 8).  Freeing the lower one
(payload 4120) and then the upper one (payload 4152) leaves both in the free
list as separate members, of sizes 8 and 4040; no free block has size
8 + 8 + 24 = 40. -/
theorem C5_counterexample :
    observe 9 (run env0 9 (init_state env0 zero_heap) [malloc 8, malloc 8]) =
      some ([(4160, 4008), (64, 0)], [(4152, 8), (4120, 8)], 1) ∧
    (heap_of (run env0 9 (init_state env0 zero_heap) [malloc 8, malloc 8])).mem 4096 = 8 ∧
    (heap_of (run env0 9 (init_state env0 zero_heap) [malloc 8, malloc 8])).mem 4128 = 8 ∧
    4128 = 4096 + sizeof_my_metadata_t +
      (heap_of (run env0 9 (init_state env0 zero_heap) [malloc 8, malloc 8])).mem 4096 ∧
    observe 9 (run env0 9 (init_state env0 zero_heap)
      [malloc 8, malloc 8, free 4120, free 4152]) =
      some ([(4128, 4040), (4096, 8), (64, 0)], [], 1) := by
  decide

/-- C5 as amended (forward coalesce, `malloc.c`): let `L` and `U` be allocated
blocks of a well-formed heap, `U` starting right after `L`.  Freeing `U` first
and then `L` gives one free block at `L`, at the head of the free list, whose
size is `L.size + U'.size + sizeof(my_metadata_t)`, where `U'.size ≥ U.size` is
the size of `U` after its own free (`U.size` itself when no free block starts
right after `U`), and `U` is no member of the free list.  Freeing `L` first and
then `U` leaves both `L` and `U` in the free list, `L` with its old size. -/
theorem C5_forward_coalesce (h : Heap) (frees others : List Nat) (L U fuel : Nat)
    (hwf : WF h frees others) (hL : L ∈ others) (hU : U ∈ others) (hL0 : L ≠ 0)
    (hadj : U = L + sizeof_my_metadata_t + h.mem L) (hf : frees.length + 1 < fuel) :
    (∃ h1 h2 frees2, my_free fuel h (U + sizeof_my_metadata_t) = .ok h1 ∧
      my_free fuel h1 (L + sizeof_my_metadata_t) = .ok h2 ∧
      h2.free_head = L ∧ Seg h2.mem h2.free_head (L :: frees2) 0 ∧ U ∉ frees2 ∧
      h2.mem L = h.mem L + h1.mem U + sizeof_my_metadata_t ∧ h.mem U ≤ h1.mem U ∧
      (U + h.mem U + sizeof_my_metadata_t ∉ frees → h1.mem U = h.mem U)) ∧
    (∃ h1 h2 frees2, my_free fuel h (L + sizeof_my_metadata_t) = .ok h1 ∧
      my_free fuel h1 (U + sizeof_my_metadata_t) = .ok h2 ∧
      Seg h2.mem h2.free_head frees2 0 ∧ L ∈ frees2 ∧ U ∈ frees2 ∧
      h2.mem L = h.mem L) := by
  simp only [sizeof_my_metadata_t] at hadj ⊢
  have hUL : U ≠ L := by omega
  have hU0 : U ≠ 0 := by omega
  have hnd := hwf.nodup
  have hUf : U ∉ frees := fun hm => (List.nodup_append.mp hnd).2.2 hm hU
  have hLf : L ∉ frees := fun hm => (List.nodup_append.mp hnd).2.2 hm hL
  constructor
  · -- upper block first
    obtain ⟨h1, hres1, _, _, hoth1, hm1, hn1⟩ := free_spec (f := fuel) hwf hU hU0 (by omega)
    have hLe : L ∈ others.erase U := (List.mem_erase_of_ne (Ne.symm hUL)).mpr hL
    have hL1 : h1.mem L = h.mem L := (hoth1 L hLe).1
    have hstep : ∃ frees1, WF h1 (U :: frees1) (others.erase U) ∧ frees1.length ≤ frees.length ∧
        h.mem U ≤ h1.mem U ∧ (U + h.mem U + 24 ∉ frees → h1.mem U = h.mem U) := by
      by_cases hmem : U + h.mem U + 24 ∈ frees
      · obtain ⟨w1, w2, _⟩ := hm1 hmem
        exact ⟨_, w1, by rw [List.length_erase_of_mem hmem]; omega, by rw [w2]; omega,
          fun hc => absurd hmem hc⟩
      · obtain ⟨w1, w2, _⟩ := hn1 hmem
        exact ⟨_, w1, le_refl _, by rw [w2], fun _ => w2⟩
    obtain ⟨frees1, hwf1, hlen1, hge, hex⟩ := hstep
    obtain ⟨h2, hres2, _, hhead2, _, hm2, _⟩ :=
      free_spec (f := fuel) hwf1 hLe hL0 (by rw [List.length_cons]; omega)
    have hsucc : L + h1.mem L + 24 = U := by rw [hL1]; omega
    rw [hsucc] at hm2
    obtain ⟨w1, w2, _⟩ := hm2 (List.mem_cons_self _ _)
    rw [List.erase_cons_head] at w1
    have hUf1 : U ∉ frees1 := by
      have := (List.nodup_append.mp hwf1.nodup).1
      exact (List.nodup_cons.mp this).1
    refine ⟨h1, h2, frees1, hres1, hres2, hhead2, w1.chain, hUf1, ?_, hge, hex⟩
    rw [w2, hL1]
  · -- lower block first
    obtain ⟨h1, hres1, _, _, hoth1, _, hn1⟩ := free_spec (f := fuel) hwf hL hL0 (by omega)
    have hsucc : L + h.mem L + 24 = U := by omega
    rw [hsucc] at hn1
    obtain ⟨hwf1, hL1, _⟩ := hn1 hUf
    have hUe : U ∈ others.erase L := (List.mem_erase_of_ne hUL).mpr hU
    obtain ⟨h2, hres2, _, _, _, hm2, hn2⟩ :=
      free_spec (f := fuel) hwf1 hUe hU0 (by rw [List.length_cons]; omega)
    have hU1 : h1.mem U = h.mem U := (hoth1 U hUe).1
    have hne : L ≠ U + h1.mem U + 24 := by omega
    by_cases hmem : U + h1.mem U + 24 ∈ L :: frees
    · obtain ⟨w1, _, w3⟩ := hm2 hmem
      have hLm : L ∈ (L :: frees).erase (U + h1.mem U + 24) :=
        (List.mem_erase_of_ne hne).mpr (List.mem_cons_self _ _)
      exact ⟨h1, h2, _, hres1, hres2, w1.chain, List.mem_cons_of_mem _ hLm,
        List.mem_cons_self _ _, by rw [w3 L hLm, hL1]⟩
    · obtain ⟨w1, _, w3⟩ := hn2 hmem
      exact ⟨h1, h2, _, hres1, hres2, w1.chain,
        List.mem_cons_of_mem _ (List.mem_cons_self _ _), List.mem_cons_self _ _,
        by rw [w3 L (List.mem_cons_self _ _), hL1]⟩

/-- Witness for C5 as amended: the two adjacent live blocks at 4096 and 4128
after `malloc 8` twice. -/
theorem C5_forward_coalesce_witness :
    WF (heap_of (run env0 9 (init_state env0 zero_heap) [malloc 8, malloc 8]))
      [4160, 64] [4128, 4096] ∧
    observe 9 (run env0 9 (init_state env0 zero_heap)
      [malloc 8, malloc 8, free 4152, free 4120]) = some ([(4096, 4072), (64, 0)], [], 1) ∧
    ∃ h1 h2 frees2,
      my_free 9 (heap_of (run env0 9 (init_state env0 zero_heap) [malloc 8, malloc 8]))
        (4128 + sizeof_my_metadata_t) = .ok h1 ∧
      my_free 9 h1 (4096 + sizeof_my_metadata_t) = .ok h2 ∧
      h2.free_head = 4096 ∧ Seg h2.mem h2.free_head (4096 :: frees2) 0 ∧ 4128 ∉ frees2 :=
  ⟨by decide, by decide, by
    obtain ⟨⟨h1, h2, frees2, w1, w2, w3, w4, w5, _⟩, _⟩ :=
      C5_forward_coalesce (heap_of (run env0 9 (init_state env0 zero_heap) [malloc 8, malloc 8]))
        [4160, 64] [4128, 4096] 4096 4128 9 (by decide) (by decide) (by decide) (by decide)
        (by decide) (by decide)
    exact ⟨h1, h2, frees2, w1, w2, w3, w4, w5⟩⟩

/-- Counterexample to C6 as stated: the first pass allocates 2000 and 2000
bytes (4000 bytes, one page) and frees both blocks, the lower one first; the
second pass asks for the same total in one request of 4000 bytes and acquires
a second page, since the two free blocks (2000 and 2048 bytes) were not
merged. -/
theorem C6_counterexample :
    observe 9 (run env0 9 (init_state env0 zero_heap)
      [malloc 2000, malloc 2000, free 4120, free 6144]) =
      some ([(6120, 2048), (4096, 2000), (64, 0)], [], 1) ∧
    observe 9 (run env0 9 (init_state env0 zero_heap)
      [malloc 2000, malloc 2000, free 4120, free 6144, malloc 4000]) =
      some ([(12216, 48), (6120, 2048), (4096, 2000), (64, 0)], [(8216, 4000)], 2) := by
  decide

/-- C6 as amended (round-trip page reuse, `malloc.c`): start from
`my_initialize`, run any sequence of `my_malloc` calls with valid sizes, then
`my_free` calls that free every returned address, in any order.  A following
`my_malloc` of a valid size `t` that is at most one of the sizes of the first
pass returns without calling `mmap_from_system`. -/
theorem C6_round_trip (env : Env) (h0 : Heap) (sizes ptrs : List Nat) (t fuel : Nat)
    (st1 st2 : State) (hsrc : FreshSrc env (h0.mmap_calls + sizes.length + 1))
    (hfuel : sizes.length + ptrs.length + 3 < fuel)
    (hrun1 : run env fuel (init_state env h0) (sizes.map Op.malloc) = .ok st1)
    (hrun2 : run env fuel st1 (ptrs.map Op.free) = .ok st2) (hall : st2.live = [])
    (ht : 8 ≤ t ∧ t % 8 = 0) (hts : ∃ s ∈ sizes, t ≤ s) :
    ∃ st3, run env fuel st2 [Op.malloc t] = .ok st3 ∧
      st3.heap.mmap_calls = st2.heap.mmap_calls := by
  obtain ⟨s, hs, hle⟩ := hts
  obtain ⟨_, hlive⟩ := run_malloc_live sizes _ st1 hrun1
  obtain ⟨hsv, pl, hpl, hps⟩ := hlive s hs
  have hsrc1 : FreshSrc env (h0.mmap_calls + (sizes.map Op.malloc).length) := by
    rw [List.length_map]
    exact ⟨hsrc.1, hsrc.2.1, fun i hi => hsrc.2.2 i (by omega)⟩
  rcases inv_run (f := fuel) hsrc1 (sizes.map Op.malloc) (init_state env h0) [env.dummy]
    (inv_init hsrc1 h0) (by simp only [List.length_singleton, List.length_map]; omega)
    (le_refl _) with hr | ⟨st1', frees1, hr, hinv1, hlen1, hc1⟩
  · rw [hrun1] at hr; cases hr
  · rw [hrun1] at hr
    injection hr with hr
    subst hr
    simp only [List.length_singleton, List.length_map] at hlen1 hc1
    have hfit1 : Fits st1 frees1 t :=
      Or.inl ⟨pl, hpl, by have := (hinv1.live_ok pl hpl).2; omega⟩
    obtain ⟨frees2, hinv2, hfit2, hlen2, hc2⟩ :=
      free_phase (f := fuel) ptrs st1 st2 frees1 hinv1 hfit1 (by omega) hrun2
    have hfree : ∃ a ∈ frees2, t ≤ st2.heap.mem a := by
      rcases hfit2 with ⟨ql, hql, _⟩ | hfr
      · rw [hall] at hql; cases hql
      · exact hfr
    have hk : st2.heap.mmap_calls < h0.mmap_calls + sizes.length + 1 := by
      have : (init_state env h0).heap.mmap_calls = h0.mmap_calls := rfl
      omega
    obtain ⟨b, h3, frees3, hres, _, _, _, _, _, _, _, _, _, hsame⟩ :=
      malloc_sum (f := fuel) hinv2.wf (hinv2.fresh hsrc hk) (by omega : t ≤ 4072)
        (by omega) (fuel - 2)
    have e : fuel - 2 + 2 = fuel := by omega
    rw [e] at hres
    refine ⟨{ heap := h3, live := (b + 24, t) :: st2.live }, ?_, hsame hfree⟩
    have hv : 8 ≤ t ∧ t ≤ 4000 ∧ t % 8 = 0 := ⟨ht.1, by omega, ht.2⟩
    simp only [run, step, hv, and_self, if_true, hres]

/-- Witness for C6 as amended: the run of the counterexample, followed by a
request of 2000 bytes. -/
theorem C6_round_trip_witness :
    FreshSrc env0 (zero_heap.mmap_calls + [2000, 2000].length + 1) ∧
    observe 9 (run env0 9 (init_state env0 zero_heap)
      [malloc 2000, malloc 2000, free 4120, free 6144, malloc 2000]) =
      some ([(6120, 2048), (64, 0)], [(4120, 2000)], 1) ∧
    (state_of (run env0 9 (state_of (run env0 9 (init_state env0 zero_heap)
      ([2000, 2000].map Op.malloc))) ([4120, 6144].map Op.free))).live = [] ∧
    ∃ st3, run env0 9
        (state_of (run env0 9 (state_of (run env0 9 (init_state env0 zero_heap)
          ([2000, 2000].map Op.malloc))) ([4120, 6144].map Op.free)))
        [Op.malloc 2000] = .ok st3 ∧
      st3.heap.mmap_calls =
        (state_of (run env0 9 (state_of (run env0 9 (init_state env0 zero_heap)
          ([2000, 2000].map Op.malloc))) ([4120, 6144].map Op.free))).heap.mmap_calls :=
  ⟨freshSrc_env0 _ (by decide), by decide, by decide,
    C6_round_trip env0 zero_heap [2000, 2000] [4120, 6144] 2000 9 _ _
      (freshSrc_env0 _ (by decide)) (by decide) (ok_state_of 9 _ (by decide))
      (ok_state_of 9 _ (by decide)) (by decide) (by decide) ⟨2000, by decide, by decide⟩⟩

/-- C10 (doubly-linked free-list invariant, `malloc.c`): the predicate `DLL`
(the chain from `free_head` is a finite duplicate-free list, the `prev` of the
head is null, and `a.next = b ≠ null` implies `b.prev = a`) holds after
`my_initialize`, and on a well-formed heap (where `DLL` holds and the blocks do
not overlap) it holds again after `my_add_to_free_list` of an unlinked block,
after `my_remove_from_free_list` of a member, after `my_coalesce` of a detached
block, after `my_malloc` of a valid size and after `my_free` of an allocated
block; each of these operations returns. -/
theorem C10_dll_invariant :
    (∀ (dummy : Nat) (h0 : Heap), dummy ≠ 0 → DLL ( my_initialize dummy h0) [dummy]) ∧
    (∀ (h : Heap) (frees others : List Nat), WF h frees others → DLL h frees) ∧
    (∀ (h : Heap) (frees others : List Nat) (b : Nat), WF h frees (b :: others) → b ≠ 0 →
      h.mem (b + 8) = 0 → h.mem (b + 16) = 0 →
      ∃ h1, my_add_to_free_list h b = .ok h1 ∧ DLL h1 (b :: frees)) ∧
    (∀ (h : Heap) (frees others : List Nat) (b : Nat), WF h frees others → b ∈ frees →
      DLL (my_remove_from_free_list h b) (frees.erase b)) ∧
    (∀ (h : Heap) (frees others : List Nat) (b fuel : Nat), WF h frees (b :: others) →
      b ≠ 0 → frees.length < fuel →
      ∃ h1 L, my_coalesce fuel h b = .ok h1 ∧ DLL h1 L) ∧
    (∀ (env : Env) (h : Heap) (frees others : List Nat) (size fuel : Nat),
      WF h frees others →
      FreshPage h (frees ++ others) (env.mmap_from_system h.mmap_calls) →
      8 ≤ size ∧ size ≤ 4000 ∧ size % 8 = 0 → frees.length + 1 < fuel →
      ∃ p h1 L, my_malloc env 2 fuel h size = .ok (p, h1) ∧ DLL h1 L) ∧
    (∀ (h : Heap) (frees others : List Nat) (b fuel : Nat), WF h frees others →
      b ∈ others → b ≠ 0 → frees.length < fuel →
      ∃ h1 L, my_free fuel h (b + sizeof_my_metadata_t) = .ok h1 ∧ DLL h1 L) := by
  refine ⟨?_, ?_, ?_, ?_, ?_, ?_, ?_⟩
  · intro dummy h0 hd
    have e8 : ( my_initialize dummy h0).mem (dummy + 8) = 0 := by
      show store _ _ _ _ = 0
      rw [store_other _ _ _ _ (by omega), store_same]
    have e16 : ( my_initialize dummy h0).mem (dummy + 16) = 0 := by
      show store _ _ _ _ = 0
      rw [store_same]
    refine ⟨⟨rfl, hd, e8⟩, by simp, fun _ => e16, ?_⟩
    intro a ha hne
    simp only [List.mem_singleton] at ha
    subst ha
    exact absurd e8 hne
  · intro h frees others hwf
    exact hwf.dll
  · intro h frees others b hwf hb0 h8 h16
    obtain ⟨h1, hres, hwf1, _⟩ := add_spec hwf hb0 h8 h16
    exact ⟨h1, hres, hwf1.dll⟩
  · intro h frees others b hwf hb
    exact (remove_spec hwf hb).1.dll
  · intro h frees others b fuel hwf hb0 hf
    obtain ⟨h1, frees1, hres, hwf1, _⟩ := coalesce_sum hwf hb0 hf
    exact ⟨h1, _, hres, hwf1.dll⟩
  · intro env h frees others size fuel hwf hfresh hsz hf
    obtain ⟨b, h1, frees1, hres, hwf1, _⟩ :=
      malloc_sum hwf hfresh (by omega : size ≤ 4072) hf 0
    exact ⟨_, h1, frees1, hres, hwf1.dll⟩
  · intro h frees others b fuel hwf hb hb0 hf
    obtain ⟨h1, frees1, hres, hwf1, _⟩ := free_sum hwf hb hb0 hf
    exact ⟨h1, _, hres, hwf1.dll⟩

end Malloc

/-! ## The claims about `malloc_update.c` -/

namespace MallocUpdate

open Malloc (Err store SIZE_MOD coalesce_scan best_fit_scan Seg)

/-- C8 (retry after page acquisition, `malloc_update.c`), evaluated on the
code: right after `my_initialize`, with the page source of `env0`,
`my_malloc` of a valid size of at most 1000 bytes does not return, whatever
the recursion depth and the fuel of the loops: the page of every retry goes to
the large list and the small list is searched again. -/
theorem C8_small_request_never_returns (depth fuel size : Nat)
    (hsz : 8 ≤ size ∧ size ≤ 1000 ∧ size % 8 = 0) :
    my_malloc env0 depth fuel ( my_initialize env0 zero_heap) size = .error .fuel :=
  malloc_only_pages fuel size (by omega) hsz.2.1 depth 0 _ (by unfold OnlyPages; decide)

/-- Witness for C8: a request of 8 bytes with a budget of 50 activations; the
first retry already searches a small list without a fitting block. -/
theorem C8_small_request_never_returns_witness :
    my_malloc env0 50 60 ( my_initialize env0 zero_heap) 8 = .error .fuel ∧
    (heap_or_zero (my_malloc_grow env0 60 ( my_initialize env0 zero_heap))).free_head_large
      = 4096 ∧
    best_fit_scan 60
      (heap_or_zero (my_malloc_grow env0 60 ( my_initialize env0 zero_heap))).mem 8
      (list_for (heap_or_zero (my_malloc_grow env0 60 ( my_initialize env0 zero_heap))) 8) 0
      = .ok 0 :=
  ⟨C8_small_request_never_returns 50 60 8 (by decide), by decide, by rfl⟩

/-- C9 (segregated routing, `malloc_update.c`): in every heap state, when
`my_malloc size` returns `p`, the block `b = p - sizeof(my_metadata_t)` was
found by the best-fit search in a heap `h0` (the given heap after zero or more
page registrations), in the list headed by `free_head_large` when
`size > 1000` and in the list headed by `free_head_small` when `size ≤ 1000`;
in the latter case `b` is no node of the large list as long as the two lists
share no node.  A page that `my_malloc` registers becomes the head of the large
list (the links of the block right behind the page, which may be absorbed, are
taken not to point into the page). -/
theorem C9_segregated_routing (env : Env) (depth fuel size p : Nat) (h h1 : Heap)
    (hres : my_malloc env depth fuel h size = .ok (p, h1)) :
    (∃ h0 b, GrowsTo env fuel size h h0 ∧
      best_fit_scan fuel h0.mem size (list_for h0 size) 0 = .ok b ∧ b ≠ 0 ∧
      p = b + sizeof_my_metadata_t ∧ size ≤ h0.mem b ∧
      my_malloc_take fuel h0 b size = .ok (p, h1) ∧
      (size > 1000 → Reach h0.mem h0.free_head_large b) ∧
      (size ≤ 1000 → Reach h0.mem h0.free_head_small b ∧
        ∀ L, Seg h0.mem h0.free_head_large L 0 →
          (∀ x ∈ L, ¬ Reach h0.mem h0.free_head_small x) → b ∉ L)) ∧
    (∀ hA hB, my_malloc_grow env fuel hA = .ok hB →
      (hA.mem (env.mmap_from_system hA.mmap_calls + 4096 + 8) <
          env.mmap_from_system hA.mmap_calls ∨
        env.mmap_from_system hA.mmap_calls + 4096 ≤
          hA.mem (env.mmap_from_system hA.mmap_calls + 4096 + 8)) →
      (hA.mem (env.mmap_from_system hA.mmap_calls + 4096 + 16) <
          env.mmap_from_system hA.mmap_calls ∨
        env.mmap_from_system hA.mmap_calls + 4096 ≤
          hA.mem (env.mmap_from_system hA.mmap_calls + 4096 + 16)) →
      hB.free_head_large = env.mmap_from_system hA.mmap_calls) := by
  obtain ⟨h0, b, hg, hscan, hb, htake, hp, hreach, hfit⟩ :=
    malloc_source env fuel size depth h h1 p hres
  refine ⟨⟨h0, b, hg, hscan, hb, hp, hfit, htake, ?_, ?_⟩, ?_⟩
  · intro hs
    have : list_for h0 size = h0.free_head_large := by unfold list_for; rw [if_pos hs]
    rw [← this]
    exact hreach
  · intro hs
    have : list_for h0 size = h0.free_head_small := by
      unfold list_for; rw [if_neg (by omega)]
    rw [this] at hreach
    exact ⟨hreach, fun L _ hdis hm => hdis b hm hreach⟩
  · intro hA hB hgrow hn hpv
    exact (grow_large env fuel hA hB hgrow hn hpv).1

/-- Witness for C9: the first request, of 2000 bytes, right after
`my_initialize`: a page is registered in the large list and the block at its
start is returned. -/
theorem C9_segregated_routing_witness :
    result_ptr (my_malloc env0 2 9 ( my_initialize env0 zero_heap) 2000) = some 4128 ∧
    (result_heap (my_malloc env0 2 9 ( my_initialize env0 zero_heap) 2000)).free_head_large
      = 6128 ∧
    ∃ h0 b, GrowsTo env0 9 2000 ( my_initialize env0 zero_heap) h0 ∧
      best_fit_scan 9 h0.mem 2000 (list_for h0 2000) 0 = .ok b ∧ b ≠ 0 ∧
      4128 = b + sizeof_my_metadata_t ∧ Reach h0.mem h0.free_head_large b := by
  refine ⟨by decide, by decide, ?_⟩
  cases hres : my_malloc env0 2 9 ( my_initialize env0 zero_heap) 2000 with
  | error e =>
    have hp : result_ptr (my_malloc env0 2 9 ( my_initialize env0 zero_heap) 2000) ≠ none := by
      decide
    rw [hres] at hp
    exact absurd rfl hp
  | ok r =>
    have hp : result_ptr (my_malloc env0 2 9 ( my_initialize env0 zero_heap) 2000) =
        some 4128 := by decide
    rw [hres] at hp
    have hr : r = (4128, r.2) := by
      cases r with
      | mk p hh =>
        simp only [result_ptr, Option.some.injEq] at hp
        rw [hp]
    rw [hr] at hres
    obtain ⟨⟨h0, b, w1, w2, w3, w4, _, _, w7, _⟩, _⟩ :=
      C9_segregated_routing env0 2 9 2000 4128 _ r.2 hres
    exact ⟨h0, b, w1, w2, w3, w4, w7 (by decide)⟩

end MallocUpdate

/-! ## Further claims about `malloc.c` -/

namespace Malloc

open Op

/-- C15 (split arithmetic, `malloc.c`): when the best-fit search selects the
free block `b` and `remaining = b.size - size` is larger than
`sizeof(my_metadata_t)`, `my_malloc` returns `p = b + sizeof(my_metadata_t)`.
The heap `hs` that it hands to `my_coalesce` has `b.size = size` and a new
header at `p + size` with size `remaining - sizeof(my_metadata_t)` and null
links, so `b.size + sizeof(my_metadata_t) + remainder.size` is the old size of
`b`; after the call the allocated block still has size `size`. -/
theorem C15_split_arithmetic (env : Env) (h : Heap) (frees others : List Nat)
    (size fuel d b : Nat) (hwf : WF h frees others) (hf : frees.length < fuel)
    (hsel : best_fit_scan fuel h.mem size h.free_head 0 = .ok b) (hb0 : b ≠ 0)
    (hrem : sizeof_my_metadata_t < h.mem b - size) :
    ∃ hs h1, my_malloc env (d + 1) fuel h size = .ok (b + sizeof_my_metadata_t, h1) ∧
      my_coalesce fuel hs (b + sizeof_my_metadata_t + size) = .ok h1 ∧
      hs.mem b = size ∧
      hs.mem (b + sizeof_my_metadata_t + size) = h.mem b - size - sizeof_my_metadata_t ∧
      hs.mem (b + sizeof_my_metadata_t + size + 8) = 0 ∧
      hs.mem (b + sizeof_my_metadata_t + size + 16) = 0 ∧
      hs.mem b + sizeof_my_metadata_t + hs.mem (b + sizeof_my_metadata_t + size) = h.mem b ∧
      h1.mem b = size := by
  simp only [sizeof_my_metadata_t] at hrem ⊢
  have hscan := best_fit_scan_eq size frees h.free_head 0 fuel hwf.chain hf
  have hb : b = bestOf h.mem size frees 0 := by
    rw [hscan] at hsel
    injection hsel with e
    exact e.symm
  have hbne : bestOf h.mem size frees 0 ≠ 0 := hb ▸ hb0
  obtain ⟨hbm, hbs, _, _⟩ := bestOf_ne_zero hwf.mem_ne_zero hbne
  rw [← hb] at hbm hbs
  have hbb := hwf.bound b (List.mem_append_left _ hbm)
  obtain ⟨hrwf, _, _, _, hrsz, _, _⟩ := remove_spec hwf hbm
  set r := my_remove_from_free_list h b with hrdef
  have hrb : r.mem b = h.mem b := hrsz b (List.mem_append_left _ hbm)
  obtain ⟨hswf, hsb, hsn, _, _, _⟩ :=
    @WF.split r _ _ b size hrwf (by rw [hrb]; exact hrem)
  have hlen : (frees.erase b).length < fuel := by
    rw [List.length_erase_of_mem hbm]
    omega
  obtain ⟨h1, hco, _, _, hcoth, _, _⟩ := coalesce_spec (f := fuel) hswf (by omega) hlen
  dsimp only at hcoth
  have hrem1 : (h.mem b + SIZE_MOD - size) % SIZE_MOD = h.mem b - size := by
    unfold SIZE_MOD at hbb ⊢
    omega
  have hrem2 : (h.mem b - size + SIZE_MOD - 24) % SIZE_MOD = r.mem b - size - 24 := by
    rw [hrb]
    unfold SIZE_MOD at hbb ⊢
    omega
  refine ⟨{ r with mem := split_mem r.mem b size }, h1, ?_, hco, hsb, hsn.trans (by rw [hrb]),
    ?_, ?_, ?_, ?_⟩
  · rw [my_malloc, hsel]
    simp only [hb0, if_false]
    unfold my_malloc_take
    simp only [sizeof_my_metadata_t, hrem1, hrem, gt_iff_lt, if_true, ← hrdef, hrem2]
    have : (store (store (store (store r.mem b size) (b + 24 + size) (r.mem b - size - 24))
        (b + 24 + size + 8) 0) (b + 24 + size + 16) 0) = split_mem r.mem b size := rfl
    rw [this, hco]
  · show split_mem _ _ _ _ = 0
    unfold split_mem
    rw [store_other _ _ _ _ (by omega), store_same]
  · show split_mem _ _ _ _ = 0
    unfold split_mem
    rw [store_same]
  · show split_mem _ _ _ b + 24 + split_mem _ _ _ (b + 24 + size) = _
    rw [hsb, hsn, hrb]
    omega
  · rw [(hcoth b (List.mem_cons_self _ _)).1]
    exact hsb

/-- Witness for C15: the first request after a page was registered splits the
page block of 4072 bytes. -/
theorem C15_split_arithmetic_witness :
    WF (heap_of (run env0 9 (init_state env0 zero_heap) [malloc 8, free 4120]))
      [4096, 64] [] ∧
    ∃ hs h1, my_malloc env0 (0 + 1) 9
        (heap_of (run env0 9 (init_state env0 zero_heap) [malloc 8, free 4120])) 1000 =
        .ok (4096 + sizeof_my_metadata_t, h1) ∧
      my_coalesce 9 hs (4096 + sizeof_my_metadata_t + 1000) = .ok h1 ∧
      hs.mem 4096 = 1000 ∧
      hs.mem (4096 + sizeof_my_metadata_t + 1000) = 4072 - 1000 - sizeof_my_metadata_t ∧
      h1.mem 4096 = 1000 :=
  ⟨by decide, by
    obtain ⟨hs, h1, w1, w2, w3, w4, _, _, _, w8⟩ :=
      C15_split_arithmetic env0
        (heap_of (run env0 9 (init_state env0 zero_heap) [malloc 8, free 4120]))
        [4096, 64] [] 1000 9 0 4096 (by decide) (by decide) (by rfl) (by decide) (by decide)
    exact ⟨hs, h1, w1, w2, w3, w4, w8⟩⟩

/-- C16 (postcondition of `my_coalesce` and `my_free`, `malloc.c`): on a
well-formed heap with free list `frees` and a block `b` outside it, whatever
`b.next` and `b.prev` hold, let `n = b + b.size + sizeof(my_metadata_t)`.  If
`n` is in the free list, `my_coalesce(b)` leaves the list `b` followed by
`frees` with `n` deleted (the others in their old order) and
`b.size = old b.size + n.size + sizeof(my_metadata_t)`; otherwise it leaves
`b` followed by `frees` and `b.size` unchanged.  `my_free(b + sizeof(my_metadata_t))`
has the same effect. -/
theorem C16_coalesce_post (h : Heap) (frees others : List Nat) (b fuel : Nat)
    (hwf : WF h frees (b :: others)) (hb0 : b ≠ 0) (hf : frees.length < fuel) :
    (∀ l1 l2, frees = l1 ++ (b + h.mem b + sizeof_my_metadata_t) :: l2 →
      frees.erase (b + h.mem b + sizeof_my_metadata_t) = l1 ++ l2) ∧
    (∃ h', my_coalesce fuel h b = .ok h' ∧
      (b + h.mem b + sizeof_my_metadata_t ∈ frees →
        DLL h' (b :: frees.erase (b + h.mem b + sizeof_my_metadata_t)) ∧
        h'.mem b = h.mem b + h.mem (b + h.mem b + sizeof_my_metadata_t) +
          sizeof_my_metadata_t) ∧
      (b + h.mem b + sizeof_my_metadata_t ∉ frees →
        DLL h' (b :: frees) ∧ h'.mem b = h.mem b)) ∧
    (∃ h', my_free fuel h (b + sizeof_my_metadata_t) = .ok h' ∧
      (b + h.mem b + sizeof_my_metadata_t ∈ frees →
        DLL h' (b :: frees.erase (b + h.mem b + sizeof_my_metadata_t)) ∧
        h'.mem b = h.mem b + h.mem (b + h.mem b + sizeof_my_metadata_t) +
          sizeof_my_metadata_t) ∧
      (b + h.mem b + sizeof_my_metadata_t ∉ frees →
        DLL h' (b :: frees) ∧ h'.mem b = h.mem b)) := by
  simp only [sizeof_my_metadata_t]
  refine ⟨?_, ?_, ?_⟩
  · intro l1 l2 hl
    have hnd : frees.Nodup := (List.nodup_append.mp hwf.nodup).1
    rw [hl] at hnd ⊢
    have hbl1 : b + h.mem b + 24 ∉ l1 := fun hm =>
      (List.nodup_append.mp hnd).2.2 hm (List.mem_cons_self _ _)
    rw [List.erase_append_right _ hbl1, List.erase_cons_head]
  · obtain ⟨h', hco, _, _, _, hyes, hno⟩ := coalesce_spec (f := fuel) hwf hb0 hf
    exact ⟨h', hco, fun hm => ⟨(hyes hm).1.dll, (hyes hm).2.1⟩,
      fun hm => ⟨(hno hm).1.dll, (hno hm).2.1⟩⟩
  · obtain ⟨h', hfr, _, _, _, hyes, hno⟩ :=
      free_spec (f := fuel) hwf (List.mem_cons_self _ _) hb0 hf
    rw [List.erase_cons_head] at hyes hno
    exact ⟨h', hfr, fun hm => ⟨(hyes hm).1.dll, (hyes hm).2.1⟩,
      fun hm => ⟨(hno hm).1.dll, (hno hm).2.1⟩⟩

/-- Witness for C16: after one `my_malloc(8)` the live block 4096 is followed
by the free block 4128, which `my_free` absorbs. -/
theorem C16_coalesce_post_witness :
    WF (heap_of (run env0 9 (init_state env0 zero_heap) [malloc 8])) [4128, 64] [4096] ∧
    ∃ h', my_free 9 (heap_of (run env0 9 (init_state env0 zero_heap) [malloc 8]))
        (4096 + sizeof_my_metadata_t) = .ok h' ∧
      DLL h' [4096, 64] ∧ h'.mem 4096 = 8 + 4040 + sizeof_my_metadata_t :=
  ⟨by decide, by
    obtain ⟨_, _, h', w1, w2, _⟩ :=
      C16_coalesce_post (heap_of (run env0 9 (init_state env0 zero_heap) [malloc 8]))
        [4128, 64] [] 4096 9 (by decide) (by decide) (by decide)
    exact ⟨h', w1, w2 (by decide)⟩⟩

/-- C17 (postcondition of `my_remove_from_free_list`, `malloc.c`): on a
well-formed heap with free list `frees`, removing a member `b` (head, interior
or tail) leaves the list `frees` with `b` deleted and the other nodes in their
old order, still doubly linked; `b.next` and `b.prev` are null; and the size
field of every block, `b` included, is unchanged. -/
theorem C17_remove_post (h : Heap) (frees others : List Nat) (b : Nat)
    (hwf : WF h frees others) (hb : b ∈ frees) :
    Seg (my_remove_from_free_list h b).mem (my_remove_from_free_list h b).free_head
      (frees.erase b) 0 ∧
    DLL (my_remove_from_free_list h b) (frees.erase b) ∧
    (my_remove_from_free_list h b).mem (b + 8) = 0 ∧
    (my_remove_from_free_list h b).mem (b + 16) = 0 ∧
    (∀ a ∈ frees ++ others, (my_remove_from_free_list h b).mem a = h.mem a) ∧
    (∀ l1 l2, frees = l1 ++ b :: l2 → frees.erase b = l1 ++ l2) := by
  obtain ⟨hrwf, h8, h16, _, hsz, _, _⟩ := remove_spec hwf hb
  refine ⟨hrwf.chain, hrwf.dll, h8, h16, hsz, ?_⟩
  intro l1 l2 hl
  have hnd : frees.Nodup := (List.nodup_append.mp hwf.nodup).1
  rw [hl] at hnd ⊢
  have hbl1 : b ∉ l1 := fun hm =>
    (List.nodup_append.mp hnd).2.2 hm (List.mem_cons_self _ _)
  rw [List.erase_append_right _ hbl1, List.erase_cons_head]

/-- Witness for C17: removing the interior node 4096 of the free list
`[4128, 4096, 64]`. -/
theorem C17_remove_post_witness :
    WF (heap_of (run env0 9 (init_state env0 zero_heap)
      [malloc 8, malloc 8, free 4120, free 4152])) [4128, 4096, 64] [] ∧
    free_blocks (my_remove_from_free_list (heap_of (run env0 9 (init_state env0 zero_heap)
      [malloc 8, malloc 8, free 4120, free 4152])) 4096).mem 9
      (my_remove_from_free_list (heap_of (run env0 9 (init_state env0 zero_heap)
      [malloc 8, malloc 8, free 4120, free 4152])) 4096).free_head =
      [(4128, 4040), (64, 0)] ∧
    Seg (my_remove_from_free_list (heap_of (run env0 9 (init_state env0 zero_heap)
      [malloc 8, malloc 8, free 4120, free 4152])) 4096).mem
      (my_remove_from_free_list (heap_of (run env0 9 (init_state env0 zero_heap)
      [malloc 8, malloc 8, free 4120, free 4152])) 4096).free_head
      ([4128, 4096, 64].erase 4096) 0 :=
  ⟨by decide, by decide,
    (C17_remove_post _ [4128, 4096, 64] [] 4096 (by decide) (by decide)).1⟩

/-- C20 (allocate, then free at once, `malloc.c`): on a well-formed heap whose
next page is fresh, `my_malloc(size)` returns `p` and the immediate
`my_free(p)` leaves the block `b = p - sizeof(my_metadata_t)` at the head of
the free list.  When the best-fit search selected a free block `B` of size `S`
at once, `b = B`, no page is acquired and `b.size >= S` afterwards; when
`my_malloc` split `B`, the `my_free` absorbs the block at `p + size` that the
split created, which is at least as large as the split remainder.  When the
search found nothing, the same holds for the block selected after the page was
registered. -/
theorem C20_malloc_free (env : Env) (h : Heap) (frees others : List Nat) (size fuel d : Nat)
    (hwf : WF h frees others)
    (hfresh : FreshPage h (frees ++ others) (env.mmap_from_system h.mmap_calls))
    (hsize : size ≤ 4072) (hf : frees.length + 2 < fuel) :
    ∃ b h1 h2, my_malloc env (d + 2) fuel h size = .ok (b + sizeof_my_metadata_t, h1) ∧
      my_free fuel h1 (b + sizeof_my_metadata_t) = .ok h2 ∧ h2.free_head = b ∧
      size ≤ h2.mem b ∧
      (∀ B, B ≠ 0 → best_fit_scan fuel h.mem size h.free_head 0 = .ok B →
        b = B ∧ h2.mmap_calls = h.mmap_calls ∧ h.mem B ≤ h2.mem b ∧
        (sizeof_my_metadata_t < h.mem B - size →
          h1.mem b = size ∧ h1.free_head = b + sizeof_my_metadata_t + size ∧
          h.mem B - size - sizeof_my_metadata_t ≤ h1.mem (b + sizeof_my_metadata_t + size) ∧
          h2.mem b = size + sizeof_my_metadata_t +
            h1.mem (b + sizeof_my_metadata_t + size))) ∧
      (best_fit_scan fuel h.mem size h.free_head 0 = .ok 0 →
        ∃ h0, my_malloc_grow env fuel h = .ok h0 ∧
          best_fit_scan fuel h0.mem size h0.free_head 0 = .ok b ∧
          h2.mmap_calls = h.mmap_calls + 1 ∧ h0.mem b ≤ h2.mem b) := by
  simp only [sizeof_my_metadata_t]
  rcases malloc_eq (f := fuel) hwf hfresh hsize (by omega) d with
    ⟨hne, hscan, hm⟩ | ⟨he, hscan, h0, frees0, hgrow, hwf0, hc0, _, _, hlen0, hne0, hscan0, hm⟩
  · obtain ⟨hbm, hbs, _, _⟩ := bestOf_ne_zero hwf.mem_ne_zero hne
    obtain ⟨h1, h2, htake, hfr, hhead, hge, _, hc2, hsp⟩ :=
      take_free (f := fuel) hwf hbm hbs (by omega)
    have hm2 : my_malloc env (d + 2) fuel h size =
        my_malloc_take fuel h (bestOf h.mem size frees 0) size := by
      rw [my_malloc, hscan]
      simp only [hne, if_false]
    refine ⟨_, h1, h2, by rw [hm2]; exact htake, hfr, hhead, le_trans hbs hge, ?_, ?_⟩
    · intro B _ hB
      rw [hscan] at hB
      injection hB with hB
      subst hB
      exact ⟨rfl, hc2, hge, hsp⟩
    · intro h0
      rw [hscan] at h0
      injection h0 with h0
      exact absurd h0 hne
  · obtain ⟨hbm, hbs, _, _⟩ := bestOf_ne_zero hwf0.mem_ne_zero hne0
    obtain ⟨h1, h2, htake, hfr, hhead, hge, _, hc2, _⟩ :=
      take_free (f := fuel) hwf0 hbm hbs (by simp only [List.length_cons]; omega)
    refine ⟨_, h1, h2, by rw [hm]; exact htake, hfr, hhead, le_trans hbs hge, ?_, ?_⟩
    · intro B hB0 hB
      rw [hscan] at hB
      injection hB with hB
      exact absurd hB.symm hB0
    · intro _
      exact ⟨h0, hgrow, hscan0, by rw [hc2, hc0], hge⟩

/-- Witness for C20: a request of 1000 bytes splits the page block of 4072
bytes, and the immediate `my_free` restores it. -/
theorem C20_malloc_free_witness :
    WF (heap_of (run env0 9 (init_state env0 zero_heap) [malloc 8, free 4120]))
      [4096, 64] [] ∧
    ∃ b h1 h2, my_malloc env0 (0 + 2) 9
        (heap_of (run env0 9 (init_state env0 zero_heap) [malloc 8, free 4120])) 1000 =
        .ok (b + sizeof_my_metadata_t, h1) ∧
      my_free 9 h1 (b + sizeof_my_metadata_t) = .ok h2 ∧ h2.free_head = b ∧
      1000 ≤ h2.mem b :=
  ⟨by decide, by
    obtain ⟨b, h1, h2, w1, w2, w3, w4, _⟩ :=
      C20_malloc_free env0
        (heap_of (run env0 9 (init_state env0 zero_heap) [malloc 8, free 4120]))
        [4096, 64] [] 1000 9 0 (by decide) (by decide) (by decide) (by decide)
    exact ⟨b, h1, h2, w1, w2, w3, w4⟩⟩

/-- Counterexample to C18 as stated, with the page source of `env1` (pages
65536, then 61440, pairwise disjoint).  After `malloc 8`, `malloc 4000`,
`free 65560` the free list holds the block 65536 of size 8, the first block of
page 65536.  The next `malloc 4000` finds no fit and acquires page 61440,
which ends exactly at 65536: `my_coalesce` on the new page block finds the
free block 65536, removes it from the list, and the page block is inserted
with size 4072 + 8 + 24 = 4104, not 4072. -/
theorem C18_counterexample :
    FreshSrc env1 2 ∧
    observe 9 (run env1 9 (init_state env1 zero_heap) [malloc 8, malloc 4000, free 65560]) =
      some ([(65536, 8), (69592, 16), (64, 0)], [(65592, 4000)], 1) ∧
    best_fit_scan 9
      (heap_of (run env1 9 (init_state env1 zero_heap)
        [malloc 8, malloc 4000, free 65560])).mem 4000
      (heap_of (run env1 9 (init_state env1 zero_heap)
        [malloc 8, malloc 4000, free 65560])).free_head 0 = .ok 0 ∧
    env1.mmap_from_system 1 = 61440 ∧
    free_blocks
      (ok_heap (my_malloc_grow env1 9 (heap_of (run env1 9 (init_state env1 zero_heap)
        [malloc 8, malloc 4000, free 65560])))).mem 9
      (ok_heap (my_malloc_grow env1 9 (heap_of (run env1 9 (init_state env1 zero_heap)
        [malloc 8, malloc 4000, free 65560])))).free_head =
      [(61440, 4104), (69592, 16), (64, 0)] ∧
    4104 ≠ 4096 - sizeof_my_metadata_t := by
  refine ⟨?_, by decide, by rfl, by decide, by decide, by decide⟩
  unfold FreshSrc
  decide

/-- C18 as amended (registering a fresh page, `malloc.c`): in every state
reached from `my_initialize` by a run of valid requests, with a fresh page
source, the `my_coalesce` call that `my_malloc` makes on the new page block at
`pg` merges exactly when the block at `pg + 4096` is in the free list `frees`.
Then that block is removed from the list and the page block is inserted with
size `4096 - sizeof(my_metadata_t) + its size + sizeof(my_metadata_t)`, and
this happens only when the page ends exactly where `my_heap.dummy` or an
earlier page begins; otherwise the page block is inserted with size
`4096 - sizeof(my_metadata_t)` and the old list follows it unchanged. -/
theorem C18_page_merge (env : Env) (h0 : Heap) (ops : List Op) (st : State) (fuel : Nat)
    (hsrc : FreshSrc env (h0.mmap_calls + ops.length + 1)) (hf : ops.length + 2 < fuel)
    (hrun : run env fuel (init_state env h0) ops = .ok st) :
    ∃ frees h', Seg st.heap.mem st.heap.free_head frees 0 ∧
      my_malloc_grow env fuel st.heap = .ok h' ∧
      h'.free_head = env.mmap_from_system st.heap.mmap_calls ∧
      (env.mmap_from_system st.heap.mmap_calls + 4096 ∈ frees →
        DLL h' (env.mmap_from_system st.heap.mmap_calls ::
          frees.erase (env.mmap_from_system st.heap.mmap_calls + 4096)) ∧
        h'.mem (env.mmap_from_system st.heap.mmap_calls) =
          4096 - sizeof_my_metadata_t +
            st.heap.mem (env.mmap_from_system st.heap.mmap_calls + 4096) +
            sizeof_my_metadata_t ∧
        (env.mmap_from_system st.heap.mmap_calls + 4096 = env.dummy ∨
          ∃ j, j < st.heap.mmap_calls ∧
            env.mmap_from_system st.heap.mmap_calls + 4096 = env.mmap_from_system j)) ∧
      (env.mmap_from_system st.heap.mmap_calls + 4096 ∉ frees →
        DLL h' (env.mmap_from_system st.heap.mmap_calls :: frees) ∧
        h'.mem (env.mmap_from_system st.heap.mmap_calls) = 4096 - sizeof_my_metadata_t ∧
        ∀ a ∈ frees, h'.mem a = st.heap.mem a) := by
  simp only [sizeof_my_metadata_t]
  have hinit : Inv env (init_state env h0) [env.dummy] := inv_init hsrc h0
  have hc0 : (init_state env h0).heap.mmap_calls = h0.mmap_calls := rfl
  rcases inv_run (f := fuel) hsrc ops (init_state env h0) [env.dummy] hinit
      (by simp only [List.length_cons, List.length_nil]; omega) (by rw [hc0]; omega) with
    he | ⟨st', frees, hr, hinv, hlen, hcalls⟩
  · rw [he] at hrun
    cases hrun
  rw [hr] at hrun
  injection hrun with hrun
  subst hrun
  simp only [List.length_cons, List.length_nil] at hlen
  rw [hc0] at hcalls
  have hk : st'.heap.mmap_calls < h0.mmap_calls + ops.length + 1 := by omega
  obtain ⟨h', hg, _, hhead, _, hyes, hno⟩ :=
    grow_spec (f := fuel) hinv.wf (hinv.fresh hsrc hk) (by omega)
  refine ⟨frees, h', hinv.wf.chain, hg, hhead, ?_, ?_⟩
  · intro hm
    obtain ⟨hwf', hsz, _⟩ := hyes hm
    refine ⟨hwf'.dll, hsz, ?_⟩
    have hcov : Covers st'.heap.mem (frees ++ st'.live.map (fun pl => pl.1 - 24))
        (env.mmap_from_system st'.heap.mmap_calls + 4096) :=
      ⟨_, List.mem_append_left _ hm, le_refl _, by omega⟩
    obtain ⟨_, _, hpages⟩ := hsrc
    obtain ⟨_, _, hd, hj⟩ := hpages _ hk
    rcases hinv.owned _ hcov with ⟨h1, h2⟩ | ⟨j, hjk, h1, h2⟩
    · left
      omega
    · right
      have := hj j hjk
      exact ⟨j, hjk, by omega⟩
  · intro hm
    obtain ⟨hwf', hsz, hrest⟩ := hno hm
    exact ⟨hwf'.dll, hsz, hrest⟩

/-- Witness for C18 as amended: the run of the counterexample, after which the
page 61440 ends at the free block 65536. -/
theorem C18_page_merge_witness :
    FreshSrc env1 (zero_heap.mmap_calls + 3 + 1) ∧
    ∃ frees h', Seg (state_of (run env1 9 (init_state env1 zero_heap)
        [malloc 8, malloc 4000, free 65560])).heap.mem
        (state_of (run env1 9 (init_state env1 zero_heap)
        [malloc 8, malloc 4000, free 65560])).heap.free_head frees 0 ∧
      my_malloc_grow env1 9 (state_of (run env1 9 (init_state env1 zero_heap)
        [malloc 8, malloc 4000, free 65560])).heap = .ok h' ∧
      h'.free_head = env1.mmap_from_system 1 :=
  ⟨by unfold FreshSrc; decide, by
    obtain ⟨frees, h', w1, w2, w3, _⟩ :=
      C18_page_merge env1 zero_heap [malloc 8, malloc 4000, free 65560]
        (state_of (run env1 9 (init_state env1 zero_heap)
          [malloc 8, malloc 4000, free 65560])) 9
        (by unfold FreshSrc; decide) (by decide) (ok_state_of 9 _ (by decide))
    exact ⟨frees, h', w1, w2, w3⟩⟩

/-- Counterexample to C11 as stated: after `my_initialize` and one
`my_malloc(8)`, which satisfies the contract, the free list is the split
remainder 4128 followed by the sentinel at 64, and the sentinel's `prev` is
4128, not null (`my_add_to_free_list` stored it when it put 4128 in front of
the sentinel). -/
theorem C11_counterexample :
    observe 9 (run env0 9 (init_state env0 zero_heap) [malloc 8]) =
      some ([(4128, 4040), (64, 0)], [(4120, 8)], 1) ∧
    env0.dummy = 64 ∧
    (heap_of (run env0 9 (init_state env0 zero_heap) [malloc 8])).mem (env0.dummy + 16) =
      4128 ∧
    (heap_of (run env0 9 (init_state env0 zero_heap) [malloc 8])).mem (env0.dummy + 16) ≠ 0 := by
  decide

/-- C11 as amended (links of the sentinel, `malloc.c`): in every state reached
from `my_initialize` by a run of valid requests, with a fresh page source, the
sentinel `my_heap.dummy` is the last node of the free list (it is never
unlinked) and its `next` is null; the `prev` of the head of the list is null;
the sentinel's `prev` is null exactly when the sentinel is the head, that is
when no other block is free; otherwise the sentinel's `prev` is the node
before it, which is not null and whose `next` is the sentinel. -/
theorem C11_sentinel_links (env : Env) (h0 : Heap) (ops : List Op) (st : State) (fuel : Nat)
    (hsrc : FreshSrc env (h0.mmap_calls + ops.length))
    (hd : DummyApart env (h0.mmap_calls + ops.length)) (hf : ops.length + 2 < fuel)
    (hrun : run env fuel (init_state env h0) ops = .ok st) :
    ∃ L, Seg st.heap.mem st.heap.free_head (L ++ [env.dummy]) 0 ∧
      st.heap.mem (env.dummy + 8) = 0 ∧
      st.heap.mem (st.heap.free_head + 16) = 0 ∧
      (st.heap.mem (env.dummy + 16) = 0 ↔ st.heap.free_head = env.dummy) ∧
      (st.heap.free_head = env.dummy ↔ L = []) ∧
      (∀ L' a, L = L' ++ [a] →
        st.heap.mem (env.dummy + 16) = a ∧ a ≠ 0 ∧ st.heap.mem (a + 8) = env.dummy) := by
  obtain ⟨frees, hinv, _, hc⟩ := run_init_ext hsrc hf hrun
  obtain ⟨L, rfl⟩ := (hc hd).last
  have hwf := hinv.wf
  obtain ⟨hnil, hcons⟩ := last_links L _ 0 hwf.chain hwf.prev
  have hne := hwf.mem_ne_zero
  have hnd : (L ++ [env.dummy]).Nodup := (List.nodup_append.mp hwf.nodup).1
  have hdl : env.dummy ∉ L := fun hm =>
    (List.nodup_append.mp hnd).2.2 hm (List.mem_singleton_self _)
  have hhead : st.heap.free_head = env.dummy ↔ L = [] := by
    constructor
    · intro e
      cases L with
      | nil => rfl
      | cons x xs =>
        obtain ⟨hx, _, _⟩ := hwf.chain
        exact absurd (by rw [← hx, e]; exact List.mem_cons_self _ _) hdl
    · intro e
      exact (hnil e).1
  have hlast : ∀ L' a, L = L' ++ [a] →
      st.heap.mem (env.dummy + 16) = a ∧ a ≠ 0 ∧ st.heap.mem (a + 8) = env.dummy := by
    intro L' a e
    obtain ⟨h1, h2⟩ := hcons L' a e
    exact ⟨h1, hne a (by rw [e]; simp), h2⟩
  refine ⟨L, hwf.chain, ?_, ?_, ?_, hhead, hlast⟩
  · exact (Seg_next_cases L _ hwf.chain).2.1
  · have := hwf.dll.2.2.1
    exact this (hne _ (by
      cases L with
      | nil => obtain ⟨hx, _, _⟩ := hwf.chain; rw [hx]; simp
      | cons x xs => obtain ⟨hx, _, _⟩ := hwf.chain; rw [hx]; simp))
  · constructor
    · intro e
      rcases List.eq_nil_or_concat L with hL | ⟨L', a, hL⟩
      · exact hhead.mpr hL
      · obtain ⟨h1, h2, _⟩ := hlast L' a (by rw [hL, List.concat_eq_append])
        exact absurd (h1 ▸ e) h2
    · intro e
      exact (hnil (hhead.mp e)).2

/-- Witness for C11 as amended: a run after which the free list is
`[4096, 8152, 64]`. -/
theorem C11_sentinel_links_witness :
    FreshSrc env0 (zero_heap.mmap_calls + 3) ∧ DummyApart env0 (zero_heap.mmap_calls + 3) ∧
    ∃ L, Seg (state_of (run env0 9 (init_state env0 zero_heap)
        [malloc 8, malloc 4000, free 4120])).heap.mem
        (state_of (run env0 9 (init_state env0 zero_heap)
        [malloc 8, malloc 4000, free 4120])).heap.free_head (L ++ [env0.dummy]) 0 ∧
      (state_of (run env0 9 (init_state env0 zero_heap)
        [malloc 8, malloc 4000, free 4120])).heap.mem (env0.dummy + 8) = 0 :=
  ⟨freshSrc_env0 _ (by decide), by unfold DummyApart; decide, by
    obtain ⟨L, w1, w2, _⟩ :=
      C11_sentinel_links env0 zero_heap [malloc 8, malloc 4000, free 4120]
        (state_of (run env0 9 (init_state env0 zero_heap)
          [malloc 8, malloc 4000, free 4120])) 9
        (freshSrc_env0 _ (by decide)) (by unfold DummyApart; decide) (by decide)
        (ok_state_of 9 _ (by decide))
    exact ⟨L, w1, w2⟩⟩

/-- C14 (block sizes are multiples of 8): in every state reached from
`my_initialize` by a run of `my_malloc` calls with a size that is a multiple
of 8 in `[8, 4000]`, `my_free` calls on live pointers and stores into live
payloads, with a fresh page source, every block of a free list and every live
allocated block has a size that is a multiple of 8.  This holds for `malloc.c`,
where `sizeof(my_metadata_t)` is 24, and for `malloc_update.c`, where it is 32
(there for the runs in which every call returned). -/
theorem C14_sizes_mult8 (env : Env) (h0 : Heap) (ops : List Op) (st : State) (fuel : Nat)
    (env2 : MallocUpdate.Env) (g0 : MallocUpdate.Heap) (ops2 : List Op)
    (st2 : MallocUpdate.State) (fuel2 : Nat)
    (hsrc : FreshSrc env (h0.mmap_calls + ops.length)) (hf : ops.length + 2 < fuel)
    (hrun : run env fuel (init_state env h0) ops = .ok st)
    (hsrc2 : MallocUpdate.FreshSrc env2 (g0.mmap_calls + ops2.length * fuel2))
    (hrun2 : MallocUpdate.run env2 fuel2 (MallocUpdate.init_state env2 g0) ops2 = .ok st2) :
    (sizeof_my_metadata_t % 8 = 0 ∧
      ∃ frees, Seg st.heap.mem st.heap.free_head frees 0 ∧
        (∀ a ∈ frees, st.heap.mem a % 8 = 0) ∧
        (∀ pl ∈ st.live, st.heap.mem (pl.1 - sizeof_my_metadata_t) % 8 = 0)) ∧
    (MallocUpdate.sizeof_my_metadata_t % 8 = 0 ∧
      ∃ larges smalls, Seg st2.heap.mem st2.heap.free_head_large larges 0 ∧
        Seg st2.heap.mem st2.heap.free_head_small smalls 0 ∧
        (∀ a ∈ larges, st2.heap.mem a % 8 = 0) ∧
        (∀ a ∈ smalls, st2.heap.mem a % 8 = 0) ∧
        (∀ pl ∈ st2.live, st2.heap.mem (pl.1 - MallocUpdate.sizeof_my_metadata_t) % 8 = 0)) := by
  constructor
  · obtain ⟨frees, hinv, h8, _⟩ := run_init_ext hsrc hf hrun
    refine ⟨rfl, frees, hinv.wf.chain, fun a ha => h8 a (List.mem_append_left _ ha), ?_⟩
    intro pl hpl
    exact h8 _ (List.mem_append_right _ (List.mem_map.mpr ⟨pl, hpl, rfl⟩))
  · obtain ⟨A, B, hinv, h8⟩ := MallocUpdate.run_init_mult8 hsrc2 hrun2
    refine ⟨rfl, A, B, hinv.wf.chain, hinv.wf.chain2,
      fun a ha => h8 a (List.mem_append_left _ (List.mem_append_left _ ha)),
      fun a ha => h8 a (List.mem_append_left _ (List.mem_append_right _ ha)), ?_⟩
    intro pl hpl
    exact h8 _ (List.mem_append_right _ (List.mem_map.mpr ⟨pl, hpl, rfl⟩))

/-- Witness for C14: for each file a run with a page block, split remainders
and a merged block. -/
theorem C14_sizes_mult8_witness :
    FreshSrc env0 (zero_heap.mmap_calls + 6) ∧
    observe 9 (run env0 9 (init_state env0 zero_heap)
      [malloc 8, malloc 4000, write 4120 7, malloc 16, free 4120, malloc 24]) =
      some ([(8240, 4024), (4096, 8), (64, 0)],
        [(8216, 24), (8176, 16), (4152, 4000)], 2) ∧
    MallocUpdate.FreshSrc MallocUpdate.env0 (MallocUpdate.zero_heap.mmap_calls + 4 * 9) ∧
    MallocUpdate.observe 9 (MallocUpdate.run MallocUpdate.env0 9
      (MallocUpdate.init_state MallocUpdate.env0 MallocUpdate.zero_heap)
      [malloc 1008, malloc 2000, free 5168, malloc 1040]) =
      some ([(80, 0, 1)], [(6208, 1952, 0), (112, 0, 0)], [(5168, 1040), (4128, 1008)], 1) ∧
    (∃ frees, Seg (state_of (run env0 9 (init_state env0 zero_heap)
        [malloc 8, malloc 4000, write 4120 7, malloc 16, free 4120, malloc 24])).heap.mem
        (state_of (run env0 9 (init_state env0 zero_heap)
        [malloc 8, malloc 4000, write 4120 7, malloc 16, free 4120, malloc 24])).heap.free_head
        frees 0 ∧
      ∀ a ∈ frees, (state_of (run env0 9 (init_state env0 zero_heap)
        [malloc 8, malloc 4000, write 4120 7, malloc 16, free 4120, malloc 24])).heap.mem a
          % 8 = 0) ∧
    (∃ larges smalls, Seg (MallocUpdate.state_of (MallocUpdate.run MallocUpdate.env0 9
        (MallocUpdate.init_state MallocUpdate.env0 MallocUpdate.zero_heap)
        [malloc 1008, malloc 2000, free 5168, malloc 1040])).heap.mem
        (MallocUpdate.state_of (MallocUpdate.run MallocUpdate.env0 9
        (MallocUpdate.init_state MallocUpdate.env0 MallocUpdate.zero_heap)
        [malloc 1008, malloc 2000, free 5168, malloc 1040])).heap.free_head_large larges 0 ∧
      Seg (MallocUpdate.state_of (MallocUpdate.run MallocUpdate.env0 9
        (MallocUpdate.init_state MallocUpdate.env0 MallocUpdate.zero_heap)
        [malloc 1008, malloc 2000, free 5168, malloc 1040])).heap.mem
        (MallocUpdate.state_of (MallocUpdate.run MallocUpdate.env0 9
        (MallocUpdate.init_state MallocUpdate.env0 MallocUpdate.zero_heap)
        [malloc 1008, malloc 2000, free 5168, malloc 1040])).heap.free_head_small smalls 0 ∧
      (∀ a ∈ larges, (MallocUpdate.state_of (MallocUpdate.run MallocUpdate.env0 9
        (MallocUpdate.init_state MallocUpdate.env0 MallocUpdate.zero_heap)
        [malloc 1008, malloc 2000, free 5168, malloc 1040])).heap.mem a % 8 = 0) ∧
      (∀ a ∈ smalls, (MallocUpdate.state_of (MallocUpdate.run MallocUpdate.env0 9
        (MallocUpdate.init_state MallocUpdate.env0 MallocUpdate.zero_heap)
        [malloc 1008, malloc 2000, free 5168, malloc 1040])).heap.mem a % 8 = 0)) := by
  obtain ⟨⟨_, frees, w1, w2, _⟩, _, larges, smalls, v1, v2, v3, v4, _⟩ :=
    C14_sizes_mult8 env0 zero_heap
      [malloc 8, malloc 4000, write 4120 7, malloc 16, free 4120, malloc 24]
      (state_of (run env0 9 (init_state env0 zero_heap)
        [malloc 8, malloc 4000, write 4120 7, malloc 16, free 4120, malloc 24])) 9
      MallocUpdate.env0 MallocUpdate.zero_heap
      [malloc 1008, malloc 2000, free 5168, malloc 1040]
      (MallocUpdate.state_of (MallocUpdate.run MallocUpdate.env0 9
        (MallocUpdate.init_state MallocUpdate.env0 MallocUpdate.zero_heap)
        [malloc 1008, malloc 2000, free 5168, malloc 1040])) 9
      (freshSrc_env0 _ (by decide)) (by decide) (ok_state_of 9 _ (by decide))
      (MallocUpdate.freshSrc2_env0 _ (by decide)) (MallocUpdate.ok_state_of2 9 _ (by decide))
  exact ⟨freshSrc_env0 _ (by decide), by decide, MallocUpdate.freshSrc2_env0 _ (by decide),
    by decide, ⟨frees, w1, w2⟩, ⟨larges, smalls, v1, v2, v3, v4⟩⟩

/-- C19 (heap bytes are conserved, `malloc.c`): in every state reached from
`my_initialize` by a run of valid requests, with a fresh page source of which
no page ends at the address of `my_heap.dummy` (the word before it is
`my_heap.free_head`), the free list is a list `L` of blocks followed by the
sentinel, and the sum of `size + sizeof(my_metadata_t)` over the blocks of `L`
and the live allocated blocks is 4096 times the number of pages acquired
since `my_initialize`. -/
theorem C19_bytes_conserved (env : Env) (h0 : Heap) (ops : List Op) (st : State) (fuel : Nat)
    (hsrc : FreshSrc env (h0.mmap_calls + ops.length))
    (hd : DummyApart env (h0.mmap_calls + ops.length)) (hf : ops.length + 2 < fuel)
    (hrun : run env fuel (init_state env h0) ops = .ok st) :
    ∃ L, Seg st.heap.mem st.heap.free_head (L ++ [env.dummy]) 0 ∧
      ((L ++ st.live.map (fun pl => pl.1 - sizeof_my_metadata_t)).map
        (fun a => st.heap.mem a + sizeof_my_metadata_t)).sum =
        4096 * (st.heap.mmap_calls - h0.mmap_calls) := by
  obtain ⟨frees, hinv, _, hc⟩ := run_init_ext hsrc hf hrun
  have hcv := hc hd
  obtain ⟨L, rfl⟩ := hcv.last
  refine ⟨L, hinv.wf.chain, ?_⟩
  have hs := hcv.sum
  rw [bytes_append, bytes_append, bytes_cons, hcv.dummy0] at hs
  show bytes st.heap.mem (L ++ st.live.map (fun pl => pl.1 - 24)) = _
  rw [bytes_append]
  simp only [bytes, List.map_nil, List.sum_nil] at hs ⊢
  omega

/-- Witness for C19: a run that acquires two pages; the blocks take up 8192
bytes. -/
theorem C19_bytes_conserved_witness :
    FreshSrc env0 (zero_heap.mmap_calls + 6) ∧ DummyApart env0 (zero_heap.mmap_calls + 6) ∧
    observe 9 (run env0 9 (init_state env0 zero_heap)
      [malloc 8, malloc 4000, write 4120 7, malloc 16, free 4120, malloc 24]) =
      some ([(8240, 4024), (4096, 8), (64, 0)],
        [(8216, 24), (8176, 16), (4152, 4000)], 2) ∧
    ∃ L, Seg (state_of (run env0 9 (init_state env0 zero_heap)
        [malloc 8, malloc 4000, write 4120 7, malloc 16, free 4120, malloc 24])).heap.mem
        (state_of (run env0 9 (init_state env0 zero_heap)
        [malloc 8, malloc 4000, write 4120 7, malloc 16, free 4120, malloc 24])).heap.free_head
        (L ++ [env0.dummy]) 0 ∧
      ((L ++ (state_of (run env0 9 (init_state env0 zero_heap)
        [malloc 8, malloc 4000, write 4120 7, malloc 16, free 4120, malloc 24])).live.map
          (fun pl => pl.1 - sizeof_my_metadata_t)).map
        (fun a => (state_of (run env0 9 (init_state env0 zero_heap)
          [malloc 8, malloc 4000, write 4120 7, malloc 16, free 4120, malloc 24])).heap.mem a +
          sizeof_my_metadata_t)).sum =
        4096 * ((state_of (run env0 9 (init_state env0 zero_heap)
          [malloc 8, malloc 4000, write 4120 7, malloc 16, free 4120,
            malloc 24])).heap.mmap_calls - zero_heap.mmap_calls) :=
  ⟨freshSrc_env0 _ (by decide), by unfold DummyApart; decide, by decide,
    C19_bytes_conserved env0 zero_heap
      [malloc 8, malloc 4000, write 4120 7, malloc 16, free 4120, malloc 24]
      (state_of (run env0 9 (init_state env0 zero_heap)
        [malloc 8, malloc 4000, write 4120 7, malloc 16, free 4120, malloc 24])) 9
      (freshSrc_env0 _ (by decide)) (by unfold DummyApart; decide) (by decide)
      (ok_state_of 9 _ (by decide))⟩

end Malloc

/-! ## Further claims about `malloc_update.c` -/

namespace MallocUpdate

open Malloc (Err store SIZE_MOD coalesce_scan best_fit_scan Seg PrevSeg Op free_blocks)
open Malloc.Op

/-- C13 (tag matches list membership, `malloc_update.c`): in every state
reached from `my_initialize` by a run of valid requests that all returned, with
a fresh page source, the nodes reached from `free_head_large` are a list
`larges` whose nodes all have `large` set, the nodes reached from
`free_head_small` are a list `smalls` whose nodes all have `large` clear, and
no node is in both.  `my_remove_from_free_list` on a node of one list leaves
that list without the node and the other list as it was, so it updates the
head of the list that holds the node. -/
theorem C13_tag_matches_list (env : Env) (h0 : Heap) (ops : List Op) (st : State) (fuel : Nat)
    (hsrc : FreshSrc env (h0.mmap_calls + ops.length * fuel))
    (hrun : run env fuel (init_state env h0) ops = .ok st) :
    ∃ larges smalls,
      Seg st.heap.mem st.heap.free_head_large larges 0 ∧
      Seg st.heap.mem st.heap.free_head_small smalls 0 ∧
      (∀ a ∈ larges, st.heap.mem (a + 24) ≠ 0) ∧
      (∀ a ∈ smalls, st.heap.mem (a + 24) = 0) ∧
      (∀ a ∈ larges, a ∉ smalls) ∧
      (∀ b ∈ larges,
        Seg (my_remove_from_free_list st.heap b).mem
          (my_remove_from_free_list st.heap b).free_head_large (larges.erase b) 0 ∧
        Seg (my_remove_from_free_list st.heap b).mem
          (my_remove_from_free_list st.heap b).free_head_small smalls 0) ∧
      (∀ b ∈ smalls,
        Seg (my_remove_from_free_list st.heap b).mem
          (my_remove_from_free_list st.heap b).free_head_large larges 0 ∧
        Seg (my_remove_from_free_list st.heap b).mem
          (my_remove_from_free_list st.heap b).free_head_small (smalls.erase b) 0) := by
  have hinit : Inv env (init_state env h0) [env.dummy_large] [env.dummy_small] :=
    inv_init2 hsrc h0
  obtain ⟨larges, smalls, hinv, _⟩ :=
    inv_run2 hsrc ops (init_state env h0) st _ _ hinit (le_refl _) hrun
  have hwf := hinv.wf
  refine ⟨larges, smalls, hwf.chain, hwf.chain2, ?_, ?_, ?_, ?_, ?_⟩
  · intro a ha
    have := hwf.tag_mine a ha
    unfold is_large at this
    simpa using this
  · intro a ha
    have := hwf.tag_theirs a ha
    unfold is_large at this
    simpa using this
  · intro a ha hb
    have hnd := (List.nodup_append.mp hwf.nodup).1
    exact (List.nodup_append.mp hnd).2.2 ha hb
  · intro b hb
    obtain ⟨hr, _⟩ := remove_spec2 hwf hb
    exact ⟨hr.chain, hr.chain2⟩
  · intro b hb
    obtain ⟨hr, _⟩ := remove_spec2 hwf.swap hb
    exact ⟨hr.chain2, hr.chain⟩

/-- Witness for C13: a run after which the large list holds only its sentinel
and the small list holds a merged block and its sentinel. -/
theorem C13_tag_matches_list_witness :
    FreshSrc env0 (zero_heap.mmap_calls + 4 * 9) ∧
    observe 9 (run env0 9 (init_state env0 zero_heap)
      [malloc 1008, malloc 2000, free 5168, malloc 1040]) =
      some ([(80, 0, 1)], [(6208, 1952, 0), (112, 0, 0)], [(5168, 1040), (4128, 1008)], 1) ∧
    ∃ larges smalls,
      Seg (state_of (run env0 9 (init_state env0 zero_heap)
        [malloc 1008, malloc 2000, free 5168, malloc 1040])).heap.mem
        (state_of (run env0 9 (init_state env0 zero_heap)
        [malloc 1008, malloc 2000, free 5168, malloc 1040])).heap.free_head_large larges 0 ∧
      Seg (state_of (run env0 9 (init_state env0 zero_heap)
        [malloc 1008, malloc 2000, free 5168, malloc 1040])).heap.mem
        (state_of (run env0 9 (init_state env0 zero_heap)
        [malloc 1008, malloc 2000, free 5168, malloc 1040])).heap.free_head_small smalls 0 ∧
      (∀ a ∈ larges, (state_of (run env0 9 (init_state env0 zero_heap)
        [malloc 1008, malloc 2000, free 5168, malloc 1040])).heap.mem (a + 24) ≠ 0) ∧
      (∀ a ∈ smalls, (state_of (run env0 9 (init_state env0 zero_heap)
        [malloc 1008, malloc 2000, free 5168, malloc 1040])).heap.mem (a + 24) = 0) :=
  ⟨freshSrc2_env0 _ (by decide), by decide, by
    obtain ⟨larges, smalls, w1, w2, w3, w4, _⟩ :=
      C13_tag_matches_list env0 zero_heap [malloc 1008, malloc 2000, free 5168, malloc 1040]
        (state_of (run env0 9 (init_state env0 zero_heap)
          [malloc 1008, malloc 2000, free 5168, malloc 1040])) 9
        (freshSrc2_env0 _ (by decide)) (ok_state_of2 9 _ (by decide))
    exact ⟨larges, smalls, w1, w2, w3, w4⟩⟩

/-- C12 (size class after a merge, `malloc_update.c`), evaluated on the code.
After `my_initialize`, `my_malloc(1008)`, `my_malloc(2000)` and `my_free` of
the second block, the small list holds the block 7168 of size 992.  The next
`my_malloc(1040)` splits the block 5136 and hands `my_coalesce` the detached
rest at 6208, of size 928 and tagged small, whose address successor
6208 + 928 + 32 is the free block 7168.  `my_coalesce` absorbs it: the block
6208 now has size 928 + 992 + 32 = 1952 > 1000, but its `large` field is still
0 and it is linked into the small list, not the large one. -/
theorem C12_merge_keeps_tag :
    observe 9 (run env0 9 (init_state env0 zero_heap)
      [malloc 1008, malloc 2000, free 5168]) =
      some ([(5136, 2000, 1), (80, 0, 1)], [(7168, 992, 0), (112, 0, 0)], [(4128, 1008)], 1) ∧
    (split_heap (state_of (run env0 9 (init_state env0 zero_heap)
      [malloc 1008, malloc 2000, free 5168])).heap 5136 1040).mem 6208 = 928 ∧
    (split_heap (state_of (run env0 9 (init_state env0 zero_heap)
      [malloc 1008, malloc 2000, free 5168])).heap 5136 1040).mem (6208 + 24) = 0 ∧
    6208 + 928 + sizeof_my_metadata_t = 7168 ∧
    (heap_or_zero (my_coalesce 9 (split_heap (state_of (run env0 9 (init_state env0 zero_heap)
      [malloc 1008, malloc 2000, free 5168])).heap 5136 1040) 6208)).mem 6208 = 1952 ∧
    (heap_or_zero (my_coalesce 9 (split_heap (state_of (run env0 9 (init_state env0 zero_heap)
      [malloc 1008, malloc 2000, free 5168])).heap 5136 1040) 6208)).mem (6208 + 24) = 0 ∧
    free_blocks (heap_or_zero (my_coalesce 9 (split_heap (state_of (run env0 9
      (init_state env0 zero_heap) [malloc 1008, malloc 2000, free 5168])).heap 5136 1040)
      6208)).mem 9
      (heap_or_zero (my_coalesce 9 (split_heap (state_of (run env0 9
      (init_state env0 zero_heap) [malloc 1008, malloc 2000, free 5168])).heap 5136 1040)
      6208)).free_head_small = [(6208, 1952), (112, 0)] ∧
    free_blocks (heap_or_zero (my_coalesce 9 (split_heap (state_of (run env0 9
      (init_state env0 zero_heap) [malloc 1008, malloc 2000, free 5168])).heap 5136 1040)
      6208)).mem 9
      (heap_or_zero (my_coalesce 9 (split_heap (state_of (run env0 9
      (init_state env0 zero_heap) [malloc 1008, malloc 2000, free 5168])).heap 5136 1040)
      6208)).free_head_large = [(80, 0)] ∧
    1952 > 1000 ∧
    observe 9 (run env0 9 (init_state env0 zero_heap)
      [malloc 1008, malloc 2000, free 5168, malloc 1040]) =
      some ([(80, 0, 1)], [(6208, 1952, 0), (112, 0, 0)], [(5168, 1040), (4128, 1008)], 1) := by
  refine ⟨by decide, by decide, by decide, by decide, by decide, by decide, by decide,
    by decide, by decide, by decide⟩

end MallocUpdate
